import Mathlib

/-!
# CPU scheduling simulator: embedding of `Cpu_scheduler_gtk.c`

The simulation engine of the program (the six strategies, the metrics
calculator, the reset and the controller) is embedded as Lean functions over
an explicit record of the C globals, together with the three button handlers
that add a process, delete a process and start a run.

Modelling conventions.

* The engine is embedded twice.  In the first embedding (`fcfs_scheduling`,
  `simulate_scheduling`, ...) every `int` value is a mathematical integer
  (`Int`) and sums and differences are exact; it describes the program as long
  as no `int` overflows.  The second embedding (`Machine.fcfs_scheduling`,
  `Machine.simulate_scheduling`, ...) repeats the same functions with every
  `+`, `-`, `++` and `--` on an `int` reduced to 32 bits (`int_add`,
  `int_sub`: two's-complement wrap-around, the behaviour of the compiled
  program); comparisons, copies, the sort and the selection loops are shared.
  The two embeddings agree on every run of a table within `int_safe` (for
  round-robin: on every run that stays inside the queue array).  `INT_MAX` is
  the 32-bit constant the selection loops use as their sentinel.
* The global arrays `processes`, `gantt_chart` and the local arrays
  `is_completed`, `in_queue`, `queue` are lists.  `process_count` is the length
  of `processes`, `gantt_count` the length of `gantt_chart`, and `rear` the
  length of `queue`.  The lists are not truncated: `queue` lists every cell
  the run has written, so a state with `rear > MAX_PROCESSES` is one in which
  the program has written outside `int queue[MAX_PROCESSES]`.
  `Machine.round_robin_scheduling` has no result for such a run, and the
  statements about states of the round-robin loop on machine integers are made
  for states with `rear <= MAX_PROCESSES`.
* A `char name[MAX_NAME_LEN]` buffer is a `String` that holds the bytes before
  the terminating NUL, one `Char` per byte (a multi-byte character of an entry
  text is the sequence of its bytes); `strcpy` copies it, `strncpy` with bound
  `MAX_NAME_LEN - 1` keeps its first 19 bytes, and `strcmp(a, b) != 0` is
  `a ≠ b`.
* A `GdkRGBA` colour is the index of its entry in the palette `process_colors`.
* `while` loops take a fuel argument; running out of fuel yields `none`.
* Of the presentation layer the button handlers `on_add_process_clicked`,
  `on_delete_process_clicked` and `on_run_algorithm_clicked` are embedded, with
  each dialog replaced by its outcome (the response and the `atoi` values of
  the entry texts) and the list selection by the index of the selected row.
  Widget updates and redraws are not modelled.
-/

namespace CpuScheduler

/-! ## Data model -/

/-- The sentinel of the selection loops (`INT_MAX` for a 32-bit `int`). -/
def INT_MAX : Int := 2147483647

/-- Capacity of the job table (`#define MAX_PROCESSES 50`). -/
def MAX_PROCESSES : Nat := 50

/-- The C struct `Process`. -/
structure Process where
  name : String
  arrival_time : Int
  burst_time : Int
  priority : Int
  remaining_time : Int
  start_time : Int
  completion_time : Int
  waiting_time : Int
  turnaround_time : Int
  response_time : Int
  process_id : Int
  color : Nat
  deriving DecidableEq, Inhabited

/-- The C struct `GanttBlock`. -/
structure GanttBlock where
  process_name : String
  start_time : Int
  end_time : Int
  color : Nat
  deriving DecidableEq, Inhabited

/-- The C enum `SchedulingAlgorithm`. -/
inductive SchedulingAlgorithm where
  | FCFS
  | SJF
  | SRTF
  | PRIORITY
  | ROUND_ROBIN
  | PREEMPTIVE_PRIORITY
  deriving DecidableEq

/-- The global variables of the engine: `processes` (with `process_count` its
length), `gantt_chart` (with `gantt_count` its length), `time_quantum` and
`current_time`. -/
structure Sim where
  processes : List Process
  gantt_chart : List GanttBlock
  time_quantum : Int
  current_time : Int
  deriving DecidableEq

/-- The value of `process_count`. -/
def Sim.process_count (s : Sim) : Nat := s.processes.length

/-- The value of `gantt_count`. -/
def Sim.gantt_count (s : Sim) : Nat := s.gantt_chart.length

/-! ## Array helpers -/

/-- Read of `processes[i]`. -/
def proc (ps : List Process) (i : Nat) : Process := ps.getD i default

/-- Read of a flag array entry (`is_completed[i]`, `in_queue[i]`). -/
def flag (bs : List Bool) (i : Nat) : Bool := bs.getD i false

/-- In-place update of one array cell: `a[i] = f (a[i])`. -/
def updateAt {α : Type} : List α → Nat → (α → α) → List α
  | [], _, _ => []
  | x :: xs, 0, f => f x :: xs
  | x :: xs, i + 1, f => x :: updateAt xs i f

/-- A generic `while (cond) body` loop with fuel. -/
def while_loop {σ : Type} (cond : σ → Bool) (body : σ → σ) : Nat → σ → Option σ
  | 0, s => if cond s then none else some s
  | fuel + 1, s => if cond s then while_loop cond body fuel (body s) else some s

/-- The block written to `gantt_chart[gantt_count]` for process `p` over
`[s, e)`. -/
def mkBlock (p : Process) (s e : Int) : GanttBlock :=
  { process_name := p.name, start_time := s, end_time := e, color := p.color }

/-! ## `reset_simulation` and `calculate_times` -/

/-- Per-process effect of the loop body of `reset_simulation`. -/
def reset_process (p : Process) : Process :=
  { p with
    remaining_time := p.burst_time
    start_time := -1
    completion_time := 0
    waiting_time := 0
    turnaround_time := 0
    response_time := -1 }

/-- The function `reset_simulation` (the statistics text buffer is
presentation and not part of the state). -/
def reset_simulation (s : Sim) : Sim :=
  { s with
    gantt_chart := []
    current_time := 0
    processes := s.processes.map reset_process }

/-- Per-process effect of the loop body of `calculate_times`. -/
def calculate_process (p : Process) : Process :=
  let p1 := { p with turnaround_time := p.completion_time - p.arrival_time }
  let p2 := { p1 with waiting_time := p1.turnaround_time - p1.burst_time }
  let p3 :=
    if p2.start_time ≠ -1 then
      { p2 with response_time := p2.start_time - p2.arrival_time }
    else
      { p2 with response_time := 0 }
  let p4 := if p3.waiting_time < 0 then { p3 with waiting_time := 0 } else p3
  if p4.response_time < 0 then { p4 with response_time := 0 } else p4

/-- The function `calculate_times`. -/
def calculate_times (s : Sim) : Sim :=
  { s with processes := s.processes.map calculate_process }

/-! ## FCFS -/

/-- Body of the inner loop of the bubble sort in `fcfs_scheduling`:
compare cells `j` and `j + 1` and swap them when the left arrival time is
strictly greater. -/
def fcfs_swap_step (ps : List Process) (j : Nat) : List Process :=
  match ps[j]?, ps[j + 1]? with
  | some a, some b =>
    if a.arrival_time > b.arrival_time then (ps.set j b).set (j + 1) a else ps
  | _, _ => ps

/-- The inner loop `for (j = 0; j < process_count - i - 1; j++)`. -/
def fcfs_inner (n i : Nat) (ps : List Process) : List Process :=
  (List.range (n - i - 1)).foldl fcfs_swap_step ps

/-- The sorting phase of `fcfs_scheduling`:
`for (i = 0; i < process_count - 1; i++)` around the inner loop. -/
def fcfs_sort (ps : List Process) : List Process :=
  (List.range (ps.length - 1)).foldl (fun acc i => fcfs_inner ps.length i acc) ps

/-- Body of the simulation loop of `fcfs_scheduling` at index `i`. -/
def fcfs_step (s : Sim) (i : Nat) : Sim :=
  let p := proc s.processes i
  let ct := if s.current_time < p.arrival_time then p.arrival_time else s.current_time
  let done := ct + p.burst_time
  { s with
    processes := updateAt s.processes i
      (fun q => { q with start_time := ct, completion_time := done })
    gantt_chart := s.gantt_chart ++ [mkBlock p ct done]
    current_time := done }

/-- The function `fcfs_scheduling`. -/
def fcfs_scheduling (s : Sim) : Sim :=
  let s1 := { s with processes := fcfs_sort s.processes }
  let s2 := { s1 with current_time := 0 }
  (List.range s2.processes.length).foldl fcfs_step s2

/-! ## Selection loop shared by SJF, SRTF, Priority and Preemptive Priority

The four strategies run the same `for` loop, differing only in the field
compared (`burst_time`, `remaining_time` or `priority`).  The pair carried is
(`shortest` or `highest_priority`, `min_burst` or `min_remaining` or
`min_priority`); the index `-1` is `none`. -/

/-- One iteration of the selection `for` loop at index `i`. -/
def select_step (key : Process → Int) (ps : List Process) (is_completed : List Bool)
    (ct : Int) (acc : Option Nat × Int) (i : Nat) : Option Nat × Int :=
  if flag is_completed i = false ∧ (proc ps i).arrival_time ≤ ct then
    if key (proc ps i) < acc.2 then (some i, key (proc ps i)) else acc
  else acc

/-- The selection `for` loop, started with index `-1` and minimum `INT_MAX`. -/
def select_min (key : Process → Int) (ps : List Process) (is_completed : List Bool)
    (ct : Int) : Option Nat :=
  ((List.range ps.length).foldl (select_step key ps is_completed ct) (none, INT_MAX)).1

/-- The globals together with the locals `completed` and `is_completed` of
`sjf_scheduling`, `srtf_scheduling`, `priority_scheduling` and
`preemptive_priority_scheduling`. -/
structure SelState where
  sim : Sim
  completed : Nat
  is_completed : List Bool
  deriving DecidableEq

/-- Loop condition `completed != process_count`. -/
def sel_cond (st : SelState) : Bool := st.completed != st.sim.processes.length

/-- Entry state of the `while` loop: `completed = 0`, `current_time = 0`,
`is_completed` all zero. -/
def sel_init (s : Sim) : SelState :=
  { sim := { s with current_time := 0 }
    completed := 0
    is_completed := List.replicate s.processes.length false }

/-! ## SJF and Priority (non-preemptive) -/

/-- Body of the `while` loop of `sjf_scheduling` (`key = burst_time`) and of
`priority_scheduling` (`key = priority`). -/
def batch_body (key : Process → Int) (st : SelState) : SelState :=
  match select_min key st.sim.processes st.is_completed st.sim.current_time with
  | none => { st with sim := { st.sim with current_time := st.sim.current_time + 1 } }
  | some i =>
    let p := proc st.sim.processes i
    let ct := st.sim.current_time
    let done := ct + p.burst_time
    { sim :=
        { st.sim with
          processes := updateAt st.sim.processes i
            (fun q => { q with start_time := ct, completion_time := done })
          gantt_chart := st.sim.gantt_chart ++ [mkBlock p ct done]
          current_time := done }
      completed := st.completed + 1
      is_completed := updateAt st.is_completed i (fun _ => true) }

/-- The function `sjf_scheduling`. -/
def sjf_scheduling (fuel : Nat) (s : Sim) : Option Sim :=
  (while_loop sel_cond (batch_body (fun p => p.burst_time)) fuel (sel_init s)).map
    (fun st => st.sim)

/-- The function `priority_scheduling`. -/
def priority_scheduling (fuel : Nat) (s : Sim) : Option Sim :=
  (while_loop sel_cond (batch_body (fun p => p.priority)) fuel (sel_init s)).map
    (fun st => st.sim)

/-! ## SRTF and Preemptive Priority -/

/-- The first loop of the tick-driven strategies and of round-robin:
`remaining_time = burst_time; start_time = -1` for every process. -/
def reset_remaining (p : Process) : Process :=
  { p with remaining_time := p.burst_time, start_time := -1 }

/-- The `Add/update Gantt chart entry` step: a new block when the chart is
empty or the last block has another name (`strcmp`), otherwise the last
block's `end_time` is overwritten. -/
def gantt_tick (g : List GanttBlock) (p : Process) (ct : Int) : List GanttBlock :=
  match g.getLast? with
  | none => g ++ [mkBlock p ct (ct + 1)]
  | some last =>
    if last.process_name ≠ p.name then g ++ [mkBlock p ct (ct + 1)]
    else g.dropLast ++ [{ last with end_time := ct + 1 }]

/-- The statement `if (p->start_time == -1) p->start_time = current_time;`. -/
def set_start (ct : Int) (q : Process) : Process :=
  if q.start_time = -1 then { q with start_time := ct } else q

/-- The statement `p->remaining_time -= e;` (`p->remaining_time--` for `e = 1`). -/
def run_for (e : Int) (q : Process) : Process :=
  { q with remaining_time := q.remaining_time - e }

/-- The statement `p->completion_time = current_time;`. -/
def set_completion (ct : Int) (q : Process) : Process :=
  { q with completion_time := ct }

/-- Body of the `while` loop of `srtf_scheduling` (`key = remaining_time`) and
of `preemptive_priority_scheduling` (`key = priority`). -/
def tick_body (key : Process → Int) (st : SelState) : SelState :=
  match select_min key st.sim.processes st.is_completed st.sim.current_time with
  | none => { st with sim := { st.sim with current_time := st.sim.current_time + 1 } }
  | some i =>
    let ct := st.sim.current_time
    let ps1 := updateAt st.sim.processes i (set_start ct)
    let ps2 := updateAt ps1 i (run_for 1)
    let g := gantt_tick st.sim.gantt_chart (proc ps2 i) ct
    let ct1 := ct + 1
    if (proc ps2 i).remaining_time = 0 then
      { sim :=
          { st.sim with
            processes := updateAt ps2 i (set_completion ct1)
            gantt_chart := g
            current_time := ct1 }
        completed := st.completed + 1
        is_completed := updateAt st.is_completed i (fun _ => true) }
    else
      { st with
        sim := { st.sim with processes := ps2, gantt_chart := g, current_time := ct1 } }

/-- Entry state of the `while` loop of the tick-driven strategies. -/
def tick_init (s : Sim) : SelState :=
  sel_init { s with processes := s.processes.map reset_remaining }

/-- The function `srtf_scheduling`. -/
def srtf_scheduling (fuel : Nat) (s : Sim) : Option Sim :=
  (while_loop sel_cond (tick_body (fun p => p.remaining_time)) fuel (tick_init s)).map
    (fun st => st.sim)

/-- The function `preemptive_priority_scheduling`. -/
def preemptive_priority_scheduling (fuel : Nat) (s : Sim) : Option Sim :=
  (while_loop sel_cond (tick_body (fun p => p.priority)) fuel (tick_init s)).map
    (fun st => st.sim)

/-! ## Round-robin -/

/-- The globals together with the locals of `round_robin_scheduling`.
`queue` holds every cell written so far, so `rear = queue.length`; the array
of the source has `MAX_PROCESSES` cells, so the cells of index
`MAX_PROCESSES` and above are writes outside it. -/
structure RRState where
  sim : Sim
  completed : Nat
  queue : List Nat
  front : Nat
  in_queue : List Bool
  deriving DecidableEq

/-- The value of `rear`. -/
def RRState.rear (st : RRState) : Nat := st.queue.length

/-- The test of an enqueue loop at index `i`; `init` selects the first loop
(`arrival_time == 0`), otherwise the test is
`arrival_time <= current_time && !in_queue[i] && remaining_time > 0`. -/
def rr_test (init : Bool) (ps : List Process) (ct : Int) (in_queue : List Bool) (i : Nat) :
    Bool :=
  if init then decide ((proc ps i).arrival_time = 0)
  else decide ((proc ps i).arrival_time ≤ ct) && !(flag in_queue i) &&
    decide ((proc ps i).remaining_time > 0)

/-- One iteration of an enqueue loop at index `i`:
`queue[rear++] = i; in_queue[i] = 1;` when the test holds. -/
def rr_enqueue_step (init : Bool) (ps : List Process) (ct : Int)
    (acc : List Nat × List Bool) (i : Nat) : List Nat × List Bool :=
  if rr_test init ps ct acc.2 i then (acc.1 ++ [i], updateAt acc.2 i (fun _ => true)) else acc

/-- An enqueue `for` loop over all process indices. -/
def rr_enqueue (init : Bool) (ps : List Process) (ct : Int)
    (acc : List Nat × List Bool) : List Nat × List Bool :=
  (List.range ps.length).foldl (rr_enqueue_step init ps ct) acc

/-- One iteration of the `Find next arriving process` loop. -/
def rr_next_arrival_step (ps : List Process) (ct : Int) (next_arrival : Int) (i : Nat) : Int :=
  let p := proc ps i
  if p.arrival_time > ct ∧ p.arrival_time < next_arrival ∧ p.remaining_time > 0 then
    p.arrival_time
  else next_arrival

/-- The `Find next arriving process` loop, started at `INT_MAX`. -/
def rr_next_arrival (ps : List Process) (ct : Int) : Int :=
  (List.range ps.length).foldl (rr_next_arrival_step ps ct) INT_MAX

/-- Loop condition `completed != process_count`. -/
def rr_cond (st : RRState) : Bool := st.completed != st.sim.processes.length

/-- Body of the `while` loop of `round_robin_scheduling`. -/
def rr_body (st : RRState) : RRState :=
  if st.front = st.rear then
    let next_arrival := rr_next_arrival st.sim.processes st.sim.current_time
    if next_arrival ≠ INT_MAX then
      let qa := rr_enqueue false st.sim.processes next_arrival (st.queue, st.in_queue)
      { st with
        sim := { st.sim with current_time := next_arrival }
        queue := qa.1
        in_queue := qa.2 }
    else st
  else
    let current_process := st.queue.getD st.front 0
    let front := st.front + 1
    let ct := st.sim.current_time
    let ps1 := updateAt st.sim.processes current_process (set_start ct)
    let p := proc ps1 current_process
    let execution_time :=
      if p.remaining_time < st.sim.time_quantum then p.remaining_time else st.sim.time_quantum
    let g := st.sim.gantt_chart ++ [mkBlock p ct (ct + execution_time)]
    let ct1 := ct + execution_time
    let ps2 := updateAt ps1 current_process (run_for execution_time)
    let qa := rr_enqueue false ps2 ct1 (st.queue, st.in_queue)
    if (proc ps2 current_process).remaining_time = 0 then
      { sim :=
          { st.sim with
            processes := updateAt ps2 current_process (set_completion ct1)
            gantt_chart := g
            current_time := ct1 }
        completed := st.completed + 1
        queue := qa.1
        front := front
        in_queue := updateAt qa.2 current_process (fun _ => false) }
    else
      { sim := { st.sim with processes := ps2, gantt_chart := g, current_time := ct1 }
        completed := st.completed
        queue := qa.1 ++ [current_process]
        front := front
        in_queue := qa.2 }

/-- Entry state of the `while` loop of `round_robin_scheduling`. -/
def rr_init (s : Sim) : RRState :=
  let ps := s.processes.map reset_remaining
  let qa := rr_enqueue true ps 0 ([], List.replicate ps.length false)
  { sim := { s with processes := ps, current_time := 0 }
    completed := 0
    queue := qa.1
    front := 0
    in_queue := qa.2 }

/-- The function `round_robin_scheduling`. -/
def round_robin_scheduling (fuel : Nat) (s : Sim) : Option Sim :=
  (while_loop rr_cond rr_body fuel (rr_init s)).map (fun st => st.sim)

/-! ## Controller -/

/-- The function `simulate_scheduling`. -/
def simulate_scheduling (fuel : Nat) (algo : SchedulingAlgorithm) (s : Sim) : Option Sim :=
  let s1 := reset_simulation s
  let s2 := { s1 with current_time := 0, gantt_chart := [] }
  let r :=
    match algo with
    | .FCFS => some (fcfs_scheduling s2)
    | .SJF => sjf_scheduling fuel s2
    | .SRTF => srtf_scheduling fuel s2
    | .PRIORITY => priority_scheduling fuel s2
    | .ROUND_ROBIN => round_robin_scheduling fuel s2
    | .PREEMPTIVE_PRIORITY => preemptive_priority_scheduling fuel s2
  r.map calculate_times

/-- A process as `on_add_process_clicked` and `load_sample_processes` leave it,
given its static inputs and its position. -/
def mkProcess (name : String) (arrival burst priority : Int) (idx : Nat) : Process :=
  { name := name, arrival_time := arrival, burst_time := burst, priority := priority
    remaining_time := burst, start_time := -1, completion_time := 0, waiting_time := 0
    turnaround_time := 0, response_time := -1, process_id := idx + 1, color := idx % 10 }

/-- The table written by `load_sample_processes`. -/
def sample_processes : List Process :=
  [ mkProcess "P1" 0 6 3 0, mkProcess "P2" 1 4 1 1, mkProcess "P3" 2 3 4 2,
    mkProcess "P4" 3 2 2 3, mkProcess "P5" 4 5 5 4 ]

/-! ## Presentation-layer entry points

The dialogs are modelled by their outcome: the response of the dialog and the
values `atoi` returns for the entry texts. -/

/-- Capacity of a name buffer (`#define MAX_NAME_LEN 20`). -/
def MAX_NAME_LEN : Nat := 20

/-- Outcome of the `Add Process` dialog: whether `Add` was pressed, the name
text (its bytes, one `Char` per byte), and the `atoi` values of the arrival,
burst and priority texts. -/
structure AddInput where
  ok : Bool
  name : String
  arrival : Int
  burst : Int
  priority : Int
  deriving DecidableEq

/-- The statements `if (p->priority < 1) p->priority = 1;
if (p->priority > 10) p->priority = 10;`. -/
def clamp_priority (p : Int) : Int :=
  let p1 := if p < 1 then 1 else p
  if p1 > 10 then 10 else p1

/-- The cell `processes[process_count]` as `on_add_process_clicked` fills it;
`strncpy` keeps the first `MAX_NAME_LEN - 1` bytes of the name (byte 19 of
every name buffer is the NUL of the zero-initialised global, which no
statement overwrites). -/
def added_process (count : Nat) (inp : AddInput) : Process :=
  { name := String.mk (inp.name.data.take (MAX_NAME_LEN - 1))
    arrival_time := inp.arrival
    burst_time := inp.burst
    priority := clamp_priority inp.priority
    remaining_time := inp.burst
    process_id := count + 1
    color := count % 10
    start_time := -1
    completion_time := 0
    waiting_time := 0
    turnaround_time := 0
    response_time := -1 }

/-- The function `on_add_process_clicked`. -/
def on_add_process_clicked (s : Sim) (inp : AddInput) : Sim :=
  if s.processes.length ≥ MAX_PROCESSES then s
  else if inp.ok then
    { s with processes := s.processes ++ [added_process s.processes.length inp] }
  else s

/-- The statement `processes[i] = processes[i + 1];` of the shift loop of
`on_delete_process_clicked`. -/
def delete_shift_step (ps : List Process) (i : Nat) : List Process :=
  ps.set i (proc ps (i + 1))

/-- The function `on_delete_process_clicked`; `selected` is the index of the
selected row of the process list (`none` when no row is selected).  The loop
`for (i = index; i < process_count - 1; i++)` shifts the cells down and
`process_count--` drops the last cell from the table. -/
def on_delete_process_clicked (s : Sim) (selected : Option Nat) : Sim :=
  if s.processes.length = 0 then s
  else
    match selected with
    | some index =>
      { s with
        processes :=
          ((List.range' index (s.processes.length - 1 - index)).foldl delete_shift_step
            s.processes).take (s.processes.length - 1) }
    | none => s

/-- The function `on_run_algorithm_clicked`; `quantum` is the outcome of the
`Time Quantum` dialog (`none` for `Cancel`, otherwise the `atoi` value), which
is shown for round-robin only. -/
def on_run_algorithm_clicked (fuel : Nat) (algo : SchedulingAlgorithm) (quantum : Option Int)
    (s : Sim) : Option Sim :=
  if s.processes.length = 0 then some s
  else if algo = .ROUND_ROBIN then
    match quantum with
    | some q =>
      simulate_scheduling fuel algo { s with time_quantum := if q ≤ 0 then 2 else q }
    | none => some s
  else simulate_scheduling fuel algo s

/-! ## Structural forms of the FCFS loops -/

/-- One left-to-right pass of `k` adjacent comparisons, in structural form. -/
def bubble : Nat → List Process → List Process
  | k + 1, x :: y :: t =>
    if x.arrival_time > y.arrival_time then y :: bubble k (x :: t) else x :: bubble k (y :: t)
  | _, l => l

/-- The simulation loop of `fcfs_scheduling` in structural form: the table
cells from the current index on, with the clock `ct`. -/
def fcfs_run (ct : Int) : List Process → List Process
  | [] => []
  | p :: t =>
    let st := if ct < p.arrival_time then p.arrival_time else ct
    { p with start_time := st, completion_time := st + p.burst_time } ::
      fcfs_run (st + p.burst_time) t

/-- The clock after the simulation loop of `fcfs_scheduling`. -/
def fcfs_end (ct : Int) : List Process → Int
  | [] => ct
  | p :: t => fcfs_end ((if ct < p.arrival_time then p.arrival_time else ct) + p.burst_time) t

/-- The Gantt block of a scheduled process. -/
def blockOf (p : Process) : GanttBlock := mkBlock p p.start_time p.completion_time

/-- The process cell after its FCFS dispatch at clock `ct`. -/
def fcfs_cell (ct : Int) (p : Process) : Process :=
  { p with
    start_time := if ct < p.arrival_time then p.arrival_time else ct
    completion_time := (if ct < p.arrival_time then p.arrival_time else ct) + p.burst_time }

/-! ## Loop states and their invariants -/

/-- Eligibility test of the selection loops at index `j`. -/
def eligible (ps : List Process) (is_completed : List Bool) (ct : Int) (j : Nat) : Prop :=
  flag is_completed j = false ∧ (proc ps j).arrival_time ≤ ct

/-- State of the `while` loop of `priority_scheduling` after `k` iterations. -/
def priority_state (s : Sim) (k : Nat) : SelState :=
  (batch_body (fun p => p.priority))^[k] (sel_init s)

/-- Two process cells agree on every field no strategy writes. -/
def same_static (p q : Process) : Prop :=
  p.name = q.name ∧ p.arrival_time = q.arrival_time ∧ p.burst_time = q.burst_time ∧
    p.priority = q.priority ∧ p.process_id = q.process_id ∧ p.color = q.color

/-- The process cell after one executed tick at clock `ct`. -/
def tick_cell (ct : Int) (q : Process) : Process :=
  if (run_for 1 (set_start ct q)).remaining_time = 0 then
    set_completion (ct + 1) (run_for 1 (set_start ct q))
  else run_for 1 (set_start ct q)

/-- State of the `while` loop of `srtf_scheduling` after `k` iterations. -/
def srtf_state (s : Sim) (k : Nat) : SelState :=
  (tick_body (fun p => p.remaining_time))^[k] (tick_init s)

/-- State of the `while` loop of `preemptive_priority_scheduling` after `k`
iterations. -/
def pp_state (s : Sim) (k : Nat) : SelState :=
  (tick_body (fun p => p.priority))^[k] (tick_init s)

/-- Loop invariant of the tick-driven strategies relating `is_completed` to
`remaining_time`. -/
def tick_inv (st : SelState) : Prop :=
  st.is_completed.length = st.sim.processes.length ∧
  ∀ j, j < st.sim.processes.length →
    0 ≤ (proc st.sim.processes j).remaining_time ∧
    (flag st.is_completed j = true ↔ (proc st.sim.processes j).remaining_time = 0)

/-- The slice length `execution_time` of a round-robin dispatch of cell `x`. -/
def rr_exec (q : Int) (x : Process) : Int :=
  if x.remaining_time < q then x.remaining_time else q

/-- The process cell after the slice, before `completion_time` is written. -/
def rr_slice (ct q : Int) (x : Process) : Process :=
  run_for (rr_exec q x) (set_start ct x)

/-- The process cell after one round-robin dispatch at clock `ct`. -/
def rr_cell (ct q : Int) (x : Process) : Process :=
  if (rr_slice ct q x).remaining_time = 0 then
    set_completion (ct + rr_exec q x) (rr_slice ct q x)
  else rr_slice ct q x

/-- The live part of the ready queue, positions `front .. rear - 1`. -/
def RRState.live (st : RRState) : List Nat := st.queue.drop st.front

/-! ## Sweep description of round-robin -/

/-- State of the sweep description of round-robin: the job table, the timeline
produced so far and the clock. -/
structure SweepState where
  table : List Process
  timeline : List GanttBlock
  clock : Int
  deriving DecidableEq

/-- Sweep description, one job: a still-unfinished job receives one block of
`min(remaining_time, q)` ticks; its `completion_time` is the end of the block
it received last. -/
def rr_sweep_visit (q : Int) (w : SweepState) (i : Nat) : SweepState :=
  if 0 < (proc w.table i).remaining_time then
    { table := updateAt w.table i (fun x =>
        { x with
          remaining_time := x.remaining_time - min (proc w.table i).remaining_time q
          completion_time := w.clock + min (proc w.table i).remaining_time q })
      timeline := w.timeline ++ [mkBlock (proc w.table i) w.clock
        (w.clock + min (proc w.table i).remaining_time q)]
      clock := w.clock + min (proc w.table i).remaining_time q }
  else w

/-- Sweep description: one sweep over the jobs in table-index order. -/
def rr_sweep (q : Int) (w : SweepState) : SweepState :=
  (List.range w.table.length).foldl (rr_sweep_visit q) w

/-- Sweep description: `sweeps` sweeps in a row, from the table with
`remaining_time = burst_time`, an empty timeline and clock 0. -/
def rr_sweeps (q : Int) (sweeps : Nat) (ps : List Process) : SweepState :=
  (rr_sweep q)^[sweeps]
    { table := ps.map (fun p => { p with remaining_time := p.burst_time })
      timeline := []
      clock := 0 }

/-- A job index is unfinished in table `ps`. -/
def rr_unf (ps : List Process) (j : Nat) : Bool := decide (0 < (proc ps j).remaining_time)

/-- Invariant of the round-robin loop on a table whose jobs all arrive at 0. -/
def rr_zero_inv (st : RRState) : Prop :=
  st.in_queue.length = st.sim.processes.length ∧ st.front ≤ st.queue.length ∧
  st.completed + st.live.length = st.sim.processes.length ∧ 0 < st.sim.time_quantum ∧
  ∀ j, j < st.sim.processes.length →
    0 ≤ (proc st.sim.processes j).remaining_time ∧
    (0 < (proc st.sim.processes j).remaining_time → flag st.in_queue j = true)

/-- The live queue when the sweep stands before index `k`. -/
def rr_pos (st : RRState) (k : Nat) : Prop :=
  st.live =
    (List.range' k (st.sim.processes.length - k)).filter (rr_unf st.sim.processes) ++
      (List.range k).filter (rr_unf st.sim.processes)

/-- The loop state `st` and the sweep state `w` agree. -/
def rr_rel (pre : List GanttBlock) (st : RRState) (w : SweepState) : Prop :=
  w.table.length = st.sim.processes.length ∧ st.sim.gantt_chart = pre ++ w.timeline ∧
  st.sim.current_time = w.clock ∧
  ∀ j, j < st.sim.processes.length →
    (proc st.sim.processes j).name = (proc w.table j).name ∧
    (proc st.sim.processes j).color = (proc w.table j).color ∧
    (proc st.sim.processes j).remaining_time = (proc w.table j).remaining_time ∧
    ((proc st.sim.processes j).remaining_time = 0 →
      (proc st.sim.processes j).completion_time = (proc w.table j).completion_time)

/-! ## Timeline and run invariants -/

/-- The timeline `g` is well formed up to clock `ct`: blocks do not overlap
(every block starts at or after the end of every earlier one), every block has
positive length and ends by `ct`. -/
def timeline_ok (g : List GanttBlock) (ct : Int) : Prop :=
  g.Pairwise (fun a b => a.end_time ≤ b.start_time) ∧
  ∀ b ∈ g, b.start_time < b.end_time ∧ b.end_time ≤ ct

/-- The `end_time` of the last block (0 for an empty timeline). -/
def gantt_end (g : List GanttBlock) : Int :=
  match g.getLast? with
  | some b => b.end_time
  | none => 0

/-- Loop invariant of `sjf_scheduling` and `priority_scheduling`. -/
def batch_inv (st : SelState) : Prop :=
  st.is_completed.length = st.sim.processes.length ∧
  st.completed = st.is_completed.count true ∧
  0 ≤ st.sim.current_time ∧
  timeline_ok st.sim.gantt_chart st.sim.current_time ∧
  (∀ j, j < st.sim.processes.length → 0 < (proc st.sim.processes j).burst_time) ∧
  (∀ j, j < st.sim.processes.length → flag st.is_completed j = true →
    (proc st.sim.processes j).arrival_time + (proc st.sim.processes j).burst_time ≤
      (proc st.sim.processes j).completion_time ∧
    (proc st.sim.processes j).completion_time ≤ gantt_end st.sim.gantt_chart) ∧
  (st.completed = st.sim.processes.length → st.sim.processes.length = 0 ∨
    (st.sim.gantt_chart ≠ [] ∧ ∃ j, j < st.sim.processes.length ∧
      (proc st.sim.processes j).completion_time = gantt_end st.sim.gantt_chart))

/-- Termination invariant of the non-preemptive loop: the loop invariant,
every arrival time bounded by `M` and every key below the sentinel. -/
def batch_term_inv (key : Process → Int) (M : Int) (st : SelState) : Prop :=
  batch_inv st ∧ ∀ j, j < st.sim.processes.length →
    (proc st.sim.processes j).arrival_time ≤ M ∧ key (proc st.sim.processes j) < INT_MAX

/-- Termination measure of the selection-driven loops with `left` units of
work outstanding. -/
def sel_measure (M : Int) (left : Nat) (ct : Int) : Nat := left + (M - ct).toNat

/-- Loop invariant of `srtf_scheduling` and `preemptive_priority_scheduling`. -/
def tick_run_inv (st : SelState) : Prop :=
  tick_inv st ∧
  st.completed = st.is_completed.count true ∧
  0 ≤ st.sim.current_time ∧
  timeline_ok st.sim.gantt_chart st.sim.current_time ∧
  (∀ j, j < st.sim.processes.length →
    (proc st.sim.processes j).remaining_time ≤ (proc st.sim.processes j).burst_time ∧
    ((proc st.sim.processes j).remaining_time < (proc st.sim.processes j).burst_time →
      (proc st.sim.processes j).arrival_time +
        ((proc st.sim.processes j).burst_time - (proc st.sim.processes j).remaining_time) ≤
          st.sim.current_time)) ∧
  (∀ j, j < st.sim.processes.length → flag st.is_completed j = true →
    (proc st.sim.processes j).arrival_time + (proc st.sim.processes j).burst_time ≤
      (proc st.sim.processes j).completion_time ∧
    (proc st.sim.processes j).completion_time ≤ gantt_end st.sim.gantt_chart) ∧
  (st.completed = st.sim.processes.length → st.sim.processes.length = 0 ∨
    (st.sim.gantt_chart ≠ [] ∧ ∃ j, j < st.sim.processes.length ∧
      (proc st.sim.processes j).completion_time = gantt_end st.sim.gantt_chart))

/-- Total outstanding work of a table. -/
def total_remaining (ps : List Process) : Nat :=
  (ps.map (fun p => p.remaining_time.toNat)).sum

/-- Termination invariant of the tick-driven loop. -/
def tick_term_inv (M : Int) (st : SelState) : Prop :=
  tick_run_inv st ∧ ∀ j, j < st.sim.processes.length →
    (proc st.sim.processes j).arrival_time ≤ M ∧
    (proc st.sim.processes j).burst_time < INT_MAX ∧
    (proc st.sim.processes j).priority < INT_MAX

/-- Loop invariant of `round_robin_scheduling`. -/
def rr_inv (st : RRState) : Prop :=
  (st.in_queue.length = st.sim.processes.length ∧ st.front ≤ st.queue.length ∧
    0 < st.sim.time_quantum) ∧
  (st.live.Nodup ∧
    (∀ i ∈ st.live, i < st.sim.processes.length ∧
      0 < (proc st.sim.processes i).remaining_time ∧
      (proc st.sim.processes i).arrival_time ≤ st.sim.current_time) ∧
    (∀ j, j < st.sim.processes.length → (flag st.in_queue j = true ↔ j ∈ st.live)) ∧
    (∀ j, j < st.sim.processes.length → 0 < (proc st.sim.processes j).remaining_time →
      (proc st.sim.processes j).arrival_time ≤ st.sim.current_time → j ∈ st.live)) ∧
  (∀ j, j < st.sim.processes.length →
    0 ≤ (proc st.sim.processes j).remaining_time ∧
    (proc st.sim.processes j).remaining_time ≤ (proc st.sim.processes j).burst_time ∧
    0 < (proc st.sim.processes j).burst_time ∧
    0 ≤ (proc st.sim.processes j).arrival_time ∧
    ((proc st.sim.processes j).remaining_time < (proc st.sim.processes j).burst_time →
      (proc st.sim.processes j).arrival_time +
        ((proc st.sim.processes j).burst_time - (proc st.sim.processes j).remaining_time) ≤
          st.sim.current_time)) ∧
  st.completed = st.sim.processes.countP (fun p => decide (p.remaining_time = 0)) ∧
  (0 ≤ st.sim.current_time ∧ timeline_ok st.sim.gantt_chart st.sim.current_time) ∧
  (∀ j, j < st.sim.processes.length → (proc st.sim.processes j).remaining_time = 0 →
    (proc st.sim.processes j).arrival_time + (proc st.sim.processes j).burst_time ≤
      (proc st.sim.processes j).completion_time ∧
    (proc st.sim.processes j).completion_time ≤ gantt_end st.sim.gantt_chart) ∧
  (st.completed = st.sim.processes.length → st.sim.processes.length = 0 ∨
    (st.sim.gantt_chart ≠ [] ∧ ∃ j, j < st.sim.processes.length ∧
      (proc st.sim.processes j).completion_time = gantt_end st.sim.gantt_chart))

/-- Termination invariant of the round-robin loop. -/
def rr_term_inv (st : RRState) : Prop :=
  rr_inv st ∧ ∀ j, j < st.sim.processes.length →
    (proc st.sim.processes j).arrival_time < INT_MAX

/-- Termination measure of the round-robin loop. -/
def rr_measure (st : RRState) : Nat :=
  2 * total_remaining st.sim.processes + (if st.live = [] then 1 else 0)

/-- What a finished strategy run leaves behind: every job completed no
earlier than `arrival_time + burst_time`, `remaining_time` either untouched
(`keeps`) or zero, a well-formed timeline, and the last block ending at the
greatest completion time. -/
def run_facts (keeps : Bool) (r : Sim) : Prop :=
  (∀ p ∈ r.processes, 0 ≤ p.arrival_time ∧ 0 < p.burst_time ∧
    p.arrival_time + p.burst_time ≤ p.completion_time ∧
    p.remaining_time = (if keeps then p.burst_time else 0)) ∧
  (∃ ct, timeline_ok r.gantt_chart ct) ∧
  (r.processes ≠ [] → ∃ last, r.gantt_chart.getLast? = some last ∧
    (∀ p ∈ r.processes, p.completion_time ≤ last.end_time) ∧
    ∃ p ∈ r.processes, p.completion_time = last.end_time)

/-- The precondition of a strategy as `simulate_scheduling` calls it: an empty
timeline and a table of reset jobs with `arrival_time >= 0` and
`burst_time > 0`. -/
def run_ready (s : Sim) : Prop :=
  s.gantt_chart = [] ∧
  ∀ p ∈ s.processes, 0 ≤ p.arrival_time ∧ 0 < p.burst_time ∧ p.remaining_time = p.burst_time

/-- Every field value of the table lies strictly below the sentinel
`INT_MAX` that the selection and next-arrival loops start from. -/
def below_sentinel (s : Sim) : Prop :=
  ∀ p ∈ s.processes,
    p.arrival_time < INT_MAX ∧ p.burst_time < INT_MAX ∧ p.priority < INT_MAX

/-- The globals as a strategy receives them from `simulate_scheduling`. -/
def strategy_input (s : Sim) : Sim :=
  { reset_simulation s with current_time := 0, gantt_chart := [] }

/-! ## Ready queue of round-robin -/

/-- State of the `while` loop of `round_robin_scheduling` after `k`
iterations. -/
def rr_state (s : Sim) (k : Nat) : RRState := rr_body^[k] (rr_init s)

/-- The indices the enqueue loop `Add newly arrived processes to queue` adds
at clock `ct`, in the order it adds them. -/
def rr_newly (st : RRState) (ct : Int) : List Nat :=
  (List.range st.sim.processes.length).filter
    (fun j => rr_test false st.sim.processes ct st.in_queue j)

/-- Queue invariant of `round_robin_scheduling`: the live part of the queue
has no duplicate, holds unfinished jobs only, and `in_queue` marks exactly its
members. -/
def rr_queue_inv (st : RRState) : Prop :=
  (st.in_queue.length = st.sim.processes.length ∧ st.front ≤ st.queue.length ∧
    0 < st.sim.time_quantum) ∧
  st.live.Nodup ∧
  (∀ i ∈ st.live, i < st.sim.processes.length ∧
    0 < (proc st.sim.processes i).remaining_time) ∧
  (∀ j, j < st.sim.processes.length → (flag st.in_queue j = true ↔ j ∈ st.live))

/-- Job `j` stands before job `p` in the queue `l`. -/
def rr_ahead (j p : Nat) (l : List Nat) : Prop :=
  ∃ A B C : List Nat, l = A ++ j :: (B ++ p :: C)

/-! ## Timeline blocks of the tick-driven strategies -/

/-- The names of the table are pairwise distinct. -/
def names_distinct (ps : List Process) : Prop :=
  ∀ i, i < ps.length → ∀ j, j < ps.length → (proc ps i).name = (proc ps j).name → i = j

/-- State of the `while` loop of a tick-driven strategy after `k`
iterations. -/
def tick_state (key : Process → Int) (s : Sim) (k : Nat) : SelState :=
  (tick_body key)^[k] (tick_init s)

/-- Iteration `u` of the loop selected and executed a process called `name`. -/
def tick_ran (key : Process → Int) (s : Sim) (u : Nat) (name : String) : Prop :=
  ∃ i, select_min key (tick_state key s u).sim.processes (tick_state key s u).is_completed
      (tick_state key s u).sim.current_time = some i ∧
    (proc (tick_state key s u).sim.processes i).name = name

/-- The timeline step from `st` to `nxt` for the executed process `i`: a last
block with the name of `i` ends at the clock and is extended by one unit;
without such a block the unit block of `i` is added at the end. -/
def tick_block_rule (st nxt : SelState) (i : Nat) : Prop :=
  (∀ last, st.sim.gantt_chart.getLast? = some last →
    last.process_name = (proc st.sim.processes i).name →
      last.end_time = st.sim.current_time ∧
      nxt.sim.gantt_chart = st.sim.gantt_chart.dropLast ++
        [{ last with end_time := st.sim.current_time + 1 }]) ∧
  ((∀ last, st.sim.gantt_chart.getLast? = some last →
      last.process_name ≠ (proc st.sim.processes i).name) →
    nxt.sim.gantt_chart = st.sim.gantt_chart ++
      [mkBlock (proc st.sim.processes i) st.sim.current_time (st.sim.current_time + 1)])

/-- Invariant on the last timeline block of a tick-driven strategy: every job
with the block's name arrived before the block's end, and the block ends at
the clock unless every tick since its end was idle. -/
def tick_last_inv (key : Process → Int) (st : SelState) : Prop :=
  ∀ last, st.sim.gantt_chart.getLast? = some last →
    (∀ j, j < st.sim.processes.length → (proc st.sim.processes j).name = last.process_name →
      (proc st.sim.processes j).arrival_time < last.end_time) ∧
    (last.end_time = st.sim.current_time ∨
      (last.end_time < st.sim.current_time ∧
        ∀ j, j < st.sim.processes.length →
          eligible st.sim.processes st.is_completed last.end_time j →
            INT_MAX ≤ key (proc st.sim.processes j)))

/-- Block invariant of `round_robin_scheduling`: every timeline block lasts
between 1 and `time_quantum` ticks, and a block shorter than the quantum ends
at the completion time of a finished job of its name. -/
def rr_blocks_ok (st : RRState) : Prop :=
  ∀ b ∈ st.sim.gantt_chart,
    1 ≤ b.end_time - b.start_time ∧ b.end_time - b.start_time ≤ st.sim.time_quantum ∧
    (b.end_time - b.start_time < st.sim.time_quantum →
      ∃ j, j < st.sim.processes.length ∧ (proc st.sim.processes j).name = b.process_name ∧
        (proc st.sim.processes j).remaining_time = 0 ∧
        (proc st.sim.processes j).completion_time = b.end_time)

/-- Start-time invariant of a process cell in the tick-driven strategies and
round-robin at clock `ct`: an untouched job has `start_time = -1`; a job that
has run started no earlier than it arrived and has received its work since;
a finished job completed no earlier than `start_time + burst_time`. -/
def start_ok (ct : Int) (p : Process) : Prop :=
  0 ≤ p.arrival_time ∧ 0 < p.burst_time ∧ 0 ≤ p.remaining_time ∧
  p.remaining_time ≤ p.burst_time ∧
  (p.remaining_time = p.burst_time → p.start_time = -1) ∧
  (p.remaining_time < p.burst_time →
    p.arrival_time ≤ p.start_time ∧
    p.start_time + (p.burst_time - p.remaining_time) ≤ ct) ∧
  (p.remaining_time = 0 → p.start_time + p.burst_time ≤ p.completion_time)

/-- Start-time invariant of `sjf_scheduling` and `priority_scheduling`: a
completed job started no earlier than it arrived and completed `burst_time`
later. -/
def batch_start_ok (st : SelState) : Prop :=
  ∀ j, j < st.sim.processes.length → flag st.is_completed j = true →
    (proc st.sim.processes j).arrival_time ≤ (proc st.sim.processes j).start_time ∧
    (proc st.sim.processes j).completion_time =
      (proc st.sim.processes j).start_time + (proc st.sim.processes j).burst_time

/-- Number of jobs that have been executed at least once (`start_time` no
longer `-1`). -/
def started_count (ps : List Process) : Nat :=
  ps.countP (fun p => decide (p.start_time ≠ -1))

/-- Counting invariant of the tick-driven strategies: jobs that have run
arrived before the clock; the last timeline block belongs to a job `l` that
has run, the number of blocks (plus one when `l` is completed) is at most the
number of started jobs plus the number of completed jobs, and while `l` is not
completed its block ends at the clock and `l` is preferred by the selection
loop to every other uncompleted job that arrived before the clock. -/
def tick_blocks_inv (key : Process → Int) (st : SelState) : Prop :=
  st.is_completed.length = st.sim.processes.length ∧
  (∀ j, j < st.sim.processes.length → (proc st.sim.processes j).start_time ≠ -1 →
    (proc st.sim.processes j).arrival_time < st.sim.current_time) ∧
  ∀ last, st.sim.gantt_chart.getLast? = some last →
    ∃ l, l < st.sim.processes.length ∧ (proc st.sim.processes l).name = last.process_name ∧
      (proc st.sim.processes l).start_time ≠ -1 ∧
      st.sim.gantt_chart.length + (if flag st.is_completed l then 1 else 0) ≤
        started_count st.sim.processes + st.is_completed.count true ∧
      (flag st.is_completed l = false →
        last.end_time = st.sim.current_time ∧ key (proc st.sim.processes l) < INT_MAX ∧
        ∀ j, j < st.sim.processes.length → j ≠ l → flag st.is_completed j = false →
          (proc st.sim.processes j).arrival_time < st.sim.current_time →
            key (proc st.sim.processes l) ≤ key (proc st.sim.processes j) ∧
            (j < l → key (proc st.sim.processes l) < key (proc st.sim.processes j)))

/-- The reason a block ends: when the iteration at state `st` executes job `i`
while the last timeline block carries another name, the job of that block is
completed, or the block ends at the current instant and `i` arrives at this
very instant. -/
def block_end_rule (st : SelState) (i : Nat) : Prop :=
  ∀ last, st.sim.gantt_chart.getLast? = some last →
    last.process_name ≠ (proc st.sim.processes i).name →
    ∃ l, l < st.sim.processes.length ∧ (proc st.sim.processes l).name = last.process_name ∧
      (flag st.is_completed l = true ∨
        (last.end_time = st.sim.current_time ∧
          (proc st.sim.processes i).arrival_time = st.sim.current_time))

/-! ## Busy timelines and waiting sums -/

/-- The timeline `g` shows a CPU that was never idle up to clock `ct`: the
first block starts at 0, each block starts where the previous one ends, and
the last block ends at `ct` (`ct = 0` for the empty timeline). -/
def gantt_busy (g : List GanttBlock) (ct : Int) : Prop :=
  g.Chain' (fun a b => b.start_time = a.end_time) ∧
  (∀ b, g.head? = some b → b.start_time = 0) ∧
  gantt_end g = ct

/-- Sum of all `burst_time` values of a table. -/
def total_burst (ps : List Process) : Int := (ps.map (fun p => p.burst_time)).sum

/-- Sum of all `remaining_time` values of a table. -/
def work_left (ps : List Process) : Int := (ps.map (fun p => p.remaining_time)).sum

/-- Sum of the `waiting_time` values of a table (the numerator of the average
waiting time shown by `update_statistics`). -/
def total_waiting (ps : List Process) : Int := (ps.map (fun p => p.waiting_time)).sum

/-- Sum of the start times of jobs with the given burst times that run one
after the other from clock `ct`. -/
def wait_cost : Int → List Int → Int
  | _, [] => 0
  | ct, b :: t => ct + wait_cost (ct + b) t

/-- Some uncompleted job has a key that the selection loop, started at the
sentinel, cannot select. -/
def sel_stuck_at (key : Process → Int) (st : SelState) : Prop :=
  ∃ j, j < st.sim.processes.length ∧ flag st.is_completed j = false ∧
    INT_MAX ≤ key (proc st.sim.processes j)

/-- Invariant of `sjf_scheduling` and `priority_scheduling` on a table `ps0`
whose jobs all arrive at 0: the jobs completed so far, in their dispatch order
`order`, were run one after the other from clock 0, in ascending order of
their key, and no job still waiting has a smaller key. -/
def batch_seq_inv (key : Process → Int) (ps0 : List Process) (st : SelState)
    (order : List Nat) : Prop :=
  st.sim.processes.length = ps0.length ∧ st.is_completed.length = ps0.length ∧
  order.Nodup ∧
  (∀ j, j ∈ order ↔ (j < ps0.length ∧ flag st.is_completed j = true)) ∧
  (∀ j, j < ps0.length → flag st.is_completed j = false →
    proc st.sim.processes j = proc ps0 j) ∧
  order.map (proc st.sim.processes) = fcfs_run 0 (order.map (proc ps0)) ∧
  st.sim.gantt_chart = (fcfs_run 0 (order.map (proc ps0))).map blockOf ∧
  st.sim.current_time = fcfs_end 0 (order.map (proc ps0)) ∧
  (order.map (fun j => key (proc ps0 j))).Pairwise (fun a b => a ≤ b) ∧
  (∀ j ∈ order, ∀ u, u < ps0.length → flag st.is_completed u = false →
    key (proc ps0 j) ≤ key (proc ps0 u))

/-- Sum of the waiting times `start_time - arrival_time` of jobs dispatched in
the order of the list from clock `ct`, each job starting at the later of the
clock and its arrival and running to completion. -/
def queue_cost : Int → List Process → Int
  | _, [] => 0
  | ct, p :: t =>
    (if ct < p.arrival_time then p.arrival_time else ct) - p.arrival_time +
      queue_cost ((if ct < p.arrival_time then p.arrival_time else ct) + p.burst_time) t

/-- The dispatch order `l` from clock `ct` is the order of a shortest-job-first
dispatcher: each job `x` is taken at the first instant at or after the clock
at which a job of the rest (the later jobs of `l` and the jobs of `pool`) has
arrived, `x` has arrived by then, and no job of the rest that has arrived by
then has a smaller `burst_time`. -/
def sjf_greedy (pool : Process → Prop) : Int → List Process → Prop
  | _, [] => True
  | ct, x :: t =>
    (∀ y, (y ∈ t ∨ pool y) →
      (ct < x.arrival_time → x.arrival_time ≤ y.arrival_time) ∧
      (y.arrival_time ≤ (if ct < x.arrival_time then x.arrival_time else ct) →
        x.burst_time ≤ y.burst_time)) ∧
    sjf_greedy pool ((if ct < x.arrival_time then x.arrival_time else ct) + x.burst_time) t

/-- Invariant of `sjf_scheduling` on the table `ps0`: the jobs completed so
far, in their dispatch order `order`, were each started at the later of the
previous completion and their arrival; the clock has not fallen behind, and
when it has run ahead no waiting job has arrived before it; the dispatch order
is a shortest-job-first order with respect to the waiting jobs. -/
def sjf_seq_inv (ps0 : List Process) (st : SelState) (order : List Nat) : Prop :=
  st.sim.processes.length = ps0.length ∧ st.is_completed.length = ps0.length ∧
  order.Nodup ∧
  (∀ j, j ∈ order ↔ (j < ps0.length ∧ flag st.is_completed j = true)) ∧
  (∀ j, j < ps0.length → flag st.is_completed j = false →
    proc st.sim.processes j = proc ps0 j) ∧
  order.map (proc st.sim.processes) = fcfs_run 0 (order.map (proc ps0)) ∧
  fcfs_end 0 (order.map (proc ps0)) ≤ st.sim.current_time ∧
  (fcfs_end 0 (order.map (proc ps0)) < st.sim.current_time →
    ∀ u, u < ps0.length → flag st.is_completed u = false →
      st.sim.current_time ≤ (proc ps0 u).arrival_time) ∧
  sjf_greedy (fun y => ∃ u, u < ps0.length ∧ flag st.is_completed u = false ∧ y = proc ps0 u)
    0 (order.map (proc ps0))

/-! ## Machine integers

The C program computes with 32-bit `int` values.  `int32` is the value an
`int` variable holds after an arithmetic result `x` has been stored in it: `x`
itself when it lies between `INT_MIN` and `INT_MAX`, and `x` reduced modulo
`2^32` into that range otherwise (two's-complement wrap-around; ISO C leaves
signed overflow undefined, and this is what the compiled program computes on
the usual targets). -/

/-- The least `int` value (`INT_MIN` for a 32-bit `int`). -/
def INT_MIN : Int := -2147483648

/-- The value lies in the range of a 32-bit `int`. -/
def in_int (x : Int) : Prop := INT_MIN ≤ x ∧ x ≤ INT_MAX

/-- Reduction of an arithmetic result to a 32-bit `int`. -/
def int32 (x : Int) : Int := (x + 2147483648) % 4294967296 - 2147483648

/-- The C expression `a + b` on `int` operands. -/
def int_add (a b : Int) : Int := int32 (a + b)

/-- The C expression `a - b` on `int` operands. -/
def int_sub (a b : Int) : Int := int32 (a - b)

/-! ## The engine on machine integers

The functions below are the strategies, the metrics calculator and the
controller with every `+`, `-`, `++` and `--` of the source on an `int`
variable carried out by `int_add` and `int_sub`.  The sorting phase of FCFS,
the selection loop, the enqueue loops and the next-arrival search only compare
and copy values and are shared with the functions above. -/

/-- Per-process effect of the loop body of `calculate_times` on `int`
fields. -/
def Machine.calculate_process (p : Process) : Process :=
  let p1 := { p with turnaround_time := int_sub p.completion_time p.arrival_time }
  let p2 := { p1 with waiting_time := int_sub p1.turnaround_time p1.burst_time }
  let p3 :=
    if p2.start_time ≠ -1 then
      { p2 with response_time := int_sub p2.start_time p2.arrival_time }
    else
      { p2 with response_time := 0 }
  let p4 := if p3.waiting_time < 0 then { p3 with waiting_time := 0 } else p3
  if p4.response_time < 0 then { p4 with response_time := 0 } else p4

/-- The function `calculate_times` on `int` fields. -/
def Machine.calculate_times (s : Sim) : Sim :=
  { s with processes := s.processes.map Machine.calculate_process }

/-- Body of the simulation loop of `fcfs_scheduling` at index `i`, on `int`
values. -/
def Machine.fcfs_step (s : Sim) (i : Nat) : Sim :=
  let p := proc s.processes i
  let ct := if s.current_time < p.arrival_time then p.arrival_time else s.current_time
  let done := int_add ct p.burst_time
  { s with
    processes := updateAt s.processes i
      (fun q => { q with start_time := ct, completion_time := done })
    gantt_chart := s.gantt_chart ++ [mkBlock p ct done]
    current_time := done }

/-- The function `fcfs_scheduling` on `int` values. -/
def Machine.fcfs_scheduling (s : Sim) : Sim :=
  let s1 := { s with processes := fcfs_sort s.processes }
  let s2 := { s1 with current_time := 0 }
  (List.range s2.processes.length).foldl Machine.fcfs_step s2

/-- Body of the `while` loop of `sjf_scheduling` (`key = burst_time`) and of
`priority_scheduling` (`key = priority`), on `int` values. -/
def Machine.batch_body (key : Process → Int) (st : SelState) : SelState :=
  match select_min key st.sim.processes st.is_completed st.sim.current_time with
  | none => { st with sim := { st.sim with current_time := int_add st.sim.current_time 1 } }
  | some i =>
    let p := proc st.sim.processes i
    let ct := st.sim.current_time
    let done := int_add ct p.burst_time
    { sim :=
        { st.sim with
          processes := updateAt st.sim.processes i
            (fun q => { q with start_time := ct, completion_time := done })
          gantt_chart := st.sim.gantt_chart ++ [mkBlock p ct done]
          current_time := done }
      completed := st.completed + 1
      is_completed := updateAt st.is_completed i (fun _ => true) }

/-- The function `sjf_scheduling` on `int` values. -/
def Machine.sjf_scheduling (fuel : Nat) (s : Sim) : Option Sim :=
  (while_loop sel_cond (Machine.batch_body (fun p => p.burst_time)) fuel (sel_init s)).map
    (fun st => st.sim)

/-- The function `priority_scheduling` on `int` values. -/
def Machine.priority_scheduling (fuel : Nat) (s : Sim) : Option Sim :=
  (while_loop sel_cond (Machine.batch_body (fun p => p.priority)) fuel (sel_init s)).map
    (fun st => st.sim)

/-- The `Add/update Gantt chart entry` step with `current_time + 1` an `int`
sum. -/
def Machine.gantt_tick (g : List GanttBlock) (p : Process) (ct : Int) : List GanttBlock :=
  match g.getLast? with
  | none => g ++ [mkBlock p ct (int_add ct 1)]
  | some last =>
    if last.process_name ≠ p.name then g ++ [mkBlock p ct (int_add ct 1)]
    else g.dropLast ++ [{ last with end_time := int_add ct 1 }]

/-- The statement `p->remaining_time -= e;` (`p->remaining_time--` for
`e = 1`) on `int` values. -/
def Machine.run_for (e : Int) (q : Process) : Process :=
  { q with remaining_time := int_sub q.remaining_time e }

/-- Body of the `while` loop of `srtf_scheduling` (`key = remaining_time`) and
of `preemptive_priority_scheduling` (`key = priority`), on `int` values. -/
def Machine.tick_body (key : Process → Int) (st : SelState) : SelState :=
  match select_min key st.sim.processes st.is_completed st.sim.current_time with
  | none => { st with sim := { st.sim with current_time := int_add st.sim.current_time 1 } }
  | some i =>
    let ct := st.sim.current_time
    let ps1 := updateAt st.sim.processes i (set_start ct)
    let ps2 := updateAt ps1 i (Machine.run_for 1)
    let g := Machine.gantt_tick st.sim.gantt_chart (proc ps2 i) ct
    let ct1 := int_add ct 1
    if (proc ps2 i).remaining_time = 0 then
      { sim :=
          { st.sim with
            processes := updateAt ps2 i (set_completion ct1)
            gantt_chart := g
            current_time := ct1 }
        completed := st.completed + 1
        is_completed := updateAt st.is_completed i (fun _ => true) }
    else
      { st with
        sim := { st.sim with processes := ps2, gantt_chart := g, current_time := ct1 } }

/-- The function `srtf_scheduling` on `int` values. -/
def Machine.srtf_scheduling (fuel : Nat) (s : Sim) : Option Sim :=
  (while_loop sel_cond (Machine.tick_body (fun p => p.remaining_time)) fuel (tick_init s)).map
    (fun st => st.sim)

/-- The function `preemptive_priority_scheduling` on `int` values. -/
def Machine.preemptive_priority_scheduling (fuel : Nat) (s : Sim) : Option Sim :=
  (while_loop sel_cond (Machine.tick_body (fun p => p.priority)) fuel (tick_init s)).map
    (fun st => st.sim)

/-- Body of the `while` loop of `round_robin_scheduling` on `int` values.  As
in `rr_body`, `queue` lists every cell written so far. -/
def Machine.rr_body (st : RRState) : RRState :=
  if st.front = st.rear then
    let next_arrival := rr_next_arrival st.sim.processes st.sim.current_time
    if next_arrival ≠ INT_MAX then
      let qa := rr_enqueue false st.sim.processes next_arrival (st.queue, st.in_queue)
      { st with
        sim := { st.sim with current_time := next_arrival }
        queue := qa.1
        in_queue := qa.2 }
    else st
  else
    let current_process := st.queue.getD st.front 0
    let front := st.front + 1
    let ct := st.sim.current_time
    let ps1 := updateAt st.sim.processes current_process (set_start ct)
    let p := proc ps1 current_process
    let execution_time :=
      if p.remaining_time < st.sim.time_quantum then p.remaining_time else st.sim.time_quantum
    let g := st.sim.gantt_chart ++ [mkBlock p ct (int_add ct execution_time)]
    let ct1 := int_add ct execution_time
    let ps2 := updateAt ps1 current_process (Machine.run_for execution_time)
    let qa := rr_enqueue false ps2 ct1 (st.queue, st.in_queue)
    if (proc ps2 current_process).remaining_time = 0 then
      { sim :=
          { st.sim with
            processes := updateAt ps2 current_process (set_completion ct1)
            gantt_chart := g
            current_time := ct1 }
        completed := st.completed + 1
        queue := qa.1
        front := front
        in_queue := updateAt qa.2 current_process (fun _ => false) }
    else
      { sim := { st.sim with processes := ps2, gantt_chart := g, current_time := ct1 }
        completed := st.completed
        queue := qa.1 ++ [current_process]
        front := front
        in_queue := qa.2 }

/-- The arrays `queue[MAX_PROCESSES]` and `gantt_chart[MAX_PROCESSES * 10]`
were not left: no more than `MAX_PROCESSES` queue cells and no more than
`MAX_PROCESSES * 10` timeline blocks have been written. -/
def rr_in_bounds (st : RRState) : Bool :=
  decide (st.rear ≤ MAX_PROCESSES) && decide (st.sim.gantt_chart.length ≤ MAX_PROCESSES * 10)

/-- The function `round_robin_scheduling` on `int` values and on the arrays
of the source: a run that has written a queue cell of index `MAX_PROCESSES` or
more, or a timeline block of index `MAX_PROCESSES * 10` or more, has left its
array and has no defined result. -/
def Machine.round_robin_scheduling (fuel : Nat) (s : Sim) : Option Sim :=
  (while_loop rr_cond Machine.rr_body fuel (rr_init s)).bind
    (fun st => if rr_in_bounds st then some st.sim else none)

/-- The function `simulate_scheduling` on `int` values. -/
def Machine.simulate_scheduling (fuel : Nat) (algo : SchedulingAlgorithm) (s : Sim) :
    Option Sim :=
  let s1 := reset_simulation s
  let s2 := { s1 with current_time := 0, gantt_chart := [] }
  let r :=
    match algo with
    | .FCFS => some (Machine.fcfs_scheduling s2)
    | .SJF => Machine.sjf_scheduling fuel s2
    | .SRTF => Machine.srtf_scheduling fuel s2
    | .PRIORITY => Machine.priority_scheduling fuel s2
    | .ROUND_ROBIN => Machine.round_robin_scheduling fuel s2
    | .PREEMPTIVE_PRIORITY => Machine.preemptive_priority_scheduling fuel s2
  r.map Machine.calculate_times

/-- State of the `while` loop of a tick-driven strategy on `int` values after
`k` iterations. -/
def Machine.tick_state (key : Process → Int) (s : Sim) (k : Nat) : SelState :=
  (Machine.tick_body key)^[k] (tick_init s)

/-- State of the `while` loop of `priority_scheduling` on `int` values after
`k` iterations. -/
def Machine.priority_state (s : Sim) (k : Nat) : SelState :=
  (Machine.batch_body (fun p => p.priority))^[k] (sel_init s)

/-- State of the `while` loop of `round_robin_scheduling` on `int` values
after `k` iterations. -/
def Machine.rr_state (s : Sim) (k : Nat) : RRState := Machine.rr_body^[k] (rr_init s)

/-- The table can be scheduled without leaving the `int` range: every job has
`arrival_time >= 0`, `burst_time > 0` and a priority below the sentinel, and
no arrival time plus the sum of all burst times reaches `INT_MAX`, so no clock
value does. -/
def int_safe (s : Sim) : Prop :=
  ∀ p ∈ s.processes, 0 ≤ p.arrival_time ∧ 0 < p.burst_time ∧ p.priority < INT_MAX ∧
    p.arrival_time + total_burst s.processes < INT_MAX

/-- Work not yet dispatched by the non-preemptive loop: the sum of
`burst_time` over the jobs not marked completed. -/
def sel_pending (st : SelState) : Int :=
  ((List.range st.sim.processes.length).map
    (fun j => if flag st.is_completed j then 0 else (proc st.sim.processes j).burst_time)).sum

/-- Clock bound of the non-preemptive loop: the clock plus the work not yet
dispatched stays below `INT_MAX`, so does the arrival time of every waiting
job plus that work, and no completion time is ahead of the clock. -/
def batch_fit (st : SelState) : Prop :=
  st.sim.current_time + sel_pending st < INT_MAX ∧
  (∀ j, j < st.sim.processes.length → flag st.is_completed j = false →
    (proc st.sim.processes j).arrival_time + sel_pending st < INT_MAX) ∧
  (∀ j, j < st.sim.processes.length →
    (proc st.sim.processes j).completion_time ≤ st.sim.current_time)

/-- Clock bound of the tick-driven loops and of round-robin: the clock plus
the work left stays below `INT_MAX`, so does the arrival time of every
unfinished job plus that work, and no completion time is ahead of the
clock. -/
def work_fit (s : Sim) : Prop :=
  s.current_time + work_left s.processes < INT_MAX ∧
  (∀ j, j < s.processes.length → 0 < (proc s.processes j).remaining_time →
    (proc s.processes j).arrival_time + work_left s.processes < INT_MAX) ∧
  (∀ j, j < s.processes.length → (proc s.processes j).completion_time ≤ s.current_time)

/-- Precondition of a strategy run that stays within the `int` range: the
precondition `run_ready`, priorities below the sentinel, no arrival time plus
the sum of all burst times reaching `INT_MAX`, and the completion times as
`reset_simulation` leaves them. -/
def run_safe (s : Sim) : Prop :=
  run_ready s ∧ ∀ p ∈ s.processes, p.priority < INT_MAX ∧
    p.arrival_time + total_burst s.processes < INT_MAX ∧ p.completion_time ≤ 0

/-- A scheduled job on which the differences of `calculate_times` stay within
the `int` range. -/
def calc_safe (p : Process) : Prop :=
  0 ≤ p.arrival_time ∧ p.arrival_time ≤ p.start_time ∧ 0 < p.burst_time ∧
  p.start_time + p.burst_time ≤ p.completion_time ∧ p.completion_time < INT_MAX

/-- Number of time slices a job with `r` units of work left still needs under
quantum `q`: `r / q` rounded up. -/
def slices (q r : Int) : Nat := ((r + q - 1) / q).toNat

/-- Number of time slices outstanding over a whole table. -/
def slices_left (q : Int) (ps : List Process) : Nat :=
  (ps.map (fun p => slices q p.remaining_time)).sum

/-- Number of dispatches of a round-robin run of the table: the sum over the
jobs of `burst_time / time_quantum` rounded up. -/
def rr_slices (s : Sim) : Nat :=
  (s.processes.map (fun p => slices s.time_quantum p.burst_time)).sum

/-- Counting invariant of the round-robin loop: one timeline block per
dispatch, and dispatches made plus slices outstanding is the constant `N`. -/
def rr_count_inv (N : Nat) (st : RRState) : Prop :=
  st.sim.gantt_chart.length = st.front ∧
  st.front + slices_left st.sim.time_quantum st.sim.processes = N

/-- The loop with condition `cond` and body `body`, entered in state `s`,
performs at least `k` iterations: the condition holds in the states reached
after `0, 1, .., k - 1` iterations. -/
def loop_runs {σ : Type} (cond : σ → Bool) (body : σ → σ) (s : σ) (k : Nat) : Prop :=
  ∀ j, j < k → cond (body^[j] s) = true

/-- Two jobs that arrive just below `INT_MAX`: A(arrival 2147483646, burst 2,
priority 5) and B(arrival 2147483647, burst 2, priority 1). -/
def wrap_table : Sim :=
  Sim.mk [mkProcess "A" 2147483646 2 5 0, mkProcess "B" 2147483647 2 1 1] [] 2 0

/-- The loop state of `preemptive_priority_scheduling` on `wrap_table` after
the 2147483646 idle iterations that take the clock to the arrival of A. -/
def wrap_state1 : SelState :=
  { tick_init (strategy_input wrap_table) with
    sim := { (tick_init (strategy_input wrap_table)).sim with
      current_time := (tick_init (strategy_input wrap_table)).sim.current_time +
        ((2147483646 : Nat) : Int) } }

/-- The state two iterations later: A and B have run one tick each and the
clock has wrapped around to `INT_MIN`. -/
def wrap_state2 : SelState := (Machine.tick_body (fun p => p.priority))^[2] wrap_state1

/-- The state after the 4294967294 idle iterations that take the clock from
`INT_MIN` to the arrival of A again. -/
def wrap_state3 : SelState :=
  { wrap_state2 with
    sim := { wrap_state2.sim with
      current_time := wrap_state2.sim.current_time + ((4294967294 : Nat) : Int) } }

/-- The process cell after its FCFS dispatch at clock `ct`, on `int`
values. -/
def Machine.fcfs_cell (ct : Int) (p : Process) : Process :=
  { p with
    start_time := if ct < p.arrival_time then p.arrival_time else ct
    completion_time := int_add (if ct < p.arrival_time then p.arrival_time else ct) p.burst_time }

/-- The simulation loop of `fcfs_scheduling` on `int` values, as a recursion
over the sorted table. -/
def Machine.fcfs_run (ct : Int) : List Process → List Process
  | [] => []
  | p :: t => Machine.fcfs_cell ct p :: Machine.fcfs_run (Machine.fcfs_cell ct p).completion_time t

/-- The clock after the simulation loop of `fcfs_scheduling`, on `int`
values. -/
def Machine.fcfs_end (ct : Int) : List Process → Int
  | [] => ct
  | p :: t => Machine.fcfs_end (Machine.fcfs_cell ct p).completion_time t

/-- The loop state `st` with the clock set to `c`. -/
def reclock (c : Int) (st : RRState) : RRState :=
  { st with sim := { st.sim with current_time := c } }

/-- Two round-robin states agree on the queue, the counters, the quantum and
on the `arrival_time` and `remaining_time` of every job. -/
def same_queue (a b : RRState) : Prop :=
  a.queue = b.queue ∧ a.front = b.front ∧ a.in_queue = b.in_queue ∧
  a.completed = b.completed ∧ a.sim.time_quantum = b.sim.time_quantum ∧
  a.sim.processes.length = b.sim.processes.length ∧
  ∀ j, (proc a.sim.processes j).arrival_time = (proc b.sim.processes j).arrival_time ∧
    (proc a.sim.processes j).remaining_time = (proc b.sim.processes j).remaining_time

/-- Iteration `u` of the loop on `int` values selected and executed a process
called `name`. -/
def Machine.tick_ran (key : Process → Int) (s : Sim) (u : Nat) (name : String) : Prop :=
  ∃ i, select_min key (Machine.tick_state key s u).sim.processes
      (Machine.tick_state key s u).is_completed
      (Machine.tick_state key s u).sim.current_time = some i ∧
    (proc (Machine.tick_state key s u).sim.processes i).name = name

/-- The round-robin loop performs at least `k` iterations and every queue cell
written by them lies inside `queue[MAX_PROCESSES]`. -/
def Machine.rr_reached (s : Sim) (k : Nat) : Prop :=
  loop_runs rr_cond Machine.rr_body (rr_init s) k ∧ (Machine.rr_state s k).rear ≤ MAX_PROCESSES

/-- An iteration of an enqueue loop between its two statements: after
`queue[rear++] = i;` and before `in_queue[i] = 1;`. -/
def rr_enqueue_write (init : Bool) (ps : List Process) (ct : Int)
    (acc : List Nat × List Bool) (i : Nat) : List Nat × List Bool :=
  if rr_test init ps ct acc.2 i then (acc.1 ++ [i], acc.2) else acc

/-! # Lemmas -/

/-! ## Array lemmas and FCFS -/

theorem length_updateAt {α : Type} (l : List α) (i : Nat) (f : α → α) :
    (updateAt l i f).length = l.length := by
  induction l generalizing i with
  | nil => rfl
  | cons x xs ih => cases i <;> simp [updateAt, ih]

theorem getElem?_updateAt {α : Type} (l : List α) (i j : Nat) (f : α → α) :
    (updateAt l i f)[j]? = if j = i then l[j]?.map f else l[j]? := by
  induction l generalizing i j with
  | nil => simp [updateAt]
  | cons x xs ih =>
    cases i with
    | zero => cases j <;> simp [updateAt]
    | succ i => cases j <;> simp [updateAt, ih]

theorem proc_updateAt (ps : List Process) (i j : Nat) (f : Process → Process) :
    proc (updateAt ps i f) j = if j = i ∧ i < ps.length then f (proc ps j) else proc ps j := by
  unfold proc
  rw [List.getD_eq_getElem?_getD, List.getD_eq_getElem?_getD, getElem?_updateAt]
  by_cases h : j = i
  · subst h
    by_cases h2 : j < ps.length
    · simp [h2]
    · simp [h2, List.getElem?_eq_none (Nat.le_of_not_lt h2)]
  · simp [h]

theorem flag_updateAt (bs : List Bool) (i j : Nat) (f : Bool → Bool) :
    flag (updateAt bs i f) j = if j = i ∧ i < bs.length then f (flag bs j) else flag bs j := by
  unfold flag
  rw [List.getD_eq_getElem?_getD, List.getD_eq_getElem?_getD, getElem?_updateAt]
  by_cases h : j = i
  · subst h
    by_cases h2 : j < bs.length
    · simp [h2]
    · simp [h2, List.getElem?_eq_none (Nat.le_of_not_lt h2)]
  · simp [h]

theorem calculate_process_eq (p : Process) :
    calculate_process p =
      { p with
        turnaround_time := p.completion_time - p.arrival_time
        waiting_time := max 0 (p.completion_time - p.arrival_time - p.burst_time)
        response_time :=
          if p.start_time = -1 then 0 else max 0 (p.start_time - p.arrival_time) } := by
  unfold calculate_process
  by_cases h1 : p.start_time = -1 <;>
  by_cases h2 : p.completion_time - p.arrival_time - p.burst_time < 0 <;>
  by_cases h3 : p.start_time - p.arrival_time < 0 <;>
  simp [h1, h2, h3, max_def] <;> omega

theorem getElem?_append_length_add {α : Type} (pre l : List α) (k : Nat) :
    (pre ++ l)[pre.length + k]? = l[k]? := by
  rw [List.getElem?_append_right (Nat.le_add_right _ _), Nat.add_sub_cancel_left]

theorem set_append_length_add {α : Type} (pre l : List α) (k : Nat) (a : α) :
    (pre ++ l).set (pre.length + k) a = pre ++ l.set k a := by
  rw [List.set_append_right _ _ (Nat.le_add_right _ _), Nat.add_sub_cancel_left]

theorem fcfs_swap_step_append (pre : List Process) (l : List Process) :
    fcfs_swap_step (pre ++ l) pre.length =
      match l with
      | x :: y :: t => if x.arrival_time > y.arrival_time then pre ++ y :: x :: t else pre ++ l
      | _ => pre ++ l := by
  unfold fcfs_swap_step
  have h0 := getElem?_append_length_add pre l 0
  have h1 := getElem?_append_length_add pre l 1
  rw [Nat.add_zero] at h0
  rw [h0, h1]
  match l with
  | [] => simp
  | [x] => simp
  | x :: y :: t =>
    simp only [List.getElem?_cons_zero, List.getElem?_cons_succ]
    by_cases h : x.arrival_time > y.arrival_time
    · simp only [h, if_true]
      have s0 := set_append_length_add pre (x :: y :: t) 0 y
      rw [Nat.add_zero] at s0
      rw [s0, set_append_length_add]
      simp
    · simp [h]

theorem foldl_swap_noop (ps : List Process) (s k : Nat) (h : ps.length ≤ s + 1) :
    (List.range' s k).foldl fcfs_swap_step ps = ps := by
  induction k generalizing s with
  | zero => rfl
  | succ k ih =>
    rw [List.range'_succ, List.foldl_cons]
    have : fcfs_swap_step ps s = ps := by
      unfold fcfs_swap_step
      rw [List.getElem?_eq_none (l := ps) (n := s + 1) h]
      cases ps[s]? <;> rfl
    rw [this]
    exact ih (s + 1) (by omega)

theorem foldl_swap_eq_bubble (k : Nat) (pre l : List Process) :
    (List.range' pre.length k).foldl fcfs_swap_step (pre ++ l) = pre ++ bubble k l := by
  induction k generalizing pre l with
  | zero => cases l <;> simp [bubble]
  | succ k ih =>
    rw [List.range'_succ, List.foldl_cons, fcfs_swap_step_append]
    match l with
    | [] =>
      simp only [bubble]
      exact foldl_swap_noop _ _ _ (by simp only [List.append_nil]; omega)
    | [x] =>
      simp only [bubble]
      exact foldl_swap_noop _ _ _ (by simp)
    | x :: y :: t =>
      simp only [bubble]
      by_cases h : x.arrival_time > y.arrival_time
      · simp only [h, if_true]
        have := ih (pre ++ [y]) (x :: t)
        simp only [List.length_append, List.length_singleton, List.append_assoc,
          List.singleton_append] at this
        exact this
      · simp only [h, if_false]
        have := ih (pre ++ [x]) (y :: t)
        simp only [List.length_append, List.length_singleton, List.append_assoc,
          List.singleton_append] at this
        exact this

theorem fcfs_inner_eq_bubble (n i : Nat) (ps : List Process) :
    fcfs_inner n i ps = bubble (n - i - 1) ps := by
  unfold fcfs_inner
  rw [List.range_eq_range']
  exact foldl_swap_eq_bubble (n - i - 1) [] ps

theorem bubble_length (k : Nat) (l : List Process) : (bubble k l).length = l.length := by
  induction k generalizing l with
  | zero => cases l <;> simp [bubble]
  | succ k ih =>
    match l with
    | [] => simp [bubble]
    | [x] => simp [bubble]
    | x :: y :: t =>
      simp only [bubble]
      split <;> simp [ih]

theorem bubble_filter (v : Int) (k : Nat) (l : List Process) :
    (bubble k l).filter (fun p => decide (p.arrival_time = v)) =
      l.filter (fun p => decide (p.arrival_time = v)) := by
  induction k generalizing l with
  | zero => cases l <;> simp [bubble]
  | succ k ih =>
    match l with
    | [] => simp [bubble]
    | [x] => simp [bubble]
    | x :: y :: t =>
      simp only [bubble]
      by_cases h : x.arrival_time > y.arrival_time
      · simp only [h, if_true, List.filter_cons, ih]
        by_cases hx : x.arrival_time = v <;> by_cases hy : y.arrival_time = v <;>
          simp [hx, hy]
        omega
      · simp only [h, if_false, List.filter_cons, ih]

theorem bubble_perm (k : Nat) (l : List Process) : (bubble k l).Perm l := by
  induction k generalizing l with
  | zero => cases l <;> simp [bubble]
  | succ k ih =>
    match l with
    | [] => simp [bubble]
    | [x] => simp [bubble]
    | x :: y :: t =>
      simp only [bubble]
      by_cases h : x.arrival_time > y.arrival_time
      · simp only [h, if_true]
        exact ((ih (x :: t)).cons y).trans (List.Perm.swap x y t)
      · simp only [h, if_false]
        exact (ih (y :: t)).cons x

theorem bubble_append (k : Nat) (A B : List Process) (h : k + 1 ≤ A.length) :
    bubble k (A ++ B) = bubble k A ++ B := by
  induction k generalizing A with
  | zero => cases A <;> simp [bubble]
  | succ k ih =>
    match A, h with
    | x :: y :: t, h =>
      simp only [List.cons_append, bubble]
      have hl : k + 1 ≤ (x :: t).length := by simp at h ⊢; omega
      have hl2 : k + 1 ≤ (y :: t).length := by simp at h ⊢; omega
      have e1 := ih (x :: t) hl
      have e2 := ih (y :: t) hl2
      simp only [List.cons_append] at e1 e2
      split <;> simp [e1, e2]

theorem bubble_last (k : Nat) (l : List Process) (h : l.length = k + 1) :
    ∃ front m, bubble k l = front ++ [m] ∧ ∀ p ∈ front, p.arrival_time ≤ m.arrival_time := by
  induction k generalizing l with
  | zero =>
    match l, h with
    | [x], _ => exact ⟨[], x, by simp [bubble], by simp⟩
  | succ k ih =>
    match l, h with
    | x :: y :: t, h =>
      simp only [bubble]
      by_cases hxy : x.arrival_time > y.arrival_time
      · simp only [hxy, if_true]
        obtain ⟨front, m, he, hm⟩ := ih (x :: t) (by simp at h ⊢; omega)
        refine ⟨y :: front, m, by simp [he], ?_⟩
        have hx : x ∈ front ++ [m] := by
          rw [← he]; exact (bubble_perm k (x :: t)).mem_iff.mpr (by simp)
        have hxm : x.arrival_time ≤ m.arrival_time := by
          rcases List.mem_append.mp hx with h1 | h1
          · exact hm x h1
          · simp at h1; rw [h1]
        intro p hp
        rcases List.mem_cons.mp hp with h1 | h1
        · rw [h1]; omega
        · exact hm p h1
      · simp only [hxy, if_false]
        obtain ⟨front, m, he, hm⟩ := ih (y :: t) (by simp at h ⊢; omega)
        refine ⟨x :: front, m, by simp [he], ?_⟩
        have hy : y ∈ front ++ [m] := by
          rw [← he]; exact (bubble_perm k (y :: t)).mem_iff.mpr (by simp)
        have hym : y.arrival_time ≤ m.arrival_time := by
          rcases List.mem_append.mp hy with h1 | h1
          · exact hm y h1
          · simp at h1; rw [h1]
        intro p hp
        rcases List.mem_cons.mp hp with h1 | h1
        · rw [h1]; omega
        · exact hm p h1

/-- The outer loop after `i` passes: the last `i` cells are in their final
place. -/
theorem fcfs_outer_invariant (ps : List Process) (i : Nat) (hi : i + 1 ≤ ps.length) :
    ∃ A B, (List.range i).foldl (fun acc j => fcfs_inner ps.length j acc) ps = A ++ B ∧
      B.length = i ∧ A.length = ps.length - i ∧
      B.Pairwise (fun a b => a.arrival_time ≤ b.arrival_time) ∧
      ∀ a ∈ A, ∀ b ∈ B, a.arrival_time ≤ b.arrival_time := by
  induction i with
  | zero => exact ⟨ps, [], by simp, rfl, by simp, List.Pairwise.nil, by simp⟩
  | succ i ih =>
    obtain ⟨A, B, he, hB, hA, hs, hle⟩ := ih (by omega)
    rw [List.range_succ, List.foldl_append, List.foldl_cons, List.foldl_nil, he,
      fcfs_inner_eq_bubble, bubble_append _ _ _ (by omega)]
    obtain ⟨front, m, hb, hm⟩ := bubble_last (ps.length - i - 1) A (by omega)
    have hperm := bubble_perm (ps.length - i - 1) A
    rw [hb] at hperm
    have hlen := bubble_length (ps.length - i - 1) A
    rw [hb] at hlen
    refine ⟨front, m :: B, by simp [hb], by simp [hB], ?_, ?_, ?_⟩
    · simp at hlen; omega
    · refine List.Pairwise.cons ?_ hs
      intro b hbB
      exact hle m (hperm.mem_iff.mp (by simp)) b hbB
    · intro a ha b hbB
      rcases List.mem_cons.mp hbB with h1 | h1
      · rw [h1]; exact hm a ha
      · exact hle a (hperm.mem_iff.mp (by simp [ha])) b h1

theorem fcfs_sort_sorted (ps : List Process) :
    (fcfs_sort ps).Pairwise (fun a b => a.arrival_time ≤ b.arrival_time) := by
  unfold fcfs_sort
  cases hn : ps.length with
  | zero =>
    have : ps = [] := List.length_eq_zero.mp hn
    subst this; simp
  | succ n =>
    obtain ⟨A, B, he, hB, hA, hs, hle⟩ := fcfs_outer_invariant ps n (by omega)
    rw [hn] at he
    simp only [Nat.add_sub_cancel]
    rw [he]
    have hA1 : A.length = 1 := by omega
    obtain ⟨a, rfl⟩ := List.length_eq_one.mp hA1
    exact List.pairwise_append.mpr ⟨List.pairwise_singleton _ _, hs, hle⟩

theorem fcfs_sort_filter (ps : List Process) (v : Int) :
    (fcfs_sort ps).filter (fun p => decide (p.arrival_time = v)) =
      ps.filter (fun p => decide (p.arrival_time = v)) := by
  unfold fcfs_sort
  generalize ps.length = n
  generalize n - 1 = m
  induction m with
  | zero => simp
  | succ m ih =>
    rw [List.range_succ, List.foldl_append, List.foldl_cons, List.foldl_nil,
      fcfs_inner_eq_bubble, bubble_filter, ih]

theorem fcfs_sort_length (ps : List Process) : (fcfs_sort ps).length = ps.length := by
  unfold fcfs_sort
  generalize ps.length - 1 = m
  generalize hn : ps.length = n
  induction m with
  | zero => simp [hn]
  | succ m ih =>
    rw [List.range_succ, List.foldl_append, List.foldl_cons, List.foldl_nil,
      fcfs_inner_eq_bubble, bubble_length, ih]

theorem fcfs_sort_perm (ps : List Process) : (fcfs_sort ps).Perm ps := by
  unfold fcfs_sort
  generalize ps.length = n
  generalize n - 1 = m
  induction m with
  | zero => simp
  | succ m ih =>
    rw [List.range_succ, List.foldl_append, List.foldl_cons, List.foldl_nil,
      fcfs_inner_eq_bubble]
    exact (bubble_perm _ _).trans ih

theorem updateAt_append_length {α : Type} (pre : List α) (x : α) (t : List α) (f : α → α) :
    updateAt (pre ++ x :: t) pre.length f = pre ++ f x :: t := by
  induction pre with
  | nil => rfl
  | cons a pre ih => simp [updateAt, ih]

theorem proc_append_length (pre : List Process) (x : Process) (t : List Process) :
    proc (pre ++ x :: t) pre.length = x := by
  have h := getElem?_append_length_add pre (x :: t) 0
  rw [Nat.add_zero] at h
  simp [proc, List.getD_eq_getElem?_getD, h]

theorem fcfs_step_append (done : List Process) (p : Process) (t : List Process)
    (g : List GanttBlock) (q ct : Int) :
    fcfs_step (Sim.mk (done ++ p :: t) g q ct) done.length =
      Sim.mk ((done ++ [fcfs_cell ct p]) ++ t) (g ++ [blockOf (fcfs_cell ct p)]) q
        (fcfs_cell ct p).completion_time := by
  simp only [fcfs_step, proc_append_length, updateAt_append_length]
  simp [fcfs_cell, blockOf, mkBlock]

theorem foldl_fcfs_step (done rest : List Process) (g : List GanttBlock) (q ct : Int) :
    (List.range' done.length rest.length).foldl fcfs_step (Sim.mk (done ++ rest) g q ct) =
      Sim.mk (done ++ fcfs_run ct rest) (g ++ (fcfs_run ct rest).map blockOf) q
        (fcfs_end ct rest) := by
  induction rest generalizing done g ct with
  | nil => simp [fcfs_run, fcfs_end]
  | cons p t ih =>
    rw [List.length_cons, List.range'_succ, List.foldl_cons, fcfs_step_append]
    have := ih (done ++ [fcfs_cell ct p]) (g ++ [blockOf (fcfs_cell ct p)])
      (fcfs_cell ct p).completion_time
    simp only [List.length_append, List.length_singleton] at this
    rw [this]
    simp [fcfs_run, fcfs_end, fcfs_cell]

theorem fcfs_scheduling_eq (s : Sim) :
    fcfs_scheduling s =
      Sim.mk (fcfs_run 0 (fcfs_sort s.processes))
        (s.gantt_chart ++ (fcfs_run 0 (fcfs_sort s.processes)).map blockOf)
        s.time_quantum (fcfs_end 0 (fcfs_sort s.processes)) := by
  unfold fcfs_scheduling
  simp only [List.range_eq_range']
  have := foldl_fcfs_step [] (fcfs_sort s.processes) s.gantt_chart s.time_quantum 0
  simp only [List.length_nil, List.nil_append] at this
  exact this

theorem proc_cons_succ (x : Process) (l : List Process) (i : Nat) :
    proc (x :: l) (i + 1) = proc l i := by
  simp [proc]

theorem proc_cons_zero (x : Process) (l : List Process) : proc (x :: l) 0 = x := by
  simp [proc]

theorem fcfs_run_proc (ct : Int) (l : List Process) (i : Nat) (hi : i < l.length) :
    proc (fcfs_run ct l) i =
      { proc l i with
        start_time :=
          max (if i = 0 then ct else (proc (fcfs_run ct l) (i - 1)).completion_time)
            (proc l i).arrival_time
        completion_time :=
          max (if i = 0 then ct else (proc (fcfs_run ct l) (i - 1)).completion_time)
            (proc l i).arrival_time + (proc l i).burst_time } := by
  induction l generalizing ct i with
  | nil => simp at hi
  | cons p t ih =>
    cases i with
    | zero =>
      simp only [fcfs_run, proc_cons_zero, if_true]
      have : (if ct < p.arrival_time then p.arrival_time else ct) = max ct p.arrival_time := by
        rw [max_def]; split <;> split <;> omega
      rw [this]
    | succ i =>
      simp only [fcfs_run, proc_cons_succ, Nat.add_sub_cancel]
      rw [ih _ i (by simpa using hi)]
      cases i with
      | zero => simp [proc_cons_zero]
      | succ i => simp [proc_cons_succ]

/-! ### The selection loop -/

theorem select_fold_invariant (key : Process → Int) (ps : List Process) (dn : List Bool)
    (ct : Int) (k : Nat) :
    let acc := (List.range k).foldl (select_step key ps dn ct) (none, INT_MAX)
    acc.2 ≤ INT_MAX ∧ (acc.1 = none → acc.2 = INT_MAX) ∧
    (∀ j, j < k → eligible ps dn ct j → acc.2 ≤ key (proc ps j)) ∧
    (∀ i, acc.1 = some i → i < k ∧ eligible ps dn ct i ∧ acc.2 = key (proc ps i) ∧
      key (proc ps i) < INT_MAX ∧
      ∀ j, j < i → eligible ps dn ct j → key (proc ps i) < key (proc ps j)) := by
  induction k with
  | zero => simp
  | succ k ih =>
    simp only [List.range_succ, List.foldl_append, List.foldl_cons, List.foldl_nil]
    obtain ⟨h1, h2, h3, h4⟩ := ih
    generalize (List.range k).foldl (select_step key ps dn ct) (none, INT_MAX) = acc at *
    unfold select_step
    by_cases he : flag dn k = false ∧ (proc ps k).arrival_time ≤ ct
    · by_cases hk : key (proc ps k) < acc.2
      · simp only [he, hk, and_self, if_true]
        refine ⟨by omega, by simp, ?_, ?_⟩
        · intro j hj hej
          rcases Nat.lt_succ_iff_lt_or_eq.mp hj with h | h
          · have := h3 j h hej; omega
          · subst h; exact le_refl _
        · intro i hi
          simp only [Option.some.injEq] at hi
          subst hi
          refine ⟨Nat.lt_succ_self _, he, rfl, by omega, ?_⟩
          intro j hj hej
          have := h3 j hj hej; omega
      · simp only [he, hk, and_self, if_true, if_false]
        refine ⟨h1, h2, ?_, ?_⟩
        · intro j hj hej
          rcases Nat.lt_succ_iff_lt_or_eq.mp hj with h | h
          · exact h3 j h hej
          · subst h; omega
        · intro i hi
          obtain ⟨a, b, c, d, e⟩ := h4 i hi
          exact ⟨Nat.lt_succ_of_lt a, b, c, d, e⟩
    · simp only [he, if_false]
      refine ⟨h1, h2, ?_, ?_⟩
      · intro j hj hej
        rcases Nat.lt_succ_iff_lt_or_eq.mp hj with h | h
        · exact h3 j h hej
        · subst h; exact absurd hej he
      · intro i hi
        obtain ⟨a, b, c, d, e⟩ := h4 i hi
        exact ⟨Nat.lt_succ_of_lt a, b, c, d, e⟩

theorem select_min_some (key : Process → Int) (ps : List Process) (dn : List Bool)
    (ct : Int) (i : Nat) (h : select_min key ps dn ct = some i) :
    i < ps.length ∧ eligible ps dn ct i ∧ key (proc ps i) < INT_MAX ∧
    (∀ j, j < ps.length → eligible ps dn ct j → key (proc ps i) ≤ key (proc ps j)) ∧
    (∀ j, j < i → eligible ps dn ct j → key (proc ps i) < key (proc ps j)) := by
  obtain ⟨_, _, h3, h4⟩ := select_fold_invariant key ps dn ct ps.length
  obtain ⟨a, b, c, d, e⟩ := h4 i h
  refine ⟨a, b, d, ?_, e⟩
  intro j hj hej
  have := h3 j hj hej
  omega

theorem select_min_none (key : Process → Int) (ps : List Process) (dn : List Bool)
    (ct : Int) (h : select_min key ps dn ct = none) :
    ∀ j, j < ps.length → eligible ps dn ct j → INT_MAX ≤ key (proc ps j) := by
  obtain ⟨_, h2, h3, _⟩ := select_fold_invariant key ps dn ct ps.length
  intro j hj hej
  have := h3 j hj hej
  have h2' := h2 h
  omega

/-! ### The non-preemptive loop body -/

theorem batch_body_some (key : Process → Int) (st : SelState) (i : Nat)
    (h : select_min key st.sim.processes st.is_completed st.sim.current_time = some i) :
    batch_body key st =
      SelState.mk
        (Sim.mk
          (updateAt st.sim.processes i (fun q =>
            { q with
              start_time := st.sim.current_time
              completion_time := st.sim.current_time + (proc st.sim.processes i).burst_time }))
          (st.sim.gantt_chart ++ [mkBlock (proc st.sim.processes i) st.sim.current_time
            (st.sim.current_time + (proc st.sim.processes i).burst_time)])
          st.sim.time_quantum
          (st.sim.current_time + (proc st.sim.processes i).burst_time))
        (st.completed + 1)
        (updateAt st.is_completed i (fun _ => true)) := by
  simp [batch_body, h]

theorem batch_body_none (key : Process → Int) (st : SelState)
    (h : select_min key st.sim.processes st.is_completed st.sim.current_time = none) :
    batch_body key st =
      SelState.mk
        (Sim.mk st.sim.processes st.sim.gantt_chart st.sim.time_quantum (st.sim.current_time + 1))
        st.completed st.is_completed := by
  simp [batch_body, h]

theorem batch_body_lengths (key : Process → Int) (st : SelState) :
    (batch_body key st).sim.processes.length = st.sim.processes.length ∧
    (batch_body key st).is_completed.length = st.is_completed.length := by
  cases h : select_min key st.sim.processes st.is_completed st.sim.current_time with
  | none => rw [batch_body_none key st h]; exact ⟨rfl, rfl⟩
  | some i => rw [batch_body_some key st i h]; simp [length_updateAt]

theorem batch_iterate_lengths (key : Process → Int) (st : SelState) (m : Nat) :
    ((batch_body key)^[m] st).sim.processes.length = st.sim.processes.length ∧
    ((batch_body key)^[m] st).is_completed.length = st.is_completed.length := by
  induction m generalizing st with
  | zero => exact ⟨rfl, rfl⟩
  | succ m ih =>
    rw [Function.iterate_succ_apply]
    obtain ⟨a, b⟩ := ih (batch_body key st)
    obtain ⟨c, d⟩ := batch_body_lengths key st
    exact ⟨a.trans c, b.trans d⟩

theorem sel_init_lengths (s : Sim) :
    (sel_init s).is_completed.length = (sel_init s).sim.processes.length := by
  simp [sel_init]

theorem batch_body_flag_mono (key : Process → Int) (st : SelState) (j : Nat)
    (h : flag st.is_completed j = true) : flag (batch_body key st).is_completed j = true := by
  cases hs : select_min key st.sim.processes st.is_completed st.sim.current_time with
  | none => rw [batch_body_none key st hs]; exact h
  | some i =>
    rw [batch_body_some key st i hs]
    simp only [flag_updateAt]
    split <;> simp [h]

theorem batch_iterate_flag_mono (key : Process → Int) (st : SelState) (j m : Nat)
    (h : flag st.is_completed j = true) :
    flag ((batch_body key)^[m] st).is_completed j = true := by
  induction m generalizing st with
  | zero => exact h
  | succ m ih =>
    rw [Function.iterate_succ_apply]
    exact ih _ (batch_body_flag_mono key st j h)

theorem select_min_ne_of_flag (key : Process → Int) (ps : List Process) (dn : List Bool)
    (ct : Int) (i : Nat) (h : flag dn i = true) : select_min key ps dn ct ≠ some i := by
  intro hs
  have := (select_min_some key ps dn ct i hs).2.1.1
  rw [h] at this
  exact Bool.noConfusion this

theorem proc_default_of_le (ps : List Process) (j : Nat) (h : ps.length ≤ j) :
    proc ps j = default := by
  simp [proc, List.getD_eq_getElem?_getD, List.getElem?_eq_none h]

theorem proc_mem (ps : List Process) (j : Nat) (h : j < ps.length) : proc ps j ∈ ps := by
  simp only [proc, List.getD_eq_getElem?_getD, List.getElem?_eq_getElem h, Option.getD_some]
  exact List.getElem_mem h

theorem burst_nonneg_of_pos (ps : List Process) (h : ∀ p ∈ ps, 0 < p.burst_time) (j : Nat) :
    0 ≤ (proc ps j).burst_time := by
  by_cases hj : j < ps.length
  · exact le_of_lt (h _ (proc_mem ps j hj))
  · rw [proc_default_of_le ps j (Nat.le_of_not_lt hj)]; decide

theorem batch_body_burst (key : Process → Int) (st : SelState) (j : Nat) :
    (proc (batch_body key st).sim.processes j).burst_time =
      (proc st.sim.processes j).burst_time := by
  cases hs : select_min key st.sim.processes st.is_completed st.sim.current_time with
  | none => rw [batch_body_none key st hs]
  | some i =>
    rw [batch_body_some key st i hs]
    simp only [proc_updateAt]
    split <;> rfl

theorem batch_body_gantt (key : Process → Int) (st : SelState)
    (hb : ∀ j, 0 ≤ (proc st.sim.processes j).burst_time) :
    st.sim.current_time ≤ (batch_body key st).sim.current_time ∧
    ∃ ext, (batch_body key st).sim.gantt_chart = st.sim.gantt_chart ++ ext ∧
      ∀ b ∈ ext, st.sim.current_time ≤ b.start_time := by
  cases hs : select_min key st.sim.processes st.is_completed st.sim.current_time with
  | none =>
    rw [batch_body_none key st hs]
    exact ⟨by simp, [], by simp, by simp⟩
  | some i =>
    rw [batch_body_some key st i hs]
    refine ⟨by have := hb i; simp only; omega, [_], rfl, ?_⟩
    intro b hbm
    simp only [List.mem_singleton] at hbm
    rw [hbm]; simp [mkBlock]

theorem batch_iterate_gantt (key : Process → Int) (st : SelState) (m : Nat)
    (hb : ∀ j, 0 ≤ (proc st.sim.processes j).burst_time) :
    st.sim.current_time ≤ ((batch_body key)^[m] st).sim.current_time ∧
    ∃ ext, ((batch_body key)^[m] st).sim.gantt_chart = st.sim.gantt_chart ++ ext ∧
      ∀ b ∈ ext, st.sim.current_time ≤ b.start_time := by
  induction m generalizing st with
  | zero => exact ⟨le_refl _, [], by simp, by simp⟩
  | succ m ih =>
    rw [Function.iterate_succ_apply]
    obtain ⟨h1, e1, h2, h3⟩ := batch_body_gantt key st hb
    obtain ⟨h4, e2, h5, h6⟩ := ih (batch_body key st)
      (fun j => by rw [batch_body_burst]; exact hb j)
    refine ⟨le_trans h1 h4, e1 ++ e2, by rw [h5, h2, List.append_assoc], ?_⟩
    intro b hbm
    rcases List.mem_append.mp hbm with h | h
    · exact h3 b h
    · exact le_trans h1 (h6 b h)

theorem batch_iterate_burst (key : Process → Int) (st : SelState) (m j : Nat) :
    (proc ((batch_body key)^[m] st).sim.processes j).burst_time =
      (proc st.sim.processes j).burst_time := by
  induction m generalizing st with
  | zero => rfl
  | succ m ih => rw [Function.iterate_succ_apply, ih, batch_body_burst]

theorem updateAt_updateAt {α : Type} (l : List α) (i : Nat) (f g : α → α) :
    updateAt (updateAt l i f) i g = updateAt l i (fun x => g (f x)) := by
  induction l generalizing i with
  | nil => rfl
  | cons x xs ih => cases i <;> simp [updateAt, ih]

theorem gantt_tick_congr (g : List GanttBlock) (p q : Process) (ct : Int)
    (h1 : p.name = q.name) (h2 : p.color = q.color) : gantt_tick g p ct = gantt_tick g q ct := by
  simp [gantt_tick, mkBlock, h1, h2]

theorem tick_body_none (key : Process → Int) (st : SelState)
    (h : select_min key st.sim.processes st.is_completed st.sim.current_time = none) :
    tick_body key st =
      SelState.mk
        (Sim.mk st.sim.processes st.sim.gantt_chart st.sim.time_quantum (st.sim.current_time + 1))
        st.completed st.is_completed := by
  simp [tick_body, h]

theorem updateAt_congr {α : Type} (l : List α) (i : Nat) (f g : α → α)
    (h : ∀ x, l[i]? = some x → f x = g x) : updateAt l i f = updateAt l i g := by
  induction l generalizing i with
  | nil => rfl
  | cons x xs ih =>
    cases i with
    | zero => simp [updateAt, h x (by simp)]
    | succ i =>
      simp only [updateAt]
      rw [ih i (fun y hy => h y (by simpa using hy))]

theorem proc_eq_of_getElem? (ps : List Process) (i : Nat) (x : Process) (h : ps[i]? = some x) :
    proc ps i = x := by
  simp [proc, List.getD_eq_getElem?_getD, h]

theorem tick_body_some (key : Process → Int) (st : SelState) (i : Nat)
    (h : select_min key st.sim.processes st.is_completed st.sim.current_time = some i) :
    tick_body key st =
      SelState.mk
        (Sim.mk (updateAt st.sim.processes i (tick_cell st.sim.current_time))
          (gantt_tick st.sim.gantt_chart (proc st.sim.processes i) st.sim.current_time)
          st.sim.time_quantum (st.sim.current_time + 1))
        (if (proc st.sim.processes i).remaining_time - 1 = 0 then st.completed + 1
          else st.completed)
        (if (proc st.sim.processes i).remaining_time - 1 = 0 then
          updateAt st.is_completed i (fun _ => true) else st.is_completed) := by
  have hi := (select_min_some key _ _ _ i h).1
  have hrem : ∀ x : Process, (run_for 1 (set_start st.sim.current_time x)).remaining_time =
      x.remaining_time - 1 := by
    intro x; unfold run_for set_start; split <;> rfl
  have hname : ∀ x : Process, (run_for 1 (set_start st.sim.current_time x)).name = x.name ∧
      (run_for 1 (set_start st.sim.current_time x)).color = x.color := by
    intro x; unfold run_for set_start; split <;> exact ⟨rfl, rfl⟩
  have hg : gantt_tick st.sim.gantt_chart
      (run_for 1 (set_start st.sim.current_time (proc st.sim.processes i))) st.sim.current_time =
      gantt_tick st.sim.gantt_chart (proc st.sim.processes i) st.sim.current_time :=
    gantt_tick_congr _ _ _ _ (hname _).1 (hname _).2
  simp only [tick_body, h, updateAt_updateAt, proc_updateAt, hi, and_self, if_true, hrem, hg]
  by_cases hr : (proc st.sim.processes i).remaining_time - 1 = 0
  · simp only [hr, if_true]
    congr 2
    apply updateAt_congr
    intro x hx
    have := proc_eq_of_getElem? _ _ _ hx
    simp only [tick_cell, hrem, ← this, hr, if_true]
  · simp only [hr, if_false]
    congr 2
    apply updateAt_congr
    intro x hx
    have := proc_eq_of_getElem? _ _ _ hx
    simp only [tick_cell, hrem, ← this, hr, if_false]

theorem tick_cell_fields (ct : Int) (x : Process) :
    same_static (tick_cell ct x) x ∧
    (tick_cell ct x).remaining_time = x.remaining_time - 1 ∧
    (tick_cell ct x).start_time = (if x.start_time = -1 then ct else x.start_time) ∧
    (tick_cell ct x).completion_time =
      (if x.remaining_time - 1 = 0 then ct + 1 else x.completion_time) := by
  unfold tick_cell run_for set_start set_completion same_static
  by_cases h1 : x.start_time = -1 <;> by_cases h2 : x.remaining_time - 1 = 0 <;>
    simp [h1, h2]

theorem tick_body_lengths (key : Process → Int) (st : SelState) :
    (tick_body key st).sim.processes.length = st.sim.processes.length ∧
    (tick_body key st).is_completed.length = st.is_completed.length := by
  cases h : select_min key st.sim.processes st.is_completed st.sim.current_time with
  | none => rw [tick_body_none key st h]; exact ⟨rfl, rfl⟩
  | some i =>
    rw [tick_body_some key st i h]
    refine ⟨by simp [length_updateAt], ?_⟩
    simp only
    split <;> simp [length_updateAt]

theorem tick_body_static (key : Process → Int) (st : SelState) (j : Nat) :
    same_static (proc (tick_body key st).sim.processes j) (proc st.sim.processes j) := by
  cases h : select_min key st.sim.processes st.is_completed st.sim.current_time with
  | none => rw [tick_body_none key st h]; simp [same_static]
  | some i =>
    rw [tick_body_some key st i h]
    simp only [proc_updateAt]
    split
    · exact (tick_cell_fields _ _).1
    · simp [same_static]

theorem tick_body_inv (key : Process → Int) (st : SelState) (hinv : tick_inv st) :
    tick_inv (tick_body key st) := by
  obtain ⟨hl, hj⟩ := hinv
  cases h : select_min key st.sim.processes st.is_completed st.sim.current_time with
  | none => rw [tick_body_none key st h]; exact ⟨hl, hj⟩
  | some i =>
    obtain ⟨hi, he, _⟩ := select_min_some key _ _ _ i h
    obtain ⟨hi0, hi1⟩ := hj i hi
    have hpos : 0 < (proc st.sim.processes i).remaining_time := by
      rcases lt_or_eq_of_le hi0 with h1 | h1
      · exact h1
      · have := hi1.mpr h1.symm
        rw [he.1] at this; exact Bool.noConfusion this
    rw [tick_body_some key st i h]
    refine ⟨?_, ?_⟩
    · simp only [length_updateAt]; split <;> simp [length_updateAt, hl]
    · intro j hjl
      simp only [length_updateAt] at hjl
      obtain ⟨hj0, hj1⟩ := hj j hjl
      simp only [proc_updateAt]
      by_cases hji : j = i
      · subst hji
        simp only [hi, and_self, if_true, (tick_cell_fields _ _).2.1]
        refine ⟨by omega, ?_⟩
        by_cases hr : (proc st.sim.processes j).remaining_time - 1 = 0
        · simp only [hr, if_true, flag_updateAt, hl, hi, and_self]
        · simp only [hr, if_false, he.1]; simp
      · simp only [hji, false_and, if_false]
        refine ⟨hj0, ?_⟩
        split
        · simp only [flag_updateAt, hji, false_and, if_false]; exact hj1
        · exact hj1

theorem tick_init_inv (s : Sim) (hv : ∀ p ∈ s.processes, 0 < p.burst_time) :
    tick_inv (tick_init s) := by
  refine ⟨by simp [tick_init, sel_init], ?_⟩
  intro j hj
  simp only [tick_init, sel_init, List.length_map] at hj ⊢
  have hp : proc (s.processes.map reset_remaining) j = reset_remaining (proc s.processes j) := by
    simp [proc, List.getD_eq_getElem?_getD, List.getElem?_map, List.getElem?_eq_getElem hj]
  have hb := hv _ (proc_mem s.processes j hj)
  rw [hp]
  simp only [reset_remaining, flag, List.getD_eq_getElem?_getD]
  refine ⟨le_of_lt hb, ?_⟩
  simp [List.getElem?_replicate, hj]
  omega

theorem same_static_trans {p q r : Process} (h1 : same_static p q) (h2 : same_static q r) :
    same_static p r := by
  unfold same_static at *
  obtain ⟨a1, a2, a3, a4, a5, a6⟩ := h1
  obtain ⟨b1, b2, b3, b4, b5, b6⟩ := h2
  exact ⟨a1.trans b1, a2.trans b2, a3.trans b3, a4.trans b4, a5.trans b5, a6.trans b6⟩

theorem tick_iterate_static (key : Process → Int) (st : SelState) (k j : Nat) :
    same_static (proc ((tick_body key)^[k] st).sim.processes j) (proc st.sim.processes j) := by
  induction k generalizing st with
  | zero => simp [same_static]
  | succ k ih =>
    rw [Function.iterate_succ_apply]
    exact same_static_trans (ih _) (tick_body_static key st j)

theorem tick_iterate_lengths (key : Process → Int) (st : SelState) (k : Nat) :
    ((tick_body key)^[k] st).sim.processes.length = st.sim.processes.length := by
  induction k generalizing st with
  | zero => rfl
  | succ k ih => rw [Function.iterate_succ_apply, ih, (tick_body_lengths key st).1]

theorem gantt_tick_last (g : List GanttBlock) (p : Process) (ct : Int) :
    ∃ b, (gantt_tick g p ct).getLast? = some b ∧ b.process_name = p.name ∧
      b.end_time = ct + 1 := by
  unfold gantt_tick
  cases hl : g.getLast? with
  | none => exact ⟨mkBlock p ct (ct + 1), by simp, rfl, rfl⟩
  | some last =>
    by_cases hn : last.process_name ≠ p.name
    · simp only [hn, ne_eq, not_false_eq_true, if_true]
      exact ⟨mkBlock p ct (ct + 1), by simp, rfl, rfl⟩
    · simp only [hn, if_false]
      exact ⟨{ last with end_time := ct + 1 }, by simp, by simpa using hn, rfl⟩

theorem tick_inv_eligible (st : SelState) (hinv : tick_inv st) (j : Nat)
    (hj : j < st.sim.processes.length) :
    eligible st.sim.processes st.is_completed st.sim.current_time j ↔
      ((proc st.sim.processes j).arrival_time ≤ st.sim.current_time ∧
        0 < (proc st.sim.processes j).remaining_time) := by
  obtain ⟨h0, h1⟩ := hinv.2 j hj
  unfold eligible
  constructor
  · rintro ⟨a, b⟩
    refine ⟨b, ?_⟩
    rcases lt_or_eq_of_le h0 with h | h
    · exact h
    · have := h1.mpr h.symm
      rw [a] at this; exact Bool.noConfusion this
  · rintro ⟨a, b⟩
    refine ⟨?_, a⟩
    cases hf : flag st.is_completed j with
    | false => rfl
    | true => have := h1.mp hf; omega

theorem proc_map_reset_remaining (ps : List Process) (j : Nat) (hj : j < ps.length) :
    proc (ps.map reset_remaining) j = reset_remaining (proc ps j) := by
  simp [proc, List.getD_eq_getElem?_getD, List.getElem?_map, List.getElem?_eq_getElem hj]

theorem flag_of_le (bs : List Bool) (j : Nat) (h : bs.length ≤ j) : flag bs j = false := by
  simp [flag, List.getD_eq_getElem?_getD, List.getElem?_eq_none h]

theorem rr_test_congr (init : Bool) (ps : List Process) (ct : Int) (a b : List Bool) (i : Nat)
    (h : flag a i = flag b i) : rr_test init ps ct a i = rr_test init ps ct b i := by
  simp [rr_test, h]

theorem rr_enqueue_fold (init : Bool) (ps : List Process) (ct : Int) (q : List Nat)
    (iq : List Bool) (k : Nat) :
    ((List.range k).foldl (rr_enqueue_step init ps ct) (q, iq)).1 =
        q ++ (List.range k).filter (fun i => rr_test init ps ct iq i) ∧
    ((List.range k).foldl (rr_enqueue_step init ps ct) (q, iq)).2.length = iq.length ∧
    ∀ j, flag ((List.range k).foldl (rr_enqueue_step init ps ct) (q, iq)).2 j =
      (flag iq j || (decide (j < k) && decide (j < iq.length) && rr_test init ps ct iq j)) := by
  induction k with
  | zero => simp
  | succ k ih =>
    obtain ⟨h1, h2, h3⟩ := ih
    simp only [List.range_succ, List.foldl_append, List.foldl_cons, List.foldl_nil,
      List.filter_append]
    generalize (List.range k).foldl (rr_enqueue_step init ps ct) (q, iq) = acc at *
    have ht : rr_test init ps ct acc.2 k = rr_test init ps ct iq k := by
      apply rr_test_congr
      rw [h3 k]; simp
    unfold rr_enqueue_step
    rw [ht]
    cases hk : rr_test init ps ct iq k with
    | true =>
      simp only [if_true, length_updateAt, h2, true_and]
      refine ⟨by simp [h1, List.filter_cons, hk], ?_⟩
      intro j
      rw [flag_updateAt, h2]
      by_cases hjk : j = k
      · subst hjk
        by_cases hl : j < iq.length
        · simp [hl, hk]
        · simp [hl, h3 j]
      · have : (j < k + 1) = (j < k) := by
          apply propext; constructor <;> intro h <;> omega
        simp only [hjk, false_and, if_false, h3 j, this]
    | false =>
      simp only [Bool.false_eq_true, if_false, h2, true_and]
      refine ⟨by simp [h1, List.filter_cons, hk], ?_⟩
      intro j
      rw [h3 j]
      by_cases hjk : j = k
      · subst hjk
        simp [hk]
      · have : (j < k + 1) = (j < k) := by
          apply propext; constructor <;> intro h <;> omega
        simp only [this]

theorem rr_enqueue_spec (init : Bool) (ps : List Process) (ct : Int) (q : List Nat)
    (iq : List Bool) (hlen : iq.length = ps.length) :
    (rr_enqueue init ps ct (q, iq)).1 =
        q ++ (List.range ps.length).filter (fun i => rr_test init ps ct iq i) ∧
    (rr_enqueue init ps ct (q, iq)).2.length = ps.length ∧
    ∀ j, j < ps.length → flag (rr_enqueue init ps ct (q, iq)).2 j =
      (flag iq j || rr_test init ps ct iq j) := by
  obtain ⟨h1, h2, h3⟩ := rr_enqueue_fold init ps ct q iq ps.length
  refine ⟨h1, by rw [rr_enqueue, h2, hlen], ?_⟩
  intro j hj
  rw [rr_enqueue, h3 j]
  simp [hj, hlen]

theorem drop_eq_cons {α : Type} (l : List α) (k : Nat) (a : α) (r : List α) (d : α)
    (h : l.drop k = a :: r) : k < l.length ∧ l.getD k d = a ∧ l.drop (k + 1) = r := by
  have hk : k < l.length := by
    by_contra hc
    rw [List.drop_eq_nil_of_le (Nat.le_of_not_lt hc)] at h
    exact List.noConfusion h
  have h2 := List.drop_eq_getElem_cons hk
  rw [h] at h2
  injection h2 with h3 h4
  refine ⟨hk, ?_, h4.symm⟩
  simp [List.getD_eq_getElem?_getD, List.getElem?_eq_getElem hk, h3]

theorem set_start_fields (ct : Int) (x : Process) :
    (set_start ct x).remaining_time = x.remaining_time ∧ (set_start ct x).name = x.name ∧
    (set_start ct x).color = x.color := by
  unfold set_start; split <;> exact ⟨rfl, rfl, rfl⟩

theorem rr_body_dispatch (st : RRState) (i : Nat) (rest : List Nat)
    (hL : st.live = i :: rest) (hi : i < st.sim.processes.length) :
    rr_body st =
      RRState.mk
        (Sim.mk (updateAt st.sim.processes i (rr_cell st.sim.current_time st.sim.time_quantum))
          (st.sim.gantt_chart ++ [mkBlock (proc st.sim.processes i) st.sim.current_time
            (st.sim.current_time + rr_exec st.sim.time_quantum (proc st.sim.processes i))])
          st.sim.time_quantum
          (st.sim.current_time + rr_exec st.sim.time_quantum (proc st.sim.processes i)))
        (if (proc st.sim.processes i).remaining_time -
            rr_exec st.sim.time_quantum (proc st.sim.processes i) = 0
          then st.completed + 1 else st.completed)
        ((rr_enqueue false
            (updateAt st.sim.processes i (rr_slice st.sim.current_time st.sim.time_quantum))
            (st.sim.current_time + rr_exec st.sim.time_quantum (proc st.sim.processes i))
            (st.queue, st.in_queue)).1 ++
          (if (proc st.sim.processes i).remaining_time -
              rr_exec st.sim.time_quantum (proc st.sim.processes i) = 0 then [] else [i]))
        (st.front + 1)
        (if (proc st.sim.processes i).remaining_time -
            rr_exec st.sim.time_quantum (proc st.sim.processes i) = 0
          then updateAt (rr_enqueue false
            (updateAt st.sim.processes i (rr_slice st.sim.current_time st.sim.time_quantum))
            (st.sim.current_time + rr_exec st.sim.time_quantum (proc st.sim.processes i))
            (st.queue, st.in_queue)).2 i (fun _ => false)
          else (rr_enqueue false
            (updateAt st.sim.processes i (rr_slice st.sim.current_time st.sim.time_quantum))
            (st.sim.current_time + rr_exec st.sim.time_quantum (proc st.sim.processes i))
            (st.queue, st.in_queue)).2) := by
  obtain ⟨hk, hget, _⟩ := drop_eq_cons st.queue st.front i rest 0 hL
  have hne : ¬ st.front = st.rear := by
    simp only [RRState.rear]; omega
  obtain ⟨s1, s2, s3⟩ := set_start_fields st.sim.current_time (proc st.sim.processes i)
  have hexec : (if (set_start st.sim.current_time (proc st.sim.processes i)).remaining_time <
        st.sim.time_quantum
      then (set_start st.sim.current_time (proc st.sim.processes i)).remaining_time
      else st.sim.time_quantum) = rr_exec st.sim.time_quantum (proc st.sim.processes i) := by
    simp only [rr_exec, s1]
  have hps2 : updateAt st.sim.processes i (fun x =>
        run_for (rr_exec st.sim.time_quantum (proc st.sim.processes i))
          (set_start st.sim.current_time x)) =
      updateAt st.sim.processes i (rr_slice st.sim.current_time st.sim.time_quantum) := by
    apply updateAt_congr
    intro x hx
    rw [proc_eq_of_getElem? _ _ _ hx]; rfl
  have hrem : (rr_slice st.sim.current_time st.sim.time_quantum
        (proc st.sim.processes i)).remaining_time =
      (proc st.sim.processes i).remaining_time -
        rr_exec st.sim.time_quantum (proc st.sim.processes i) := by
    simp only [rr_slice, run_for, s1]
  have hblock : mkBlock (set_start st.sim.current_time (proc st.sim.processes i))
        st.sim.current_time
        (st.sim.current_time + rr_exec st.sim.time_quantum (proc st.sim.processes i)) =
      mkBlock (proc st.sim.processes i) st.sim.current_time
        (st.sim.current_time + rr_exec st.sim.time_quantum (proc st.sim.processes i)) := by
    simp only [mkBlock, s2, s3]
  simp only [rr_body, hne, if_false, hget, proc_updateAt, hi, and_self, if_true, hexec,
    updateAt_updateAt, hps2, hrem, hblock]
  by_cases hr : (proc st.sim.processes i).remaining_time -
      rr_exec st.sim.time_quantum (proc st.sim.processes i) = 0
  · simp only [hr, if_true, List.append_nil]
    congr 2
    apply updateAt_congr
    intro x hx
    have hx' := proc_eq_of_getElem? _ _ _ hx
    have : (rr_slice st.sim.current_time st.sim.time_quantum x).remaining_time = 0 := by
      rw [← hx', hrem, hr]
    simp only [rr_cell, this, if_true, hx']
  · simp only [hr, if_false]
    congr 2
    apply updateAt_congr
    intro x hx
    have hx' := proc_eq_of_getElem? _ _ _ hx
    have : ¬ (rr_slice st.sim.current_time st.sim.time_quantum x).remaining_time = 0 := by
      rw [← hx', hrem]; exact hr
    simp only [rr_cell, this, if_false]

/-! ### The generic loop -/

theorem while_loop_step {σ : Type} (cond : σ → Bool) (body : σ → σ) (fuel : Nat) (s : σ)
    (h : cond s = true) :
    while_loop cond body (fuel + 1) s = while_loop cond body fuel (body s) := by
  simp [while_loop, h]

theorem while_loop_done {σ : Type} (cond : σ → Bool) (body : σ → σ) (fuel : Nat) (s : σ)
    (h : cond s = false) : while_loop cond body fuel s = some s := by
  cases fuel <;> simp [while_loop, h]

theorem while_loop_mono {σ : Type} (cond : σ → Bool) (body : σ → σ) (fuel k : Nat) (s r : σ)
    (h : while_loop cond body fuel s = some r) : while_loop cond body (fuel + k) s = some r := by
  induction fuel generalizing s with
  | zero =>
    cases hc : cond s with
    | true => simp [while_loop, hc] at h
    | false =>
      rw [while_loop_done cond body 0 s hc] at h
      rw [while_loop_done cond body _ s hc]; exact h
  | succ fuel ih =>
    cases hc : cond s with
    | true =>
      rw [while_loop_step cond body fuel s hc] at h
      rw [Nat.add_right_comm, while_loop_step cond body _ s hc]
      exact ih _ h
    | false =>
      rw [while_loop_done cond body _ s hc] at h
      rw [while_loop_done cond body _ s hc]; exact h

theorem while_loop_inv {σ : Type} (cond : σ → Bool) (body : σ → σ) (Inv : σ → Prop)
    (hpres : ∀ s, Inv s → cond s = true → Inv (body s)) (fuel : Nat) (s r : σ)
    (hs : Inv s) (h : while_loop cond body fuel s = some r) : Inv r ∧ cond r = false := by
  induction fuel generalizing s with
  | zero =>
    cases hc : cond s with
    | true => simp [while_loop, hc] at h
    | false =>
      rw [while_loop_done cond body 0 s hc] at h
      injection h with h; subst h; exact ⟨hs, hc⟩
  | succ fuel ih =>
    cases hc : cond s with
    | true =>
      rw [while_loop_step cond body fuel s hc] at h
      exact ih _ (hpres s hs hc) h
    | false =>
      rw [while_loop_done cond body _ s hc] at h
      injection h with h; subst h; exact ⟨hs, hc⟩

theorem while_loop_term {σ : Type} (cond : σ → Bool) (body : σ → σ) (Inv : σ → Prop)
    (μ : σ → Nat) (hpres : ∀ s, Inv s → cond s = true → Inv (body s))
    (hdec : ∀ s, Inv s → cond s = true → μ (body s) < μ s) (fuel : Nat) (s : σ)
    (hs : Inv s) (hf : μ s ≤ fuel) : ∃ r, while_loop cond body fuel s = some r := by
  induction fuel generalizing s with
  | zero =>
    cases hc : cond s with
    | true => have := hdec s hs hc; omega
    | false => exact ⟨s, while_loop_done cond body 0 s hc⟩
  | succ fuel ih =>
    cases hc : cond s with
    | true =>
      rw [while_loop_step cond body fuel s hc]
      have := hdec s hs hc
      exact ih _ (hpres s hs hc) (by omega)
    | false => exact ⟨s, while_loop_done cond body _ s hc⟩

theorem rr_exec_eq_min (q : Int) (x : Process) : rr_exec q x = min x.remaining_time q := by
  unfold rr_exec; rw [min_def]; split <;> split <;> omega

theorem rr_cell_fields (ct q : Int) (x : Process) :
    same_static (rr_cell ct q x) x ∧
    (rr_cell ct q x).remaining_time = x.remaining_time - rr_exec q x ∧
    (rr_cell ct q x).start_time = (if x.start_time = -1 then ct else x.start_time) ∧
    (rr_cell ct q x).completion_time =
      (if x.remaining_time - rr_exec q x = 0 then ct + rr_exec q x else x.completion_time) := by
  have h0 : (rr_slice ct q x).remaining_time = x.remaining_time - rr_exec q x := by
    simp only [rr_slice, run_for, (set_start_fields ct x).1]
  unfold rr_cell
  rw [h0]
  unfold rr_slice run_for set_start set_completion same_static
  by_cases h1 : x.start_time = -1 <;> by_cases h2 : x.remaining_time - rr_exec q x = 0 <;>
    simp [h1, h2]

theorem rr_slice_fields (ct q : Int) (x : Process) :
    (rr_slice ct q x).remaining_time = x.remaining_time - rr_exec q x ∧
    (rr_slice ct q x).arrival_time = x.arrival_time := by
  unfold rr_slice run_for set_start
  by_cases h1 : x.start_time = -1 <;> simp [h1]

/-- On a state satisfying the zero-arrival invariant the enqueue loop after a
slice adds nothing. -/
theorem rr_zero_no_enqueue (st : RRState) (hz : rr_zero_inv st) (i : Nat)
    (hi : i < st.sim.processes.length)
    (hri : 0 < (proc st.sim.processes i).remaining_time) (ct : Int) :
    (List.range st.sim.processes.length).filter
      (fun j => rr_test false
        (updateAt st.sim.processes i (rr_slice st.sim.current_time st.sim.time_quantum)) ct
        st.in_queue j) = [] := by
  rw [List.filter_eq_nil_iff]
  intro j hj
  have hjl : j < st.sim.processes.length := List.mem_range.mp hj
  obtain ⟨_, _, _, _, hfl⟩ := hz
  simp only [rr_test, Bool.false_eq_true, if_false, Bool.and_eq_true, decide_eq_true_eq,
    Bool.not_eq_true', not_and]
  intro ⟨_, hf⟩ hrem
  rw [proc_updateAt] at hrem
  by_cases hji : j = i
  · subst hji
    exact absurd ((hfl j hjl).2 hri) (by rw [hf]; exact Bool.noConfusion)
  · simp only [hji, false_and, if_false] at hrem
    exact absurd ((hfl j hjl).2 hrem) (by rw [hf]; exact Bool.noConfusion)

theorem rr_pos_head (st : RRState) (k : Nat) (hk : k < st.sim.processes.length)
    (hp : rr_pos st k) (hrk : 0 < (proc st.sim.processes k).remaining_time) :
    st.live = k :: ((List.range' (k + 1) (st.sim.processes.length - (k + 1))).filter
        (rr_unf st.sim.processes) ++ (List.range k).filter (rr_unf st.sim.processes)) := by
  rw [hp]
  have : st.sim.processes.length - k = (st.sim.processes.length - (k + 1)) + 1 := by omega
  rw [this, List.range'_succ, List.filter_cons]
  simp [rr_unf, hrk]

theorem rr_pos_skip (st : RRState) (k : Nat) (hk : k < st.sim.processes.length)
    (hp : rr_pos st k) (hrk : ¬ 0 < (proc st.sim.processes k).remaining_time) :
    rr_pos st (k + 1) := by
  unfold rr_pos at *
  rw [hp]
  have : st.sim.processes.length - k = (st.sim.processes.length - (k + 1)) + 1 := by omega
  rw [this, List.range'_succ, List.filter_cons, List.range_succ, List.filter_append]
  simp [rr_unf, hrk]

theorem filter_unf_congr (ps ps2 : List Process) (k : Nat) (l : List Nat) (hl : k ∉ l)
    (h : ∀ j, j ≠ k → proc ps2 j = proc ps j) :
    l.filter (rr_unf ps2) = l.filter (rr_unf ps) := by
  apply List.filter_congr
  intro j hj
  have : j ≠ k := fun hjk => hl (hjk ▸ hj)
  simp only [rr_unf, h j this]

theorem rr_zero_step (pre : List GanttBlock) (st : RRState) (w : SweepState) (k : Nat)
    (hk : k < st.sim.processes.length) (hz : rr_zero_inv st) (hr : rr_rel pre st w)
    (hp : rr_pos st k) (hrk : 0 < (proc st.sim.processes k).remaining_time) :
    rr_cond st = true ∧
    (rr_body st).sim.processes.length = st.sim.processes.length ∧
    (rr_body st).sim.time_quantum = st.sim.time_quantum ∧
    rr_zero_inv (rr_body st) ∧
    rr_rel pre (rr_body st) (rr_sweep_visit st.sim.time_quantum w k) ∧
    rr_pos (rr_body st) (k + 1) ∧
    (∀ j, j ≠ k → proc (rr_body st).sim.processes j = proc st.sim.processes j) ∧
    (proc (rr_body st).sim.processes k).remaining_time =
      (proc st.sim.processes k).remaining_time -
        min (proc st.sim.processes k).remaining_time st.sim.time_quantum := by
  have hL := rr_pos_head st k hk hp hrk
  obtain ⟨z1, z2, z3, z4, z5⟩ := hz
  obtain ⟨r1, r2, r3, r4⟩ := hr
  obtain ⟨hfl, _, hdrop⟩ := drop_eq_cons st.queue st.front k _ 0 hL
  have hcond : rr_cond st = true := by
    simp only [rr_cond, bne_iff_ne, ne_eq]
    rw [hL] at z3
    simp only [List.length_cons] at z3
    omega
  have hlen2 : st.in_queue.length =
      (updateAt st.sim.processes k
        (rr_slice st.sim.current_time st.sim.time_quantum)).length := by
    rw [length_updateAt]; exact z1
  obtain ⟨e1, e2, e3⟩ := rr_enqueue_spec false _
    (st.sim.current_time + rr_exec st.sim.time_quantum (proc st.sim.processes k))
    st.queue st.in_queue hlen2
  rw [length_updateAt] at e1 e2 e3
  rw [rr_zero_no_enqueue st ⟨z1, z2, z3, z4, z5⟩ k hk hrk, List.append_nil] at e1
  have hbody := rr_body_dispatch st k _ hL hk
  generalize rr_enqueue false
    (updateAt st.sim.processes k (rr_slice st.sim.current_time st.sim.time_quantum))
    (st.sim.current_time + rr_exec st.sim.time_quantum (proc st.sim.processes k))
    (st.queue, st.in_queue) = enq at *
  have hmin := rr_exec_eq_min st.sim.time_quantum (proc st.sim.processes k)
  have hrem' : 0 ≤ (proc st.sim.processes k).remaining_time -
      rr_exec st.sim.time_quantum (proc st.sim.processes k) := by
    rw [hmin]; have := min_le_left (proc st.sim.processes k).remaining_time st.sim.time_quantum
    omega
  have hprocs : (rr_body st).sim.processes =
      updateAt st.sim.processes k (rr_cell st.sim.current_time st.sim.time_quantum) := by
    rw [hbody]
  have hother : ∀ j, j ≠ k → proc (rr_body st).sim.processes j = proc st.sim.processes j := by
    intro j hj
    rw [hprocs, proc_updateAt]; simp [hj]
  have hself : proc (rr_body st).sim.processes k =
      rr_cell st.sim.current_time st.sim.time_quantum (proc st.sim.processes k) := by
    rw [hprocs, proc_updateAt]; simp [hk]
  obtain ⟨c1, c2, c3, c4⟩ := rr_cell_fields st.sim.current_time st.sim.time_quantum
    (proc st.sim.processes k)
  have hlive : (rr_body st).live =
      ((List.range' (k + 1) (st.sim.processes.length - (k + 1))).filter
        (rr_unf st.sim.processes) ++ (List.range k).filter (rr_unf st.sim.processes)) ++
      (if (proc st.sim.processes k).remaining_time -
          rr_exec st.sim.time_quantum (proc st.sim.processes k) = 0 then [] else [k]) := by
    rw [hbody]
    simp only [RRState.live, e1]
    rw [List.drop_append_of_le_length (by omega)]
    rw [hdrop]
  refine ⟨hcond, by rw [hprocs, length_updateAt], by rw [hbody], ?_, ?_, ?_, hother, ?_⟩
  · -- invariant
    refine ⟨?_, ?_, ?_, by rw [hbody]; exact z4, ?_⟩
    · rw [hprocs, length_updateAt, hbody]
      split
      · rw [length_updateAt]; exact e2
      · exact e2
    · rw [hbody]; simp only [e1, List.length_append]; omega
    · rw [hprocs, length_updateAt, hlive, hbody]
      rw [hL] at z3
      simp only [List.length_cons, List.length_append] at z3
      simp only [List.length_append]
      split
      · simp only [List.length_nil]; omega
      · simp only [List.length_singleton]; omega
    · intro j hj
      rw [hprocs, length_updateAt] at hj
      by_cases hjk : j = k
      · subst hjk
        rw [hself, c2]
        refine ⟨hrem', ?_⟩
        intro hpos
        rw [hbody]
        have hne : ¬ (proc st.sim.processes j).remaining_time -
            rr_exec st.sim.time_quantum (proc st.sim.processes j) = 0 := by omega
        simp only [hne, if_false]
        rw [e3 j hj, (z5 j hj).2 hrk]; rfl
      · rw [hother j hjk]
        refine ⟨(z5 j hj).1, ?_⟩
        intro hpos
        rw [hbody]
        simp only
        split
        · rw [flag_updateAt]; simp only [hjk, false_and, if_false]
          rw [e3 j hj, (z5 j hj).2 hpos]; rfl
        · rw [e3 j hj, (z5 j hj).2 hpos]; rfl
  · -- relation with the sweep
    have hw : 0 < (proc w.table k).remaining_time := by rw [← (r4 k hk).2.2.1]; exact hrk
    have hwk : k < w.table.length := by rw [r1]; exact hk
    simp only [rr_sweep_visit, hw, if_true]
    refine ⟨by simp [length_updateAt, hprocs, r1], ?_, ?_, ?_⟩
    · rw [hbody]; simp only
      rw [r2, List.append_assoc, r3, hmin, (r4 k hk).2.2.1]
      simp [mkBlock, (r4 k hk).1, (r4 k hk).2.1]
    · rw [hbody]; simp only
      rw [r3, hmin, (r4 k hk).2.2.1]
    · intro j hj
      rw [hprocs, length_updateAt] at hj
      by_cases hjk : j = k
      · subst hjk
        rw [hself]
        simp only [proc_updateAt, hwk, and_self, if_true]
        refine ⟨by rw [c1.1, (r4 j hk).1], by rw [c1.2.2.2.2.2, (r4 j hk).2.1], ?_, ?_⟩
        · rw [c2, hmin, (r4 j hk).2.2.1]
        · intro h0
          rw [c2] at h0
          rw [c4]; simp only [h0, if_true]
          rw [r3, hmin, (r4 j hk).2.2.1]
      · rw [hother j hjk]
        simp only [proc_updateAt, hjk, false_and, if_false]
        exact r4 j hj
  · -- position
    unfold rr_pos
    rw [hlive, hprocs, length_updateAt]
    have hoth : ∀ j, j ≠ k → proc (updateAt st.sim.processes k
        (rr_cell st.sim.current_time st.sim.time_quantum)) j = proc st.sim.processes j := by
      intro j hj; rw [← hprocs]; exact hother j hj
    rw [filter_unf_congr _ _ k _ (by simp) hoth, List.range_succ, List.filter_append,
      filter_unf_congr _ _ k (List.range k) (by simp) hoth, List.append_assoc]
    congr 2
    have hk' : proc (updateAt st.sim.processes k
        (rr_cell st.sim.current_time st.sim.time_quantum)) k =
        rr_cell st.sim.current_time st.sim.time_quantum (proc st.sim.processes k) := by
      rw [← hprocs]; exact hself
    simp only [List.filter_cons, List.filter_nil, rr_unf, hk', c2]
    by_cases h0 : (proc st.sim.processes k).remaining_time -
        rr_exec st.sim.time_quantum (proc st.sim.processes k) = 0
    · simp [h0]
    · have : 0 < (proc st.sim.processes k).remaining_time -
          rr_exec st.sim.time_quantum (proc st.sim.processes k) := by omega
      simp [h0, this]
  · rw [hself, c2, hmin]

theorem rr_zero_pass (pre : List GanttBlock) (F m : Nat) :
    ∀ (k : Nat) (st : RRState) (w : SweepState), k + m = st.sim.processes.length →
      rr_zero_inv st → rr_rel pre st w → rr_pos st k →
      (∀ j, j < k → (proc st.sim.processes j).remaining_time ≤ F) →
      (∀ j, j < st.sim.processes.length → (proc st.sim.processes j).remaining_time ≤ F + 1) →
      ∃ steps st2,
        (∀ fuel, while_loop rr_cond rr_body (steps + fuel) st =
          while_loop rr_cond rr_body fuel st2) ∧
        st2.sim.processes.length = st.sim.processes.length ∧
        st2.sim.time_quantum = st.sim.time_quantum ∧
        rr_zero_inv st2 ∧
        rr_rel pre st2 ((List.range' k m).foldl (rr_sweep_visit st.sim.time_quantum) w) ∧
        rr_pos st2 (k + m) ∧
        (∀ j, j < st.sim.processes.length → (proc st2.sim.processes j).remaining_time ≤ F) := by
  induction m with
  | zero =>
    intro k st w hkm hz hr hp h1 _
    refine ⟨0, st, fun fuel => by rw [Nat.zero_add], rfl, rfl, hz, hr, hp, ?_⟩
    intro j hj
    exact h1 j (by omega)
  | succ m ih =>
    intro k st w hkm hz hr hp h1 h2
    have hk : k < st.sim.processes.length := by omega
    rw [List.range'_succ, List.foldl_cons]
    by_cases hrk : 0 < (proc st.sim.processes k).remaining_time
    · obtain ⟨s1, s2, s3, s4, s5, s6, s7, s8⟩ := rr_zero_step pre st w k hk hz hr hp hrk
      have hq := hz.2.2.2.1
      obtain ⟨steps, st2, t1, t2, t3, t4, t5, t6, t7⟩ :=
        ih (k + 1) (rr_body st) (rr_sweep_visit st.sim.time_quantum w k)
          (by rw [s2]; omega) s4 s5 s6
          (by
            intro j hj
            by_cases hjk : j = k
            · subst hjk
              rw [s8]
              have := h2 j hk
              rw [min_def]; split <;> omega
            · rw [s7 j hjk]; exact h1 j (by omega))
          (by
            intro j hj
            rw [s2] at hj
            by_cases hjk : j = k
            · subst hjk
              rw [s8]
              have := h2 j hk
              rw [min_def]; split <;> omega
            · rw [s7 j hjk]; exact h2 j hj)
      refine ⟨steps + 1, st2, ?_, t2.trans s2, t3.trans s3, t4, ?_, ?_, ?_⟩
      · intro fuel
        rw [Nat.add_right_comm, while_loop_step _ _ _ _ s1]
        exact t1 fuel
      · rw [s3] at t5; exact t5
      · rw [Nat.add_assoc, Nat.add_comm 1 m] at t6; exact t6
      · intro j hj
        exact t7 j (by rw [s2]; exact hj)
    · have hw : rr_sweep_visit st.sim.time_quantum w k = w := by
        unfold rr_sweep_visit
        rw [← (hr.2.2.2 k hk).2.2.1]
        simp [hrk]
      rw [hw]
      obtain ⟨steps, st2, t1, t2, t3, t4, t5, t6, t7⟩ :=
        ih (k + 1) st w (by omega) hz hr (rr_pos_skip st k hk hp hrk)
          (by
            intro j hj
            by_cases hjk : j = k
            · subst hjk; omega
            · exact h1 j (by omega))
          h2
      refine ⟨steps, st2, t1, t2, t3, t4, t5, ?_, t7⟩
      rw [Nat.add_assoc, Nat.add_comm 1 m] at t6; exact t6

theorem rr_zero_sweeps (pre : List GanttBlock) (F : Nat) :
    ∀ (st : RRState) (w : SweepState), rr_zero_inv st → rr_rel pre st w → rr_pos st 0 →
      (∀ j, j < st.sim.processes.length → (proc st.sim.processes j).remaining_time ≤ F) →
      ∃ steps st2, while_loop rr_cond rr_body steps st = some st2 ∧
        st2.sim.processes.length = st.sim.processes.length ∧
        rr_rel pre st2 ((rr_sweep st.sim.time_quantum)^[F] w) ∧
        (∀ j, j < st.sim.processes.length → (proc st2.sim.processes j).remaining_time = 0) := by
  induction F with
  | zero =>
    intro st w hz hr hp h
    have hall : ∀ j, j < st.sim.processes.length →
        (proc st.sim.processes j).remaining_time = 0 := by
      intro j hj
      have h1 := h j hj
      have h2 := (hz.2.2.2.2 j hj).1
      simp only [Nat.cast_zero] at h1
      omega
    have hlive : st.live = [] := by
      rw [hp]
      simp only [Nat.sub_zero, List.range_zero, List.filter_nil, List.append_nil,
        List.filter_eq_nil_iff]
      intro j hj
      have hjl : j < st.sim.processes.length := by
        have := (List.mem_range'_1.mp hj).2; omega
      simp [rr_unf, hall j hjl]
    have hc : rr_cond st = false := by
      have := hz.2.2.1
      rw [hlive] at this
      simp only [List.length_nil, Nat.add_zero] at this
      simp [rr_cond, this]
    exact ⟨0, st, while_loop_done _ _ _ _ hc, rfl, hr, hall⟩
  | succ F ih =>
    intro st w hz hr hp h
    obtain ⟨steps, st1, t1, t2, t3, t4, t5, t6, t7⟩ :=
      rr_zero_pass pre F st.sim.processes.length 0 st w (by omega) hz hr hp
        (by intro j hj; omega)
        (by intro j hj; have := h j hj; push_cast at this; exact this)
    have hp1 : rr_pos st1 0 := by
      unfold rr_pos at t6 ⊢
      rw [t6, t2]
      simp [List.range_eq_range']
    obtain ⟨steps2, st2, u1, u2, u3, u4⟩ := ih st1 _ t4 t5 hp1
      (by intro j hj; exact t7 j (by rw [← t2]; exact hj))
    refine ⟨steps + steps2, st2, ?_, u2.trans t2, ?_, ?_⟩
    · rw [t1 steps2]; exact u1
    · rw [Function.iterate_succ_apply]
      have : rr_sweep st.sim.time_quantum w =
          (List.range' 0 st.sim.processes.length).foldl (rr_sweep_visit st.sim.time_quantum) w := by
        rw [rr_sweep, hr.1, List.range_eq_range']
      rw [this]; rw [t3] at u3; exact u3
    · intro j hj
      exact u4 j (by rw [t2]; exact hj)

theorem while_loop_unique {σ : Type} (cond : σ → Bool) (body : σ → σ) (f1 f2 : Nat) (s a b : σ)
    (h1 : while_loop cond body f1 s = some a) (h2 : while_loop cond body f2 s = some b) :
    a = b := by
  have e1 := while_loop_mono cond body f1 f2 s a h1
  have e2 := while_loop_mono cond body f2 f1 s b h2
  rw [Nat.add_comm] at e2
  rw [e1] at e2
  exact Option.some.inj e2

theorem rr_init_zero (s : Sim) (hq : 0 < s.time_quantum)
    (hv : ∀ p ∈ s.processes, p.arrival_time = 0 ∧ 0 < p.burst_time) :
    (rr_init s).sim.processes = s.processes.map reset_remaining ∧
    (rr_init s).sim.time_quantum = s.time_quantum ∧
    rr_zero_inv (rr_init s) ∧ rr_pos (rr_init s) 0 ∧
    rr_rel s.gantt_chart (rr_init s)
      (SweepState.mk (s.processes.map (fun p => { p with remaining_time := p.burst_time }))
        [] 0) := by
  have hcell : ∀ j, j < s.processes.length →
      (proc (s.processes.map reset_remaining) j).arrival_time = 0 ∧
      0 < (proc (s.processes.map reset_remaining) j).remaining_time := by
    intro j hj
    rw [proc_map_reset_remaining _ _ hj]
    have := hv _ (proc_mem _ _ hj)
    exact ⟨this.1, this.2⟩
  obtain ⟨e1, e2, e3⟩ := rr_enqueue_spec true (s.processes.map reset_remaining) 0 []
    (List.replicate (s.processes.map reset_remaining).length false) (by simp)
  have hfilter : (List.range (s.processes.map reset_remaining).length).filter
      (fun i => rr_test true (s.processes.map reset_remaining) 0
        (List.replicate (s.processes.map reset_remaining).length false) i) =
      List.range s.processes.length := by
    rw [List.length_map, List.filter_eq_self]
    intro j hj
    simp [rr_test, (hcell j (List.mem_range.mp hj)).1]
  rw [hfilter, List.nil_append] at e1
  rw [List.length_map] at e2 e3
  have hlive : (rr_init s).live = List.range s.processes.length := by
    simp only [RRState.live, rr_init, List.drop_zero]; exact e1
  have hunf : ∀ j, j < s.processes.length →
      rr_unf (s.processes.map reset_remaining) j = true := by
    intro j hj
    simp [rr_unf, (hcell j hj).2]
  refine ⟨rfl, rfl, ⟨?_, Nat.zero_le _, ?_, hq, ?_⟩, ?_, ?_⟩
  · simp only [rr_init, List.length_map]; exact e2
  · rw [hlive]; simp [rr_init]
  · intro j hj
    simp only [rr_init, List.length_map] at hj ⊢
    refine ⟨le_of_lt (hcell j hj).2, fun _ => ?_⟩
    rw [e3 j hj]
    simp [rr_test, (hcell j hj).1]
  · unfold rr_pos
    rw [hlive]
    simp only [rr_init, List.length_map, Nat.sub_zero, List.range_zero, List.filter_nil,
      List.append_nil]
    rw [← List.range_eq_range', List.filter_eq_self.mpr]
    intro j hj
    exact hunf j (List.mem_range.mp hj)
  · refine ⟨by simp [rr_init], by simp [rr_init], rfl, ?_⟩
    intro j hj
    simp only [rr_init, List.length_map] at hj ⊢
    have h2 : proc (s.processes.map (fun p => { p with remaining_time := p.burst_time })) j =
        { proc s.processes j with remaining_time := (proc s.processes j).burst_time } := by
      simp [proc, List.getD_eq_getElem?_getD, List.getElem?_map, List.getElem?_eq_getElem hj]
    rw [proc_map_reset_remaining _ _ hj, h2]
    simp [reset_remaining]

theorem timeline_ok_mono (g : List GanttBlock) (ct ct2 : Int) (h : timeline_ok g ct)
    (hle : ct ≤ ct2) : timeline_ok g ct2 :=
  ⟨h.1, fun b hb => ⟨(h.2 b hb).1, le_trans (h.2 b hb).2 hle⟩⟩

theorem timeline_ok_append (g : List GanttBlock) (ct e : Int) (b : GanttBlock)
    (h : timeline_ok g ct) (hs : b.start_time = ct) (he : b.end_time = e) (hlt : ct < e) :
    timeline_ok (g ++ [b]) e := by
  refine ⟨?_, ?_⟩
  · rw [List.pairwise_append]
    refine ⟨h.1, List.pairwise_singleton _ _, ?_⟩
    intro a ha c hc
    simp only [List.mem_singleton] at hc
    rw [hc, hs]
    exact (h.2 a ha).2
  · intro c hc
    rcases List.mem_append.mp hc with h1 | h1
    · exact ⟨(h.2 c h1).1, le_trans (h.2 c h1).2 (le_of_lt hlt)⟩
    · simp only [List.mem_singleton] at h1
      rw [h1, hs, he]; exact ⟨hlt, le_refl _⟩

theorem gantt_end_append (g : List GanttBlock) (b : GanttBlock) :
    gantt_end (g ++ [b]) = b.end_time := by
  simp [gantt_end]

theorem gantt_end_le (g : List GanttBlock) (ct : Int) (h : timeline_ok g ct) (h0 : 0 ≤ ct) :
    gantt_end g ≤ ct := by
  unfold gantt_end
  cases hl : g.getLast? with
  | none => exact h0
  | some b => exact (h.2 b (List.mem_of_getLast?_eq_some hl)).2

theorem getLast?_eq_some_of_ne_nil {α : Type} (l : List α) (h : l ≠ []) :
    ∃ b, l.getLast? = some b := by
  cases hl : l.getLast? with
  | none => exact absurd (List.getLast?_eq_none_iff.mp hl) h
  | some b => exact ⟨b, rfl⟩

theorem timeline_ok_tick (g : List GanttBlock) (p : Process) (ct : Int)
    (h : timeline_ok g ct) : timeline_ok (gantt_tick g p ct) (ct + 1) := by
  unfold gantt_tick
  cases hl : g.getLast? with
  | none => exact timeline_ok_append g ct (ct + 1) _ h rfl rfl (by omega)
  | some last =>
    by_cases hn : last.process_name ≠ p.name
    · simp only [hn, ne_eq, not_false_eq_true, if_true]
      exact timeline_ok_append g ct (ct + 1) _ h rfl rfl (by omega)
    · simp only [hn, if_false]
      have hg : g = g.dropLast ++ [last] := by
        have := List.dropLast_append_getLast? last (by rw [hl]; exact rfl)
        exact this.symm
      have hlast := h.2 last (List.mem_of_getLast?_eq_some hl)
      rw [hg] at h
      obtain ⟨h1, h2⟩ := h
      rw [List.pairwise_append] at h1
      refine ⟨?_, ?_⟩
      · rw [List.pairwise_append]
        refine ⟨h1.1, List.pairwise_singleton _ _, ?_⟩
        intro a ha c hc
        simp only [List.mem_singleton] at hc
        rw [hc]
        exact h1.2.2 a ha last (by simp)
      · intro c hc
        rcases List.mem_append.mp hc with hc1 | hc1
        · have := h2 c (List.mem_append.mpr (Or.inl hc1))
          exact ⟨this.1, by omega⟩
        · simp only [List.mem_singleton] at hc1
          rw [hc1]
          exact ⟨by simp only; omega, le_refl _⟩

theorem gantt_end_tick (g : List GanttBlock) (p : Process) (ct : Int) :
    gantt_end (gantt_tick g p ct) = ct + 1 ∧ gantt_tick g p ct ≠ [] := by
  obtain ⟨b, h1, _, h3⟩ := gantt_tick_last g p ct
  refine ⟨by simp [gantt_end, h1, h3], ?_⟩
  intro h
  rw [h] at h1
  simp at h1

/-! ### Counting completed jobs -/

theorem count_updateAt_true (l : List Bool) (i : Nat) (hi : i < l.length)
    (hf : flag l i = false) :
    (updateAt l i (fun _ => true)).count true = l.count true + 1 := by
  induction l generalizing i with
  | nil => simp at hi
  | cons x xs ih =>
    cases i with
    | zero =>
      simp only [flag, List.getD_cons_zero] at hf
      subst hf
      simp [updateAt]
    | succ i =>
      have hf' : flag xs i = false := by simpa [flag] using hf
      simp only [updateAt, List.count_cons]
      rw [ih i (by simpa using hi) hf']
      omega

theorem flag_true_of_count (l : List Bool) (h : l.count true = l.length) (j : Nat)
    (hj : j < l.length) : flag l j = true := by
  have := List.count_eq_length.mp h
  have hm : l[j] ∈ l := List.getElem_mem hj
  have := this _ hm
  simp [flag, List.getD_eq_getElem?_getD, List.getElem?_eq_getElem hj, ← this]

theorem exists_flag_false (l : List Bool) (h : l.count true ≠ l.length) :
    ∃ j, j < l.length ∧ flag l j = false := by
  by_contra hc
  apply h
  apply List.count_eq_length.mpr
  intro b hb
  obtain ⟨j, hj, rfl⟩ := List.mem_iff_getElem.mp hb
  cases hv : l[j] with
  | true => rfl
  | false =>
    exfalso; apply hc
    exact ⟨j, hj, by simp [flag, List.getD_eq_getElem?_getD, List.getElem?_eq_getElem hj, hv]⟩

theorem mem_iff_proc (ps : List Process) (p : Process) :
    p ∈ ps ↔ ∃ j, j < ps.length ∧ proc ps j = p := by
  constructor
  · intro h
    obtain ⟨j, hj, rfl⟩ := List.mem_iff_getElem.mp h
    exact ⟨j, hj, by simp [proc, List.getD_eq_getElem?_getD, List.getElem?_eq_getElem hj]⟩
  · rintro ⟨j, hj, rfl⟩
    exact proc_mem ps j hj

theorem flag_replicate_false (n j : Nat) : flag (List.replicate n false) j = false := by
  unfold flag
  rw [List.getD_eq_getElem?_getD, List.getElem?_replicate]
  split <;> rfl

theorem batch_inv_init (s : Sim) (hg : s.gantt_chart = [])
    (hv : ∀ p ∈ s.processes, 0 < p.burst_time) : batch_inv (sel_init s) := by
  refine ⟨by simp [sel_init], ?_, by simp [sel_init], ?_, ?_, ?_, ?_⟩
  · simp [sel_init, List.count_replicate]
  · simp [sel_init, hg, timeline_ok]
  · intro j hj
    exact hv _ (proc_mem _ _ hj)
  · intro j _ hf
    simp only [sel_init, flag_replicate_false] at hf
    exact Bool.noConfusion hf
  · intro h
    left
    simp only [sel_init] at h ⊢
    exact h.symm

theorem batch_inv_step (key : Process → Int) (st : SelState) (hinv : batch_inv st)
    (hc : sel_cond st = true) : batch_inv (batch_body key st) := by
  obtain ⟨b1, b2, b3, b4, b5, b6, b7⟩ := hinv
  have hne : st.completed ≠ st.sim.processes.length := by
    simpa [sel_cond] using hc
  cases h : select_min key st.sim.processes st.is_completed st.sim.current_time with
  | none =>
    rw [batch_body_none key st h]
    refine ⟨b1, b2, by simp only; omega, timeline_ok_mono _ _ _ b4 (by simp), b5, b6, ?_⟩
    intro hcn
    exact absurd hcn hne
  | some i =>
    obtain ⟨hi, he, _⟩ := select_min_some key _ _ _ i h
    have hbi := b5 i hi
    have hend : gantt_end st.sim.gantt_chart ≤ st.sim.current_time := gantt_end_le _ _ b4 b3
    rw [batch_body_some key st i h]
    refine ⟨?_, ?_, ?_, ?_, ?_, ?_, ?_⟩
    · simp only [length_updateAt]; exact b1
    · simp only
      rw [count_updateAt_true _ _ (by rw [b1]; exact hi) he.1, b2]
    · show 0 ≤ st.sim.current_time + (proc st.sim.processes i).burst_time; omega
    · exact timeline_ok_append st.sim.gantt_chart st.sim.current_time
        (st.sim.current_time + (proc st.sim.processes i).burst_time) _ b4 rfl rfl (by omega)
    · intro j hj
      simp only [length_updateAt] at hj
      simp only [proc_updateAt]
      split
      · rename_i hji; rw [hji.1]; exact hbi
      · exact b5 j hj
    · intro j hj hf
      simp only [length_updateAt] at hj
      simp only [gantt_end_append, mkBlock]
      simp only [proc_updateAt]
      by_cases hji : j = i
      · subst hji
        simp only [hi, and_self, if_true]
        exact ⟨by have := he.2; omega, le_refl _⟩
      · simp only [hji, false_and, if_false]
        simp only [flag_updateAt, hji, false_and, if_false] at hf
        obtain ⟨c1, c2⟩ := b6 j hj hf
        exact ⟨c1, by omega⟩
    · intro _
      right
      refine ⟨by simp, i, by simp only [length_updateAt]; exact hi, ?_⟩
      simp only [gantt_end_append, mkBlock, proc_updateAt, hi, and_self, if_true]

theorem batch_inv_exit (st : SelState) (hinv : batch_inv st) (hc : sel_cond st = false) :
    (∀ p ∈ st.sim.processes, p.arrival_time + p.burst_time ≤ p.completion_time) ∧
    timeline_ok st.sim.gantt_chart st.sim.current_time ∧
    (st.sim.processes ≠ [] → ∃ last, st.sim.gantt_chart.getLast? = some last ∧
      (∀ p ∈ st.sim.processes, p.completion_time ≤ last.end_time) ∧
      ∃ p ∈ st.sim.processes, p.completion_time = last.end_time) := by
  obtain ⟨b1, b2, b3, b4, b5, b6, b7⟩ := hinv
  have he : st.completed = st.sim.processes.length := by
    simpa [sel_cond] using hc
  have hall : ∀ j, j < st.sim.processes.length → flag st.is_completed j = true := by
    intro j hj
    exact flag_true_of_count _ (by rw [← b2, he, b1]) j (by rw [b1]; exact hj)
  refine ⟨?_, b4, ?_⟩
  · intro p hp
    obtain ⟨j, hj, rfl⟩ := (mem_iff_proc _ _).mp hp
    exact (b6 j hj (hall j hj)).1
  · intro hne
    rcases b7 he with h0 | ⟨hg, j, hj, hjc⟩
    · exact absurd (List.length_eq_zero.mp h0) hne
    · obtain ⟨last, hl⟩ := getLast?_eq_some_of_ne_nil _ hg
      have hge : gantt_end st.sim.gantt_chart = last.end_time := by simp [gantt_end, hl]
      refine ⟨last, hl, ?_, proc st.sim.processes j, proc_mem _ _ hj, by rw [hjc, hge]⟩
      intro p hp
      obtain ⟨j2, hj2, rfl⟩ := (mem_iff_proc _ _).mp hp
      rw [← hge]
      exact (b6 j2 hj2 (hall j2 hj2)).2

theorem batch_term_step (key : Process → Int) (M : Int)
    (hkey : ∀ (p : Process) (a b : Int),
      key { p with start_time := a, completion_time := b } = key p)
    (st : SelState) (hinv : batch_term_inv key M st) (hc : sel_cond st = true) :
    batch_term_inv key M (batch_body key st) ∧
    sel_measure M ((batch_body key st).sim.processes.length - (batch_body key st).completed)
        (batch_body key st).sim.current_time <
      sel_measure M (st.sim.processes.length - st.completed) st.sim.current_time := by
  obtain ⟨hb, hs⟩ := hinv
  have hb' := batch_inv_step key st hb hc
  obtain ⟨b1, b2, b3, b4, b5, b6, b7⟩ := hb
  have hne : st.completed ≠ st.sim.processes.length := by
    simpa [sel_cond] using hc
  have hle : st.completed ≤ st.sim.processes.length := by
    rw [b2, ← b1]; exact List.count_le_length _ _
  cases h : select_min key st.sim.processes st.is_completed st.sim.current_time with
  | none =>
    have hnone := select_min_none key _ _ _ h
    obtain ⟨j, hj, hjf⟩ := exists_flag_false st.is_completed (by rw [← b2, b1]; exact hne)
    rw [b1] at hj
    have hgt : st.sim.current_time < (proc st.sim.processes j).arrival_time := by
      by_contra hcon
      have := hnone j hj ⟨hjf, by omega⟩
      have := (hs j hj).2
      omega
    have hM := (hs j hj).1
    refine ⟨⟨hb', ?_⟩, ?_⟩
    · rw [batch_body_none key st h]; exact hs
    · rw [batch_body_none key st h]
      simp only [sel_measure]
      omega
  | some i =>
    obtain ⟨hi, he, _⟩ := select_min_some key _ _ _ i h
    have hbi := b5 i hi
    refine ⟨⟨hb', ?_⟩, ?_⟩
    · rw [batch_body_some key st i h]
      intro j hj
      simp only [length_updateAt] at hj
      simp only [proc_updateAt]
      split
      · rename_i hji
        rw [hji.1, hkey]
        exact hs i hi
      · exact hs j hj
    · rw [batch_body_some key st i h]
      simp only [sel_measure, length_updateAt]
      omega

theorem batch_terminates (key : Process → Int) (M : Int)
    (hkey : ∀ (p : Process) (a b : Int),
      key { p with start_time := a, completion_time := b } = key p)
    (st : SelState) (hinv : batch_term_inv key M st) :
    ∃ r, while_loop sel_cond (batch_body key)
      (sel_measure M (st.sim.processes.length - st.completed) st.sim.current_time) st =
        some r :=
  while_loop_term sel_cond (batch_body key) (batch_term_inv key M)
    (fun x => sel_measure M (x.sim.processes.length - x.completed) x.sim.current_time)
    (fun x hx hc => (batch_term_step key M hkey x hx hc).1)
    (fun x hx hc => (batch_term_step key M hkey x hx hc).2) _ st hinv (le_refl _)

theorem exists_arrival_bound (ps : List Process) : ∃ M : Int, ∀ p ∈ ps, p.arrival_time ≤ M := by
  induction ps with
  | nil => exact ⟨0, by simp⟩
  | cons x xs ih =>
    obtain ⟨M, hM⟩ := ih
    refine ⟨max M x.arrival_time, ?_⟩
    intro p hp
    rcases List.mem_cons.mp hp with h | h
    · rw [h]; exact le_max_right _ _
    · exact le_trans (hM p h) (le_max_left _ _)

theorem tick_run_inv_init (s : Sim) (hg : s.gantt_chart = [])
    (hv : ∀ p ∈ s.processes, 0 < p.burst_time) : tick_run_inv (tick_init s) := by
  refine ⟨tick_init_inv s hv, ?_, by simp [tick_init, sel_init], ?_, ?_, ?_, ?_⟩
  · simp [tick_init, sel_init, List.count_replicate]
  · simp [tick_init, sel_init, hg, timeline_ok]
  · intro j hj
    simp only [tick_init, sel_init, List.length_map] at hj ⊢
    rw [proc_map_reset_remaining _ _ hj]
    simp [reset_remaining]
  · intro j _ hf
    simp only [tick_init, sel_init, flag_replicate_false] at hf
    exact Bool.noConfusion hf
  · intro h
    left
    simp only [tick_init, sel_init] at h ⊢
    exact h.symm

theorem tick_run_inv_step (key : Process → Int) (st : SelState) (hinv : tick_run_inv st)
    (hc : sel_cond st = true) : tick_run_inv (tick_body key st) := by
  obtain ⟨t0, b2, b3, b4, b5, b6, b7⟩ := hinv
  have ht0 := tick_body_inv key st t0
  have hne : st.completed ≠ st.sim.processes.length := by
    simpa [sel_cond] using hc
  cases h : select_min key st.sim.processes st.is_completed st.sim.current_time with
  | none =>
    rw [tick_body_none key st h] at ht0 ⊢
    refine ⟨ht0, b2, by show 0 ≤ st.sim.current_time + 1; omega,
      timeline_ok_mono _ _ _ b4 (by show st.sim.current_time ≤ st.sim.current_time + 1; omega),
      ?_, b6, ?_⟩
    · dsimp only
      intro j hj
      obtain ⟨c1, c2⟩ := b5 j hj
      exact ⟨c1, fun hlt => by have := c2 hlt; omega⟩
    · intro hcn
      exact absurd hcn hne
  | some i =>
    obtain ⟨hi, he, _⟩ := select_min_some key _ _ _ i h
    have hpos := ((tick_inv_eligible st t0 i hi).mp he).2
    have hend : gantt_end st.sim.gantt_chart ≤ st.sim.current_time := gantt_end_le _ _ b4 b3
    obtain ⟨g1, g2⟩ := gantt_end_tick st.sim.gantt_chart (proc st.sim.processes i)
      st.sim.current_time
    obtain ⟨f1, f2, f3, f4⟩ := tick_cell_fields st.sim.current_time (proc st.sim.processes i)
    obtain ⟨bi1, bi2⟩ := b5 i hi
    rw [tick_body_some key st i h] at ht0 ⊢
    refine ⟨ht0, ?_, by show 0 ≤ st.sim.current_time + 1; omega, timeline_ok_tick _ _ _ b4,
      ?_, ?_, ?_⟩
    · show (if (proc st.sim.processes i).remaining_time - 1 = 0 then st.completed + 1
        else st.completed) = List.count true
          (if (proc st.sim.processes i).remaining_time - 1 = 0 then
            updateAt st.is_completed i (fun _ => true) else st.is_completed)
      split
      · rw [count_updateAt_true _ _ (by rw [t0.1]; exact hi) he.1, b2]
      · exact b2
    · intro j hj
      simp only [length_updateAt] at hj
      show (proc (updateAt st.sim.processes i (tick_cell st.sim.current_time)) j).remaining_time ≤
          (proc (updateAt st.sim.processes i (tick_cell st.sim.current_time)) j).burst_time ∧
        ((proc (updateAt st.sim.processes i (tick_cell st.sim.current_time)) j).remaining_time <
            (proc (updateAt st.sim.processes i (tick_cell st.sim.current_time)) j).burst_time →
          (proc (updateAt st.sim.processes i (tick_cell st.sim.current_time)) j).arrival_time +
            ((proc (updateAt st.sim.processes i (tick_cell st.sim.current_time)) j).burst_time -
              (proc (updateAt st.sim.processes i
                (tick_cell st.sim.current_time)) j).remaining_time) ≤
            st.sim.current_time + 1)
      rw [proc_updateAt]
      by_cases hji : j = i
      · subst hji
        simp only [hi, and_self, if_true, f2, f1.2.1, f1.2.2.1]
        refine ⟨by omega, fun _ => ?_⟩
        have := he.2
        by_cases hlt : (proc st.sim.processes j).remaining_time <
            (proc st.sim.processes j).burst_time
        · have := bi2 hlt; omega
        · omega
      · simp only [hji, false_and, if_false]
        obtain ⟨c1, c2⟩ := b5 j hj
        exact ⟨c1, fun hlt => by have := c2 hlt; omega⟩
    · intro j hj hf
      simp only [length_updateAt] at hj
      show (proc (updateAt st.sim.processes i (tick_cell st.sim.current_time)) j).arrival_time +
          (proc (updateAt st.sim.processes i (tick_cell st.sim.current_time)) j).burst_time ≤
          (proc (updateAt st.sim.processes i (tick_cell st.sim.current_time)) j).completion_time ∧
        (proc (updateAt st.sim.processes i (tick_cell st.sim.current_time)) j).completion_time ≤
          gantt_end (gantt_tick st.sim.gantt_chart (proc st.sim.processes i) st.sim.current_time)
      have hf' : flag (if (proc st.sim.processes i).remaining_time - 1 = 0 then
          updateAt st.is_completed i (fun _ => true) else st.is_completed) j = true := hf
      rw [proc_updateAt, g1]
      by_cases hji : j = i
      · subst hji
        simp only [hi, and_self, if_true, f4, f1.2.1, f1.2.2.1]
        by_cases hr : (proc st.sim.processes j).remaining_time - 1 = 0
        · simp only [hr, if_true]
          have := he.2
          refine ⟨?_, le_refl _⟩
          by_cases hlt : (proc st.sim.processes j).remaining_time <
              (proc st.sim.processes j).burst_time
          · have := bi2 hlt; omega
          · omega
        · simp only [hr, if_false] at hf'
          rw [he.1] at hf'
          exact Bool.noConfusion hf'
      · simp only [hji, false_and, if_false]
        have hfj : flag st.is_completed j = true := by
          by_cases hr : (proc st.sim.processes i).remaining_time - 1 = 0
          · simp only [hr, if_true, flag_updateAt, hji, false_and, if_false] at hf'
            exact hf'
          · simp only [hr, if_false] at hf'
            exact hf'
        obtain ⟨c1, c2⟩ := b6 j hj hfj
        exact ⟨c1, by omega⟩
    · intro hcn
      have hcn' : (if (proc st.sim.processes i).remaining_time - 1 = 0 then st.completed + 1
          else st.completed) = (updateAt st.sim.processes i
            (tick_cell st.sim.current_time)).length := hcn
      rw [length_updateAt] at hcn'
      have hr : (proc st.sim.processes i).remaining_time - 1 = 0 := by
        by_contra hr
        simp only [hr, if_false] at hcn'
        exact hne hcn'
      right
      refine ⟨g2, i, by simp only [length_updateAt]; exact hi, ?_⟩
      show (proc (updateAt st.sim.processes i (tick_cell st.sim.current_time)) i).completion_time =
        gantt_end (gantt_tick st.sim.gantt_chart (proc st.sim.processes i) st.sim.current_time)
      rw [proc_updateAt, g1]
      simp only [hi, and_self, if_true, f4, hr]

theorem tick_run_inv_exit (st : SelState) (hinv : tick_run_inv st) (hc : sel_cond st = false) :
    (∀ p ∈ st.sim.processes, p.arrival_time + p.burst_time ≤ p.completion_time ∧
      p.remaining_time = 0) ∧
    timeline_ok st.sim.gantt_chart st.sim.current_time ∧
    (st.sim.processes ≠ [] → ∃ last, st.sim.gantt_chart.getLast? = some last ∧
      (∀ p ∈ st.sim.processes, p.completion_time ≤ last.end_time) ∧
      ∃ p ∈ st.sim.processes, p.completion_time = last.end_time) := by
  obtain ⟨t0, b2, b3, b4, b5, b6, b7⟩ := hinv
  have he : st.completed = st.sim.processes.length := by
    simpa [sel_cond] using hc
  have hall : ∀ j, j < st.sim.processes.length → flag st.is_completed j = true := by
    intro j hj
    exact flag_true_of_count _ (by rw [← b2, he, t0.1]) j (by rw [t0.1]; exact hj)
  refine ⟨?_, b4, ?_⟩
  · intro p hp
    obtain ⟨j, hj, rfl⟩ := (mem_iff_proc _ _).mp hp
    exact ⟨(b6 j hj (hall j hj)).1, (t0.2 j hj).2.mp (hall j hj)⟩
  · intro hne
    rcases b7 he with h0 | ⟨hg, j, hj, hjc⟩
    · exact absurd (List.length_eq_zero.mp h0) hne
    · obtain ⟨last, hl⟩ := getLast?_eq_some_of_ne_nil _ hg
      have hge : gantt_end st.sim.gantt_chart = last.end_time := by simp [gantt_end, hl]
      refine ⟨last, hl, ?_, proc st.sim.processes j, proc_mem _ _ hj, by rw [hjc, hge]⟩
      intro p hp
      obtain ⟨j2, hj2, rfl⟩ := (mem_iff_proc _ _).mp hp
      rw [← hge]
      exact (b6 j2 hj2 (hall j2 hj2)).2

theorem total_remaining_updateAt (ps : List Process) (i : Nat) (f : Process → Process)
    (hi : i < ps.length) :
    total_remaining (updateAt ps i f) + (proc ps i).remaining_time.toNat =
      total_remaining ps + (f (proc ps i)).remaining_time.toNat := by
  induction ps generalizing i with
  | nil => simp at hi
  | cons x xs ih =>
    cases i with
    | zero =>
      simp only [updateAt, total_remaining, List.map_cons, List.sum_cons, proc_cons_zero]
      omega
    | succ i =>
      have := ih i (by simpa using hi)
      simp only [total_remaining] at this
      simp only [updateAt, total_remaining, List.map_cons, List.sum_cons, proc_cons_succ]
      omega

theorem tick_term_step (key : Process → Int) (M : Int)
    (hkey : ∀ p : Process, p.remaining_time ≤ p.burst_time → p.burst_time < INT_MAX →
      p.priority < INT_MAX → key p < INT_MAX)
    (st : SelState) (hinv : tick_term_inv M st) (hc : sel_cond st = true) :
    tick_term_inv M (tick_body key st) ∧
    sel_measure M (total_remaining (tick_body key st).sim.processes)
        (tick_body key st).sim.current_time <
      sel_measure M (total_remaining st.sim.processes) st.sim.current_time := by
  obtain ⟨hb, hs⟩ := hinv
  have hb' := tick_run_inv_step key st hb hc
  have hstat : ∀ j, j < (tick_body key st).sim.processes.length →
      (proc (tick_body key st).sim.processes j).arrival_time ≤ M ∧
      (proc (tick_body key st).sim.processes j).burst_time < INT_MAX ∧
      (proc (tick_body key st).sim.processes j).priority < INT_MAX := by
    intro j hj
    rw [(tick_body_lengths key st).1] at hj
    obtain ⟨_, s2, s3, s4, _, _⟩ := tick_body_static key st j
    rw [s2, s3, s4]
    exact hs j hj
  refine ⟨⟨hb', hstat⟩, ?_⟩
  obtain ⟨t0, b2, b3, b4, b5, b6, b7⟩ := hb
  have hne : st.completed ≠ st.sim.processes.length := by
    simpa [sel_cond] using hc
  cases h : select_min key st.sim.processes st.is_completed st.sim.current_time with
  | none =>
    have hnone := select_min_none key _ _ _ h
    obtain ⟨j, hj, hjf⟩ := exists_flag_false st.is_completed (by rw [← b2, t0.1]; exact hne)
    rw [t0.1] at hj
    have hgt : st.sim.current_time < (proc st.sim.processes j).arrival_time := by
      by_contra hcon
      have := hnone j hj ⟨hjf, by omega⟩
      have := hkey _ (b5 j hj).1 (hs j hj).2.1 (hs j hj).2.2
      omega
    have hM := (hs j hj).1
    rw [tick_body_none key st h]
    simp only [sel_measure]
    omega
  | some i =>
    obtain ⟨hi, he, _⟩ := select_min_some key _ _ _ i h
    have hpos := ((tick_inv_eligible st t0 i hi).mp he).2
    have hsum := total_remaining_updateAt st.sim.processes i (tick_cell st.sim.current_time) hi
    rw [(tick_cell_fields _ _).2.1] at hsum
    rw [tick_body_some key st i h]
    simp only [sel_measure]
    omega

theorem tick_terminates (key : Process → Int) (M : Int)
    (hkey : ∀ p : Process, p.remaining_time ≤ p.burst_time → p.burst_time < INT_MAX →
      p.priority < INT_MAX → key p < INT_MAX)
    (st : SelState) (hinv : tick_term_inv M st) :
    ∃ r, while_loop sel_cond (tick_body key)
      (sel_measure M (total_remaining st.sim.processes) st.sim.current_time) st = some r :=
  while_loop_term sel_cond (tick_body key) (tick_term_inv M)
    (fun x => sel_measure M (total_remaining x.sim.processes) x.sim.current_time)
    (fun x hx hc => (tick_term_step key M hkey x hx hc).1)
    (fun x hx hc => (tick_term_step key M hkey x hx hc).2) _ st hinv (le_refl _)

theorem rr_next_arrival_fold (ps : List Process) (ct : Int) (k : Nat) :
    let r := (List.range k).foldl (rr_next_arrival_step ps ct) INT_MAX
    r ≤ INT_MAX ∧
    (∀ j, j < k → ct < (proc ps j).arrival_time → 0 < (proc ps j).remaining_time →
      r ≤ (proc ps j).arrival_time) ∧
    (r ≠ INT_MAX → ∃ j, j < k ∧ r = (proc ps j).arrival_time ∧ ct < (proc ps j).arrival_time ∧
      0 < (proc ps j).remaining_time) := by
  induction k with
  | zero => simp
  | succ k ih =>
    simp only [List.range_succ, List.foldl_append, List.foldl_cons, List.foldl_nil]
    obtain ⟨h1, h2, h3⟩ := ih
    generalize (List.range k).foldl (rr_next_arrival_step ps ct) INT_MAX = r at *
    unfold rr_next_arrival_step
    by_cases hc : (proc ps k).arrival_time > ct ∧ (proc ps k).arrival_time < r ∧
        (proc ps k).remaining_time > 0
    · simp only [hc, and_self, if_true]
      refine ⟨by omega, ?_, ?_⟩
      · intro j hj a b
        rcases Nat.lt_succ_iff_lt_or_eq.mp hj with h | h
        · have := h2 j h a b; omega
        · subst h; exact le_refl _
      · intro _
        exact ⟨k, Nat.lt_succ_self _, rfl, hc.1, hc.2.2⟩
    · simp only [hc, if_false]
      refine ⟨h1, ?_, ?_⟩
      · intro j hj a b
        rcases Nat.lt_succ_iff_lt_or_eq.mp hj with h | h
        · exact h2 j h a b
        · subst h
          by_contra hlt
          exact hc ⟨a, by omega, b⟩
      · intro hne
        obtain ⟨j, hj, e⟩ := h3 hne
        exact ⟨j, Nat.lt_succ_of_lt hj, e⟩

theorem countP_updateAt (P : Process → Bool) (ps : List Process) (i : Nat) (f : Process → Process)
    (hi : i < ps.length) :
    (updateAt ps i f).countP P + (if P (proc ps i) then 1 else 0) =
      ps.countP P + (if P (f (proc ps i)) then 1 else 0) := by
  induction ps generalizing i with
  | nil => simp at hi
  | cons x xs ih =>
    cases i with
    | zero =>
      simp only [updateAt, List.countP_cons, proc_cons_zero]
      omega
    | succ i =>
      have := ih i (by simpa using hi)
      simp only [updateAt, List.countP_cons, proc_cons_succ]
      omega

theorem live_eq_nil_iff (st : RRState) (h : st.front ≤ st.queue.length) :
    st.live = [] ↔ st.front = st.rear := by
  simp only [RRState.live, RRState.rear, List.drop_eq_nil_iff]
  omega

theorem rr_test_false_iff (ps : List Process) (ct : Int) (iq : List Bool) (j : Nat) :
    rr_test false ps ct iq j = true ↔
      ((proc ps j).arrival_time ≤ ct ∧ flag iq j = false ∧ 0 < (proc ps j).remaining_time) := by
  simp [rr_test, and_assoc]

/-- Description of a dispatch iteration of the round-robin loop. -/
theorem rr_dispatch_facts (st : RRState) (hinv : rr_inv st) (i : Nat) (rest : List Nat)
    (hL : st.live = i :: rest) :
    ∃ newly : List Nat,
      (rr_body st).sim.processes =
        updateAt st.sim.processes i (rr_cell st.sim.current_time st.sim.time_quantum) ∧
      (rr_body st).sim.gantt_chart = st.sim.gantt_chart ++
        [mkBlock (proc st.sim.processes i) st.sim.current_time
          (st.sim.current_time + rr_exec st.sim.time_quantum (proc st.sim.processes i))] ∧
      (rr_body st).sim.current_time =
        st.sim.current_time + rr_exec st.sim.time_quantum (proc st.sim.processes i) ∧
      (rr_body st).sim.time_quantum = st.sim.time_quantum ∧
      (rr_body st).completed =
        (if (proc st.sim.processes i).remaining_time -
            rr_exec st.sim.time_quantum (proc st.sim.processes i) = 0
          then st.completed + 1 else st.completed) ∧
      (rr_body st).live = rest ++ newly ++
        (if (proc st.sim.processes i).remaining_time -
            rr_exec st.sim.time_quantum (proc st.sim.processes i) = 0 then [] else [i]) ∧
      (rr_body st).front ≤ (rr_body st).queue.length ∧
      (rr_body st).in_queue.length = st.sim.processes.length ∧
      newly.Nodup ∧
      (∀ j, j ∈ newly ↔ (j < st.sim.processes.length ∧
        (proc st.sim.processes j).arrival_time ≤
          st.sim.current_time + rr_exec st.sim.time_quantum (proc st.sim.processes i) ∧
        flag st.in_queue j = false ∧ 0 < (proc st.sim.processes j).remaining_time)) ∧
      (∀ j, j < st.sim.processes.length →
        (flag (rr_body st).in_queue j = true ↔
          ((flag st.in_queue j = true ∨ j ∈ newly) ∧
            ¬ (j = i ∧ (proc st.sim.processes i).remaining_time -
              rr_exec st.sim.time_quantum (proc st.sim.processes i) = 0)))) := by
  obtain ⟨⟨l1, l2, l3⟩, ⟨q1, q2, q3, q4⟩, _⟩ := hinv
  have hi : i < st.sim.processes.length := (q2 i (by rw [hL]; simp)).1
  have hfi : flag st.in_queue i = true := (q3 i hi).mpr (by rw [hL]; simp)
  obtain ⟨hfl, _, hdrop⟩ := drop_eq_cons st.queue st.front i rest 0 hL
  have hlen2 : st.in_queue.length =
      (updateAt st.sim.processes i
        (rr_slice st.sim.current_time st.sim.time_quantum)).length := by
    rw [length_updateAt]; exact l1
  obtain ⟨e1, e2, e3⟩ := rr_enqueue_spec false _
    (st.sim.current_time + rr_exec st.sim.time_quantum (proc st.sim.processes i))
    st.queue st.in_queue hlen2
  rw [length_updateAt] at e1 e2 e3
  have hbody := rr_body_dispatch st i rest hL hi
  have hmem : ∀ j, j ∈ (List.range st.sim.processes.length).filter
      (fun j => rr_test false
        (updateAt st.sim.processes i (rr_slice st.sim.current_time st.sim.time_quantum))
        (st.sim.current_time + rr_exec st.sim.time_quantum (proc st.sim.processes i))
        st.in_queue j) ↔
      (j < st.sim.processes.length ∧
        (proc st.sim.processes j).arrival_time ≤
          st.sim.current_time + rr_exec st.sim.time_quantum (proc st.sim.processes i) ∧
        flag st.in_queue j = false ∧ 0 < (proc st.sim.processes j).remaining_time) := by
    intro j
    rw [List.mem_filter, List.mem_range, rr_test_false_iff]
    by_cases hji : j = i
    · subst hji
      simp [hfi]
    · simp only [proc_updateAt, hji, false_and, if_false]
  generalize hnew : (List.range st.sim.processes.length).filter
      (fun j => rr_test false
        (updateAt st.sim.processes i (rr_slice st.sim.current_time st.sim.time_quantum))
        (st.sim.current_time + rr_exec st.sim.time_quantum (proc st.sim.processes i))
        st.in_queue j) = newly at *
  have hnd : newly.Nodup := by
    rw [← hnew]; exact (List.nodup_range _).filter _
  generalize rr_enqueue false
    (updateAt st.sim.processes i (rr_slice st.sim.current_time st.sim.time_quantum))
    (st.sim.current_time + rr_exec st.sim.time_quantum (proc st.sim.processes i))
    (st.queue, st.in_queue) = enq at *
  refine ⟨newly, by rw [hbody], by rw [hbody], by rw [hbody], by rw [hbody], by rw [hbody],
    ?_, ?_, ?_, hnd, hmem, ?_⟩
  · rw [hbody]
    simp only [RRState.live, e1]
    rw [List.append_assoc, List.drop_append_of_le_length (by omega), hdrop, List.append_assoc]
  · rw [hbody]
    simp only [e1, List.length_append]
    omega
  · rw [hbody]
    dsimp only
    split
    · rw [length_updateAt]; exact e2
    · exact e2
  · intro j hj
    have hflag : flag enq.2 j = true ↔ (flag st.in_queue j = true ∨ j ∈ newly) := by
      rw [e3 j hj, Bool.or_eq_true]
      have : rr_test false
          (updateAt st.sim.processes i (rr_slice st.sim.current_time st.sim.time_quantum))
          (st.sim.current_time + rr_exec st.sim.time_quantum (proc st.sim.processes i))
          st.in_queue j = true ↔ j ∈ newly := by
        rw [← hnew, List.mem_filter, List.mem_range]
        exact ⟨fun h => ⟨hj, h⟩, fun h => h.2⟩
      rw [this]
    rw [hbody]
    dsimp only
    by_cases hr : (proc st.sim.processes i).remaining_time -
        rr_exec st.sim.time_quantum (proc st.sim.processes i) = 0
    · simp only [hr, if_true, and_true]
      rw [flag_updateAt, e2]
      by_cases hji : j = i
      · subst hji
        simp [hj]
      · simp only [hji, false_and, if_false, not_false_eq_true, and_true]
        exact hflag
    · simp only [hr, if_false, and_false, not_false_eq_true, and_true]
      exact hflag

theorem rr_inv_dispatch (st : RRState) (hinv : rr_inv st) (i : Nat) (rest : List Nat)
    (hL : st.live = i :: rest) (hc : rr_cond st = true) : rr_inv (rr_body st) := by
  obtain ⟨newly, f1, f2, f3, f4, f5, f6, f7, f8, f9, f10, f11⟩ :=
    rr_dispatch_facts st hinv i rest hL
  obtain ⟨⟨l1, l2, l3⟩, ⟨q1, q2, q3, q4⟩, r0, c0, ⟨t1, t2⟩, fin0, _⟩ := hinv
  have hne : st.completed ≠ st.sim.processes.length := by
    simpa [rr_cond] using hc
  rw [hL] at q1 q2 q3 q4
  obtain ⟨hi, hri, hai⟩ := q2 i (by simp)
  have hfi : flag st.in_queue i = true := (q3 i hi).mpr (by simp)
  have hirest : i ∉ rest := (List.nodup_cons.mp q1).1
  have hndrest : rest.Nodup := (List.nodup_cons.mp q1).2
  have hinew : i ∉ newly := by
    intro h
    have := ((f10 i).mp h).2.2.1
    rw [hfi] at this; exact Bool.noConfusion this
  have hmin := rr_exec_eq_min st.sim.time_quantum (proc st.sim.processes i)
  have he1 : 1 ≤ rr_exec st.sim.time_quantum (proc st.sim.processes i) := by
    rw [hmin, min_def]; split <;> omega
  have he2 : rr_exec st.sim.time_quantum (proc st.sim.processes i) ≤
      (proc st.sim.processes i).remaining_time := by
    rw [hmin]; exact min_le_left _ _
  obtain ⟨c1, c2, c3, c4⟩ := rr_cell_fields st.sim.current_time st.sim.time_quantum
    (proc st.sim.processes i)
  obtain ⟨_, sa, sb, _⟩ := c1
  have hlen : (rr_body st).sim.processes.length = st.sim.processes.length := by
    rw [f1, length_updateAt]
  have hother : ∀ j, j ≠ i → proc (rr_body st).sim.processes j = proc st.sim.processes j := by
    intro j hj
    rw [f1, proc_updateAt]; simp [hj]
  have hself : proc (rr_body st).sim.processes i =
      rr_cell st.sim.current_time st.sim.time_quantum (proc st.sim.processes i) := by
    rw [f1, proc_updateAt]; simp [hi]
  obtain ⟨ri1, ri2, ri3, ri4, ri5⟩ := r0 i hi
  have hexec : (proc st.sim.processes i).arrival_time +
      ((proc st.sim.processes i).burst_time - ((proc st.sim.processes i).remaining_time -
        rr_exec st.sim.time_quantum (proc st.sim.processes i))) ≤
      st.sim.current_time + rr_exec st.sim.time_quantum (proc st.sim.processes i) := by
    by_cases hlt : (proc st.sim.processes i).remaining_time < (proc st.sim.processes i).burst_time
    · have := ri5 hlt; omega
    · omega
  have hend : gantt_end st.sim.gantt_chart ≤ st.sim.current_time := gantt_end_le _ _ t2 t1
  have hgend : gantt_end (rr_body st).sim.gantt_chart =
      st.sim.current_time + rr_exec st.sim.time_quantum (proc st.sim.processes i) := by
    rw [f2, gantt_end_append]; rfl
  have hmemlive : ∀ j, j ∈ (rr_body st).live ↔ (j ∈ rest ∨ j ∈ newly ∨
      (j = i ∧ ¬ (proc st.sim.processes i).remaining_time -
        rr_exec st.sim.time_quantum (proc st.sim.processes i) = 0)) := by
    intro j
    rw [f6]
    by_cases hr : (proc st.sim.processes i).remaining_time -
        rr_exec st.sim.time_quantum (proc st.sim.processes i) = 0
    · simp [hr]
    · simp [hr, or_assoc]
  refine ⟨⟨by rw [hlen]; exact f8, f7, by rw [f4]; exact l3⟩, ⟨?_, ?_, ?_, ?_⟩, ?_, ?_,
    ⟨by rw [f3]; omega, ?_⟩, ?_, ?_⟩
  · -- no duplicates in the live queue
    rw [f6]
    have hdis : List.Disjoint rest newly := by
      intro j hj1 hj2
      have hjn := ((f10 j).mp hj2).1
      have h1 := (q3 j hjn).mpr (List.mem_cons_of_mem _ hj1)
      have h2 := ((f10 j).mp hj2).2.2.1
      rw [h1] at h2; exact Bool.noConfusion h2
    have h12 : (rest ++ newly).Nodup := List.nodup_append.mpr ⟨hndrest, f9, hdis⟩
    by_cases hr : (proc st.sim.processes i).remaining_time -
        rr_exec st.sim.time_quantum (proc st.sim.processes i) = 0
    · simp only [hr, if_true, List.append_nil]; exact h12
    · simp only [hr, if_false]
      refine List.nodup_append.mpr ⟨h12, List.nodup_singleton _, ?_⟩
      intro j hj1 hj2
      simp only [List.mem_singleton] at hj2
      subst hj2
      rcases List.mem_append.mp hj1 with h | h
      · exact hirest h
      · exact hinew h
  · -- members of the live queue
    intro j hj
    rw [hlen, f3]
    rcases (hmemlive j).mp hj with h | h | ⟨h, hr⟩
    · have hji : j ≠ i := fun e => hirest (e ▸ h)
      obtain ⟨a, b, c⟩ := q2 j (List.mem_cons_of_mem _ h)
      rw [hother j hji]
      exact ⟨a, b, by omega⟩
    · have hji : j ≠ i := fun e => hinew (e ▸ h)
      obtain ⟨a, b, _, d⟩ := (f10 j).mp h
      rw [hother j hji]
      exact ⟨a, d, b⟩
    · subst h
      rw [hself, c2, sa]
      exact ⟨hi, by omega, by omega⟩
  · -- the in_queue flags
    intro j hj
    rw [hlen] at hj
    rw [f11 j hj, hmemlive j]
    constructor
    · rintro ⟨h1 | h1, h2⟩
      · rcases List.mem_cons.mp ((q3 j hj).mp h1) with h | h
        · right; right
          exact ⟨h, fun hr => h2 ⟨h, hr⟩⟩
        · left; exact h
      · right; left; exact h1
    · rintro (h | h | ⟨h, hr⟩)
      · exact ⟨Or.inl ((q3 j hj).mpr (List.mem_cons_of_mem _ h)),
          fun hh => hirest (hh.1 ▸ h)⟩
      · exact ⟨Or.inr h, fun hh => hinew (hh.1 ▸ h)⟩
      · exact ⟨Or.inl (h ▸ hfi), fun hh => hr hh.2⟩
  · -- every arrived unfinished job is queued
    intro j hj hrem harr
    rw [hlen] at hj
    rw [f3] at harr
    rw [hmemlive j]
    by_cases hji : j = i
    · subst hji
      rw [hself, c2] at hrem
      right; right
      exact ⟨rfl, by omega⟩
    · rw [hother j hji] at hrem harr
      cases hfj : flag st.in_queue j with
      | true =>
        rcases List.mem_cons.mp ((q3 j hj).mp hfj) with h | h
        · exact absurd h hji
        · left; exact h
      | false =>
        right; left
        exact (f10 j).mpr ⟨hj, harr, hfj, hrem⟩
  · -- remaining times
    intro j hj
    rw [hlen] at hj
    rw [f3]
    by_cases hji : j = i
    · subst hji
      rw [hself, c2, sa, sb]
      exact ⟨by omega, by omega, ri3, ri4, fun _ => hexec⟩
    · rw [hother j hji]
      obtain ⟨a, b, c, d, e⟩ := r0 j hj
      exact ⟨a, b, c, d, fun hlt => by have := e hlt; omega⟩
  · -- the completed counter
    rw [f5, f1]
    have hcnt := countP_updateAt (fun p => decide (p.remaining_time = 0)) st.sim.processes i
      (rr_cell st.sim.current_time st.sim.time_quantum) hi
    have hz : ¬ (proc st.sim.processes i).remaining_time = 0 := by omega
    simp only [decide_eq_true_eq, hz, if_false, c2, Nat.add_zero] at hcnt
    rw [hcnt, c0]
    split <;> rfl
  · -- the timeline
    rw [f2, f3]
    exact timeline_ok_append st.sim.gantt_chart st.sim.current_time
      (st.sim.current_time + rr_exec st.sim.time_quantum (proc st.sim.processes i)) _ t2 rfl rfl
      (by omega)
  · -- finished jobs
    intro j hj hrem
    rw [hlen] at hj
    rw [hgend]
    by_cases hji : j = i
    · subst hji
      rw [hself] at hrem ⊢
      rw [c2] at hrem
      rw [c4, sa, sb]
      simp only [hrem, if_true]
      exact ⟨by omega, le_refl _⟩
    · rw [hother j hji] at hrem ⊢
      obtain ⟨a, b⟩ := fin0 j hj hrem
      exact ⟨a, by omega⟩
  · -- the last block
    intro hcn
    rw [f5, hlen] at hcn
    have hr : (proc st.sim.processes i).remaining_time -
        rr_exec st.sim.time_quantum (proc st.sim.processes i) = 0 := by
      by_contra hr
      simp only [hr, if_false] at hcn
      exact hne hcn
    right
    refine ⟨by rw [f2]; simp, i, by rw [hlen]; exact hi, ?_⟩
    rw [hgend, hself, c4]
    simp only [hr, if_true]

theorem rr_body_jump (st : RRState) (h : st.front = st.rear) :
    rr_body st =
      if rr_next_arrival st.sim.processes st.sim.current_time ≠ INT_MAX then
        RRState.mk
          (Sim.mk st.sim.processes st.sim.gantt_chart st.sim.time_quantum
            (rr_next_arrival st.sim.processes st.sim.current_time))
          st.completed
          (rr_enqueue false st.sim.processes
            (rr_next_arrival st.sim.processes st.sim.current_time) (st.queue, st.in_queue)).1
          st.front
          (rr_enqueue false st.sim.processes
            (rr_next_arrival st.sim.processes st.sim.current_time) (st.queue, st.in_queue)).2
      else st := by
  simp only [rr_body, h, if_true]

/-- Description of a fast-forward iteration of the round-robin loop that finds
a next arrival. -/
theorem rr_jump_facts (st : RRState) (hinv : rr_inv st) (hL : st.live = [])
    (hn : rr_next_arrival st.sim.processes st.sim.current_time ≠ INT_MAX) :
    (rr_body st).sim.processes = st.sim.processes ∧
    (rr_body st).sim.gantt_chart = st.sim.gantt_chart ∧
    (rr_body st).sim.time_quantum = st.sim.time_quantum ∧
    (rr_body st).completed = st.completed ∧
    st.sim.current_time < (rr_body st).sim.current_time ∧
    (rr_body st).front ≤ (rr_body st).queue.length ∧
    (rr_body st).in_queue.length = st.sim.processes.length ∧
    (rr_body st).live.Nodup ∧
    (rr_body st).live ≠ [] ∧
    (∀ j, j ∈ (rr_body st).live ↔ (j < st.sim.processes.length ∧
      (proc st.sim.processes j).arrival_time ≤ (rr_body st).sim.current_time ∧
      0 < (proc st.sim.processes j).remaining_time)) ∧
    (∀ j, j < st.sim.processes.length →
      (flag (rr_body st).in_queue j = true ↔ j ∈ (rr_body st).live)) := by
  obtain ⟨⟨l1, l2, l3⟩, ⟨q1, q2, q3, q4⟩, _⟩ := hinv
  have hfr : st.front = st.rear := (live_eq_nil_iff st l2).mp hL
  have hfr' : st.front = st.queue.length := hfr
  have hbody := rr_body_jump st hfr
  simp only [hn, ne_eq, not_false_eq_true, if_true] at hbody
  obtain ⟨_, _, n3⟩ := rr_next_arrival_fold st.sim.processes st.sim.current_time
    st.sim.processes.length
  obtain ⟨k, hk, hk1, hk2, hk3⟩ := n3 hn
  have hnf : ∀ j, j < st.sim.processes.length → flag st.in_queue j = false := by
    intro j hj
    cases hf : flag st.in_queue j with
    | false => rfl
    | true =>
      have := (q3 j hj).mp hf
      rw [hL] at this
      simp at this
  obtain ⟨e1, e2, e3⟩ := rr_enqueue_spec false st.sim.processes
    (rr_next_arrival st.sim.processes st.sim.current_time) st.queue st.in_queue l1
  have hlive : (rr_body st).live = (List.range st.sim.processes.length).filter
      (fun j => rr_test false st.sim.processes
        (rr_next_arrival st.sim.processes st.sim.current_time) st.in_queue j) := by
    rw [hbody]
    simp only [RRState.live, e1, hfr']
    rw [List.drop_append_of_le_length (le_refl _), List.drop_length, List.nil_append]
  have hct : (rr_body st).sim.current_time =
      rr_next_arrival st.sim.processes st.sim.current_time := by rw [hbody]
  have hmem : ∀ j, j ∈ (rr_body st).live ↔ (j < st.sim.processes.length ∧
      (proc st.sim.processes j).arrival_time ≤ (rr_body st).sim.current_time ∧
      0 < (proc st.sim.processes j).remaining_time) := by
    intro j
    rw [hlive, hct, List.mem_filter, List.mem_range, rr_test_false_iff]
    constructor
    · rintro ⟨a, b, _, d⟩; exact ⟨a, b, d⟩
    · rintro ⟨a, b, d⟩; exact ⟨a, b, hnf j a, d⟩
  refine ⟨by rw [hbody], by rw [hbody], by rw [hbody], by rw [hbody], ?_, ?_, ?_, ?_, ?_,
    hmem, ?_⟩
  · rw [hct]
    have : rr_next_arrival st.sim.processes st.sim.current_time =
        (proc st.sim.processes k).arrival_time := hk1
    omega
  · rw [hbody]; simp only [e1, List.length_append]; omega
  · rw [hbody]; exact e2
  · rw [hlive]; exact (List.nodup_range _).filter _
  · intro hnil
    have : k ∈ (rr_body st).live := (hmem k).mpr ⟨hk, by rw [hct]; exact le_of_eq hk1.symm, hk3⟩
    rw [hnil] at this
    simp at this
  · intro j hj
    rw [hmem j]
    have : flag (rr_body st).in_queue j =
        (flag st.in_queue j || rr_test false st.sim.processes
          (rr_next_arrival st.sim.processes st.sim.current_time) st.in_queue j) := by
      rw [hbody]; exact e3 j hj
    rw [this, hnf j hj, Bool.false_or, rr_test_false_iff, hct]
    constructor
    · rintro ⟨b, _, d⟩; exact ⟨hj, b, d⟩
    · rintro ⟨_, b, d⟩; exact ⟨b, hnf j hj, d⟩

theorem rr_inv_jump (st : RRState) (hinv : rr_inv st) (hL : st.live = [])
    (hc : rr_cond st = true) : rr_inv (rr_body st) := by
  by_cases hn : rr_next_arrival st.sim.processes st.sim.current_time ≠ INT_MAX
  · obtain ⟨f1, f2, f3, f4, f5, f6, f7, f8, _, f10, f11⟩ := rr_jump_facts st hinv hL hn
    obtain ⟨⟨l1, l2, l3⟩, ⟨q1, q2, q3, q4⟩, r0, c0, ⟨t1, t2⟩, fin0, _⟩ := hinv
    have hne : st.completed ≠ st.sim.processes.length := by
      simpa [rr_cond] using hc
    refine ⟨⟨by rw [f1]; exact f7, f6, by rw [f3]; exact l3⟩, ⟨f8, ?_, ?_, ?_⟩, ?_, ?_,
      ⟨by omega, ?_⟩, ?_, ?_⟩
    · intro j hj
      rw [f1]
      obtain ⟨a, b, c⟩ := (f10 j).mp hj
      exact ⟨a, c, b⟩
    · intro j hj
      rw [f1] at hj
      exact f11 j hj
    · intro j hj hrem harr
      rw [f1] at hj hrem harr
      exact (f10 j).mpr ⟨hj, harr, hrem⟩
    · intro j hj
      rw [f1] at hj ⊢
      obtain ⟨a, b, c, d, e⟩ := r0 j hj
      exact ⟨a, b, c, d, fun hlt => by have := e hlt; omega⟩
    · rw [f4, f1]; exact c0
    · rw [f2]; exact timeline_ok_mono _ _ _ t2 (le_of_lt f5)
    · intro j hj hrem
      rw [f1] at hj hrem ⊢
      rw [f2]
      exact fin0 j hj hrem
    · intro hcn
      rw [f4, f1] at hcn
      exact absurd hcn hne
  · have hfr : st.front = st.rear := (live_eq_nil_iff st hinv.1.2.1).mp hL
    rw [rr_body_jump st hfr]
    simp only [hn, if_false]
    exact hinv

theorem rr_inv_step (st : RRState) (hinv : rr_inv st) (hc : rr_cond st = true) :
    rr_inv (rr_body st) := by
  cases hL : st.live with
  | nil => exact rr_inv_jump st hinv hL hc
  | cons i rest => exact rr_inv_dispatch st hinv i rest hL hc

theorem proc_congr_map (ps : List Process) (f : Process → Process) (j : Nat)
    (hj : j < ps.length) : proc (ps.map f) j = f (proc ps j) := by
  simp [proc, List.getD_eq_getElem?_getD, List.getElem?_map, List.getElem?_eq_getElem hj]

theorem rr_inv_init (s : Sim) (hg : s.gantt_chart = []) (hq : 0 < s.time_quantum)
    (hv : ∀ p ∈ s.processes, 0 ≤ p.arrival_time ∧ 0 < p.burst_time) : rr_inv (rr_init s) := by
  have hcell : ∀ j, j < s.processes.length →
      proc (s.processes.map reset_remaining) j = reset_remaining (proc s.processes j) :=
    fun j hj => proc_map_reset_remaining _ _ hj
  have hval : ∀ j, j < s.processes.length →
      0 ≤ (proc s.processes j).arrival_time ∧ 0 < (proc s.processes j).burst_time :=
    fun j hj => hv _ (proc_mem _ _ hj)
  obtain ⟨e1, e2, e3⟩ := rr_enqueue_spec true (s.processes.map reset_remaining) 0 []
    (List.replicate (s.processes.map reset_remaining).length false) (by simp)
  rw [List.length_map] at e1 e2 e3
  rw [List.nil_append] at e1
  have hps : (rr_init s).sim.processes = s.processes.map reset_remaining := rfl
  have hlen : (rr_init s).sim.processes.length = s.processes.length := by
    rw [hps, List.length_map]
  have hlive : (rr_init s).live = (List.range s.processes.length).filter
      (fun i => rr_test true (s.processes.map reset_remaining) 0
        (List.replicate s.processes.length false) i) := by
    simp only [RRState.live, rr_init, List.drop_zero, List.length_map]; exact e1
  have htest : ∀ j, j < s.processes.length →
      (rr_test true (s.processes.map reset_remaining) 0
        (List.replicate s.processes.length false) j = true ↔
          (proc s.processes j).arrival_time = 0) := by
    intro j hj
    simp [rr_test, hcell j hj, reset_remaining]
  have hmem : ∀ j, j ∈ (rr_init s).live ↔
      (j < s.processes.length ∧ (proc s.processes j).arrival_time = 0) := by
    intro j
    rw [hlive, List.mem_filter, List.mem_range]
    constructor
    · rintro ⟨a, b⟩; exact ⟨a, (htest j a).mp b⟩
    · rintro ⟨a, b⟩; exact ⟨a, (htest j a).mpr b⟩
  have hct : (rr_init s).sim.current_time = 0 := rfl
  refine ⟨⟨?_, Nat.zero_le _, hq⟩, ⟨?_, ?_, ?_, ?_⟩, ?_, ?_, ⟨by rw [hct], ?_⟩, ?_, ?_⟩
  · rw [hlen]; simp only [rr_init, List.length_map]; exact e2
  · rw [hlive]; exact (List.nodup_range _).filter _
  · intro j hj
    obtain ⟨a, b⟩ := (hmem j).mp hj
    rw [hlen, hps, hcell j a, hct]
    exact ⟨a, (hval j a).2, le_of_eq b⟩
  · intro j hj
    rw [hlen] at hj
    rw [hmem j]
    have : flag (rr_init s).in_queue j =
        (flag (List.replicate s.processes.length false) j ||
          rr_test true (s.processes.map reset_remaining) 0
            (List.replicate s.processes.length false) j) := by
      simp only [rr_init, List.length_map]; exact e3 j hj
    rw [this, flag_replicate_false, Bool.false_or, htest j hj]
    exact ⟨fun h => ⟨hj, h⟩, fun h => h.2⟩
  · intro j hj hrem harr
    rw [hlen] at hj
    rw [hps, hcell j hj, hct] at harr
    rw [hmem j]
    have := (hval j hj).1
    exact ⟨hj, by have h2 : (reset_remaining (proc s.processes j)).arrival_time =
      (proc s.processes j).arrival_time := rfl
                  omega⟩
  · intro j hj
    rw [hlen] at hj
    rw [hps, hcell j hj]
    have := hval j hj
    simp only [reset_remaining]
    exact ⟨le_of_lt this.2, le_refl _, this.2, this.1, fun h => absurd h (lt_irrefl _)⟩
  · show 0 = List.countP (fun p => decide (p.remaining_time = 0))
      (s.processes.map reset_remaining)
    symm
    rw [List.countP_eq_zero]
    intro p hp
    obtain ⟨p0, hp0, rfl⟩ := List.mem_map.mp hp
    have := (hv p0 hp0).2
    simp only [reset_remaining, decide_eq_true_eq]
    omega
  · show timeline_ok s.gantt_chart 0
    rw [hg]; simp [timeline_ok]
  · intro j hj hrem
    rw [hlen] at hj
    rw [hps, hcell j hj] at hrem
    have := (hval j hj).2
    simp only [reset_remaining] at hrem
    omega
  · intro h
    left
    rw [← h]; rfl

theorem rr_inv_exit (st : RRState) (hinv : rr_inv st) (hc : rr_cond st = false) :
    (∀ p ∈ st.sim.processes, p.arrival_time + p.burst_time ≤ p.completion_time ∧
      p.remaining_time = 0) ∧
    timeline_ok st.sim.gantt_chart st.sim.current_time ∧
    (st.sim.processes ≠ [] → ∃ last, st.sim.gantt_chart.getLast? = some last ∧
      (∀ p ∈ st.sim.processes, p.completion_time ≤ last.end_time) ∧
      ∃ p ∈ st.sim.processes, p.completion_time = last.end_time) := by
  obtain ⟨_, _, _, c0, ⟨_, t2⟩, fin0, e0⟩ := hinv
  have he : st.completed = st.sim.processes.length := by
    simpa [rr_cond] using hc
  have hall : ∀ p ∈ st.sim.processes, p.remaining_time = 0 := by
    intro p hp
    have := List.countP_eq_length.mp (c0.symm.trans he) p hp
    simpa using this
  have hallj : ∀ j, j < st.sim.processes.length → (proc st.sim.processes j).remaining_time = 0 :=
    fun j hj => hall _ (proc_mem _ _ hj)
  refine ⟨?_, t2, ?_⟩
  · intro p hp
    obtain ⟨j, hj, rfl⟩ := (mem_iff_proc _ _).mp hp
    exact ⟨(fin0 j hj (hallj j hj)).1, hallj j hj⟩
  · intro hne
    rcases e0 he with h0 | ⟨hg, j, hj, hjc⟩
    · exact absurd (List.length_eq_zero.mp h0) hne
    · obtain ⟨last, hl⟩ := getLast?_eq_some_of_ne_nil _ hg
      have hge : gantt_end st.sim.gantt_chart = last.end_time := by simp [gantt_end, hl]
      refine ⟨last, hl, ?_, proc st.sim.processes j, proc_mem _ _ hj, by rw [hjc, hge]⟩
      intro p hp
      obtain ⟨j2, hj2, rfl⟩ := (mem_iff_proc _ _).mp hp
      rw [← hge]
      exact (fin0 j2 hj2 (hallj j2 hj2)).2

theorem exists_unfinished (ps : List Process)
    (h : ps.countP (fun p => decide (p.remaining_time = 0)) ≠ ps.length) :
    ∃ j, j < ps.length ∧ (proc ps j).remaining_time ≠ 0 := by
  by_contra hc
  apply h
  apply List.countP_eq_length.mpr
  intro p hp
  obtain ⟨j, hj, rfl⟩ := (mem_iff_proc _ _).mp hp
  simp only [decide_eq_true_eq]
  by_contra hne
  exact hc ⟨j, hj, hne⟩

theorem rr_term_step (st : RRState) (hinv : rr_term_inv st) (hc : rr_cond st = true) :
    rr_term_inv (rr_body st) ∧ rr_measure (rr_body st) < rr_measure st := by
  obtain ⟨hb, hs⟩ := hinv
  have hb' := rr_inv_step st hb hc
  have hne : st.completed ≠ st.sim.processes.length := by
    simpa [rr_cond] using hc
  cases hL : st.live with
  | nil =>
    obtain ⟨j, hj, hjr⟩ := exists_unfinished st.sim.processes (by rw [← hb.2.2.2.1]; exact hne)
    have hpos : 0 < (proc st.sim.processes j).remaining_time := by
      have := (hb.2.2.1 j hj).1; omega
    have hgt : st.sim.current_time < (proc st.sim.processes j).arrival_time := by
      by_contra hcon
      have := hb.2.1.2.2.2 j hj hpos (by omega)
      rw [hL] at this
      simp at this
    obtain ⟨_, n2, _⟩ := rr_next_arrival_fold st.sim.processes st.sim.current_time
      st.sim.processes.length
    have hn : rr_next_arrival st.sim.processes st.sim.current_time ≠ INT_MAX := by
      have h1 := n2 j hj hgt hpos
      have h2 := hs j hj
      intro heq
      have : rr_next_arrival st.sim.processes st.sim.current_time ≤
          (proc st.sim.processes j).arrival_time := h1
      omega
    obtain ⟨f1, _, _, _, _, _, _, _, f9, _, _⟩ := rr_jump_facts st hb hL hn
    refine ⟨⟨hb', ?_⟩, ?_⟩
    · rw [f1]; exact hs
    · simp only [rr_measure, f1, f9, hL, if_true, if_false]
      omega
  | cons i rest =>
    obtain ⟨newly, f1, _, _, _, _, _, _, _, _, _, _⟩ := rr_dispatch_facts st hb i rest hL
    obtain ⟨⟨_, _, l3⟩, ⟨_, q2, _, _⟩, _⟩ := hb
    obtain ⟨hi, hri, _⟩ := q2 i (by rw [hL]; simp)
    have hmin := rr_exec_eq_min st.sim.time_quantum (proc st.sim.processes i)
    have he1 : 1 ≤ rr_exec st.sim.time_quantum (proc st.sim.processes i) := by
      rw [hmin, min_def]; split <;> omega
    obtain ⟨c1, c2, _, _⟩ := rr_cell_fields st.sim.current_time st.sim.time_quantum
      (proc st.sim.processes i)
    have hsum := total_remaining_updateAt st.sim.processes i
      (rr_cell st.sim.current_time st.sim.time_quantum) hi
    rw [c2] at hsum
    refine ⟨⟨hb', ?_⟩, ?_⟩
    · intro j hj
      rw [f1] at hj ⊢
      rw [length_updateAt] at hj
      rw [proc_updateAt]
      split
      · rename_i hji
        rw [hji.1, c1.2.1]; exact hs i hi
      · exact hs j hj
    · simp only [rr_measure, f1]
      have : (if (rr_body st).live = [] then 1 else 0) ≤ 1 := by split <;> omega
      have h2 : (if st.live = [] then 1 else 0) = 0 := by simp [hL]
      omega

theorem rr_terminates (st : RRState) (hinv : rr_term_inv st) :
    ∃ r, while_loop rr_cond rr_body (rr_measure st) st = some r :=
  while_loop_term rr_cond rr_body rr_term_inv rr_measure
    (fun x hx hc => (rr_term_step x hx hc).1)
    (fun x hx hc => (rr_term_step x hx hc).2) _ st hinv (le_refl _)

/-! ### FCFS -/

theorem fcfs_run_facts (l : List Process) :
    ∀ (ct : Int) (g : List GanttBlock), 0 ≤ ct → timeline_ok g ct →
      (∀ p ∈ l, 0 ≤ p.arrival_time ∧ 0 < p.burst_time ∧ p.remaining_time = p.burst_time) →
      timeline_ok (g ++ (fcfs_run ct l).map blockOf) (fcfs_end ct l) ∧ ct ≤ fcfs_end ct l ∧
      (∀ p ∈ fcfs_run ct l, (0 ≤ p.arrival_time ∧ 0 < p.burst_time ∧
        p.arrival_time + p.burst_time ≤ p.completion_time ∧
        p.remaining_time = p.burst_time) ∧ p.completion_time ≤ fcfs_end ct l) ∧
      (l ≠ [] → ∃ last, (g ++ (fcfs_run ct l).map blockOf).getLast? = some last ∧
        last.end_time = fcfs_end ct l ∧
        ∃ p ∈ fcfs_run ct l, p.completion_time = fcfs_end ct l) := by
  induction l with
  | nil =>
    intro ct g _ hg _
    exact ⟨by simpa [fcfs_run, fcfs_end] using hg, le_refl _, by simp [fcfs_run],
      fun h => absurd rfl h⟩
  | cons p t ih =>
    intro ct g h0 hg hv
    obtain ⟨pa, pb, pr⟩ := hv p (by simp)
    have hst : ct ≤ (if ct < p.arrival_time then p.arrival_time else ct) := by split <;> omega
    have harr : p.arrival_time ≤ (if ct < p.arrival_time then p.arrival_time else ct) := by
      split <;> omega
    have hg1 : timeline_ok (g ++ [blockOf (fcfs_cell ct p)]) (fcfs_cell ct p).completion_time :=
      timeline_ok_append g (if ct < p.arrival_time then p.arrival_time else ct)
        (fcfs_cell ct p).completion_time _ (timeline_ok_mono _ _ _ hg hst) rfl rfl
        (by simp only [fcfs_cell]; omega)
    have hc0 : 0 ≤ (fcfs_cell ct p).completion_time := by simp only [fcfs_cell]; omega
    obtain ⟨i1, i2, i3, i4⟩ := ih (fcfs_cell ct p).completion_time
      (g ++ [blockOf (fcfs_cell ct p)]) hc0 hg1 (fun q hq => hv q (List.mem_cons_of_mem _ hq))
    have hrun : fcfs_run ct (p :: t) =
        fcfs_cell ct p :: fcfs_run (fcfs_cell ct p).completion_time t := rfl
    have hend : fcfs_end ct (p :: t) = fcfs_end (fcfs_cell ct p).completion_time t := rfl
    have happ : g ++ (fcfs_run ct (p :: t)).map blockOf =
        (g ++ [blockOf (fcfs_cell ct p)]) ++
          (fcfs_run (fcfs_cell ct p).completion_time t).map blockOf := by
      rw [hrun]; simp
    have hcle : ct ≤ (fcfs_cell ct p).completion_time := by simp only [fcfs_cell]; omega
    rw [happ, hend]
    refine ⟨i1, le_trans hcle i2, ?_, ?_⟩
    · intro q hq
      rw [hrun] at hq
      rcases List.mem_cons.mp hq with h | h
      · rw [h]
        exact ⟨⟨pa, pb, by simp only [fcfs_cell]; omega, pr⟩, i2⟩
      · exact i3 q h
    · intro _
      by_cases ht : t = []
      · subst ht
        refine ⟨blockOf (fcfs_cell ct p), by simp [fcfs_run], rfl, fcfs_cell ct p, ?_, rfl⟩
        rw [hrun]; simp
      · obtain ⟨last, a, b, q, hq, c⟩ := i4 ht
        exact ⟨last, a, b, q, by rw [hrun]; exact List.mem_cons_of_mem _ hq, c⟩

theorem batch_body_keeps (key : Process → Int) (st : SelState) (j : Nat) :
    (proc (batch_body key st).sim.processes j).arrival_time =
      (proc st.sim.processes j).arrival_time ∧
    (proc (batch_body key st).sim.processes j).burst_time =
      (proc st.sim.processes j).burst_time ∧
    (proc (batch_body key st).sim.processes j).remaining_time =
      (proc st.sim.processes j).remaining_time ∧
    (proc (batch_body key st).sim.processes j).priority =
      (proc st.sim.processes j).priority := by
  cases hs : select_min key st.sim.processes st.is_completed st.sim.current_time with
  | none => rw [batch_body_none key st hs]; exact ⟨rfl, rfl, rfl, rfl⟩
  | some i =>
    rw [batch_body_some key st i hs]
    simp only [proc_updateAt]
    split <;> exact ⟨rfl, rfl, rfl, rfl⟩

theorem batch_run_facts (key : Process → Int) (s : Sim) (hr : run_ready s) (fuel : Nat)
    (r : SelState) (h : while_loop sel_cond (batch_body key) fuel (sel_init s) = some r) :
    run_facts true r.sim ∧ r.sim.processes.length = s.processes.length := by
  obtain ⟨hg, hv⟩ := hr
  have hinit : batch_inv (sel_init s) ∧ (sel_init s).sim.processes.length = s.processes.length ∧
      ∀ j, j < (sel_init s).sim.processes.length →
        0 ≤ (proc (sel_init s).sim.processes j).arrival_time ∧
        (proc (sel_init s).sim.processes j).remaining_time =
          (proc (sel_init s).sim.processes j).burst_time :=
    ⟨batch_inv_init s hg (fun p hp => (hv p hp).2.1), rfl,
      fun j hj => ⟨(hv _ (proc_mem _ _ hj)).1, (hv _ (proc_mem _ _ hj)).2.2⟩⟩
  obtain ⟨⟨i1, i2, i3⟩, hc⟩ := while_loop_inv sel_cond (batch_body key)
    (fun st => batch_inv st ∧ st.sim.processes.length = s.processes.length ∧
      ∀ j, j < st.sim.processes.length →
        0 ≤ (proc st.sim.processes j).arrival_time ∧
        (proc st.sim.processes j).remaining_time = (proc st.sim.processes j).burst_time)
    (by
      intro st ⟨a, b, c⟩ hcond
      refine ⟨batch_inv_step key st a hcond, (batch_body_lengths key st).1.trans b, ?_⟩
      intro j hj
      rw [(batch_body_lengths key st).1] at hj
      obtain ⟨k1, k2, k3, _⟩ := batch_body_keeps key st j
      rw [k1, k2, k3]
      exact c j hj)
    fuel (sel_init s) r hinit h
  obtain ⟨e1, e2, e3⟩ := batch_inv_exit r i1 hc
  refine ⟨⟨?_, ⟨_, e2⟩, e3⟩, i2⟩
  intro p hp
  obtain ⟨j, hj, rfl⟩ := (mem_iff_proc _ _).mp hp
  exact ⟨(i3 j hj).1, i1.2.2.2.2.1 j hj, e1 _ hp, by simpa using (i3 j hj).2⟩

theorem batch_run_terminates (key : Process → Int)
    (hkey : ∀ (p : Process) (a b : Int),
      key { p with start_time := a, completion_time := b } = key p)
    (s : Sim) (hr : run_ready s) (hk : ∀ p ∈ s.processes, key p < INT_MAX) :
    ∃ fuel r, while_loop sel_cond (batch_body key) fuel (sel_init s) = some r := by
  obtain ⟨M, hM⟩ := exists_arrival_bound s.processes
  have hinv : batch_term_inv key M (sel_init s) :=
    ⟨batch_inv_init s hr.1 (fun p hp => (hr.2 p hp).2.1),
      fun j hj => ⟨hM _ (proc_mem _ _ hj), hk _ (proc_mem _ _ hj)⟩⟩
  exact ⟨_, batch_terminates key M hkey (sel_init s) hinv⟩

/-! ### SRTF and Preemptive Priority -/

theorem tick_init_cell (s : Sim) (j : Nat) (hj : j < s.processes.length) :
    proc (tick_init s).sim.processes j = reset_remaining (proc s.processes j) := by
  simp only [tick_init, sel_init]
  exact proc_map_reset_remaining _ _ hj

theorem tick_run_facts (key : Process → Int) (s : Sim) (hr : run_ready s) (fuel : Nat)
    (r : SelState) (h : while_loop sel_cond (tick_body key) fuel (tick_init s) = some r) :
    run_facts false r.sim ∧ r.sim.processes.length = s.processes.length := by
  obtain ⟨hg, hv⟩ := hr
  have hlen0 : (tick_init s).sim.processes.length = s.processes.length := by
    simp [tick_init, sel_init]
  have hinit : tick_run_inv (tick_init s) ∧
      (tick_init s).sim.processes.length = s.processes.length ∧
      ∀ j, j < (tick_init s).sim.processes.length →
        0 ≤ (proc (tick_init s).sim.processes j).arrival_time ∧
        0 < (proc (tick_init s).sim.processes j).burst_time := by
    refine ⟨tick_run_inv_init s hg (fun p hp => (hv p hp).2.1), hlen0, ?_⟩
    intro j hj
    rw [hlen0] at hj
    rw [tick_init_cell s j hj]
    exact ⟨(hv _ (proc_mem _ _ hj)).1, (hv _ (proc_mem _ _ hj)).2.1⟩
  obtain ⟨⟨i1, i2, i3⟩, hc⟩ := while_loop_inv sel_cond (tick_body key)
    (fun st => tick_run_inv st ∧ st.sim.processes.length = s.processes.length ∧
      ∀ j, j < st.sim.processes.length →
        0 ≤ (proc st.sim.processes j).arrival_time ∧ 0 < (proc st.sim.processes j).burst_time)
    (by
      intro st ⟨a, b, c⟩ hcond
      refine ⟨tick_run_inv_step key st a hcond, (tick_body_lengths key st).1.trans b, ?_⟩
      intro j hj
      rw [(tick_body_lengths key st).1] at hj
      obtain ⟨_, k2, k3, _⟩ := tick_body_static key st j
      rw [k2, k3]
      exact c j hj)
    fuel (tick_init s) r hinit h
  obtain ⟨e1, e2, e3⟩ := tick_run_inv_exit r i1 hc
  refine ⟨⟨?_, ⟨_, e2⟩, e3⟩, i2⟩
  intro p hp
  obtain ⟨j, hj, rfl⟩ := (mem_iff_proc _ _).mp hp
  exact ⟨(i3 j hj).1, (i3 j hj).2, (e1 _ hp).1, by simpa using (e1 _ hp).2⟩

theorem tick_run_terminates (key : Process → Int)
    (hkey : ∀ p : Process, p.remaining_time ≤ p.burst_time → p.burst_time < INT_MAX →
      p.priority < INT_MAX → key p < INT_MAX)
    (s : Sim) (hr : run_ready s) (hk : below_sentinel s) :
    ∃ fuel r, while_loop sel_cond (tick_body key) fuel (tick_init s) = some r := by
  obtain ⟨M, hM⟩ := exists_arrival_bound s.processes
  have hlen0 : (tick_init s).sim.processes.length = s.processes.length := by
    simp [tick_init, sel_init]
  have hinv : tick_term_inv M (tick_init s) := by
    refine ⟨tick_run_inv_init s hr.1 (fun p hp => (hr.2 p hp).2.1), ?_⟩
    intro j hj
    rw [hlen0] at hj
    rw [tick_init_cell s j hj]
    have h1 := hM _ (proc_mem _ _ hj)
    have h2 := hk _ (proc_mem _ _ hj)
    exact ⟨h1, h2.2.1, h2.2.2⟩
  exact ⟨_, tick_terminates key M hkey (tick_init s) hinv⟩

/-! ### Round-robin -/

theorem rr_body_length (st : RRState) (hinv : rr_inv st) :
    (rr_body st).sim.processes.length = st.sim.processes.length := by
  cases hL : st.live with
  | nil =>
    have hfr : st.front = st.rear := (live_eq_nil_iff st hinv.1.2.1).mp hL
    rw [rr_body_jump st hfr]
    split <;> rfl
  | cons i rest =>
    obtain ⟨_, f1, _⟩ := rr_dispatch_facts st hinv i rest hL
    rw [f1, length_updateAt]

theorem rr_run_facts (s : Sim) (hr : run_ready s) (hq : 0 < s.time_quantum) (fuel : Nat)
    (r : RRState) (h : while_loop rr_cond rr_body fuel (rr_init s) = some r) :
    run_facts false r.sim ∧ r.sim.processes.length = s.processes.length := by
  obtain ⟨hg, hv⟩ := hr
  have hlen0 : (rr_init s).sim.processes.length = s.processes.length := by
    simp [rr_init]
  obtain ⟨⟨i1, i2⟩, hc⟩ := while_loop_inv rr_cond rr_body
    (fun st => rr_inv st ∧ st.sim.processes.length = s.processes.length)
    (fun st ⟨a, b⟩ hcond => ⟨rr_inv_step st a hcond, (rr_body_length st a).trans b⟩)
    fuel (rr_init s) r
    ⟨rr_inv_init s hg hq (fun p hp => ⟨(hv p hp).1, (hv p hp).2.1⟩), hlen0⟩ h
  obtain ⟨e1, e2, e3⟩ := rr_inv_exit r i1 hc
  refine ⟨⟨?_, ⟨_, e2⟩, e3⟩, i2⟩
  intro p hp
  obtain ⟨j, hj, rfl⟩ := (mem_iff_proc _ _).mp hp
  obtain ⟨_, _, b1, b2, _⟩ := i1.2.2.1 j hj
  exact ⟨b2, b1, (e1 _ hp).1, by simpa using (e1 _ hp).2⟩

theorem rr_run_terminates (s : Sim) (hr : run_ready s) (hq : 0 < s.time_quantum)
    (hk : below_sentinel s) :
    ∃ fuel r, while_loop rr_cond rr_body fuel (rr_init s) = some r := by
  have hlen0 : (rr_init s).sim.processes.length = s.processes.length := by
    simp [rr_init]
  have hinv : rr_term_inv (rr_init s) := by
    refine ⟨rr_inv_init s hr.1 hq (fun p hp => ⟨(hr.2 p hp).1, (hr.2 p hp).2.1⟩), ?_⟩
    intro j hj
    rw [hlen0] at hj
    have : proc (rr_init s).sim.processes j = reset_remaining (proc s.processes j) := by
      simp only [rr_init]
      exact proc_map_reset_remaining _ _ hj
    rw [this]
    exact (hk _ (proc_mem _ _ hj)).1
  exact ⟨_, rr_terminates (rr_init s) hinv⟩

/-! ### The controller -/

theorem strategy_input_ready (s : Sim)
    (hv : ∀ p ∈ s.processes, 0 ≤ p.arrival_time ∧ 0 < p.burst_time) :
    run_ready (strategy_input s) ∧ (strategy_input s).time_quantum = s.time_quantum ∧
    (strategy_input s).processes.length = s.processes.length ∧
    (below_sentinel s → below_sentinel (strategy_input s)) := by
  refine ⟨⟨rfl, ?_⟩, rfl, by simp [strategy_input, reset_simulation], ?_⟩
  · intro p hp
    simp only [strategy_input, reset_simulation, List.mem_map] at hp
    obtain ⟨p0, hp0, rfl⟩ := hp
    exact ⟨(hv p0 hp0).1, (hv p0 hp0).2, rfl⟩
  · intro hb p hp
    simp only [strategy_input, reset_simulation, List.mem_map] at hp
    obtain ⟨p0, hp0, rfl⟩ := hp
    exact hb p0 hp0

theorem simulate_scheduling_eq (fuel : Nat) (algo : SchedulingAlgorithm) (s : Sim) :
    simulate_scheduling fuel algo s =
      (match algo with
        | .FCFS => some (fcfs_scheduling (strategy_input s))
        | .SJF => sjf_scheduling fuel (strategy_input s)
        | .SRTF => srtf_scheduling fuel (strategy_input s)
        | .PRIORITY => priority_scheduling fuel (strategy_input s)
        | .ROUND_ROBIN => round_robin_scheduling fuel (strategy_input s)
        | .PREEMPTIVE_PRIORITY => preemptive_priority_scheduling fuel (strategy_input s)).map
        calculate_times := rfl

theorem simulate_terminates (algo : SchedulingAlgorithm) (s : Sim)
    (hv : ∀ p ∈ s.processes, 0 ≤ p.arrival_time ∧ 0 < p.burst_time)
    (hq : algo = .ROUND_ROBIN → 0 < s.time_quantum) (hb : below_sentinel s) :
    ∃ fuel r, simulate_scheduling fuel algo s = some r := by
  obtain ⟨hr, hqe, _, hbs⟩ := strategy_input_ready s hv
  have hb2 := hbs hb
  cases algo with
  | FCFS => exact ⟨0, _, rfl⟩
  | SJF =>
    obtain ⟨fuel, st, hst⟩ := batch_run_terminates (fun p => p.burst_time)
      (fun _ _ _ => rfl) (strategy_input s) hr (fun p hp => (hb2 p hp).2.1)
    exact ⟨fuel, calculate_times st.sim, by
      rw [simulate_scheduling_eq]; simp only [sjf_scheduling, hst, Option.map_some']⟩
  | SRTF =>
    obtain ⟨fuel, st, hst⟩ := tick_run_terminates (fun p => p.remaining_time)
      (fun p h1 h2 _ => by show p.remaining_time < INT_MAX; omega) (strategy_input s) hr hb2
    exact ⟨fuel, calculate_times st.sim, by
      rw [simulate_scheduling_eq]; simp only [srtf_scheduling, hst, Option.map_some']⟩
  | PRIORITY =>
    obtain ⟨fuel, st, hst⟩ := batch_run_terminates (fun p => p.priority)
      (fun _ _ _ => rfl) (strategy_input s) hr (fun p hp => (hb2 p hp).2.2)
    exact ⟨fuel, calculate_times st.sim, by
      rw [simulate_scheduling_eq]; simp only [priority_scheduling, hst, Option.map_some']⟩
  | ROUND_ROBIN =>
    obtain ⟨fuel, st, hst⟩ := rr_run_terminates (strategy_input s) hr
      (by rw [hqe]; exact hq rfl) hb2
    exact ⟨fuel, calculate_times st.sim, by
      rw [simulate_scheduling_eq]; simp only [round_robin_scheduling, hst, Option.map_some']⟩
  | PREEMPTIVE_PRIORITY =>
    obtain ⟨fuel, st, hst⟩ := tick_run_terminates (fun p => p.priority)
      (fun p _ _ h3 => h3) (strategy_input s) hr hb2
    exact ⟨fuel, calculate_times st.sim, by
      rw [simulate_scheduling_eq]
      simp only [preemptive_priority_scheduling, hst, Option.map_some']⟩

theorem calculate_process_keeps (p : Process) :
    (calculate_process p).arrival_time = p.arrival_time ∧
    (calculate_process p).burst_time = p.burst_time ∧
    (calculate_process p).completion_time = p.completion_time ∧
    (calculate_process p).remaining_time = p.remaining_time ∧
    (calculate_process p).turnaround_time = p.completion_time - p.arrival_time ∧
    (calculate_process p).waiting_time =
      max 0 (p.completion_time - p.arrival_time - p.burst_time) := by
  rw [calculate_process_eq]
  exact ⟨rfl, rfl, rfl, rfl, rfl, rfl⟩

theorem below_sentinel_sample : below_sentinel (Sim.mk sample_processes [] 2 0) := by
  unfold below_sentinel
  decide

/-! ### The add operation -/

theorem on_add_full (s : Sim) (inp : AddInput) (h : MAX_PROCESSES ≤ s.processes.length) :
    on_add_process_clicked s inp = s := by
  simp [on_add_process_clicked, h]

theorem on_add_cancel (s : Sim) (inp : AddInput) (h : inp.ok = false) :
    on_add_process_clicked s inp = s := by
  simp [on_add_process_clicked, h]

theorem on_add_ok (s : Sim) (inp : AddInput) (h : s.processes.length < MAX_PROCESSES)
    (hok : inp.ok = true) :
    on_add_process_clicked s inp =
      { s with processes := s.processes ++ [added_process s.processes.length inp] } := by
  simp [on_add_process_clicked, Nat.not_le.mpr h, hok]

theorem on_add_length_le (s : Sim) (inp : AddInput) (h : s.processes.length ≤ MAX_PROCESSES) :
    (on_add_process_clicked s inp).processes.length ≤ MAX_PROCESSES := by
  unfold on_add_process_clicked
  split
  · exact h
  · split
    · simp only [List.length_append, List.length_singleton]; omega
    · exact h

theorem on_add_foldl_length_le (inputs : List AddInput) :
    ∀ s : Sim, s.processes.length ≤ MAX_PROCESSES →
      (inputs.foldl on_add_process_clicked s).processes.length ≤ MAX_PROCESSES := by
  induction inputs with
  | nil => intro s h; exact h
  | cons a l ih => intro s h; exact ih _ (on_add_length_le s a h)

/-! ### Loops that never leave -/

theorem while_loop_stuck {σ : Type} (cond : σ → Bool) (body : σ → σ) (I : σ → Prop)
    (hI : ∀ st, I st → cond st = true ∧ I (body st)) :
    ∀ fuel st, I st → while_loop cond body fuel st = none := by
  intro fuel
  induction fuel with
  | zero => intro st h; simp [while_loop, (hI st h).1]
  | succ n ih =>
    intro st h
    simp only [while_loop, (hI st h).1, if_true]
    exact ih _ (hI st h).2

theorem sel_stuck (key : Process → Int) (body : SelState → SelState) (p : Process)
    (hk : key p = INT_MAX)
    (hb : ∀ st : SelState,
      select_min key st.sim.processes st.is_completed st.sim.current_time = none →
      body st = { st with sim := { st.sim with current_time := st.sim.current_time + 1 } })
    (fuel : Nat) (g : List GanttBlock) (q ct : Int) :
    while_loop sel_cond body fuel ⟨⟨[p], g, q, ct⟩, 0, [false]⟩ = none := by
  apply while_loop_stuck sel_cond body
    (fun st => st.sim.processes = [p] ∧ st.completed = 0 ∧ st.is_completed = [false])
  · rintro ⟨⟨ps, g, q, ct⟩, c, f⟩ ⟨h1, h2, h3⟩
    simp only at h1 h2 h3
    subst h1 h2 h3
    have hn : select_min key [p] [false] ct = none := by
      simp [select_min, select_step, List.range_succ, proc, hk]
    refine ⟨by simp [sel_cond], ?_⟩
    rw [hb _ hn]
    exact ⟨rfl, rfl, rfl⟩
  · exact ⟨rfl, rfl, rfl⟩

/-! ### What a run reads and what it leaves

`simulate_scheduling` reads the table only through `reset_simulation`, that
is through the fields `reset_process` keeps, and the stored quantum. -/

theorem reset_process_eq_iff (p q : Process) :
    reset_process p = reset_process q ↔ same_static p q := by
  constructor
  · intro h
    have h1 : (reset_process p).name = (reset_process q).name := by rw [h]
    have h2 : (reset_process p).arrival_time = (reset_process q).arrival_time := by rw [h]
    have h3 : (reset_process p).burst_time = (reset_process q).burst_time := by rw [h]
    have h4 : (reset_process p).priority = (reset_process q).priority := by rw [h]
    have h5 : (reset_process p).process_id = (reset_process q).process_id := by rw [h]
    have h6 : (reset_process p).color = (reset_process q).color := by rw [h]
    exact ⟨h1, h2, h3, h4, h5, h6⟩
  · rintro ⟨h1, h2, h3, h4, h5, h6⟩
    cases p
    cases q
    simp only at h1 h2 h3 h4 h5 h6
    simp [reset_process, h1, h2, h3, h4, h5, h6]

theorem map_reset_updateAt (l : List Process) (i : Nat) (f : Process → Process)
    (hf : ∀ q, reset_process (f q) = reset_process q) :
    (updateAt l i f).map reset_process = l.map reset_process := by
  induction l generalizing i with
  | nil => rfl
  | cons x xs ih =>
    cases i with
    | zero => simp [updateAt, hf]
    | succ i => simp [updateAt, ih]

theorem reset_set_start (ct : Int) (q : Process) :
    reset_process (set_start ct q) = reset_process q := by
  unfold set_start
  split <;> rfl

theorem reset_run_for (e : Int) (q : Process) :
    reset_process (run_for e q) = reset_process q := rfl

theorem reset_set_completion (ct : Int) (q : Process) :
    reset_process (set_completion ct q) = reset_process q := rfl

theorem reset_reset_remaining (q : Process) :
    reset_process (reset_remaining q) = reset_process q := rfl

theorem reset_reset_process (q : Process) :
    reset_process (reset_process q) = reset_process q := rfl

theorem map_reset_map (l : List Process) (f : Process → Process)
    (hf : ∀ q, reset_process (f q) = reset_process q) :
    (l.map f).map reset_process = l.map reset_process := by
  rw [List.map_map]
  exact List.map_congr_left (fun q _ => hf q)

theorem ite_cases {α : Type} (P : α → Prop) (c : Prop) [Decidable c] (a b : α) (ha : P a)
    (hb : P b) : P (if c then a else b) := by
  split
  · exact ha
  · exact hb

theorem rr_body_static (st : RRState) :
    (rr_body st).sim.processes.map reset_process = st.sim.processes.map reset_process ∧
    (rr_body st).sim.time_quantum = st.sim.time_quantum := by
  unfold rr_body
  dsimp only
  refine ite_cases (fun x : RRState =>
    x.sim.processes.map reset_process = st.sim.processes.map reset_process ∧
      x.sim.time_quantum = st.sim.time_quantum) _ _ _ ?_ ?_
  · exact ite_cases (fun x : RRState =>
      x.sim.processes.map reset_process = st.sim.processes.map reset_process ∧
        x.sim.time_quantum = st.sim.time_quantum) _ _ _ ⟨rfl, rfl⟩ ⟨rfl, rfl⟩
  · refine ite_cases (fun x : RRState =>
      x.sim.processes.map reset_process = st.sim.processes.map reset_process ∧
        x.sim.time_quantum = st.sim.time_quantum) _ _ _ ⟨?_, rfl⟩ ⟨?_, rfl⟩
    · dsimp only
      rw [map_reset_updateAt _ _ _ (reset_set_completion _),
        map_reset_updateAt _ _ _ (reset_run_for _),
        map_reset_updateAt _ _ _ (reset_set_start _)]
    · dsimp only
      rw [map_reset_updateAt _ _ _ (reset_run_for _),
        map_reset_updateAt _ _ _ (reset_set_start _)]

theorem strategy_input_processes (s : Sim) :
    (strategy_input s).processes = s.processes.map reset_process := rfl

theorem strategy_input_congr (a b : Sim)
    (hp : a.processes.map reset_process = b.processes.map reset_process)
    (hq : a.time_quantum = b.time_quantum) : strategy_input a = strategy_input b := by
  cases a
  cases b
  simp only at hp hq
  simp [strategy_input, reset_simulation, hp, hq]

theorem simulate_congr (fuel : Nat) (algo : SchedulingAlgorithm) (a b : Sim)
    (hp : a.processes.map reset_process = b.processes.map reset_process)
    (hq : a.time_quantum = b.time_quantum) :
    simulate_scheduling fuel algo a = simulate_scheduling fuel algo b := by
  rw [simulate_scheduling_eq, simulate_scheduling_eq, strategy_input_congr a b hp hq]

/-! ### The bubble sort on sorted and on relabelled tables -/

theorem same_static_of_map_reset (a b : List Process)
    (h : a.map reset_process = b.map reset_process) (i : Nat) :
    same_static (proc a i) (proc b i) := by
  have hl : a.length = b.length := by
    have := congrArg List.length h
    simpa using this
  by_cases hi : i < a.length
  · rw [← reset_process_eq_iff, ← proc_congr_map a reset_process i hi,
      ← proc_congr_map b reset_process i (hl ▸ hi), h]
  · rw [proc_default_of_le a i (Nat.le_of_not_lt hi),
      proc_default_of_le b i (hl ▸ Nat.le_of_not_lt hi)]
    exact ⟨rfl, rfl, rfl, rfl, rfl, rfl⟩

theorem mem_rr_newly (st : RRState) (ct : Int) (j : Nat) :
    j ∈ rr_newly st ct ↔ (j < st.sim.processes.length ∧
      (proc st.sim.processes j).arrival_time ≤ ct ∧ flag st.in_queue j = false ∧
      0 < (proc st.sim.processes j).remaining_time) := by
  rw [rr_newly, List.mem_filter, List.mem_range, rr_test_false_iff]

theorem rr_newly_nodup (st : RRState) (ct : Int) : (rr_newly st ct).Nodup :=
  (List.nodup_range _).filter _

theorem rr_newly_sorted (st : RRState) (ct : Int) :
    (rr_newly st ct).Pairwise (fun a b => a < b) :=
  (List.pairwise_lt_range _).filter _

/-- Description of a dispatch iteration of the round-robin loop in terms of the
queue invariant alone. -/
theorem rr_queue_dispatch (st : RRState) (hinv : rr_queue_inv st) (i : Nat) (rest : List Nat)
    (hL : st.live = i :: rest) :
    (rr_body st).sim.processes =
      updateAt st.sim.processes i (rr_cell st.sim.current_time st.sim.time_quantum) ∧
    (rr_body st).sim.current_time =
      st.sim.current_time + rr_exec st.sim.time_quantum (proc st.sim.processes i) ∧
    (rr_body st).sim.time_quantum = st.sim.time_quantum ∧
    (rr_body st).live = rest ++
      rr_newly st (st.sim.current_time + rr_exec st.sim.time_quantum (proc st.sim.processes i)) ++
      (if (proc st.sim.processes i).remaining_time -
          rr_exec st.sim.time_quantum (proc st.sim.processes i) = 0 then [] else [i]) ∧
    (rr_body st).front ≤ (rr_body st).queue.length ∧
    (rr_body st).in_queue.length = st.sim.processes.length ∧
    (∀ j, j < st.sim.processes.length →
      (flag (rr_body st).in_queue j = true ↔
        ((flag st.in_queue j = true ∨ j ∈ rr_newly st
            (st.sim.current_time + rr_exec st.sim.time_quantum (proc st.sim.processes i))) ∧
          ¬ (j = i ∧ (proc st.sim.processes i).remaining_time -
            rr_exec st.sim.time_quantum (proc st.sim.processes i) = 0)))) := by
  obtain ⟨⟨l1, l2, l3⟩, q1, q2, q3⟩ := hinv
  have hi : i < st.sim.processes.length := (q2 i (by rw [hL]; simp)).1
  have hfi : flag st.in_queue i = true := (q3 i hi).mpr (by rw [hL]; simp)
  obtain ⟨hfl, _, hdrop⟩ := drop_eq_cons st.queue st.front i rest 0 hL
  have hlen2 : st.in_queue.length =
      (updateAt st.sim.processes i
        (rr_slice st.sim.current_time st.sim.time_quantum)).length := by
    rw [length_updateAt]; exact l1
  obtain ⟨e1, e2, e3⟩ := rr_enqueue_spec false _
    (st.sim.current_time + rr_exec st.sim.time_quantum (proc st.sim.processes i))
    st.queue st.in_queue hlen2
  rw [length_updateAt] at e1 e2 e3
  have hbody := rr_body_dispatch st i rest hL hi
  have htest : ∀ j, rr_test false
      (updateAt st.sim.processes i (rr_slice st.sim.current_time st.sim.time_quantum))
      (st.sim.current_time + rr_exec st.sim.time_quantum (proc st.sim.processes i))
      st.in_queue j =
      rr_test false st.sim.processes
        (st.sim.current_time + rr_exec st.sim.time_quantum (proc st.sim.processes i))
        st.in_queue j := by
    intro j
    by_cases hji : j = i
    · subst hji
      simp [rr_test, hfi]
    · simp only [rr_test, proc_updateAt, hji, false_and, if_false]
  have hnew : (List.range st.sim.processes.length).filter
      (fun j => rr_test false
        (updateAt st.sim.processes i (rr_slice st.sim.current_time st.sim.time_quantum))
        (st.sim.current_time + rr_exec st.sim.time_quantum (proc st.sim.processes i))
        st.in_queue j) =
      rr_newly st
        (st.sim.current_time + rr_exec st.sim.time_quantum (proc st.sim.processes i)) := by
    unfold rr_newly
    exact List.filter_congr (fun j _ => htest j)
  rw [hnew] at e1
  generalize rr_newly st
    (st.sim.current_time + rr_exec st.sim.time_quantum (proc st.sim.processes i)) = newly at *
  have hmemtest : ∀ j, j < st.sim.processes.length →
      (rr_test false
        (updateAt st.sim.processes i (rr_slice st.sim.current_time st.sim.time_quantum))
        (st.sim.current_time + rr_exec st.sim.time_quantum (proc st.sim.processes i))
        st.in_queue j = true ↔ j ∈ newly) := by
    intro j hj
    rw [← hnew, List.mem_filter, List.mem_range]
    exact ⟨fun h => ⟨hj, h⟩, fun h => h.2⟩
  generalize rr_enqueue false
    (updateAt st.sim.processes i (rr_slice st.sim.current_time st.sim.time_quantum))
    (st.sim.current_time + rr_exec st.sim.time_quantum (proc st.sim.processes i))
    (st.queue, st.in_queue) = enq at *
  refine ⟨by rw [hbody], by rw [hbody], by rw [hbody], ?_, ?_, ?_, ?_⟩
  · rw [hbody]
    simp only [RRState.live, e1]
    rw [List.append_assoc, List.drop_append_of_le_length (by omega), hdrop, List.append_assoc]
  · rw [hbody]
    simp only [e1, List.length_append]
    omega
  · rw [hbody]
    dsimp only
    split
    · rw [length_updateAt]; exact e2
    · exact e2
  · intro j hj
    have hflag : flag enq.2 j = true ↔ (flag st.in_queue j = true ∨ j ∈ newly) := by
      rw [e3 j hj, Bool.or_eq_true, hmemtest j hj]
    rw [hbody]
    dsimp only
    by_cases hr : (proc st.sim.processes i).remaining_time -
        rr_exec st.sim.time_quantum (proc st.sim.processes i) = 0
    · simp only [hr, if_true, and_true]
      rw [flag_updateAt, e2]
      by_cases hji : j = i
      · subst hji
        simp [hj]
      · simp only [hji, false_and, if_false, not_false_eq_true, and_true]
        exact hflag
    · simp only [hr, if_false, and_false, not_false_eq_true, and_true]
      exact hflag

theorem rr_queue_inv_dispatch (st : RRState) (hinv : rr_queue_inv st) (i : Nat)
    (rest : List Nat) (hL : st.live = i :: rest) : rr_queue_inv (rr_body st) := by
  obtain ⟨f1, f2, f3, f4, f5, f6, f7⟩ := rr_queue_dispatch st hinv i rest hL
  obtain ⟨⟨l1, l2, l3⟩, q1, q2, q3⟩ := hinv
  rw [hL] at q1 q2 q3
  obtain ⟨hi, hri⟩ := q2 i (by simp)
  have hfi : flag st.in_queue i = true := (q3 i hi).mpr (by simp)
  have hirest : i ∉ rest := (List.nodup_cons.mp q1).1
  have hndrest : rest.Nodup := (List.nodup_cons.mp q1).2
  have hmem := mem_rr_newly st
    (st.sim.current_time + rr_exec st.sim.time_quantum (proc st.sim.processes i))
  have hnd := rr_newly_nodup st
    (st.sim.current_time + rr_exec st.sim.time_quantum (proc st.sim.processes i))
  generalize rr_newly st
    (st.sim.current_time + rr_exec st.sim.time_quantum (proc st.sim.processes i)) = newly at *
  have hinew : i ∉ newly := by
    intro h
    have := ((hmem i).mp h).2.2.1
    rw [hfi] at this; exact Bool.noConfusion this
  have hmin := rr_exec_eq_min st.sim.time_quantum (proc st.sim.processes i)
  have he2 : rr_exec st.sim.time_quantum (proc st.sim.processes i) ≤
      (proc st.sim.processes i).remaining_time := by
    rw [hmin]; exact min_le_left _ _
  have hlen : (rr_body st).sim.processes.length = st.sim.processes.length := by
    rw [f1, length_updateAt]
  have hdisj : ∀ j, j ∈ rest → j ∉ newly := by
    intro j hj hn
    have h1 : flag st.in_queue j = true :=
      (q3 j ((hmem j).mp hn).1).mpr (List.mem_cons_of_mem _ hj)
    have := ((hmem j).mp hn).2.2.1
    rw [h1] at this; exact Bool.noConfusion this
  have hrem : ∀ j, j < st.sim.processes.length →
      (proc (rr_body st).sim.processes j).remaining_time =
        (if j = i then (proc st.sim.processes i).remaining_time -
          rr_exec st.sim.time_quantum (proc st.sim.processes i)
        else (proc st.sim.processes j).remaining_time) := by
    intro j hj
    rw [f1, proc_updateAt]
    by_cases hji : j = i
    · subst hji
      simp only [hj, and_self, if_true]
      exact (rr_cell_fields _ _ _).2.1
    · simp only [hji, false_and, if_false]
  refine ⟨⟨by rw [hlen]; exact f6, f5, by rw [f3]; exact l3⟩, ?_, ?_, ?_⟩
  · rw [f4]
    by_cases hr : (proc st.sim.processes i).remaining_time -
        rr_exec st.sim.time_quantum (proc st.sim.processes i) = 0
    · simp only [hr, if_true, List.append_nil]
      exact List.Nodup.append hndrest hnd (fun j h1 h2 => hdisj j h1 h2)
    · simp only [hr, if_false]
      refine List.Nodup.append (List.Nodup.append hndrest hnd
        (fun j h1 h2 => hdisj j h1 h2)) (List.nodup_singleton i) ?_
      intro j h1 h2
      rw [List.mem_singleton] at h2
      subst h2
      rcases List.mem_append.mp h1 with h | h
      · exact hirest h
      · exact hinew h
  · intro j hj
    rw [f4] at hj
    rw [hlen]
    rcases List.mem_append.mp hj with h | h
    · rcases List.mem_append.mp h with h | h
      · have hjl := (q2 j (List.mem_cons_of_mem _ h))
        have hji : j ≠ i := fun e => hirest (e ▸ h)
        rw [hrem j hjl.1, if_neg hji]
        exact hjl
      · have hjl := (hmem j).mp h
        have hji : j ≠ i := fun e => hinew (e ▸ h)
        rw [hrem j hjl.1, if_neg hji]
        exact ⟨hjl.1, hjl.2.2.2⟩
    · by_cases hr : (proc st.sim.processes i).remaining_time -
          rr_exec st.sim.time_quantum (proc st.sim.processes i) = 0
      · simp [hr] at h
      · simp only [hr, if_false, List.mem_singleton] at h
        subst h
        rw [hrem j hi, if_pos rfl]
        exact ⟨hi, by omega⟩
  · intro j hj
    rw [hlen] at hj
    rw [f7 j hj, f4, q3 j hj]
    by_cases hr : (proc st.sim.processes i).remaining_time -
        rr_exec st.sim.time_quantum (proc st.sim.processes i) = 0
    · simp only [hr, if_true, List.append_nil, and_true, List.mem_append, List.mem_cons]
      constructor
      · rintro ⟨(h | h) | h, hne⟩
        · exact absurd h hne
        · exact Or.inl h
        · exact Or.inr h
      · rintro (h | h)
        · exact ⟨Or.inl (Or.inr h), fun e => hirest (e ▸ h)⟩
        · exact ⟨Or.inr h, fun e => hinew (e ▸ h)⟩
    · simp only [hr, if_false, and_false, not_false_eq_true, and_true, List.mem_append,
        List.mem_cons, List.mem_singleton, List.not_mem_nil, or_false]
      constructor
      · rintro ((h | h) | h)
        · exact Or.inr h
        · exact Or.inl (Or.inl h)
        · exact Or.inl (Or.inr h)
      · rintro ((h | h) | h)
        · exact Or.inl (Or.inr h)
        · exact Or.inr h
        · exact Or.inl (Or.inl h)

theorem rr_queue_inv_jump (st : RRState) (hinv : rr_queue_inv st) (hL : st.live = []) :
    rr_queue_inv (rr_body st) ∧
    (rr_body st).sim.processes = st.sim.processes := by
  have hfr : st.front = st.rear := (live_eq_nil_iff st hinv.1.2.1).mp hL
  have hbody := rr_body_jump st hfr
  by_cases hn : rr_next_arrival st.sim.processes st.sim.current_time ≠ INT_MAX
  · simp only [hn, ne_eq, not_false_eq_true, if_true] at hbody
    obtain ⟨⟨l1, l2, l3⟩, q1, q2, q3⟩ := hinv
    have hfr2 : st.front = st.queue.length := hfr
    have hnf : ∀ j, j < st.sim.processes.length → flag st.in_queue j = false := by
      intro j hj
      cases hf : flag st.in_queue j with
      | false => rfl
      | true =>
        have := (q3 j hj).mp hf
        rw [hL] at this
        simp at this
    obtain ⟨e1, e2, e3⟩ := rr_enqueue_spec false st.sim.processes
      (rr_next_arrival st.sim.processes st.sim.current_time) st.queue st.in_queue l1
    have hlive : (rr_body st).live =
        rr_newly st (rr_next_arrival st.sim.processes st.sim.current_time) := by
      rw [hbody]
      simp only [RRState.live, e1, hfr2]
      rw [List.drop_append_of_le_length (le_refl _), List.drop_length, List.nil_append]
      rfl
    have hps : (rr_body st).sim.processes = st.sim.processes := by rw [hbody]
    refine ⟨⟨⟨?_, ?_, ?_⟩, ?_, ?_, ?_⟩, hps⟩
    · rw [hbody]; exact e2
    · rw [hbody]; simp only [e1, List.length_append]; omega
    · rw [hbody]; exact l3
    · rw [hlive]; exact rr_newly_nodup _ _
    · intro j hj
      rw [hlive, mem_rr_newly] at hj
      rw [hps]
      exact ⟨hj.1, hj.2.2.2⟩
    · intro j hj
      rw [hps] at hj
      have : flag (rr_body st).in_queue j =
          (flag st.in_queue j || rr_test false st.sim.processes
            (rr_next_arrival st.sim.processes st.sim.current_time) st.in_queue j) := by
        rw [hbody]; exact e3 j hj
      rw [this, hnf j hj, Bool.false_or, hlive, rr_newly, List.mem_filter, List.mem_range]
      exact ⟨fun h => ⟨hj, h⟩, fun h => h.2⟩
  · simp only [hn, if_false] at hbody
    rw [hbody]
    exact ⟨hinv, rfl⟩

theorem rr_queue_inv_step (st : RRState) (hinv : rr_queue_inv st) :
    rr_queue_inv (rr_body st) := by
  cases hL : st.live with
  | nil => exact (rr_queue_inv_jump st hinv hL).1
  | cons i rest => exact rr_queue_inv_dispatch st hinv i rest hL

theorem rr_queue_inv_init (s : Sim) (hq : 0 < s.time_quantum)
    (hb : ∀ p ∈ s.processes, 0 < p.burst_time) : rr_queue_inv (rr_init s) := by
  have hcell : ∀ j, j < s.processes.length →
      proc (s.processes.map reset_remaining) j = reset_remaining (proc s.processes j) :=
    fun j hj => proc_map_reset_remaining _ _ hj
  obtain ⟨e1, e2, e3⟩ := rr_enqueue_spec true (s.processes.map reset_remaining) 0 []
    (List.replicate (s.processes.map reset_remaining).length false) (by simp)
  rw [List.length_map] at e1 e2 e3
  rw [List.nil_append] at e1
  have hps : (rr_init s).sim.processes = s.processes.map reset_remaining := rfl
  have hlen : (rr_init s).sim.processes.length = s.processes.length := by
    rw [hps, List.length_map]
  have hlive : (rr_init s).live = (List.range s.processes.length).filter
      (fun i => rr_test true (s.processes.map reset_remaining) 0
        (List.replicate s.processes.length false) i) := by
    simp only [RRState.live, rr_init, List.drop_zero, List.length_map]; exact e1
  refine ⟨⟨?_, Nat.zero_le _, hq⟩, ?_, ?_, ?_⟩
  · rw [hlen]; simp only [rr_init, List.length_map]; exact e2
  · rw [hlive]; exact (List.nodup_range _).filter _
  · intro j hj
    rw [hlive, List.mem_filter, List.mem_range] at hj
    rw [hlen, hps, hcell j hj.1]
    exact ⟨hj.1, hb _ (proc_mem _ _ hj.1)⟩
  · intro j hj
    rw [hlen] at hj
    have : flag (rr_init s).in_queue j =
        (flag (List.replicate s.processes.length false) j ||
          rr_test true (s.processes.map reset_remaining) 0
            (List.replicate s.processes.length false) j) := by
      simp only [rr_init, List.length_map]; exact e3 j hj
    rw [this, flag_replicate_false, Bool.false_or, hlive, List.mem_filter, List.mem_range]
    exact ⟨fun h => ⟨hj, h⟩, fun h => h.2⟩

theorem rr_state_succ (s : Sim) (k : Nat) : rr_state s (k + 1) = rr_body (rr_state s k) := by
  unfold rr_state
  rw [Function.iterate_succ_apply']

theorem rr_queue_inv_state (s : Sim) (hq : 0 < s.time_quantum)
    (hb : ∀ p ∈ s.processes, 0 < p.burst_time) (k : Nat) : rr_queue_inv (rr_state s k) := by
  induction k with
  | zero => exact rr_queue_inv_init s hq hb
  | succ k ih => rw [rr_state_succ]; exact rr_queue_inv_step _ ih

/-- A loop that returns does so after some number `k` of iterations of its
body, the condition holding before each of them. -/
theorem while_loop_iterate {σ : Type} (cond : σ → Bool) (body : σ → σ) (fuel : Nat) (s r : σ)
    (h : while_loop cond body fuel s = some r) :
    ∃ k, r = body^[k] s ∧ ∀ m, m < k → cond (body^[m] s) = true := by
  induction fuel generalizing s with
  | zero =>
    simp only [while_loop] at h
    split at h
    · exact Option.noConfusion h
    · exact ⟨0, (Option.some.inj h).symm, fun m hm => absurd hm (Nat.not_lt_zero _)⟩
  | succ n ih =>
    simp only [while_loop] at h
    split at h
    · rename_i hc
      obtain ⟨k, hk, hm⟩ := ih _ h
      refine ⟨k + 1, by rw [Function.iterate_succ_apply]; exact hk, ?_⟩
      intro m hm2
      cases m with
      | zero => exact hc
      | succ m => rw [Function.iterate_succ_apply]; exact hm m (by omega)
    · exact ⟨0, (Option.some.inj h).symm, fun m hm => absurd hm (Nat.not_lt_zero _)⟩

theorem rr_ahead_step (st : RRState) (hinv : rr_queue_inv st) (j p : Nat)
    (h : rr_ahead j p st.live) :
    st.live.head? = some j ∨ rr_ahead j p (rr_body st).live := by
  obtain ⟨A, B, C, hl⟩ := h
  cases A with
  | nil => left; rw [hl]; rfl
  | cons a A =>
    right
    have hL : st.live = a :: (A ++ j :: (B ++ p :: C)) := hl
    obtain ⟨_, _, _, f4, _⟩ := rr_queue_dispatch st hinv a _ hL
    rw [f4]
    exact ⟨A, B, C ++ rr_newly st (st.sim.current_time +
        rr_exec st.sim.time_quantum (proc st.sim.processes a)) ++
      (if (proc st.sim.processes a).remaining_time -
          rr_exec st.sim.time_quantum (proc st.sim.processes a) = 0 then [] else [a]),
      by simp [List.append_assoc]⟩

theorem rr_ahead_not_head (j p : Nat) (l : List Nat) (h : rr_ahead j p l) (hnd : l.Nodup) :
    l.head? ≠ some p := by
  obtain ⟨A, B, C, rfl⟩ := h
  cases A with
  | nil =>
    intro hh
    have hjp : j = p := by simpa using hh
    subst hjp
    have := (List.nodup_cons.mp hnd).1
    exact this (by simp)
  | cons a A =>
    intro hh
    have hap : a = p := by simpa using hh
    subst hap
    have := (List.nodup_cons.mp hnd).1
    exact this (by simp)

theorem rr_ahead_of_mem (j p : Nat) (rest newly : List Nat) (hj : j ∈ newly) :
    rr_ahead j p (rest ++ newly ++ [p]) := by
  obtain ⟨N1, N2, rfl⟩ := List.append_of_mem hj
  exact ⟨rest ++ N1, N2, [], by simp [List.append_assoc]⟩

/-! ### Timeline blocks of the tick-driven strategies -/

theorem gantt_tick_none (g : List GanttBlock) (p : Process) (ct : Int)
    (h : g.getLast? = none) : gantt_tick g p ct = g ++ [mkBlock p ct (ct + 1)] := by
  simp only [gantt_tick, h]

theorem gantt_tick_ne (g : List GanttBlock) (p : Process) (ct : Int) (last : GanttBlock)
    (h : g.getLast? = some last) (hn : last.process_name ≠ p.name) :
    gantt_tick g p ct = g ++ [mkBlock p ct (ct + 1)] := by
  simp only [gantt_tick, h, hn, ne_eq, not_false_eq_true, if_true]

theorem gantt_tick_eq (g : List GanttBlock) (p : Process) (ct : Int) (last : GanttBlock)
    (h : g.getLast? = some last) (hn : last.process_name = p.name) :
    gantt_tick g p ct = g.dropLast ++ [{ last with end_time := ct + 1 }] := by
  simp only [gantt_tick, h, hn, ne_eq, not_true_eq_false, if_false]

theorem tick_state_succ (key : Process → Int) (s : Sim) (k : Nat) :
    tick_state key s (k + 1) = tick_body key (tick_state key s k) := by
  unfold tick_state
  rw [Function.iterate_succ_apply']

theorem tick_state_clock (key : Process → Int) (s : Sim) (k : Nat) :
    (tick_state key s k).sim.current_time = k := by
  induction k with
  | zero => rfl
  | succ k ih =>
    rw [tick_state_succ]
    cases h : select_min key (tick_state key s k).sim.processes
        (tick_state key s k).is_completed (tick_state key s k).sim.current_time with
    | none =>
      rw [tick_body_none key _ h]
      show (tick_state key s k).sim.current_time + 1 = _
      rw [ih]; push_cast; rfl
    | some i =>
      rw [tick_body_some key _ i h]
      show (tick_state key s k).sim.current_time + 1 = _
      rw [ih]; push_cast; rfl

theorem tick_state_names (key : Process → Int) (s : Sim) (hn : names_distinct s.processes)
    (k : Nat) : names_distinct (tick_state key s k).sim.processes := by
  have hlen : (tick_state key s k).sim.processes.length = s.processes.length := by
    unfold tick_state
    rw [tick_iterate_lengths]
    simp [tick_init, sel_init]
  have hname : ∀ j, (proc (tick_state key s k).sim.processes j).name =
      (proc s.processes j).name := by
    intro j
    have h1 := (tick_iterate_static key (tick_init s) k j).1
    have h2 := (same_static_of_map_reset (tick_init s).sim.processes s.processes
      (map_reset_map _ _ reset_reset_remaining) j).1
    exact h1.trans h2
  intro i hi j hj h
  rw [hname i, hname j] at h
  rw [hlen] at hi hj
  exact hn i hi j hj h

theorem tick_last_inv_step (key : Process → Int) (st : SelState)
    (hn : names_distinct st.sim.processes) (h : tick_last_inv key st) :
    tick_last_inv key (tick_body key st) := by
  cases hs : select_min key st.sim.processes st.is_completed st.sim.current_time with
  | none =>
    rw [tick_body_none key st hs]
    intro last hl
    obtain ⟨c1, c2⟩ := h last hl
    refine ⟨c1, Or.inr ?_⟩
    show last.end_time < st.sim.current_time + 1 ∧ _
    rcases c2 with c2 | ⟨c2, c3⟩
    · refine ⟨by omega, fun j hj he => ?_⟩
      rw [c2] at he
      exact select_min_none key _ _ _ hs j hj he
    · exact ⟨by omega, c3⟩
  | some i =>
    obtain ⟨hi, he, _⟩ := select_min_some key _ _ _ i hs
    rw [tick_body_some key st i hs]
    intro last hl
    obtain ⟨b, hb1, hb2, hb3⟩ := gantt_tick_last st.sim.gantt_chart (proc st.sim.processes i)
      st.sim.current_time
    have hlb : last = b := by
      have : some last = some b := hl.symm.trans hb1
      exact Option.some.inj this
    subst hlb
    refine ⟨?_, Or.inl hb3⟩
    intro j hj hname
    have hj2 : j < st.sim.processes.length := by
      have : j < (updateAt st.sim.processes i (tick_cell st.sim.current_time)).length := hj
      rwa [length_updateAt] at this
    have hcell : ∀ x, (proc (updateAt st.sim.processes i (tick_cell st.sim.current_time)) x).name =
        (proc st.sim.processes x).name ∧
        (proc (updateAt st.sim.processes i (tick_cell st.sim.current_time)) x).arrival_time =
        (proc st.sim.processes x).arrival_time := by
      intro x
      rw [proc_updateAt]
      split
      · exact ⟨(tick_cell_fields _ _).1.1, (tick_cell_fields _ _).1.2.1⟩
      · exact ⟨rfl, rfl⟩
    have hname2 : (proc (updateAt st.sim.processes i (tick_cell st.sim.current_time)) j).name =
        last.process_name := hname
    rw [(hcell j).1, hb2] at hname2
    have hji : j = i := hn j hj2 i hi hname2
    subst hji
    show (proc (updateAt st.sim.processes j (tick_cell st.sim.current_time)) j).arrival_time <
      last.end_time
    rw [(hcell j).2, hb3]
    have := he.2
    omega

theorem tick_last_inv_state (key : Process → Int) (s : Sim) (hg : s.gantt_chart = [])
    (hn : names_distinct s.processes) (k : Nat) : tick_last_inv key (tick_state key s k) := by
  induction k with
  | zero =>
    intro last hl
    have : (tick_state key s 0).sim.gantt_chart = [] := hg
    rw [this] at hl
    exact Option.noConfusion hl
  | succ k ih =>
    rw [tick_state_succ]
    exact tick_last_inv_step key _ (tick_state_names key s hn k) ih

theorem tick_block_rule_state (key : Process → Int) (s : Sim) (hg : s.gantt_chart = [])
    (hn : names_distinct s.processes) (k i : Nat)
    (hs : select_min key (tick_state key s k).sim.processes (tick_state key s k).is_completed
      (tick_state key s k).sim.current_time = some i) :
    tick_block_rule (tick_state key s k) (tick_state key s (k + 1)) i := by
  have hinv := tick_last_inv_state key s hg hn k
  obtain ⟨hi, he, hlt, _⟩ := select_min_some key _ _ _ i hs
  rw [tick_state_succ, tick_body_some key _ i hs]
  constructor
  · intro last hl hname
    refine ⟨?_, gantt_tick_eq _ _ _ last hl hname⟩
    obtain ⟨c1, c2⟩ := hinv last hl
    rcases c2 with c2 | ⟨c2, c3⟩
    · exact c2
    · exfalso
      have h1 := c1 i hi hname.symm
      have h2 := c3 i hi ⟨he.1, le_of_lt h1⟩
      omega
  · intro hne
    show gantt_tick _ _ _ = _
    cases hl : (tick_state key s k).sim.gantt_chart.getLast? with
    | none => exact gantt_tick_none _ _ _ hl
    | some last => exact gantt_tick_ne _ _ _ last hl (hne last hl)

theorem tick_cover_state (key : Process → Int) (s : Sim) (hg : s.gantt_chart = [])
    (hn : names_distinct s.processes) (k : Nat) :
    ∀ b ∈ (tick_state key s k).sim.gantt_chart, ∀ u : Nat,
      b.start_time ≤ u → (u : Int) < b.end_time → u < k ∧ tick_ran key s u b.process_name := by
  induction k with
  | zero =>
    intro b hb
    have : (tick_state key s 0).sim.gantt_chart = [] := hg
    rw [this] at hb
    exact absurd hb (List.not_mem_nil _)
  | succ k ih =>
    have hct := tick_state_clock key s k
    cases hs : select_min key (tick_state key s k).sim.processes
        (tick_state key s k).is_completed (tick_state key s k).sim.current_time with
    | none =>
      intro b hb u h1 h2
      rw [tick_state_succ, tick_body_none key _ hs] at hb
      obtain ⟨h3, h4⟩ := ih b hb u h1 h2
      exact ⟨by omega, h4⟩
    | some i =>
      obtain ⟨r1, r2⟩ := tick_block_rule_state key s hg hn k i hs
      have hran : tick_ran key s k (proc (tick_state key s k).sim.processes i).name :=
        ⟨i, hs, rfl⟩
      intro b hb u h1 h2
      cases hl : (tick_state key s k).sim.gantt_chart.getLast? with
      | none =>
        rw [r2 (fun last h => by rw [hl] at h; exact Option.noConfusion h)] at hb
        rcases List.mem_append.mp hb with hb | hb
        · obtain ⟨h3, h4⟩ := ih b hb u h1 h2
          exact ⟨by omega, h4⟩
        · rw [List.mem_singleton] at hb
          subst hb
          have hu : u = k := by
            have e1 : (tick_state key s k).sim.current_time ≤ u := h1
            have e2 : (u : Int) < (tick_state key s k).sim.current_time + 1 := h2
            omega
          subst hu
          exact ⟨by omega, hran⟩
      | some last =>
        by_cases hname : last.process_name = (proc (tick_state key s k).sim.processes i).name
        · obtain ⟨e0, e1⟩ := r1 last hl hname
          rw [e1] at hb
          have hlast : last ∈ (tick_state key s k).sim.gantt_chart :=
            List.mem_of_getLast?_eq_some hl
          rcases List.mem_append.mp hb with hb | hb
          · obtain ⟨h3, h4⟩ := ih b (List.mem_of_mem_dropLast hb) u h1 h2
            exact ⟨by omega, h4⟩
          · rw [List.mem_singleton] at hb
            subst hb
            by_cases hu : (u : Int) < last.end_time
            · obtain ⟨h3, h4⟩ := ih last hlast u h1 hu
              exact ⟨by omega, h4⟩
            · have hu2 : u = k := by
                have e2 : (u : Int) < (tick_state key s k).sim.current_time + 1 := h2
                omega
              subst hu2
              refine ⟨by omega, ?_⟩
              show tick_ran key s u last.process_name
              rw [hname]
              exact hran
        · rw [r2 (fun l h => by
            have : l = last := Option.some.inj (h.symm.trans hl)
            rw [this]; exact hname)] at hb
          rcases List.mem_append.mp hb with hb | hb
          · obtain ⟨h3, h4⟩ := ih b hb u h1 h2
            exact ⟨by omega, h4⟩
          · rw [List.mem_singleton] at hb
            subst hb
            have hu : u = k := by
              have e1 : (tick_state key s k).sim.current_time ≤ u := h1
              have e2 : (u : Int) < (tick_state key s k).sim.current_time + 1 := h2
              omega
            subst hu
            exact ⟨by omega, hran⟩

theorem names_distinct_sample : names_distinct sample_processes := by
  unfold names_distinct
  decide

/-! ### The delete operation -/

theorem delete_shift_fold (ps : List Process) (index m : Nat)
    (hm : index + m + 1 ≤ ps.length) :
    ((List.range' index m).foldl delete_shift_step ps).length = ps.length ∧
    ∀ j, ((List.range' index m).foldl delete_shift_step ps)[j]? =
      if index ≤ j ∧ j < index + m then ps[j + 1]? else ps[j]? := by
  induction m with
  | zero =>
    refine ⟨rfl, fun j => ?_⟩
    have : ¬ (index ≤ j ∧ j < index + 0) := by omega
    rw [if_neg this]
    rfl
  | succ m ih =>
    obtain ⟨h1, h2⟩ := ih (by omega)
    rw [List.range'_1_concat, List.foldl_append, List.foldl_cons, List.foldl_nil]
    generalize (List.range' index m).foldl delete_shift_step ps = acc at h1 h2
    refine ⟨by simp [delete_shift_step, h1], fun j => ?_⟩
    have hnext : proc acc (index + m + 1) = proc ps (index + m + 1) := by
      unfold proc
      rw [List.getD_eq_getElem?_getD, List.getD_eq_getElem?_getD, h2]
      have : ¬ (index ≤ index + m + 1 ∧ index + m + 1 < index + m) := by omega
      simp [this]
    have hin : index + m + 1 < ps.length := by omega
    simp only [delete_shift_step, hnext, List.getElem?_set]
    by_cases hj : index + m = j
    · subst hj
      have h3 : index + m < acc.length := by omega
      have h4 : index ≤ index + m ∧ index + m < index + (m + 1) := by omega
      simp only [if_true, h3, h4, and_self]
      unfold proc
      rw [List.getD_eq_getElem?_getD, List.getElem?_eq_getElem hin]
      rfl
    · simp only [hj, if_false, h2]
      by_cases h5 : index ≤ j ∧ j < index + m
      · have h6 : index ≤ j ∧ j < index + (m + 1) := by omega
        simp [h5, h6]
      · have h6 : ¬ (index ≤ j ∧ j < index + (m + 1)) := by omega
        simp [h5, h6]

theorem on_delete_selected (s : Sim) (index : Nat) (hi : index < s.processes.length) :
    (on_delete_process_clicked s (some index)).processes =
      s.processes.take index ++ s.processes.drop (index + 1) := by
  have hne : s.processes.length ≠ 0 := by omega
  simp only [on_delete_process_clicked, hne, if_false]
  obtain ⟨h1, h2⟩ := delete_shift_fold s.processes index (s.processes.length - 1 - index)
    (by omega)
  generalize (List.range' index (s.processes.length - 1 - index)).foldl delete_shift_step
    s.processes = acc at h1 h2
  apply List.ext_getElem?
  intro j
  rw [List.getElem?_take]
  by_cases hj : j < s.processes.length - 1
  · simp only [hj, if_true, h2]
    by_cases hji : j < index
    · have : ¬ (index ≤ j ∧ j < index + (s.processes.length - 1 - index)) := by omega
      rw [if_neg this, List.getElem?_append_left (by simp; omega), List.getElem?_take]
      simp [hji]
    · have : index ≤ j ∧ j < index + (s.processes.length - 1 - index) := by omega
      rw [if_pos this, List.getElem?_append_right (by simp; omega)]
      simp only [List.length_take, List.getElem?_drop]
      congr 1
      omega
  · simp only [hj, if_false]
    symm
    rw [List.getElem?_eq_none]
    simp only [List.length_append, List.length_take, List.length_drop]
    omega

theorem clamp_priority_eq (p : Int) : clamp_priority p = min 10 (max 1 p) := by
  unfold clamp_priority
  simp only [min_def, max_def]
  split_ifs <;> omega

/-! ### Slices of round-robin -/

theorem rr_state_gantt (s : Sim) (hq : 0 < s.time_quantum)
    (hb : ∀ p ∈ s.processes, 0 < p.burst_time) (k p : Nat) (rest : List Nat)
    (hL : (rr_state s k).live = p :: rest) :
    (rr_state s (k + 1)).sim.processes =
      updateAt (rr_state s k).sim.processes p
        (rr_cell (rr_state s k).sim.current_time (rr_state s k).sim.time_quantum) ∧
    (rr_state s (k + 1)).sim.gantt_chart = (rr_state s k).sim.gantt_chart ++
      [mkBlock (proc (rr_state s k).sim.processes p) (rr_state s k).sim.current_time
        ((rr_state s k).sim.current_time +
          min (proc (rr_state s k).sim.processes p).remaining_time
            (rr_state s k).sim.time_quantum)] ∧
    (rr_state s (k + 1)).sim.time_quantum = (rr_state s k).sim.time_quantum ∧
    p < (rr_state s k).sim.processes.length ∧
    0 < (proc (rr_state s k).sim.processes p).remaining_time ∧
    0 < (rr_state s k).sim.time_quantum := by
  obtain ⟨⟨_, _, l3⟩, _, q2, _⟩ := rr_queue_inv_state s hq hb k
  obtain ⟨hp, hrem⟩ := q2 p (by rw [hL]; simp)
  rw [rr_state_succ, rr_body_dispatch _ p rest hL hp, rr_exec_eq_min]
  exact ⟨rfl, rfl, rfl, hp, hrem, l3⟩

theorem rr_blocks_ok_state (s : Sim) (hg : s.gantt_chart = []) (hq : 0 < s.time_quantum)
    (hb : ∀ p ∈ s.processes, 0 < p.burst_time) (k : Nat) : rr_blocks_ok (rr_state s k) := by
  induction k with
  | zero =>
    intro b hb
    have : (rr_state s 0).sim.gantt_chart = [] := hg
    rw [this] at hb
    exact absurd hb (List.not_mem_nil _)
  | succ k ih =>
    cases hL : (rr_state s k).live with
    | nil =>
      obtain ⟨_, hps⟩ := rr_queue_inv_jump _ (rr_queue_inv_state s hq hb k) hL
      have hfr : (rr_state s k).front = (rr_state s k).rear :=
        (live_eq_nil_iff _ (rr_queue_inv_state s hq hb k).1.2.1).mp hL
      have hbody := rr_body_jump _ hfr
      have hgq : (rr_state s (k + 1)).sim.gantt_chart = (rr_state s k).sim.gantt_chart ∧
          (rr_state s (k + 1)).sim.time_quantum = (rr_state s k).sim.time_quantum := by
        rw [rr_state_succ, hbody]
        split
        · exact ⟨rfl, rfl⟩
        · exact ⟨rfl, rfl⟩
      rw [← rr_state_succ] at hps
      intro b hb
      rw [hgq.1] at hb
      rw [hgq.2, hps]
      exact ih b hb
    | cons p rest =>
      obtain ⟨f1, f2, f3, hp, hrem, hq0⟩ := rr_state_gantt s hq hb k p rest hL
      have hcell := rr_cell_fields (rr_state s k).sim.current_time
        (rr_state s k).sim.time_quantum (proc (rr_state s k).sim.processes p)
      rw [rr_exec_eq_min] at hcell
      intro b hb
      rw [f2] at hb
      rw [f1, f3, length_updateAt]
      rcases List.mem_append.mp hb with hb | hb
      · obtain ⟨a1, a2, a3⟩ := ih b hb
        refine ⟨a1, a2, fun hlt => ?_⟩
        obtain ⟨j, hj, n1, n2, n3⟩ := a3 hlt
        have hjp : j ≠ p := by
          intro e
          rw [e] at n2
          omega
        refine ⟨j, hj, ?_⟩
        rw [proc_updateAt]
        simp only [hjp, false_and, if_false]
        exact ⟨n1, n2, n3⟩
      · rw [List.mem_singleton] at hb
        subst hb
        simp only [mkBlock]
        refine ⟨?_, ?_, fun hlt => ⟨p, hp, ?_⟩⟩
        · have := le_min (show (1 : Int) ≤ _ from hrem) (show (1 : Int) ≤ _ from hq0)
          omega
        · have := min_le_right (proc (rr_state s k).sim.processes p).remaining_time
            (rr_state s k).sim.time_quantum
          omega
        · rw [proc_updateAt]
          simp only [hp, and_self, if_true]
          have hmin : min (proc (rr_state s k).sim.processes p).remaining_time
              (rr_state s k).sim.time_quantum =
              (proc (rr_state s k).sim.processes p).remaining_time := by
            rw [min_def] at hlt ⊢
            split at hlt
            · rw [if_pos (by assumption)]
            · omega
          obtain ⟨c1, c2, _, c4⟩ := hcell
          rw [hmin] at c2 c4
          refine ⟨c1.1, by rw [c2]; omega, ?_⟩
          rw [c4, if_pos (by omega), hmin]

theorem rr_state_quantum (s : Sim) (k : Nat) :
    (rr_state s k).sim.time_quantum = s.time_quantum := by
  induction k with
  | zero => rfl
  | succ k ih => rw [rr_state_succ, (rr_body_static _).2, ih]

theorem simulate_rr_state (s : Sim) (fuel : Nat) (r : Sim)
    (h : simulate_scheduling fuel .ROUND_ROBIN s = some r) :
    ∃ k, r = calculate_times (rr_state (strategy_input s) k).sim ∧
      rr_cond (rr_state (strategy_input s) k) = false := by
  rw [simulate_scheduling_eq] at h
  simp only [round_robin_scheduling, Option.map_eq_some'] at h
  obtain ⟨_, ⟨st, hst, rfl⟩, rfl⟩ := h
  obtain ⟨k, hk, _⟩ := while_loop_iterate rr_cond rr_body fuel _ st hst
  have hc := (while_loop_inv rr_cond rr_body (fun _ => True) (fun _ _ _ => trivial) fuel _ st
    trivial hst).2
  subst hk
  exact ⟨k, rfl, hc⟩

/-! ### Start times -/

theorem start_ok_mono (ct ct2 : Int) (p : Process) (h : start_ok ct p) (hle : ct ≤ ct2) :
    start_ok ct2 p := by
  obtain ⟨a, b, c, d, e, f, g⟩ := h
  exact ⟨a, b, c, d, e, fun hlt => ⟨(f hlt).1, le_trans (f hlt).2 hle⟩, g⟩

theorem start_ok_run (ct e : Int) (p p2 : Process) (h : start_ok ct p)
    (hrem : 0 < p.remaining_time) (harr : p.arrival_time ≤ ct) (he1 : 1 ≤ e)
    (he2 : e ≤ p.remaining_time) (ha : p2.arrival_time = p.arrival_time)
    (hb : p2.burst_time = p.burst_time) (hr : p2.remaining_time = p.remaining_time - e)
    (hs : p2.start_time = (if p.start_time = -1 then ct else p.start_time))
    (hc : p2.completion_time =
      (if p.remaining_time - e = 0 then ct + e else p.completion_time)) :
    start_ok (ct + e) p2 := by
  obtain ⟨a, b, c, d, f1, f2, f3⟩ := h
  unfold start_ok
  rw [ha, hb, hr, hs, hc]
  refine ⟨a, b, by omega, by omega, fun h1 => by omega, fun _ => ?_, fun h0 => ?_⟩
  · by_cases hst : p.start_time = -1
    · rw [if_pos hst]
      exact ⟨harr, by omega⟩
    · rw [if_neg hst]
      have hlt : p.remaining_time < p.burst_time := by
        by_contra hn
        exact hst (f1 (by omega))
      have := f2 hlt
      exact ⟨this.1, by omega⟩
  · rw [if_pos h0]
    by_cases hst : p.start_time = -1
    · rw [if_pos hst]; omega
    · rw [if_neg hst]
      have hlt : p.remaining_time < p.burst_time := by
        by_contra hn
        exact hst (f1 (by omega))
      have := f2 hlt
      omega

theorem fcfs_run_start (l : List Process) :
    ∀ ct : Int, ∀ p ∈ fcfs_run ct l,
      p.arrival_time ≤ p.start_time ∧ p.completion_time = p.start_time + p.burst_time := by
  induction l with
  | nil => intro ct p hp; exact absurd hp (List.not_mem_nil _)
  | cons x t ih =>
    intro ct p hp
    simp only [fcfs_run, List.mem_cons] at hp
    rcases hp with rfl | hp
    · refine ⟨?_, rfl⟩
      show x.arrival_time ≤ (if ct < x.arrival_time then x.arrival_time else ct)
      split <;> omega
    · exact ih _ p hp

theorem batch_start_step (key : Process → Int) (st : SelState) (h : batch_start_ok st) :
    batch_start_ok (batch_body key st) := by
  cases hs : select_min key st.sim.processes st.is_completed st.sim.current_time with
  | none => rw [batch_body_none key st hs]; exact h
  | some i =>
    obtain ⟨hi, he, _⟩ := select_min_some key _ _ _ i hs
    rw [batch_body_some key st i hs]
    intro j hj hf
    have hj2 : j < st.sim.processes.length := by
      have : j < (updateAt st.sim.processes i _).length := hj
      rwa [length_updateAt] at this
    show (proc (updateAt st.sim.processes i _) j).arrival_time ≤
        (proc (updateAt st.sim.processes i _) j).start_time ∧
      (proc (updateAt st.sim.processes i _) j).completion_time =
        (proc (updateAt st.sim.processes i _) j).start_time +
          (proc (updateAt st.sim.processes i _) j).burst_time
    rw [proc_updateAt]
    by_cases hji : j = i
    · subst hji
      simp only [hi, and_self, if_true, and_true]
      exact he.2
    · simp only [hji, false_and, if_false]
      have hf2 : flag (updateAt st.is_completed i (fun _ => true)) j = true := hf
      rw [flag_updateAt] at hf2
      simp only [hji, false_and, if_false] at hf2
      exact h j hj2 hf2

theorem tick_start_step (key : Process → Int) (st : SelState) (hinv : tick_inv st)
    (h : ∀ j, j < st.sim.processes.length → start_ok st.sim.current_time (proc st.sim.processes j))
    (j : Nat) (hj : j < (tick_body key st).sim.processes.length) :
    start_ok (tick_body key st).sim.current_time (proc (tick_body key st).sim.processes j) := by
  rw [(tick_body_lengths key st).1] at hj
  cases hs : select_min key st.sim.processes st.is_completed st.sim.current_time with
  | none =>
    rw [tick_body_none key st hs]
    exact start_ok_mono _ _ _ (h j hj) (by show st.sim.current_time ≤ st.sim.current_time + 1; omega)
  | some i =>
    obtain ⟨hi, he, _⟩ := select_min_some key _ _ _ i hs
    rw [tick_body_some key st i hs]
    show start_ok (st.sim.current_time + 1)
      (proc (updateAt st.sim.processes i (tick_cell st.sim.current_time)) j)
    rw [proc_updateAt]
    by_cases hji : j = i
    · subst hji
      simp only [hi, and_self, if_true]
      obtain ⟨c1, c2, c3, c4⟩ := tick_cell_fields st.sim.current_time (proc st.sim.processes j)
      have hpos : 0 < (proc st.sim.processes j).remaining_time := by
        have h0 := (hinv.2 j hi).1
        have h1 := (hinv.2 j hi).2
        rcases Int.lt_or_lt_of_ne (show (proc st.sim.processes j).remaining_time ≠ 0 from
          fun e => by
            have := h1.mpr e
            rw [he.1] at this
            exact Bool.noConfusion this) with h2 | h2
        · omega
        · exact h2
      exact start_ok_run _ 1 _ _ (h j hi) hpos he.2 (le_refl _) (by omega) c1.2.1 c1.2.2.1
        c2 c3 c4
    · simp only [hji, false_and, if_false]
      exact start_ok_mono _ _ _ (h j hj) (by omega)

theorem rr_start_step (st : RRState) (hinv : rr_inv st)
    (h : ∀ j, j < st.sim.processes.length → start_ok st.sim.current_time (proc st.sim.processes j))
    (j : Nat) (hj : j < (rr_body st).sim.processes.length) :
    start_ok (rr_body st).sim.current_time (proc (rr_body st).sim.processes j) := by
  rw [rr_body_length st hinv] at hj
  cases hL : st.live with
  | nil =>
    by_cases hn : rr_next_arrival st.sim.processes st.sim.current_time ≠ INT_MAX
    · obtain ⟨f1, _, _, _, f5, _⟩ := rr_jump_facts st hinv hL hn
      rw [f1]
      exact start_ok_mono _ _ _ (h j hj) (le_of_lt f5)
    · have hfr : st.front = st.rear := (live_eq_nil_iff st hinv.1.2.1).mp hL
      rw [rr_body_jump st hfr]
      simp only [hn, if_false]
      exact h j hj
  | cons i rest =>
    obtain ⟨newly, f1, _, f3, _⟩ := rr_dispatch_facts st hinv i rest hL
    obtain ⟨⟨_, _, l3⟩, ⟨_, q2, _, _⟩, _⟩ := hinv
    obtain ⟨hi, hri, hai⟩ := q2 i (by rw [hL]; simp)
    have hmin := rr_exec_eq_min st.sim.time_quantum (proc st.sim.processes i)
    have he1 : 1 ≤ rr_exec st.sim.time_quantum (proc st.sim.processes i) := by
      rw [hmin]; exact le_min (by omega) (by omega)
    have he2 : rr_exec st.sim.time_quantum (proc st.sim.processes i) ≤
        (proc st.sim.processes i).remaining_time := by
      rw [hmin]; exact min_le_left _ _
    rw [f1, f3, proc_updateAt]
    by_cases hji : j = i
    · subst hji
      simp only [hi, and_self, if_true]
      obtain ⟨c1, c2, c3, c4⟩ := rr_cell_fields st.sim.current_time st.sim.time_quantum
        (proc st.sim.processes j)
      exact start_ok_run _ _ _ _ (h j hi) hri hai he1 he2 c1.2.1 c1.2.2.1 c2 c3 c4
    · simp only [hji, false_and, if_false]
      exact start_ok_mono _ _ _ (h j hj) (by omega)

theorem start_ok_reset (p : Process) (h : 0 ≤ p.arrival_time ∧ 0 < p.burst_time) :
    start_ok 0 (reset_remaining p) := by
  unfold start_ok reset_remaining
  exact ⟨h.1, h.2, le_of_lt h.2, le_refl _, fun _ => rfl,
    fun hlt => absurd hlt (lt_irrefl _), fun h0 => by simp only at h0; omega⟩

theorem batch_start_facts (key : Process → Int) (s : Sim) (hr : run_ready s) (fuel : Nat)
    (r : SelState) (h : while_loop sel_cond (batch_body key) fuel (sel_init s) = some r) :
    ∀ p ∈ r.sim.processes,
      p.arrival_time ≤ p.start_time ∧ p.completion_time = p.start_time + p.burst_time := by
  obtain ⟨⟨i1, i2⟩, hc⟩ := while_loop_inv sel_cond (batch_body key)
    (fun st => batch_inv st ∧ batch_start_ok st)
    (fun st ⟨a, b⟩ hcond => ⟨batch_inv_step key st a hcond, batch_start_step key st b⟩)
    fuel (sel_init s) r
    ⟨batch_inv_init s hr.1 (fun p hp => (hr.2 p hp).2.1), by
      intro j _ hf
      have : flag (List.replicate s.processes.length false) j = true := hf
      rw [flag_replicate_false] at this
      exact Bool.noConfusion this⟩ h
  intro p hp
  obtain ⟨j, hj, rfl⟩ := (mem_iff_proc _ _).mp hp
  have hcnt : r.is_completed.count true = r.is_completed.length := by
    rw [← i1.2.1, i1.1]
    simpa [sel_cond] using hc
  exact i2 j hj (flag_true_of_count _ hcnt j (by rw [i1.1]; exact hj))

theorem tick_start_facts (key : Process → Int) (s : Sim) (hr : run_ready s) (fuel : Nat)
    (r : SelState) (h : while_loop sel_cond (tick_body key) fuel (tick_init s) = some r) :
    ∀ p ∈ r.sim.processes,
      p.arrival_time ≤ p.start_time ∧ p.start_time + p.burst_time ≤ p.completion_time := by
  have hlen0 : (tick_init s).sim.processes.length = s.processes.length := by
    simp [tick_init, sel_init]
  obtain ⟨⟨i1, i2⟩, hc⟩ := while_loop_inv sel_cond (tick_body key)
    (fun st => tick_run_inv st ∧ ∀ j, j < st.sim.processes.length →
      start_ok st.sim.current_time (proc st.sim.processes j))
    (fun st ⟨a, b⟩ hcond => ⟨tick_run_inv_step key st a hcond, tick_start_step key st a.1 b⟩)
    fuel (tick_init s) r
    ⟨tick_run_inv_init s hr.1 (fun p hp => (hr.2 p hp).2.1), by
      intro j hj
      rw [hlen0] at hj
      rw [tick_init_cell s j hj]
      have := hr.2 _ (proc_mem _ _ hj)
      exact start_ok_reset _ ⟨this.1, this.2.1⟩⟩ h
  obtain ⟨e1, _, _⟩ := tick_run_inv_exit r i1 hc
  intro p hp
  obtain ⟨j, hj, rfl⟩ := (mem_iff_proc _ _).mp hp
  obtain ⟨_, b, _, _, _, f, g⟩ := i2 j hj
  have h0 := (e1 _ hp).2
  exact ⟨(f (by omega)).1, g h0⟩

theorem rr_start_facts (s : Sim) (hr : run_ready s) (hq : 0 < s.time_quantum) (fuel : Nat)
    (r : RRState) (h : while_loop rr_cond rr_body fuel (rr_init s) = some r) :
    ∀ p ∈ r.sim.processes,
      p.arrival_time ≤ p.start_time ∧ p.start_time + p.burst_time ≤ p.completion_time := by
  have hlen0 : (rr_init s).sim.processes.length = s.processes.length := by
    simp [rr_init]
  obtain ⟨⟨i1, i2⟩, hc⟩ := while_loop_inv rr_cond rr_body
    (fun st => rr_inv st ∧ ∀ j, j < st.sim.processes.length →
      start_ok st.sim.current_time (proc st.sim.processes j))
    (fun st ⟨a, b⟩ hcond => ⟨rr_inv_step st a hcond, rr_start_step st a b⟩)
    fuel (rr_init s) r
    ⟨rr_inv_init s hr.1 hq (fun p hp => ⟨(hr.2 p hp).1, (hr.2 p hp).2.1⟩), by
      intro j hj
      rw [hlen0] at hj
      have : proc (rr_init s).sim.processes j = reset_remaining (proc s.processes j) := by
        simp only [rr_init]
        exact proc_map_reset_remaining _ _ hj
      rw [this]
      have := hr.2 _ (proc_mem _ _ hj)
      exact start_ok_reset _ ⟨this.1, this.2.1⟩⟩ h
  obtain ⟨e1, _, _⟩ := rr_inv_exit r i1 hc
  intro p hp
  obtain ⟨j, hj, rfl⟩ := (mem_iff_proc _ _).mp hp
  obtain ⟨_, b, _, _, _, f, g⟩ := i2 j hj
  have h0 := (e1 _ hp).2
  exact ⟨(f (by omega)).1, g h0⟩

theorem gantt_busy_nil : gantt_busy [] 0 :=
  ⟨List.chain'_nil, fun b h => by simp at h, rfl⟩

theorem gantt_busy_append (g : List GanttBlock) (ct : Int) (blk : GanttBlock)
    (h : gantt_busy g ct) (hs : blk.start_time = ct) : gantt_busy (g ++ [blk]) blk.end_time := by
  obtain ⟨h1, h2, h3⟩ := h
  refine ⟨?_, ?_, gantt_end_append g blk⟩
  · rw [List.chain'_append]
    refine ⟨h1, List.chain'_singleton _, ?_⟩
    intro x hx y hy
    simp only [List.head?_cons, Option.mem_def, Option.some.injEq] at hy
    subst hy
    have hx2 : g.getLast? = some x := hx
    rw [hs, ← h3]
    simp [gantt_end, hx2]
  · intro b hb
    cases g with
    | nil =>
      simp only [List.nil_append, List.head?_cons, Option.some.injEq] at hb
      subst hb
      rw [hs, ← h3]
      rfl
    | cons a t =>
      simp only [List.cons_append, List.head?_cons, Option.some.injEq] at hb
      exact h2 b (by simp [hb])

theorem fcfs_run_append (A B : List Process) :
    ∀ ct : Int, fcfs_run ct (A ++ B) = fcfs_run ct A ++ fcfs_run (fcfs_end ct A) B ∧
      fcfs_end ct (A ++ B) = fcfs_end (fcfs_end ct A) B := by
  induction A with
  | nil => intro ct; exact ⟨rfl, rfl⟩
  | cons x t ih =>
    intro ct
    simp only [List.cons_append, fcfs_run, fcfs_end, List.cons.injEq, true_and]
    exact ih _

theorem fcfs_zero (l : List Process) (hz : ∀ p ∈ l, p.arrival_time = 0 ∧ 0 < p.burst_time) :
    ∀ (ct : Int) (g : List GanttBlock), 0 ≤ ct → gantt_busy g ct →
      fcfs_end ct l = ct + total_burst l ∧
      gantt_busy (g ++ (fcfs_run ct l).map blockOf) (fcfs_end ct l) ∧
      ((fcfs_run ct l).map (fun p => (calculate_process p).waiting_time)).sum =
        wait_cost ct (l.map (fun p => p.burst_time)) := by
  induction l with
  | nil =>
    intro ct g _ hg
    exact ⟨by simp [fcfs_end, total_burst], by simpa [fcfs_run, fcfs_end] using hg, rfl⟩
  | cons x t ih =>
    intro ct g h0 hg
    obtain ⟨xa, xb⟩ := hz x (by simp)
    have hst : (if ct < x.arrival_time then x.arrival_time else ct) = ct := by
      rw [xa]; split <;> omega
    have hg1 : gantt_busy (g ++ [mkBlock x ct (ct + x.burst_time)]) (ct + x.burst_time) :=
      gantt_busy_append g ct (mkBlock x ct (ct + x.burst_time)) hg rfl
    obtain ⟨i1, i2, i3⟩ := ih (fun q hq => hz q (List.mem_cons_of_mem _ hq))
      (ct + x.burst_time) _ (by omega) hg1
    simp only [fcfs_run, fcfs_end, hst, List.map_cons, List.sum_cons, wait_cost, total_burst]
    refine ⟨?_, ?_, ?_⟩
    · rw [i1]; simp only [total_burst]; omega
    · have : g ++ blockOf { x with start_time := ct, completion_time := ct + x.burst_time } ::
          (fcfs_run (ct + x.burst_time) t).map blockOf =
          (g ++ [mkBlock x ct (ct + x.burst_time)]) ++
            (fcfs_run (ct + x.burst_time) t).map blockOf := by
        simp [blockOf, mkBlock]
      rw [this]
      exact i2
    · rw [i3, calculate_process_eq]
      show max 0 (ct + x.burst_time - x.arrival_time - x.burst_time) + _ = _
      rw [xa, max_eq_right (by omega)]
      omega

/-! ### Shortest first is cheapest -/

theorem wait_cost_insert (x : Int) (l : List Int) :
    ∀ ct : Int, wait_cost ct (List.orderedInsert (fun a b => a ≤ b) x l) ≤
      wait_cost ct (x :: l) := by
  induction l with
  | nil => intro ct; exact le_refl _
  | cons y t ih =>
    intro ct
    rw [List.orderedInsert]
    split
    · exact le_refl _
    · rename_i hxy
      have h1 := ih (ct + y)
      simp only [wait_cost] at h1 ⊢
      have e : ct + x + y = ct + y + x := by omega
      rw [e]
      omega

theorem wait_cost_sort (l : List Int) :
    ∀ ct : Int, wait_cost ct (List.insertionSort (fun a b => a ≤ b) l) ≤ wait_cost ct l := by
  induction l with
  | nil => intro ct; exact le_refl _
  | cons x t ih =>
    intro ct
    rw [List.insertionSort]
    refine le_trans (wait_cost_insert x _ ct) ?_
    simp only [wait_cost]
    have := ih (ct + x)
    omega

theorem wait_cost_sorted_le (l l2 : List Int) (hs : l.Pairwise (fun a b => a ≤ b))
    (hp : l.Perm l2) (ct : Int) : wait_cost ct l ≤ wait_cost ct l2 := by
  have h1 : l = List.insertionSort (fun a b => a ≤ b) l2 :=
    List.eq_of_perm_of_sorted (hp.trans (List.perm_insertionSort _ l2).symm) hs
      (List.sorted_insertionSort _ l2)
  rw [h1]
  exact wait_cost_sort l2 ct

/-! ### SJF and Priority on jobs that all arrive at 0 -/

theorem sel_stuck_batch (key : Process → Int) (st : SelState) (h : sel_stuck_at key st) :
    sel_stuck_at key (batch_body key st) := by
  obtain ⟨j, hj, hf, hk⟩ := h
  cases hs : select_min key st.sim.processes st.is_completed st.sim.current_time with
  | none => rw [batch_body_none key st hs]; exact ⟨j, hj, hf, hk⟩
  | some i =>
    obtain ⟨hi, _, hlt, _⟩ := select_min_some key _ _ _ i hs
    have hji : j ≠ i := by
      intro e
      rw [e] at hk
      omega
    rw [batch_body_some key st i hs]
    refine ⟨j, by simpa [length_updateAt] using hj, ?_, ?_⟩
    · show flag (updateAt st.is_completed i (fun _ => true)) j = false
      rw [flag_updateAt]
      simp only [hji, false_and, if_false]
      exact hf
    · show INT_MAX ≤ key (proc (updateAt st.sim.processes i _) j)
      rw [proc_updateAt]
      simp only [hji, false_and, if_false]
      exact hk

theorem batch_seq_step (key : Process → Int) (ps0 : List Process)
    (hz : ∀ p ∈ ps0, p.arrival_time = 0 ∧ 0 < p.burst_time) (st : SelState)
    (order : List Nat) (h0 : 0 ≤ st.sim.current_time) (h : batch_seq_inv key ps0 st order)
    (i : Nat)
    (hs : select_min key st.sim.processes st.is_completed st.sim.current_time = some i) :
    batch_seq_inv key ps0 (batch_body key st) (order ++ [i]) := by
  obtain ⟨l1, l2, nd, mem, keep, cells, gantt, clock, sorted, least⟩ := h
  obtain ⟨hi, he, _, hmin, _⟩ := select_min_some key _ _ _ i hs
  rw [l1] at hi
  have hcell : proc st.sim.processes i = proc ps0 i := keep i hi he.1
  have harr : (proc ps0 i).arrival_time = 0 := (hz _ (proc_mem _ _ hi)).1
  have hio : i ∉ order := by
    intro hio
    have := ((mem i).mp hio).2
    rw [he.1] at this
    exact Bool.noConfusion this
  have hrun := fcfs_run_append (order.map (proc ps0)) [proc ps0 i] 0
  rw [← clock] at hrun
  have hstart : (if st.sim.current_time < (proc ps0 i).arrival_time then
      (proc ps0 i).arrival_time else st.sim.current_time) = st.sim.current_time := by
    rw [harr]; split <;> omega
  have hlast : fcfs_run st.sim.current_time [proc ps0 i] =
      [{ proc ps0 i with
          start_time := st.sim.current_time
          completion_time := st.sim.current_time + (proc ps0 i).burst_time }] := by
    simp only [fcfs_run, hstart]
  have hend : fcfs_end st.sim.current_time [proc ps0 i] =
      st.sim.current_time + (proc ps0 i).burst_time := by
    simp only [fcfs_end, hstart]
  have hmapi : (order ++ [i]).map (proc ps0) = order.map (proc ps0) ++ [proc ps0 i] := by
    simp
  rw [batch_body_some key st i hs, hcell]
  unfold batch_seq_inv
  rw [hmapi]
  refine ⟨by simp [length_updateAt, l1], by simp [length_updateAt, l2],
    List.Nodup.append nd (List.nodup_singleton i) (by
      intro a ha hb
      rw [List.mem_singleton] at hb
      exact hio (hb ▸ ha)), ?_, ?_, ?_, ?_, ?_, ?_, ?_⟩
  · intro j
    show j ∈ order ++ [i] ↔ j < ps0.length ∧ flag (updateAt st.is_completed i _) j = true
    rw [flag_updateAt, l2, List.mem_append, List.mem_singleton, mem j]
    by_cases hji : j = i
    · subst hji
      simp [hi]
    · simp [hji]
  · intro j hj hf
    have hf2 : flag (updateAt st.is_completed i (fun _ => true)) j = false := hf
    rw [flag_updateAt, l2] at hf2
    have hji : j ≠ i := by
      intro e
      subst e
      simp [hi] at hf2
    simp only [hji, false_and, if_false] at hf2
    show proc (updateAt st.sim.processes i _) j = proc ps0 j
    rw [proc_updateAt]
    simp only [hji, false_and, if_false]
    exact keep j hj hf2
  · show (order ++ [i]).map (proc (updateAt st.sim.processes i _)) = _
    rw [List.map_append, hrun.1, hlast, ← cells]
    congr 1
    · apply List.map_congr_left
      intro j hj
      rw [proc_updateAt]
      have hji : j ≠ i := fun e => hio (e ▸ hj)
      simp only [hji, false_and, if_false]
    · simp only [List.map_cons, List.map_nil, proc_updateAt, l1, hi, and_self, if_true, hcell]
  · show st.sim.gantt_chart ++ _ = _
    rw [hrun.1, hlast, List.map_append, ← gantt]
    rfl
  · show st.sim.current_time + (proc ps0 i).burst_time = _
    rw [hrun.2, hend]
  · rw [List.map_append, List.pairwise_append]
    refine ⟨sorted, List.pairwise_singleton _ _, ?_⟩
    intro a ha b hb
    simp only [List.map_cons, List.map_nil, List.mem_singleton] at hb
    obtain ⟨j, hj, rfl⟩ := List.mem_map.mp ha
    rw [hb]
    exact least j hj i hi he.1
  · intro j hj u hu hf
    have hf2 : flag (updateAt st.is_completed i (fun _ => true)) u = false := hf
    rw [flag_updateAt, l2] at hf2
    have hui : u ≠ i := by
      intro e
      subst e
      simp [hi] at hf2
    simp only [hui, false_and, if_false] at hf2
    rcases List.mem_append.mp hj with hj | hj
    · exact least j hj u hu hf2
    · rw [List.mem_singleton] at hj
      subst hj
      have hu2 : u < st.sim.processes.length := by rw [l1]; exact hu
      have := hmin u hu2 ⟨hf2, by
        rw [keep u hu hf2, (hz _ (proc_mem _ _ hu)).1]; exact h0⟩
      rw [hcell, keep u hu hf2] at this
      exact this

theorem batch_seq_init (key : Process → Int) (s : Sim) (hg : s.gantt_chart = []) :
    batch_seq_inv key s.processes (sel_init s) [] := by
  refine ⟨rfl, by simp [sel_init], List.nodup_nil, ?_, fun _ _ _ => rfl, rfl, hg, rfl,
    List.Pairwise.nil, fun j hj => absurd hj (List.not_mem_nil _)⟩
  intro j
  simp only [List.not_mem_nil, false_iff, not_and]
  intro _
  show ¬ flag (List.replicate s.processes.length false) j = true
  rw [flag_replicate_false]
  exact Bool.noConfusion

theorem list_eq_map_proc (l : List Process) : l = (List.range l.length).map (proc l) := by
  apply List.ext_getElem?
  intro j
  rw [List.getElem?_map]
  by_cases hj : j < l.length
  · rw [List.getElem?_range hj]
    simp [proc, List.getD_eq_getElem?_getD, List.getElem?_eq_getElem hj]
  · rw [List.getElem?_eq_none (Nat.le_of_not_lt hj),
      List.getElem?_eq_none (by simpa using Nat.le_of_not_lt hj)]
    rfl

/-- What `sjf_scheduling` and `priority_scheduling` leave on a table whose jobs
all arrive at 0: the jobs were run one after the other from clock 0 in an
order that lists every job once, in ascending order of the key. -/
theorem batch_seq_facts (key : Process → Int) (s : Sim) (hg : s.gantt_chart = [])
    (hz : ∀ p ∈ s.processes, p.arrival_time = 0 ∧ 0 < p.burst_time) (fuel : Nat)
    (r : SelState) (h : while_loop sel_cond (batch_body key) fuel (sel_init s) = some r) :
    ∃ order : List Nat, order.Perm (List.range s.processes.length) ∧
      r.sim.processes.Perm (fcfs_run 0 (order.map (proc s.processes))) ∧
      r.sim.gantt_chart = (fcfs_run 0 (order.map (proc s.processes))).map blockOf ∧
      r.sim.current_time = fcfs_end 0 (order.map (proc s.processes)) ∧
      (order.map (fun j => key (proc s.processes j))).Pairwise (fun a b => a ≤ b) := by
  obtain ⟨⟨i1, i2⟩, hc⟩ := while_loop_inv sel_cond (batch_body key)
    (fun st => batch_inv st ∧
      (sel_stuck_at key st ∨ ∃ order, batch_seq_inv key s.processes st order))
    (by
      intro st ⟨a, b⟩ hcond
      refine ⟨batch_inv_step key st a hcond, ?_⟩
      rcases b with b | ⟨order, b⟩
      · exact Or.inl (sel_stuck_batch key st b)
      · cases hs : select_min key st.sim.processes st.is_completed st.sim.current_time with
        | some i => exact Or.inr ⟨_, batch_seq_step key s.processes hz st order a.2.2.1 b i hs⟩
        | none =>
          left
          apply sel_stuck_batch key
          have hne : st.is_completed.count true ≠ st.is_completed.length := by
            rw [← a.2.1, a.1]
            simpa [sel_cond] using hcond
          obtain ⟨j, hj, hf⟩ := exists_flag_false _ hne
          rw [a.1] at hj
          refine ⟨j, hj, hf, select_min_none key _ _ _ hs j hj ⟨hf, ?_⟩⟩
          have hj0 : j < s.processes.length := by rw [← b.1]; exact hj
          rw [b.2.2.2.2.1 j hj0 hf, (hz _ (proc_mem _ _ hj0)).1]
          exact a.2.2.1)
    fuel (sel_init s) r
    ⟨batch_inv_init s hg (fun p hp => (hz p hp).2), Or.inr ⟨[], batch_seq_init key s hg⟩⟩ h
  have hcnt : r.is_completed.count true = r.is_completed.length := by
    rw [← i1.2.1, i1.1]
    simpa [sel_cond] using hc
  have hall : ∀ j, j < r.is_completed.length → flag r.is_completed j = true :=
    fun j hj => flag_true_of_count _ hcnt j hj
  rcases i2 with ⟨j, hj, hf, _⟩ | ⟨order, l1, l2, nd, mem, _, cells, gantt, clock, sorted, _⟩
  · rw [← i1.1] at hj
    rw [hall j hj] at hf
    exact Bool.noConfusion hf
  · have hperm : order.Perm (List.range s.processes.length) := by
      rw [List.perm_ext_iff_of_nodup nd (List.nodup_range _)]
      intro j
      rw [mem j, List.mem_range]
      exact ⟨fun h => h.1, fun h => ⟨h, hall j (by rw [l2]; exact h)⟩⟩
    refine ⟨order, hperm, ?_, gantt, clock, sorted⟩
    rw [← cells]
    have := list_eq_map_proc r.sim.processes
    rw [l1] at this
    conv_lhs => rw [this]
    exact (hperm.map _).symm

/-! ### SRTF, Preemptive Priority and round-robin on jobs that all arrive at 0 -/

theorem work_left_updateAt (ps : List Process) (i : Nat) (f : Process → Process)
    (hi : i < ps.length) :
    work_left (updateAt ps i f) =
      work_left ps - (proc ps i).remaining_time + (f (proc ps i)).remaining_time := by
  induction ps generalizing i with
  | nil => simp at hi
  | cons x xs ih =>
    cases i with
    | zero =>
      simp only [updateAt, work_left, List.map_cons, List.sum_cons, proc_cons_zero]
      omega
    | succ i =>
      have := ih i (by simpa using hi)
      simp only [work_left] at this
      simp only [updateAt, work_left, List.map_cons, List.sum_cons, proc_cons_succ]
      omega

theorem work_left_reset (ps : List Process) :
    work_left (ps.map reset_remaining) = total_burst ps := by
  simp only [work_left, total_burst, List.map_map]
  rfl

theorem total_burst_perm (a b : List Process) (h : a.Perm b) : total_burst a = total_burst b :=
  (h.map _).sum_eq

theorem total_burst_strategy_input (s : Sim) :
    total_burst (strategy_input s).processes = total_burst s.processes := by
  simp only [strategy_input_processes, total_burst, List.map_map]
  rfl

theorem order_map_perm (ps : List Process) (order : List Nat)
    (h : order.Perm (List.range ps.length)) : (order.map (proc ps)).Perm ps := by
  have := h.map (proc ps)
  rwa [← list_eq_map_proc ps] at this

theorem strategy_input_zero (s : Sim)
    (hz : ∀ p ∈ s.processes, p.arrival_time = 0 ∧ 0 < p.burst_time) :
    ∀ p ∈ (strategy_input s).processes, p.arrival_time = 0 ∧ 0 < p.burst_time := by
  intro p hp
  obtain ⟨p0, hp0, rfl⟩ := List.mem_map.mp hp
  exact hz p0 hp0

theorem total_waiting_perm (a b : List Process) (h : a.Perm b) :
    total_waiting (a.map calculate_process) = total_waiting (b.map calculate_process) :=
  ((h.map calculate_process).map _).sum_eq

theorem total_waiting_seq (l : List Process)
    (hz : ∀ p ∈ l, p.arrival_time = 0 ∧ 0 < p.burst_time) :
    total_waiting ((fcfs_run 0 l).map calculate_process) =
      wait_cost 0 (l.map (fun p => p.burst_time)) := by
  obtain ⟨_, _, e3⟩ := fcfs_zero l hz 0 [] (le_refl _) gantt_busy_nil
  rw [← e3]
  simp only [total_waiting, List.map_map]
  rfl

theorem burst_strategy_input (s : Sim) :
    (strategy_input s).processes.map (fun p => p.burst_time) =
      s.processes.map (fun p => p.burst_time) := by
  simp only [strategy_input_processes, List.map_map]
  rfl

/-- The waiting-time sum a non-preemptive run leaves on a table whose jobs all
arrive at 0 is the cost of running the bursts in some order; SJF runs them in
ascending order. -/
theorem simulate_wait_cost (algo : SchedulingAlgorithm) (s : Sim)
    (ha : algo = .FCFS ∨ algo = .SJF ∨ algo = .PRIORITY)
    (hz : ∀ p ∈ s.processes, p.arrival_time = 0 ∧ 0 < p.burst_time) (fuel : Nat) (r : Sim)
    (h : simulate_scheduling fuel algo s = some r) :
    ∃ B : List Int, B.Perm (s.processes.map (fun p => p.burst_time)) ∧
      total_waiting r.processes = wait_cost 0 B ∧
      (algo = .SJF → B.Pairwise (fun a b => a ≤ b)) := by
  have hz2 := strategy_input_zero s hz
  have hg : (strategy_input s).gantt_chart = [] := rfl
  have hbatch : ∀ (key : Process → Int) (st : SelState),
      while_loop sel_cond (batch_body key) fuel (sel_init (strategy_input s)) = some st →
      ∃ order : List Nat,
        ((order.map (proc (strategy_input s).processes)).map (fun p => p.burst_time)).Perm
          (s.processes.map (fun p => p.burst_time)) ∧
        total_waiting (calculate_times st.sim).processes =
          wait_cost 0
            ((order.map (proc (strategy_input s).processes)).map (fun p => p.burst_time)) ∧
        (order.map (fun j => key (proc (strategy_input s).processes j))).Pairwise
          (fun a b => a ≤ b) := by
    intro key st hst
    obtain ⟨order, hperm, hps, _, _, hsorted⟩ :=
      batch_seq_facts key (strategy_input s) hg hz2 fuel st hst
    have hL := order_map_perm _ order hperm
    refine ⟨order, ?_, ?_, hsorted⟩
    · rw [← burst_strategy_input]
      exact hL.map _
    · show total_waiting (st.sim.processes.map calculate_process) = _
      rw [total_waiting_perm _ _ hps]
      exact total_waiting_seq _ (fun p hp => hz2 p (hL.mem_iff.mp hp))
  rw [simulate_scheduling_eq] at h
  rcases ha with rfl | rfl | rfl
  · simp only [Option.map_some', Option.some.injEq] at h
    subst h
    have hperm := fcfs_sort_perm (strategy_input s).processes
    refine ⟨(fcfs_sort (strategy_input s).processes).map (fun p => p.burst_time), ?_, ?_,
      fun e => by cases e⟩
    · rw [← burst_strategy_input]
      exact hperm.map _
    · show total_waiting ((fcfs_scheduling (strategy_input s)).processes.map calculate_process)
        = _
      rw [fcfs_scheduling_eq]
      exact total_waiting_seq _ (fun p hp => hz2 p (hperm.mem_iff.mp hp))
  · simp only [sjf_scheduling, Option.map_map, Option.map_eq_some'] at h
    obtain ⟨st, hst, rfl⟩ := h
    obtain ⟨order, e1, e2, e3⟩ := hbatch _ st hst
    refine ⟨_, e1, e2, fun _ => ?_⟩
    rw [List.map_map]
    exact e3
  · simp only [priority_scheduling, Option.map_map, Option.map_eq_some'] at h
    obtain ⟨st, hst, rfl⟩ := h
    obtain ⟨order, e1, e2, _⟩ := hbatch _ st hst
    exact ⟨_, e1, e2, fun e => by cases e⟩

/-! ### Counting the blocks of the tick-driven strategies -/

theorem started_count_pos (ps : List Process) (i : Nat) (hi : i < ps.length)
    (h : (proc ps i).start_time ≠ -1) : 1 ≤ started_count ps := by
  unfold started_count
  apply List.countP_pos_iff.mpr
  exact ⟨proc ps i, proc_mem ps i hi, by simpa using h⟩

theorem count_true_lt (l : List Bool) (j : Nat) (hj : j < l.length) (hf : flag l j = false) :
    l.count true < l.length := by
  rcases Nat.lt_or_ge (l.count true) l.length with h | h
  · exact h
  · have := flag_true_of_count l (Nat.le_antisymm (List.count_le_length true l) h) j hj
    rw [hf] at this
    exact Bool.noConfusion this

theorem tick_blocks_step (key : Process → Int)
    (hkey : ∀ (ct : Int) (p : Process), key (tick_cell ct p) ≤ key p) (st : SelState)
    (hn : names_distinct st.sim.processes) (h0 : 0 ≤ st.sim.current_time)
    (h : tick_blocks_inv key st) : tick_blocks_inv key (tick_body key st) := by
  obtain ⟨hlen, hQ, hlast⟩ := h
  cases hs : select_min key st.sim.processes st.is_completed st.sim.current_time with
  | none =>
    rw [tick_body_none key st hs]
    refine ⟨hlen, fun j hj hst => ?_, fun last hl => ?_⟩
    · have := hQ j hj hst
      show (proc st.sim.processes j).arrival_time < st.sim.current_time + 1
      omega
    · obtain ⟨l, hl1, hl2, hl3, hl4, hl5⟩ := hlast last hl
      have hfl : flag st.is_completed l = true := by
        cases hf : flag st.is_completed l with
        | true => rfl
        | false =>
          exfalso
          have h1 := (hl5 hf).2.1
          have h2 := select_min_none key _ _ _ hs l hl1 ⟨hf, le_of_lt (hQ l hl1 hl3)⟩
          omega
      exact ⟨l, hl1, hl2, hl3, hl4, fun hf => by
        rw [hfl] at hf
        exact Bool.noConfusion hf⟩
  | some i =>
    obtain ⟨hi, he, hlt, hmin, hlow⟩ := select_min_some key _ _ _ i hs
    obtain ⟨c1, c2, c3, c4⟩ := tick_cell_fields st.sim.current_time (proc st.sim.processes i)
    have hstart : (tick_cell st.sim.current_time (proc st.sim.processes i)).start_time ≠ -1 := by
      rw [c3]
      split <;> omega
    have hS : started_count (updateAt st.sim.processes i (tick_cell st.sim.current_time)) +
        (if (proc st.sim.processes i).start_time ≠ -1 then 1 else 0) =
        started_count st.sim.processes + 1 := by
      have := countP_updateAt (fun p => decide (p.start_time ≠ -1)) st.sim.processes i
        (tick_cell st.sim.current_time) hi
      simp only [decide_eq_true_eq, hstart, ne_eq, not_false_eq_true, if_true] at this
      unfold started_count
      simp only [ne_eq]
      exact this
    have hproc : ∀ j, j ≠ i →
        proc (updateAt st.sim.processes i (tick_cell st.sim.current_time)) j =
          proc st.sim.processes j := by
      intro j hji
      rw [proc_updateAt]
      simp only [hji, false_and, if_false]
    have hproci : proc (updateAt st.sim.processes i (tick_cell st.sim.current_time)) i =
        tick_cell st.sim.current_time (proc st.sim.processes i) := by
      rw [proc_updateAt]
      simp only [hi, and_self, if_true]
    obtain ⟨b, hb1, hb2, hb3⟩ := gantt_tick_last st.sim.gantt_chart (proc st.sim.processes i)
      st.sim.current_time
    rw [tick_body_some key st i hs]
    by_cases hfin : (proc st.sim.processes i).remaining_time - 1 = 0
    · -- the job completes in this tick
      simp only [hfin, if_true]
      have hC : (updateAt st.is_completed i (fun _ => true)).count true =
          st.is_completed.count true + 1 :=
        count_updateAt_true _ i (by rw [hlen]; exact hi) he.1
      have hfi : flag (updateAt st.is_completed i (fun _ => true)) i = true := by
        rw [flag_updateAt]
        simp [hlen, hi]
      refine ⟨by simp [length_updateAt, hlen], fun j hj hst => ?_, fun last hl => ?_⟩
      · rw [length_updateAt] at hj
        show (proc (updateAt st.sim.processes i (tick_cell st.sim.current_time)) j).arrival_time <
          st.sim.current_time + 1
        by_cases hji : j = i
        · subst hji
          rw [hproci, c1.2.1]
          have := he.2
          omega
        · rw [hproc j hji] at hst ⊢
          have := hQ j hj hst
          omega
      · have hlb : last = b := Option.some.inj (hl.symm.trans hb1)
        subst hlb
        refine ⟨i, by rw [length_updateAt]; exact hi, ?_, ?_, ?_, fun hf => ?_⟩
        · show (proc (updateAt st.sim.processes i _) i).name = _
          rw [hproci, c1.1, hb2]
        · show (proc (updateAt st.sim.processes i _) i).start_time ≠ -1
          rw [hproci]; exact hstart
        · show (gantt_tick st.sim.gantt_chart (proc st.sim.processes i)
              st.sim.current_time).length +
            (if flag (updateAt st.is_completed i (fun _ => true)) i then 1 else 0) ≤
            started_count (updateAt st.sim.processes i (tick_cell st.sim.current_time)) +
              (updateAt st.is_completed i (fun _ => true)).count true
          rw [hfi, hC]
          simp only [if_true]
          cases hgl : st.sim.gantt_chart.getLast? with
          | none =>
            rw [gantt_tick_none _ _ _ hgl, List.getLast?_eq_none_iff.mp hgl]
            have := started_count_pos
              (updateAt st.sim.processes i (tick_cell st.sim.current_time)) i
              (by rw [length_updateAt]; exact hi) (by rw [hproci]; exact hstart)
            simp only [List.nil_append, List.length_singleton]
            omega
          | some lst =>
            obtain ⟨l, hl1, hl2, hl3, hl4, hl5⟩ := hlast lst hgl
            have hgne : st.sim.gantt_chart ≠ [] := by
              intro e
              rw [e] at hgl
              exact Option.noConfusion hgl
            by_cases hname : lst.process_name = (proc st.sim.processes i).name
            · have hli : l = i := hn l hl1 i hi (hl2.trans hname)
              subst hli
              rw [gantt_tick_eq _ _ _ lst hgl hname]
              rw [he.1] at hl4
              simp only [List.length_append, List.length_dropLast, List.length_singleton]
              have := List.length_pos.mpr hgne
              split at hS <;> simp at hl4 <;> omega
            · rw [gantt_tick_ne _ _ _ lst hgl hname]
              simp only [List.length_append, List.length_singleton]
              have hli : l ≠ i := by
                intro e
                subst e
                exact hname hl2.symm
              cases hfl : flag st.is_completed l with
              | true =>
                rw [hfl] at hl4
                simp only [if_true] at hl4
                split at hS <;> omega
              | false =>
                rw [hfl] at hl4
                simp at hl4
                obtain ⟨_, _, hbeat⟩ := hl5 hfl
                have hsi : (proc st.sim.processes i).start_time = -1 := by
                  by_contra hne
                  have h1 := hbeat i hi (Ne.symm hli) he.1 (hQ i hi hne)
                  have h2 := hmin l hl1 ⟨hfl, le_of_lt (hQ l hl1 hl3)⟩
                  rcases Nat.lt_or_gt_of_ne hli with h3 | h3
                  · have := hlow l h3 ⟨hfl, le_of_lt (hQ l hl1 hl3)⟩
                    omega
                  · have := h1.2 h3
                    omega
                rw [if_neg (by simpa using hsi)] at hS
                omega
        · rw [hfi] at hf
          exact Bool.noConfusion hf
    · -- the job keeps work
      simp only [hfin, if_false]
      refine ⟨by simp [length_updateAt, hlen], fun j hj hst => ?_, fun last hl => ?_⟩
      · rw [length_updateAt] at hj
        show (proc (updateAt st.sim.processes i (tick_cell st.sim.current_time)) j).arrival_time <
          st.sim.current_time + 1
        by_cases hji : j = i
        · subst hji
          rw [hproci, c1.2.1]
          have := he.2
          omega
        · rw [hproc j hji] at hst ⊢
          have := hQ j hj hst
          omega
      · have hlb : last = b := Option.some.inj (hl.symm.trans hb1)
        subst hlb
        refine ⟨i, by rw [length_updateAt]; exact hi, ?_, ?_, ?_, fun _ => ⟨hb3, ?_, ?_⟩⟩
        · show (proc (updateAt st.sim.processes i _) i).name = _
          rw [hproci, c1.1, hb2]
        · show (proc (updateAt st.sim.processes i _) i).start_time ≠ -1
          rw [hproci]; exact hstart
        · show (gantt_tick st.sim.gantt_chart (proc st.sim.processes i)
              st.sim.current_time).length +
            (if flag st.is_completed i then 1 else 0) ≤
            started_count (updateAt st.sim.processes i (tick_cell st.sim.current_time)) +
              st.is_completed.count true
          rw [he.1]
          simp only [Bool.false_eq_true, if_false, Nat.add_zero]
          cases hgl : st.sim.gantt_chart.getLast? with
          | none =>
            rw [gantt_tick_none _ _ _ hgl, List.getLast?_eq_none_iff.mp hgl]
            have := started_count_pos
              (updateAt st.sim.processes i (tick_cell st.sim.current_time)) i
              (by rw [length_updateAt]; exact hi) (by rw [hproci]; exact hstart)
            simp only [List.nil_append, List.length_singleton]
            omega
          | some lst =>
            obtain ⟨l, hl1, hl2, hl3, hl4, hl5⟩ := hlast lst hgl
            have hgne : st.sim.gantt_chart ≠ [] := by
              intro e
              rw [e] at hgl
              exact Option.noConfusion hgl
            by_cases hname : lst.process_name = (proc st.sim.processes i).name
            · have hli : l = i := hn l hl1 i hi (hl2.trans hname)
              subst hli
              rw [gantt_tick_eq _ _ _ lst hgl hname]
              rw [he.1] at hl4
              simp only [List.length_append, List.length_dropLast, List.length_singleton]
              have := List.length_pos.mpr hgne
              split at hS <;> simp at hl4 <;> omega
            · rw [gantt_tick_ne _ _ _ lst hgl hname]
              simp only [List.length_append, List.length_singleton]
              have hli : l ≠ i := by
                intro e
                subst e
                exact hname hl2.symm
              cases hfl : flag st.is_completed l with
              | true =>
                rw [hfl] at hl4
                simp only [if_true] at hl4
                split at hS <;> omega
              | false =>
                rw [hfl] at hl4
                simp at hl4
                obtain ⟨_, _, hbeat⟩ := hl5 hfl
                have hsi : (proc st.sim.processes i).start_time = -1 := by
                  by_contra hne
                  have h1 := hbeat i hi (Ne.symm hli) he.1 (hQ i hi hne)
                  have h2 := hmin l hl1 ⟨hfl, le_of_lt (hQ l hl1 hl3)⟩
                  rcases Nat.lt_or_gt_of_ne hli with h3 | h3
                  · have := hlow l h3 ⟨hfl, le_of_lt (hQ l hl1 hl3)⟩
                    omega
                  · have := h1.2 h3
                    omega
                rw [if_neg (by simpa using hsi)] at hS
                omega
        · show key (proc (updateAt st.sim.processes i _) i) < INT_MAX
          rw [hproci]
          have := hkey st.sim.current_time (proc st.sim.processes i)
          omega
        · intro j hj hji hfj harr
          rw [length_updateAt] at hj
          have harr2 : (proc (updateAt st.sim.processes i
              (tick_cell st.sim.current_time)) j).arrival_time < st.sim.current_time + 1 := harr
          show key (proc (updateAt st.sim.processes i _) i) ≤
              key (proc (updateAt st.sim.processes i _) j) ∧
            (j < i → key (proc (updateAt st.sim.processes i _) i) <
              key (proc (updateAt st.sim.processes i _) j))
          rw [hproc j hji] at harr2 ⊢
          rw [hproci]
          have hk := hkey st.sim.current_time (proc st.sim.processes i)
          have hel : eligible st.sim.processes st.is_completed st.sim.current_time j :=
            ⟨hfj, by omega⟩
          have h1 := hmin j hj hel
          refine ⟨by omega, fun hlt2 => ?_⟩
          have := hlow j hlt2 hel
          omega

theorem tick_blocks_init (key : Process → Int) (s : Sim) (hg : s.gantt_chart = []) :
    tick_blocks_inv key (tick_init s) := by
  have hlen0 : (tick_init s).sim.processes.length = s.processes.length := by
    simp [tick_init, sel_init]
  refine ⟨by simp [tick_init, sel_init], fun j hj hst => ?_, fun last hl => ?_⟩
  · rw [hlen0] at hj
    rw [tick_init_cell s j hj] at hst
    exact absurd rfl hst
  · have : (tick_init s).sim.gantt_chart = [] := hg
    rw [this] at hl
    exact Option.noConfusion hl

theorem tick_blocks_state (key : Process → Int)
    (hkey : ∀ (ct : Int) (p : Process), key (tick_cell ct p) ≤ key p) (s : Sim)
    (hg : s.gantt_chart = []) (hn : names_distinct s.processes) (k : Nat) :
    tick_blocks_inv key (tick_state key s k) := by
  induction k with
  | zero => exact tick_blocks_init key s hg
  | succ k ih =>
    rw [tick_state_succ]
    exact tick_blocks_step key hkey _ (tick_state_names key s hn k)
      (by rw [tick_state_clock]; exact Int.natCast_nonneg k) ih

theorem tick_blocks_bound (key : Process → Int) (st : SelState) (h : tick_blocks_inv key st)
    (hne : 1 ≤ st.sim.processes.length) :
    st.sim.gantt_chart.length ≤ 2 * st.sim.processes.length - 1 := by
  obtain ⟨hlen, _, hlast⟩ := h
  cases hgl : st.sim.gantt_chart.getLast? with
  | none =>
    rw [List.getLast?_eq_none_iff.mp hgl]
    exact Nat.zero_le _
  | some last =>
    obtain ⟨l, hl1, _, _, hl4, _⟩ := hlast last hgl
    have hS : started_count st.sim.processes ≤ st.sim.processes.length :=
      List.countP_le_length _
    have hC : st.is_completed.count true ≤ st.sim.processes.length := by
      rw [← hlen]
      exact List.count_le_length true _
    cases hfl : flag st.is_completed l with
    | true =>
      rw [hfl] at hl4
      simp only [if_true] at hl4
      omega
    | false =>
      rw [hfl] at hl4
      simp at hl4
      have := count_true_lt st.is_completed l (by rw [hlen]; exact hl1) hfl
      omega

theorem tick_block_end (key : Process → Int) (st : SelState) (h : tick_blocks_inv key st)
    (i : Nat)
    (hsel : select_min key st.sim.processes st.is_completed st.sim.current_time = some i) :
    block_end_rule st i := by
  obtain ⟨_, hQ, hlast⟩ := h
  obtain ⟨hi, he, _, hmin, hlow⟩ := select_min_some key _ _ _ i hsel
  intro last hgl hname
  obtain ⟨l, hl1, hl2, hl3, _, hl5⟩ := hlast last hgl
  refine ⟨l, hl1, hl2, ?_⟩
  cases hfl : flag st.is_completed l with
  | true => exact Or.inl rfl
  | false =>
    right
    obtain ⟨hend, _, hbeat⟩ := hl5 hfl
    refine ⟨hend, ?_⟩
    have hli : l ≠ i := by
      intro e
      subst e
      exact hname hl2.symm
    by_contra hne
    have harr : (proc st.sim.processes i).arrival_time < st.sim.current_time :=
      lt_of_le_of_ne he.2 hne
    have h1 := hbeat i hi (Ne.symm hli) he.1 harr
    have hel : eligible st.sim.processes st.is_completed st.sim.current_time l :=
      ⟨hfl, le_of_lt (hQ l hl1 hl3)⟩
    have h2 := hmin l hl1 hel
    rcases Nat.lt_or_gt_of_ne hli with h3 | h3
    · have := hlow l h3 hel
      omega
    · have := h1.2 h3
      omega

theorem names_distinct_input (s : Sim) (hn : names_distinct s.processes) :
    names_distinct (strategy_input s).processes := by
  have hlen : (strategy_input s).processes.length = s.processes.length := by
    simp [strategy_input, reset_simulation]
  intro i hi j hj h
  have e : ∀ m, (proc (strategy_input s).processes m).name = (proc s.processes m).name :=
    fun m => (same_static_of_map_reset (strategy_input s).processes s.processes
      (by rw [strategy_input_processes]; exact map_reset_map _ _ reset_reset_process) m).1
  rw [e i, e j] at h
  rw [hlen] at hi hj
  exact hn i hi j hj h

theorem input_blocks_state (key : Process → Int)
    (hkey : ∀ (ct : Int) (p : Process), key (tick_cell ct p) ≤ key p) (s : Sim)
    (hn : names_distinct s.processes) (k : Nat) :
    tick_blocks_inv key (tick_state key (strategy_input s) k) ∧
    (tick_state key (strategy_input s) k).sim.processes.length = s.processes.length := by
  refine ⟨tick_blocks_state key hkey (strategy_input s) rfl (names_distinct_input s hn) k, ?_⟩
  · unfold tick_state
    rw [tick_iterate_lengths]
    simp [tick_init, sel_init, strategy_input, reset_simulation]

theorem remaining_key_tick (ct : Int) (p : Process) :
    (tick_cell ct p).remaining_time ≤ p.remaining_time := by
  rw [(tick_cell_fields ct p).2.1]
  omega

theorem priority_key_tick (ct : Int) (p : Process) :
    (tick_cell ct p).priority ≤ p.priority :=
  le_of_eq (tick_cell_fields ct p).1.2.2.2.1

theorem simulate_tick_state (algo : SchedulingAlgorithm) (s : Sim) (fuel : Nat) (r : Sim)
    (h : simulate_scheduling fuel algo s = some r) :
    (algo = .SRTF → ∃ k, r = calculate_times (srtf_state (strategy_input s) k).sim) ∧
    (algo = .PREEMPTIVE_PRIORITY →
      ∃ k, r = calculate_times (pp_state (strategy_input s) k).sim) := by
  rw [simulate_scheduling_eq] at h
  constructor
  · intro ha
    subst ha
    simp only [srtf_scheduling, Option.map_map, Option.map_eq_some'] at h
    obtain ⟨st, hst, rfl⟩ := h
    obtain ⟨k, hk, _⟩ := while_loop_iterate _ _ fuel _ st hst
    exact ⟨k, by rw [hk]; rfl⟩
  · intro ha
    subst ha
    simp only [preemptive_priority_scheduling, Option.map_map, Option.map_eq_some'] at h
    obtain ⟨st, hst, rfl⟩ := h
    obtain ⟨k, hk, _⟩ := while_loop_iterate _ _ fuel _ st hst
    exact ⟨k, by rw [hk]; rfl⟩

/-! ### Shortest job first against arrival order -/

theorem queue_cost_swap (ct : Int) (x y : Process) (r : List Process)
    (hs : (if ct < y.arrival_time then y.arrival_time else ct) =
      (if ct < x.arrival_time then x.arrival_time else ct))
    (hb : x.burst_time ≤ y.burst_time) (hx : 0 ≤ x.burst_time) :
    queue_cost ct (x :: y :: r) ≤ queue_cost ct (y :: x :: r) := by
  simp only [queue_cost]
  rw [hs]
  generalize hS : (if ct < x.arrival_time then x.arrival_time else ct) = S at hs
  have hax : x.arrival_time ≤ S := by rw [← hS]; split <;> omega
  have hay : y.arrival_time ≤ S := by rw [← hs]; split <;> omega
  rw [if_neg (by omega), if_neg (by omega)]
  have e : S + x.burst_time + y.burst_time = S + y.burst_time + x.burst_time := by omega
  rw [e]
  omega

theorem queue_cost_front (x : Process) (m2 : List Process) (hx : 0 ≤ x.burst_time) :
    ∀ (m1 : List Process) (ct : Int),
      (∀ y ∈ m1, (if ct < y.arrival_time then y.arrival_time else ct) =
          (if ct < x.arrival_time then x.arrival_time else ct) ∧
        x.burst_time ≤ y.burst_time) →
      queue_cost ct (x :: (m1 ++ m2)) ≤ queue_cost ct (m1 ++ x :: m2) := by
  intro m1
  induction m1 with
  | nil => intro ct _; exact le_refl _
  | cons y t ih =>
    intro ct h
    obtain ⟨hs, hb⟩ := h y (by simp)
    have hy : 0 ≤ y.burst_time := le_trans hx hb
    refine le_trans (queue_cost_swap ct x y (t ++ m2) hs hb hx) ?_
    show queue_cost ct (y :: x :: (t ++ m2)) ≤ queue_cost ct (y :: (t ++ x :: m2))
    have hall : ∀ z ∈ t, z.arrival_time ≤ (if ct < y.arrival_time then y.arrival_time else ct) ∧
        x.burst_time ≤ z.burst_time := by
      intro z hz
      obtain ⟨hsz, hbz⟩ := h z (List.mem_cons_of_mem _ hz)
      refine ⟨?_, hbz⟩
      rw [hs, ← hsz]
      split <;> omega
    have hax : x.arrival_time ≤ (if ct < y.arrival_time then y.arrival_time else ct) := by
      rw [hs]; split <;> omega
    simp only [queue_cost]
    generalize (if ct < y.arrival_time then y.arrival_time else ct) = S at hall hax
    have key := ih (S + y.burst_time) (by
      intro z hz
      obtain ⟨haz, hbz⟩ := hall z hz
      rw [if_neg (by omega), if_neg (by omega)]
      exact ⟨rfl, hbz⟩)
    simp only [queue_cost] at key
    omega

/-- Dispatching in a shortest-job-first order gives a waiting sum no greater
than dispatching the same jobs in ascending order of arrival. -/
theorem sjf_greedy_le (l : List Process) :
    ∀ (ct : Int) (m : List Process), sjf_greedy (fun _ => False) ct l → m.Perm l →
      m.Pairwise (fun a b => a.arrival_time ≤ b.arrival_time) →
      (∀ p ∈ l, 0 ≤ p.burst_time) → queue_cost ct l ≤ queue_cost ct m := by
  induction l with
  | nil =>
    intro ct m _ hp _ _
    rw [List.Perm.eq_nil hp]
  | cons x t ih =>
    intro ct m hg hp hs hb
    obtain ⟨hx, hrest⟩ := hg
    have hxm : x ∈ m := hp.symm.subset (List.mem_cons_self x t)
    obtain ⟨m1, m2, rfl⟩ := List.append_of_mem hxm
    have hp2 : (m1 ++ m2).Perm t :=
      List.Perm.cons_inv (List.perm_middle.symm.trans hp)
    have hs2 : (m1 ++ m2).Pairwise (fun a b => a.arrival_time ≤ b.arrival_time) :=
      hs.sublist (List.Sublist.append (List.Sublist.refl m1) (List.sublist_cons_self x m2))
    have hbefore : ∀ y ∈ m1, y.arrival_time ≤ x.arrival_time := by
      intro y hy
      exact (List.pairwise_append.mp hs).2.2 y hy x (List.mem_cons_self x m2)
    have hfront := queue_cost_front x m2 (hb x (List.mem_cons_self x t)) m1 ct (by
      intro y hy
      have hyt : y ∈ t := hp2.subset (List.mem_append_left m2 hy)
      obtain ⟨g1, g2⟩ := hx y (Or.inl hyt)
      have hle := hbefore y hy
      refine ⟨?_, g2 (by split <;> omega)⟩
      by_cases hc : ct < x.arrival_time
      · have := g1 hc
        rw [if_pos hc, if_pos (by omega)]
        omega
      · rw [if_neg hc, if_neg (by omega)])
    refine le_trans ?_ hfront
    have := ih ((if ct < x.arrival_time then x.arrival_time else ct) + x.burst_time)
      (m1 ++ m2) hrest hp2 hs2 (fun p hp => hb p (List.mem_cons_of_mem _ hp))
    simp only [queue_cost]
    omega

theorem queue_cost_run (l : List Process) :
    ∀ ct : Int, total_waiting ((fcfs_run ct l).map calculate_process) = queue_cost ct l := by
  induction l with
  | nil => intro ct; rfl
  | cons x t ih =>
    intro ct
    have := ih ((if ct < x.arrival_time then x.arrival_time else ct) + x.burst_time)
    simp only [total_waiting, List.map_map] at this ⊢
    simp only [fcfs_run, List.map_cons, List.sum_cons, queue_cost, this, Function.comp]
    rw [calculate_process_eq]
    show max 0 ((if ct < x.arrival_time then x.arrival_time else ct) + x.burst_time -
      x.arrival_time - x.burst_time) + _ = _
    rw [max_eq_right (by split <;> omega)]
    omega

theorem sjf_greedy_mono (pool pool2 : Process → Prop) (hsub : ∀ y, pool2 y → pool y)
    (l : List Process) : ∀ ct : Int, sjf_greedy pool ct l → sjf_greedy pool2 ct l := by
  induction l with
  | nil => intro ct _; trivial
  | cons x t ih =>
    intro ct h
    refine ⟨fun y hy => h.1 y ?_, ih _ h.2⟩
    rcases hy with hy | hy
    · exact Or.inl hy
    · exact Or.inr (hsub y hy)

theorem sjf_greedy_snoc (pool pool2 : Process → Prop) (x : Process)
    (hsub : ∀ y, pool2 y → pool y) (hx : pool x) (l : List Process) :
    ∀ ct : Int, sjf_greedy pool ct l →
      (∀ y, pool2 y →
        (fcfs_end ct l < x.arrival_time → x.arrival_time ≤ y.arrival_time) ∧
        (y.arrival_time ≤
            (if fcfs_end ct l < x.arrival_time then x.arrival_time else fcfs_end ct l) →
          x.burst_time ≤ y.burst_time)) →
      sjf_greedy pool2 ct (l ++ [x]) := by
  induction l with
  | nil =>
    intro ct _ h
    refine ⟨fun y hy => ?_, trivial⟩
    rcases hy with hy | hy
    · exact absurd hy (List.not_mem_nil _)
    · exact h y hy
  | cons z t ih =>
    intro ct h hnew
    refine ⟨fun y hy => h.1 y ?_, ih _ h.2 hnew⟩
    rcases hy with hy | hy
    · rcases List.mem_append.mp hy with hy | hy
      · exact Or.inl hy
      · rw [List.mem_singleton] at hy
        rw [hy]
        exact Or.inr hx
    · exact Or.inr (hsub y hy)

theorem sjf_seq_init (s : Sim) : sjf_seq_inv s.processes (sel_init s) [] := by
  refine ⟨rfl, by simp [sel_init], List.nodup_nil, ?_, fun _ _ _ => rfl, rfl, le_refl _,
    fun h => absurd h (lt_irrefl _), trivial⟩
  intro j
  simp only [List.not_mem_nil, false_iff, not_and]
  intro _
  show ¬ flag (List.replicate s.processes.length false) j = true
  rw [flag_replicate_false]
  exact Bool.noConfusion

theorem sjf_seq_idle (ps0 : List Process) (st : SelState) (order : List Nat)
    (h : sjf_seq_inv ps0 st order)
    (hs : select_min (fun p => p.burst_time) st.sim.processes st.is_completed
      st.sim.current_time = none)
    (hno : ¬ sel_stuck_at (fun p => p.burst_time) st) :
    sjf_seq_inv ps0 (batch_body (fun p => p.burst_time) st) order := by
  obtain ⟨l1, l2, nd, mem, keep, cells, clock, gap, greedy⟩ := h
  rw [batch_body_none _ st hs]
  refine ⟨l1, l2, nd, mem, keep, cells, ?_, ?_, greedy⟩
  · show _ ≤ st.sim.current_time + 1
    omega
  · intro _ u hu hf
    show st.sim.current_time + 1 ≤ _
    by_contra hc
    apply hno
    have hu2 : u < st.sim.processes.length := by rw [l1]; exact hu
    refine ⟨u, hu2, hf, select_min_none _ _ _ _ hs u hu2 ⟨hf, ?_⟩⟩
    rw [keep u hu hf]
    omega

theorem sjf_seq_step (ps0 : List Process) (st : SelState) (order : List Nat)
    (h : sjf_seq_inv ps0 st order) (i : Nat)
    (hs : select_min (fun p => p.burst_time) st.sim.processes st.is_completed
      st.sim.current_time = some i) :
    sjf_seq_inv ps0 (batch_body (fun p => p.burst_time) st) (order ++ [i]) := by
  obtain ⟨l1, l2, nd, mem, keep, cells, clock, gap, greedy⟩ := h
  obtain ⟨hi, he, _, hmin, _⟩ := select_min_some _ _ _ _ i hs
  rw [l1] at hi
  have hcell : proc st.sim.processes i = proc ps0 i := keep i hi he.1
  have harr : (proc ps0 i).arrival_time ≤ st.sim.current_time := by
    rw [← hcell]; exact he.2
  have hio : i ∉ order := by
    intro hio
    have := ((mem i).mp hio).2
    rw [he.1] at this
    exact Bool.noConfusion this
  have hrun := fcfs_run_append (order.map (proc ps0)) [proc ps0 i] 0
  have hstart : (if fcfs_end 0 (order.map (proc ps0)) < (proc ps0 i).arrival_time then
      (proc ps0 i).arrival_time else fcfs_end 0 (order.map (proc ps0))) =
      st.sim.current_time := by
    rcases lt_or_eq_of_le clock with hlt | heq
    · have := gap hlt i hi he.1
      rw [if_pos (by omega)]
      omega
    · rw [if_neg (by omega)]
      exact heq
  have hlast : fcfs_run (fcfs_end 0 (order.map (proc ps0))) [proc ps0 i] =
      [{ proc ps0 i with
          start_time := st.sim.current_time
          completion_time := st.sim.current_time + (proc ps0 i).burst_time }] := by
    simp only [fcfs_run, hstart]
  have hend : fcfs_end (fcfs_end 0 (order.map (proc ps0))) [proc ps0 i] =
      st.sim.current_time + (proc ps0 i).burst_time := by
    simp only [fcfs_end, hstart]
  have hmapi : (order ++ [i]).map (proc ps0) = order.map (proc ps0) ++ [proc ps0 i] := by
    simp
  rw [batch_body_some _ st i hs, hcell]
  unfold sjf_seq_inv
  rw [hmapi]
  have hflag : ∀ u, flag (updateAt st.is_completed i (fun _ => true)) u = false →
      u ≠ i ∧ flag st.is_completed u = false := by
    intro u hf
    rw [flag_updateAt, l2] at hf
    have hui : u ≠ i := by
      intro e
      subst e
      simp [hi] at hf
    simp only [hui, false_and, if_false] at hf
    exact ⟨hui, hf⟩
  refine ⟨by simp [length_updateAt, l1], by simp [length_updateAt, l2],
    List.Nodup.append nd (List.nodup_singleton i) (by
      intro a ha hb
      rw [List.mem_singleton] at hb
      exact hio (hb ▸ ha)), ?_, ?_, ?_, ?_, ?_, ?_⟩
  · intro j
    show j ∈ order ++ [i] ↔ j < ps0.length ∧ flag (updateAt st.is_completed i _) j = true
    rw [flag_updateAt, l2, List.mem_append, List.mem_singleton, mem j]
    by_cases hji : j = i
    · subst hji
      simp [hi]
    · simp [hji]
  · intro j hj hf
    obtain ⟨hji, hf2⟩ := hflag j hf
    show proc (updateAt st.sim.processes i _) j = proc ps0 j
    rw [proc_updateAt]
    simp only [hji, false_and, if_false]
    exact keep j hj hf2
  · show (order ++ [i]).map (proc (updateAt st.sim.processes i _)) = _
    rw [List.map_append, hrun.1, hlast, ← cells]
    congr 1
    · apply List.map_congr_left
      intro j hj
      rw [proc_updateAt]
      have hji : j ≠ i := fun e => hio (e ▸ hj)
      simp only [hji, false_and, if_false]
    · simp only [List.map_cons, List.map_nil, proc_updateAt, l1, hi, and_self, if_true, hcell]
  · show _ ≤ st.sim.current_time + (proc ps0 i).burst_time
    rw [hrun.2, hend]
  · intro hlt
    exfalso
    have : fcfs_end 0 (order.map (proc ps0) ++ [proc ps0 i]) =
        st.sim.current_time + (proc ps0 i).burst_time := by rw [hrun.2, hend]
    have hlt2 : fcfs_end 0 (order.map (proc ps0) ++ [proc ps0 i]) <
        st.sim.current_time + (proc ps0 i).burst_time := hlt
    omega
  · refine sjf_greedy_snoc _ _ (proc ps0 i) ?_ ⟨i, hi, he.1, rfl⟩ _ 0 greedy ?_
    · rintro y ⟨u, hu, hf, rfl⟩
      exact ⟨u, hu, (hflag u hf).2, rfl⟩
    · rintro y ⟨u, hu, hf, rfl⟩
      obtain ⟨_, hf2⟩ := hflag u hf
      rw [hstart]
      refine ⟨fun hlt => ?_, fun hle => ?_⟩
      · have := gap (by omega) u hu hf2
        omega
      · have hu2 : u < st.sim.processes.length := by rw [l1]; exact hu
        have := hmin u hu2 ⟨hf2, by rw [keep u hu hf2]; exact hle⟩
        rw [hcell, keep u hu hf2] at this
        exact this

/-- What `sjf_scheduling` leaves on a table: the jobs were dispatched in a
shortest-job-first order that lists every job once, each started at the later
of the previous completion and its arrival. -/
theorem sjf_seq_facts (s : Sim) (hg : s.gantt_chart = [])
    (hv : ∀ p ∈ s.processes, 0 < p.burst_time) (fuel : Nat) (r : SelState)
    (h : while_loop sel_cond (batch_body (fun p => p.burst_time)) fuel (sel_init s) = some r) :
    ∃ order : List Nat, order.Perm (List.range s.processes.length) ∧
      r.sim.processes.Perm (fcfs_run 0 (order.map (proc s.processes))) ∧
      sjf_greedy (fun _ => False) 0 (order.map (proc s.processes)) := by
  obtain ⟨⟨i1, i2⟩, hc⟩ := while_loop_inv sel_cond (batch_body (fun p => p.burst_time))
    (fun st => batch_inv st ∧
      (sel_stuck_at (fun p => p.burst_time) st ∨ ∃ order, sjf_seq_inv s.processes st order))
    (by
      intro st ⟨a, b⟩ hcond
      refine ⟨batch_inv_step _ st a hcond, ?_⟩
      rcases b with b | ⟨order, b⟩
      · exact Or.inl (sel_stuck_batch _ st b)
      · cases hs : select_min (fun p => p.burst_time) st.sim.processes st.is_completed
            st.sim.current_time with
        | some i => exact Or.inr ⟨_, sjf_seq_step s.processes st order b i hs⟩
        | none =>
          by_cases hno : sel_stuck_at (fun p => p.burst_time) st
          · exact Or.inl (sel_stuck_batch _ st hno)
          · exact Or.inr ⟨_, sjf_seq_idle s.processes st order b hs hno⟩)
    fuel (sel_init s) r
    ⟨batch_inv_init s hg hv, Or.inr ⟨[], sjf_seq_init s⟩⟩ h
  have hcnt : r.is_completed.count true = r.is_completed.length := by
    rw [← i1.2.1, i1.1]
    simpa [sel_cond] using hc
  have hall : ∀ j, j < r.is_completed.length → flag r.is_completed j = true :=
    fun j hj => flag_true_of_count _ hcnt j hj
  rcases i2 with ⟨j, hj, hf, _⟩ | ⟨order, l1, l2, nd, mem, _, cells, _, _, greedy⟩
  · rw [← i1.1] at hj
    rw [hall j hj] at hf
    exact Bool.noConfusion hf
  · have hperm : order.Perm (List.range s.processes.length) := by
      rw [List.perm_ext_iff_of_nodup nd (List.nodup_range _)]
      intro j
      rw [mem j, List.mem_range]
      exact ⟨fun h => h.1, fun h => ⟨h, hall j (by rw [l2]; exact h)⟩⟩
    refine ⟨order, hperm, ?_, sjf_greedy_mono _ _ (fun _ hy => False.elim hy) _ 0 greedy⟩
    rw [← cells]
    have := list_eq_map_proc r.sim.processes
    rw [l1] at this
    conv_lhs => rw [this]
    exact (hperm.map _).symm

/-- The waiting-time sum an SJF run leaves is no greater than the sum an FCFS
run leaves on the same table. -/
theorem simulate_sjf_le_fcfs (s : Sim) (hv : ∀ p ∈ s.processes, 0 < p.burst_time)
    (fuel : Nat) (r : Sim) (h : simulate_scheduling fuel .SJF s = some r) (fuel2 : Nat)
    (r2 : Sim) (h2 : simulate_scheduling fuel2 .FCFS s = some r2) :
    total_waiting r.processes ≤ total_waiting r2.processes := by
  have hv2 : ∀ p ∈ (strategy_input s).processes, 0 < p.burst_time := by
    intro p hp
    obtain ⟨p0, hp0, rfl⟩ := List.mem_map.mp hp
    exact hv p0 hp0
  rw [simulate_scheduling_eq] at h h2
  simp only [Option.map_some', Option.some.injEq] at h2
  subst h2
  simp only [sjf_scheduling, Option.map_map, Option.map_eq_some'] at h
  obtain ⟨st, hst, rfl⟩ := h
  obtain ⟨order, hperm, hps, hgreedy⟩ := sjf_seq_facts (strategy_input s) rfl hv2 fuel st hst
  have hL := order_map_perm _ order hperm
  show total_waiting (st.sim.processes.map calculate_process) ≤
    total_waiting ((fcfs_scheduling (strategy_input s)).processes.map calculate_process)
  rw [total_waiting_perm _ _ hps, queue_cost_run, fcfs_scheduling_eq, queue_cost_run]
  exact sjf_greedy_le _ 0 _ hgreedy ((fcfs_sort_perm _).trans hL.symm) (fcfs_sort_sorted _)
    (fun p hp => le_of_lt (hv2 p (hL.mem_iff.mp hp)))

/-! ### Run-level statements in exact integer arithmetic -/

/-- Without `int` overflow and on the unbounded queue list:
for every job table whose jobs all arrive at time 0 with
`burst_time > 0`, every quantum `q > 0` and every number of sweeps `F` that is
at least every `burst_time`, `round_robin_scheduling` returns, its timeline is
the one obtained by sweeping the jobs `F` times in table-index order and
giving each still-unfinished job one block of `min(remaining_time, q)` ticks,
and the `completion_time` of every job is the end of its last block.  With
`q = 2`, A(0, 5), B(0, 3) the timeline is A(0-2), B(2-4), A(4-6), B(6-7),
A(7-8) with completions A = 8 and B = 7. -/
theorem round_robin_equals_sweep (s : Sim) (F : Nat) (hq : 0 < s.time_quantum)
    (hv : ∀ p ∈ s.processes, p.arrival_time = 0 ∧ 0 < p.burst_time ∧ p.burst_time ≤ F) :
    (∃ fuel r, round_robin_scheduling fuel s = some r ∧
      r.gantt_chart = s.gantt_chart ++ (rr_sweeps s.time_quantum F s.processes).timeline ∧
      r.processes.length = s.processes.length ∧
      (∀ j, j < s.processes.length →
        (proc r.processes j).completion_time =
          (proc (rr_sweeps s.time_quantum F s.processes).table j).completion_time) ∧
      ∀ fuel2 r2, round_robin_scheduling fuel2 s = some r2 → r2 = r) ∧
    (round_robin_scheduling 5
        (Sim.mk [mkProcess "A" 0 5 5 0, mkProcess "B" 0 3 5 1] [] 2 0)).map
      (fun r => (r.gantt_chart.map (fun b => (b.process_name, b.start_time, b.end_time)),
        r.processes.map (fun p => (p.name, p.completion_time)))) =
      some ([("A", 0, 2), ("B", 2, 4), ("A", 4, 6), ("B", 6, 7), ("A", 7, 8)],
        [("A", 8), ("B", 7)]) := by
  refine ⟨?_, by decide⟩
  obtain ⟨i1, i2, i3, i4, i5⟩ := rr_init_zero s hq (fun p hp => ⟨(hv p hp).1, (hv p hp).2.1⟩)
  have hlen : (rr_init s).sim.processes.length = s.processes.length := by
    rw [i1, List.length_map]
  obtain ⟨steps, st2, u1, u2, u3, u4⟩ := rr_zero_sweeps s.gantt_chart F (rr_init s) _ i3 i5 i4
    (by
      intro j hj
      rw [hlen] at hj
      rw [i1, proc_map_reset_remaining _ _ hj]
      have := (hv _ (proc_mem _ _ hj)).2.2
      exact this)
  rw [i2] at u3
  refine ⟨steps, st2.sim, by simp [round_robin_scheduling, u1], u3.2.1, u2.trans hlen, ?_, ?_⟩
  · intro j hj
    have hj2 : j < st2.sim.processes.length := by rw [u2, hlen]; exact hj
    exact (u3.2.2.2 j hj2).2.2.2 (u4 j (by rw [hlen]; exact hj))
  · intro fuel2 r2 h2
    simp only [round_robin_scheduling, Option.map_eq_some'] at h2
    obtain ⟨a, ha, rfl⟩ := h2
    rw [while_loop_unique _ _ _ _ _ _ _ ha u1]

/-- Without `int` overflow and on the unbounded queue list:
for every job table with `burst_time > 0`, at every dispatch of
`priority_scheduling` (any loop iteration `k` that selects a job `i`), the job
chosen has arrived and is not completed, has the minimum `priority` among the
arrived, uncompleted jobs, with the lowest table index among equal
priorities; it gets `start_time = current_time` and
`completion_time = current_time + burst_time`, and it is never interrupted:
its single block spans that interval, every block appended later starts at or
after its completion, and it is never selected again. -/
theorem priority_dispatch_choice (s : Sim) (k i : Nat)
    (hv : ∀ p ∈ s.processes, 0 < p.burst_time)
    (h : select_min (fun p => p.priority) (priority_state s k).sim.processes
      (priority_state s k).is_completed (priority_state s k).sim.current_time = some i) :
    (i < s.processes.length ∧
      flag (priority_state s k).is_completed i = false ∧
      (proc (priority_state s k).sim.processes i).arrival_time ≤
        (priority_state s k).sim.current_time) ∧
    (∀ j, j < s.processes.length → flag (priority_state s k).is_completed j = false →
      (proc (priority_state s k).sim.processes j).arrival_time ≤
        (priority_state s k).sim.current_time →
      (proc (priority_state s k).sim.processes i).priority ≤
        (proc (priority_state s k).sim.processes j).priority) ∧
    (∀ j, j < i → flag (priority_state s k).is_completed j = false →
      (proc (priority_state s k).sim.processes j).arrival_time ≤
        (priority_state s k).sim.current_time →
      (proc (priority_state s k).sim.processes i).priority <
        (proc (priority_state s k).sim.processes j).priority) ∧
    (proc (priority_state s (k + 1)).sim.processes i =
        { proc (priority_state s k).sim.processes i with
          start_time := (priority_state s k).sim.current_time
          completion_time := (priority_state s k).sim.current_time +
            (proc (priority_state s k).sim.processes i).burst_time } ∧
      (priority_state s (k + 1)).sim.current_time =
        (priority_state s k).sim.current_time +
          (proc (priority_state s k).sim.processes i).burst_time) ∧
    (∀ m, ∃ ext, (priority_state s (k + 1 + m)).sim.gantt_chart =
        (priority_state s k).sim.gantt_chart ++
          [mkBlock (proc (priority_state s k).sim.processes i)
            (priority_state s k).sim.current_time
            ((priority_state s k).sim.current_time +
              (proc (priority_state s k).sim.processes i).burst_time)] ++ ext ∧
        ∀ b ∈ ext, (priority_state s k).sim.current_time +
          (proc (priority_state s k).sim.processes i).burst_time ≤ b.start_time) ∧
    (∀ m, select_min (fun p => p.priority) (priority_state s (k + 1 + m)).sim.processes
      (priority_state s (k + 1 + m)).is_completed
      (priority_state s (k + 1 + m)).sim.current_time ≠ some i) := by
  have hlen : (priority_state s k).sim.processes.length = s.processes.length :=
    (batch_iterate_lengths _ (sel_init s) k).1
  have hlen2 : (priority_state s k).is_completed.length = s.processes.length := by
    have := (batch_iterate_lengths (fun p => p.priority) (sel_init s) k).2
    simp only [priority_state]; rw [this]; simp [sel_init]
  obtain ⟨a, b, _, d, e⟩ := select_min_some _ _ _ _ i h
  have hstep : priority_state s (k + 1) =
      batch_body (fun p => p.priority) (priority_state s k) := by
    simp only [priority_state, Function.iterate_succ_apply']
  have hm : ∀ m, priority_state s (k + 1 + m) =
      (batch_body (fun p => p.priority))^[m] (priority_state s (k + 1)) := by
    intro m
    simp only [priority_state, Nat.add_comm (k + 1) m, Function.iterate_add_apply]
  refine ⟨⟨hlen ▸ a, b.1, b.2⟩, ?_, ?_, ?_, ?_, ?_⟩
  · intro j hj h1 h2
    exact d j (hlen ▸ hj) ⟨h1, h2⟩
  · intro j hj h1 h2
    exact e j hj ⟨h1, h2⟩
  · rw [hstep, batch_body_some _ _ i h]
    refine ⟨?_, rfl⟩
    simp only [proc_updateAt, a, and_self, if_true]
  · intro m
    have hb : ∀ j, 0 ≤ (proc (priority_state s (k + 1)).sim.processes j).burst_time := by
      intro j
      have : (proc (priority_state s (k + 1)).sim.processes j).burst_time =
          (proc (sel_init s).sim.processes j).burst_time := batch_iterate_burst _ _ _ _
      rw [this]
      exact burst_nonneg_of_pos s.processes hv j
    obtain ⟨_, ext, h2, h3⟩ := batch_iterate_gantt (fun p => p.priority) _ m hb
    refine ⟨ext, ?_, ?_⟩
    · rw [hm, h2, hstep, batch_body_some _ _ i h]
    · intro b0 hb0
      have := h3 b0 hb0
      rw [hstep, batch_body_some _ _ i h] at this
      exact this
  · intro m
    apply select_min_ne_of_flag
    rw [hm]
    apply batch_iterate_flag_mono
    rw [hstep, batch_body_some _ _ i h]
    simp only [flag_updateAt, hlen2, hlen ▸ a, and_self, if_true]

/-- Without `int` overflow and on the unbounded queue list:
in `round_robin_scheduling`, for every job table with
`burst_time > 0` (in particular every valid one) and quantum `q > 0`: when job
`p` is dispatched at iteration `k`, runs a slice from the old clock to
`new_time` and still has remaining work, the live queue afterwards is the
former rest of the queue, then every unfinished job that was not queued and
has `arrival_time <= new_time`, in ascending table-index order, then `p`; and
each such job `j` is dispatched before `p` is: whenever `p` is at the head of
the queue at a later iteration, `j` was at the head at an iteration in
between. -/
theorem rr_newcomers_before_reentry (s : Sim) (hq : 0 < s.time_quantum)
    (hb : ∀ p ∈ s.processes, 0 < p.burst_time) (k p : Nat) (rest : List Nat)
    (hL : (rr_state s k).live = p :: rest)
    (hrem : (proc (rr_state s k).sim.processes p).remaining_time -
      rr_exec (rr_state s k).sim.time_quantum (proc (rr_state s k).sim.processes p) ≠ 0) :
    (rr_state s (k + 1)).sim.current_time = (rr_state s k).sim.current_time +
      rr_exec (rr_state s k).sim.time_quantum (proc (rr_state s k).sim.processes p) ∧
    (rr_state s (k + 1)).live =
      rest ++ rr_newly (rr_state s k) (rr_state s (k + 1)).sim.current_time ++ [p] ∧
    (rr_newly (rr_state s k) (rr_state s (k + 1)).sim.current_time).Pairwise
      (fun a b => a < b) ∧
    (∀ j, j ∈ rr_newly (rr_state s k) (rr_state s (k + 1)).sim.current_time ↔
      (j < (rr_state s k).sim.processes.length ∧
        (proc (rr_state s k).sim.processes j).arrival_time ≤
          (rr_state s (k + 1)).sim.current_time ∧
        flag (rr_state s k).in_queue j = false ∧
        0 < (proc (rr_state s k).sim.processes j).remaining_time)) ∧
    (∀ j ∈ rr_newly (rr_state s k) (rr_state s (k + 1)).sim.current_time, ∀ m,
      (rr_state s (k + 1 + m)).live.head? = some p →
        ∃ m', m' < m ∧ (rr_state s (k + 1 + m')).live.head? = some j) := by
  have hinv := rr_queue_inv_state s hq hb
  obtain ⟨_, f2, _, f4, _⟩ := rr_queue_dispatch (rr_state s k) (hinv k) p rest hL
  rw [← rr_state_succ] at f2 f4
  rw [if_neg hrem, ← f2] at f4
  refine ⟨f2, f4, rr_newly_sorted _ _, mem_rr_newly _ _, ?_⟩
  intro j hj m hm
  have key : ∀ n, (∃ m', m' < n ∧ (rr_state s (k + 1 + m')).live.head? = some j) ∨
      rr_ahead j p (rr_state s (k + 1 + n)).live := by
    intro n
    induction n with
    | zero =>
      right
      rw [Nat.add_zero, f4]
      exact rr_ahead_of_mem j p rest _ hj
    | succ n ih =>
      rcases ih with ⟨m', h1, h2⟩ | h
      · exact Or.inl ⟨m', by omega, h2⟩
      · rcases rr_ahead_step _ (hinv _) j p h with h1 | h1
        · exact Or.inl ⟨n, by omega, h1⟩
        · right
          rw [← Nat.add_assoc, rr_state_succ]
          exact h1
  rcases key m with h | h
  · exact h
  · exact absurd hm (rr_ahead_not_head j p _ h (hinv _).2.1)

/-- Without `int` overflow and on the unbounded queue list:
for every job table with `arrival_time >= 0` and
`burst_time > 0`, the sum of `waiting_time` over all processes after an SJF
run is no greater than the sum after an FCFS run on the same table; when
moreover every job has `arrival_time = 0`, it is also no greater than the sum
after a non-preemptive Priority run.  The FCFS run always returns, and the SJF
and Priority runs return whenever the table's values lie below the sentinel
`INT_MAX`. -/
theorem sjf_least_waiting (s : Sim)
    (hv : ∀ p ∈ s.processes, 0 ≤ p.arrival_time ∧ 0 < p.burst_time) :
    (∀ fuel r, simulate_scheduling fuel .SJF s = some r →
      (∀ fuel2 r2, simulate_scheduling fuel2 .FCFS s = some r2 →
        total_waiting r.processes ≤ total_waiting r2.processes) ∧
      ((∀ p ∈ s.processes, p.arrival_time = 0) →
        ∀ fuel2 r2, simulate_scheduling fuel2 .PRIORITY s = some r2 →
          total_waiting r.processes ≤ total_waiting r2.processes)) ∧
    (∃ r, simulate_scheduling 0 .FCFS s = some r) ∧
    (below_sentinel s →
      (∃ fuel r, simulate_scheduling fuel .SJF s = some r) ∧
      (∃ fuel r, simulate_scheduling fuel .PRIORITY s = some r)) := by
  refine ⟨fun fuel r h => ⟨fun fuel2 r2 h2 => ?_, fun h0 fuel2 r2 h2 => ?_⟩, ⟨_, rfl⟩,
    fun hb =>
      ⟨simulate_terminates .SJF s hv (fun e => by cases e) hb,
        simulate_terminates .PRIORITY s hv (fun e => by cases e) hb⟩⟩
  · exact simulate_sjf_le_fcfs s (fun p hp => (hv p hp).2) fuel r h fuel2 r2 h2
  · have hz : ∀ p ∈ s.processes, p.arrival_time = 0 ∧ 0 < p.burst_time :=
      fun p hp => ⟨h0 p hp, (hv p hp).2⟩
    obtain ⟨B, b1, b2, b3⟩ := simulate_wait_cost .SJF s (Or.inr (Or.inl rfl)) hz fuel r h
    obtain ⟨B2, c1, c2, _⟩ :=
      simulate_wait_cost .PRIORITY s (Or.inr (Or.inr rfl)) hz fuel2 r2 h2
    rw [b2, c2]
    exact wait_cost_sorted_le B B2 (b3 rfl) (b1.trans c1.symm) 0

/-- Without `int` overflow and on the unbounded queue list:
in `round_robin_scheduling`, for every job table with
`burst_time > 0` (in particular with `arrival_time >= 0`) and every quantum
`q > 0`, started on an empty timeline: each dispatch (iteration `k` with job
`p` at the head of the queue) adds the one block
`[current_time, current_time + min(remaining_time, q))` of `p` and takes that
amount from `remaining_time`; at every iteration every timeline block lasts at
least 1 and at most `q` ticks, and a block shorter than `q` ends at the
`completion_time` of a finished job of its name; the same holds for the
timeline and table a run of `simulate_scheduling` returns. -/
theorem rr_block_lengths (s : Sim) (hg : s.gantt_chart = []) (hq : 0 < s.time_quantum)
    (hb : ∀ p ∈ s.processes, 0 < p.burst_time) :
    (∀ k p rest, (rr_state s k).live = p :: rest →
      (rr_state s (k + 1)).sim.gantt_chart = (rr_state s k).sim.gantt_chart ++
        [mkBlock (proc (rr_state s k).sim.processes p) (rr_state s k).sim.current_time
          ((rr_state s k).sim.current_time +
            min (proc (rr_state s k).sim.processes p).remaining_time s.time_quantum)] ∧
      (proc (rr_state s (k + 1)).sim.processes p).remaining_time =
        (proc (rr_state s k).sim.processes p).remaining_time -
          min (proc (rr_state s k).sim.processes p).remaining_time s.time_quantum) ∧
    (∀ k, ∀ b ∈ (rr_state s k).sim.gantt_chart,
      1 ≤ b.end_time - b.start_time ∧ b.end_time - b.start_time ≤ s.time_quantum ∧
      (b.end_time - b.start_time < s.time_quantum →
        ∃ j, j < (rr_state s k).sim.processes.length ∧
          (proc (rr_state s k).sim.processes j).name = b.process_name ∧
          (proc (rr_state s k).sim.processes j).remaining_time = 0 ∧
          (proc (rr_state s k).sim.processes j).completion_time = b.end_time)) ∧
    (∀ fuel r, simulate_scheduling fuel .ROUND_ROBIN s = some r → ∀ b ∈ r.gantt_chart,
      1 ≤ b.end_time - b.start_time ∧ b.end_time - b.start_time ≤ s.time_quantum ∧
      (b.end_time - b.start_time < s.time_quantum →
        ∃ p ∈ r.processes, p.name = b.process_name ∧ p.completion_time = b.end_time)) := by
  refine ⟨fun k p rest hL => ?_, fun k b hbk => ?_, fun fuel r h b hbr => ?_⟩
  · obtain ⟨f1, f2, _, hp, _, _⟩ := rr_state_gantt s hq hb k p rest hL
    rw [rr_state_quantum] at f1 f2
    refine ⟨f2, ?_⟩
    rw [f1, proc_updateAt]
    simp only [hp, and_self, if_true]
    rw [(rr_cell_fields _ _ _).2.1, rr_exec_eq_min]
  · have := rr_blocks_ok_state s hg hq hb k b hbk
    rw [rr_state_quantum] at this
    exact this
  · obtain ⟨k, rfl, _⟩ := simulate_rr_state s fuel r h
    have hb2 : ∀ p ∈ (strategy_input s).processes, 0 < p.burst_time := by
      intro p hp
      obtain ⟨p0, hp0, rfl⟩ := List.mem_map.mp hp
      exact hb p0 hp0
    have := rr_blocks_ok_state (strategy_input s) rfl hq hb2 k b hbr
    rw [rr_state_quantum] at this
    obtain ⟨a1, a2, a3⟩ := this
    refine ⟨a1, a2, fun hlt => ?_⟩
    obtain ⟨j, hj, n1, _, n3⟩ := a3 hlt
    refine ⟨calculate_process (proc (rr_state (strategy_input s) k).sim.processes j),
      List.mem_map.mpr ⟨_, proc_mem _ _ hj, rfl⟩, ?_, ?_⟩
    · rw [calculate_process_eq]; exact n1
    · rw [(calculate_process_keeps _).2.2.1]; exact n3

/-- Without `int` overflow and on the unbounded queue list:
for every job table of `n >= 1` jobs with pairwise distinct
names, `arrival_time >= 0` and `burst_time > 0`, after any number of loop
iterations of `srtf_scheduling` and of `preemptive_priority_scheduling`
(entered as `simulate_scheduling` enters them) the timeline holds at most
`2n - 1` blocks, hence at most `MAX_PROCESSES * 10 = 500` when `n <= 50`; an
iteration that executes a job while the last block carries another name finds
the job of that block completed, or the block ends at that instant and the
executed job arrives at that very instant.  Every run of either strategy that
returns therefore has at most `2n - 1` blocks, and the run returns whenever
the table's values lie below the sentinel `INT_MAX`. -/
theorem tick_block_count (s : Sim) (hne : s.processes ≠ [])
    (hn : names_distinct s.processes)
    (hv : ∀ p ∈ s.processes, 0 ≤ p.arrival_time ∧ 0 < p.burst_time) :
    (∀ k,
      ((srtf_state (strategy_input s) k).sim.gantt_chart.length ≤ 2 * s.processes.length - 1 ∧
        (s.processes.length ≤ MAX_PROCESSES →
          (srtf_state (strategy_input s) k).sim.gantt_chart.length ≤ MAX_PROCESSES * 10) ∧
        ∀ i, select_min (fun p => p.remaining_time)
            (srtf_state (strategy_input s) k).sim.processes
            (srtf_state (strategy_input s) k).is_completed
            (srtf_state (strategy_input s) k).sim.current_time = some i →
          block_end_rule (srtf_state (strategy_input s) k) i) ∧
      ((pp_state (strategy_input s) k).sim.gantt_chart.length ≤ 2 * s.processes.length - 1 ∧
        (s.processes.length ≤ MAX_PROCESSES →
          (pp_state (strategy_input s) k).sim.gantt_chart.length ≤ MAX_PROCESSES * 10) ∧
        ∀ i, select_min (fun p => p.priority) (pp_state (strategy_input s) k).sim.processes
            (pp_state (strategy_input s) k).is_completed
            (pp_state (strategy_input s) k).sim.current_time = some i →
          block_end_rule (pp_state (strategy_input s) k) i)) ∧
    (∀ algo, algo = .SRTF ∨ algo = .PREEMPTIVE_PRIORITY →
      (∀ fuel r, simulate_scheduling fuel algo s = some r →
        r.gantt_chart.length ≤ 2 * s.processes.length - 1 ∧
        (s.processes.length ≤ MAX_PROCESSES → r.gantt_chart.length ≤ MAX_PROCESSES * 10)) ∧
      (below_sentinel s → ∃ fuel r, simulate_scheduling fuel algo s = some r)) := by
  have hpos : 1 ≤ s.processes.length := List.length_pos.mpr hne
  have hcap : ∀ m : Nat, m ≤ 2 * s.processes.length - 1 →
      s.processes.length ≤ MAX_PROCESSES → m ≤ MAX_PROCESSES * 10 := by
    intro m h1 h2
    unfold MAX_PROCESSES at h2 ⊢
    omega
  have hA : ∀ (key : Process → Int),
      (∀ (ct : Int) (p : Process), key (tick_cell ct p) ≤ key p) → ∀ k,
      (tick_state key (strategy_input s) k).sim.gantt_chart.length ≤
        2 * s.processes.length - 1 ∧
      ∀ i, select_min key (tick_state key (strategy_input s) k).sim.processes
          (tick_state key (strategy_input s) k).is_completed
          (tick_state key (strategy_input s) k).sim.current_time = some i →
        block_end_rule (tick_state key (strategy_input s) k) i := by
    intro key hkey k
    obtain ⟨hinv, hlen⟩ := input_blocks_state key hkey s hn k
    have hb := tick_blocks_bound key _ hinv (by rw [hlen]; exact hpos)
    rw [hlen] at hb
    exact ⟨hb, fun i hsel => tick_block_end key _ hinv i hsel⟩
  have hS := hA (fun p => p.remaining_time) remaining_key_tick
  have hP := hA (fun p => p.priority) priority_key_tick
  refine ⟨fun k => ⟨⟨(hS k).1, hcap _ (hS k).1, (hS k).2⟩,
    ⟨(hP k).1, hcap _ (hP k).1, (hP k).2⟩⟩, ?_⟩
  intro algo ha
  refine ⟨?_, simulate_terminates algo s hv
    (fun e => by rcases ha with h | h <;> rw [h] at e <;> cases e)⟩
  intro fuel r h
  obtain ⟨h1, h2⟩ := simulate_tick_state algo s fuel r h
  rcases ha with ha | ha
  · obtain ⟨k, rfl⟩ := h1 ha
    exact ⟨(hS k).1, hcap _ (hS k).1⟩
  · obtain ⟨k, rfl⟩ := h2 ha
    exact ⟨(hP k).1, hcap _ (hP k).1⟩

/-! ### Machine integers -/

theorem int32_eq (x : Int) (h : in_int x) : int32 x = x := by
  unfold in_int INT_MIN INT_MAX at h
  unfold int32
  omega

theorem int_add_eq (a b : Int) (h : in_int (a + b)) : int_add a b = a + b := int32_eq _ h

theorem int_sub_eq (a b : Int) (h : in_int (a - b)) : int_sub a b = a - b := int32_eq _ h

theorem int32_in_int (x : Int) : in_int (int32 x) := by
  unfold in_int INT_MIN INT_MAX int32
  omega

/-! ### Sums over the table and loops with two bodies -/

theorem sum_range_point (n : Nat) (f g : Nat → Int) (i : Nat) (hi : i < n)
    (h : ∀ j, j < n → j ≠ i → g j = f j) :
    ((List.range n).map g).sum = ((List.range n).map f).sum - f i + g i := by
  induction n with
  | zero => exact absurd hi (Nat.not_lt_zero _)
  | succ n ih =>
    rw [List.range_succ, List.map_append, List.map_append, List.sum_append, List.sum_append]
    simp only [List.map_cons, List.map_nil, List.sum_cons, List.sum_nil, add_zero]
    rcases Nat.lt_or_ge i n with hlt | hge
    · have h1 := ih hlt (fun j hj hji => h j (Nat.lt_succ_of_lt hj) hji)
      have h2 := h n (Nat.lt_succ_self n) (by omega)
      omega
    · have hin : i = n := by omega
      subst hin
      have h1 : (List.range i).map g = (List.range i).map f := by
        apply List.map_congr_left
        intro j hj
        rw [List.mem_range] at hj
        exact h j (Nat.lt_succ_of_lt hj) (by omega)
      rw [h1]
      omega

theorem sum_range_nonneg (n : Nat) (f : Nat → Int) (h : ∀ j, j < n → 0 ≤ f j) :
    0 ≤ ((List.range n).map f).sum := by
  apply List.sum_nonneg
  intro x hx
  obtain ⟨j, hj, rfl⟩ := List.mem_map.mp hx
  exact h j (List.mem_range.mp hj)

theorem sum_range_ge (n : Nat) (f : Nat → Int) (h : ∀ j, j < n → 0 ≤ f j) (i : Nat)
    (hi : i < n) : f i ≤ ((List.range n).map f).sum := by
  have h1 := sum_range_point n f (fun j => if j = i then 0 else f j) i hi
    (fun j _ hji => by simp [hji])
  have h2 := sum_range_nonneg n (fun j => if j = i then 0 else f j) (by
    intro j hj
    dsimp only
    split
    · exact le_refl _
    · exact h j hj)
  simp only [if_true] at h1
  omega

theorem while_loop_congr {σ : Type} (cond : σ → Bool) (b1 b2 : σ → σ) (Inv : σ → Prop)
    (h : ∀ x, Inv x → cond x = true → b1 x = b2 x ∧ Inv (b2 x)) :
    ∀ (fuel : Nat) (s : σ), Inv s → while_loop cond b1 fuel s = while_loop cond b2 fuel s := by
  intro fuel
  induction fuel with
  | zero => intro s _; simp only [while_loop]
  | succ n ih =>
    intro s hs
    cases hc : cond s with
    | true =>
      rw [while_loop_step cond b1 n s hc, while_loop_step cond b2 n s hc, (h s hs hc).1]
      exact ih _ (h s hs hc).2
    | false => rw [while_loop_done cond b1 _ s hc, while_loop_done cond b2 _ s hc]

/-! ### The non-preemptive loop within the `int` range -/

theorem sel_pending_nonneg (st : SelState)
    (hb : ∀ j, j < st.sim.processes.length → 0 < (proc st.sim.processes j).burst_time) :
    0 ≤ sel_pending st := by
  apply sum_range_nonneg
  intro j hj
  dsimp only
  split
  · exact le_refl _
  · exact le_of_lt (hb j hj)

theorem batch_fit_step (key : Process → Int) (M : Int) (st : SelState)
    (hinv : batch_term_inv key M st) (hc : sel_cond st = true) (hf : batch_fit st) :
    Machine.batch_body key st = batch_body key st ∧ batch_fit (batch_body key st) := by
  obtain ⟨⟨b1, b2, b3, b4, b5, b6, b7⟩, hs⟩ := hinv
  obtain ⟨f1, f2, f3⟩ := hf
  have hne : st.completed ≠ st.sim.processes.length := by
    simpa [sel_cond] using hc
  have hpos := sel_pending_nonneg st b5
  cases h : select_min key st.sim.processes st.is_completed st.sim.current_time with
  | none =>
    have hcnt : st.is_completed.count true ≠ st.is_completed.length := by
      rw [← b2, b1]; exact hne
    obtain ⟨j, hj, hfj⟩ := exists_flag_false _ hcnt
    rw [b1] at hj
    have harr : st.sim.current_time < (proc st.sim.processes j).arrival_time := by
      by_contra hcon
      have := select_min_none key _ _ _ h j hj ⟨hfj, by omega⟩
      have := (hs j hj).2
      omega
    have h2 := f2 j hj hfj
    have hin : in_int (st.sim.current_time + 1) := by
      unfold in_int INT_MIN; unfold INT_MAX at h2 ⊢; omega
    constructor
    · simp only [Machine.batch_body, batch_body, h]
      rw [int_add_eq _ _ hin]
    · rw [batch_body_none key st h]
      refine ⟨?_, f2, fun u hu => ?_⟩
      · show st.sim.current_time + 1 + sel_pending st < INT_MAX
        omega
      · have hu2 : u < st.sim.processes.length := hu
        show (proc st.sim.processes u).completion_time ≤ st.sim.current_time + 1
        have := f3 u hu2
        omega
  | some i =>
    obtain ⟨hi, he, _, _, _⟩ := select_min_some key _ _ _ i h
    have hbi := b5 i hi
    have hpend : sel_pending (batch_body key st) =
        sel_pending st - (proc st.sim.processes i).burst_time := by
      rw [batch_body_some key st i h]
      unfold sel_pending
      simp only [length_updateAt]
      rw [sum_range_point st.sim.processes.length
        (fun j => if flag st.is_completed j then 0 else (proc st.sim.processes j).burst_time)
        _ i hi]
      · simp only [he.1, Bool.false_eq_true, if_false, flag_updateAt, b1, hi, and_self, if_true]
        omega
      · intro j _ hji
        simp only [flag_updateAt, proc_updateAt, hji, false_and, if_false]
    have hge : (proc st.sim.processes i).burst_time ≤ sel_pending st := by
      have := sum_range_ge st.sim.processes.length
        (fun j => if flag st.is_completed j then 0 else (proc st.sim.processes j).burst_time)
        (by
          intro j hj
          show 0 ≤ (if flag st.is_completed j then 0 else (proc st.sim.processes j).burst_time)
          split
          · exact le_refl _
          · exact le_of_lt (b5 j hj)) i hi
      simp only [he.1, Bool.false_eq_true, if_false] at this
      exact this
    have hin : in_int (st.sim.current_time + (proc st.sim.processes i).burst_time) := by
      unfold in_int INT_MIN; unfold INT_MAX at f1 ⊢; omega
    constructor
    · simp only [Machine.batch_body, batch_body, h]
      rw [int_add_eq _ _ hin]
    · refine ⟨?_, ?_, ?_⟩
      · rw [hpend, batch_body_some key st i h]
        show st.sim.current_time + (proc st.sim.processes i).burst_time + _ < INT_MAX
        omega
      · intro j hj hfj
        rw [hpend]
        rw [batch_body_some key st i h] at hj hfj ⊢
        have hj2 : j < st.sim.processes.length := by
          simpa [length_updateAt] using hj
        have hfj2 : flag (updateAt st.is_completed i (fun _ => true)) j = false := hfj
        rw [flag_updateAt, b1] at hfj2
        have hji : j ≠ i := by
          intro e
          subst e
          simp [hi] at hfj2
        simp only [hji, false_and, if_false] at hfj2
        show (proc (updateAt st.sim.processes i _) j).arrival_time + _ < INT_MAX
        rw [proc_updateAt]
        simp only [hji, false_and, if_false]
        have := f2 j hj2 hfj2
        omega
      · intro j hj
        rw [batch_body_some key st i h] at hj ⊢
        have hj2 : j < st.sim.processes.length := by
          simpa [length_updateAt] using hj
        show (proc (updateAt st.sim.processes i _) j).completion_time ≤
          st.sim.current_time + (proc st.sim.processes i).burst_time
        rw [proc_updateAt]
        by_cases hji : j = i
        · subst hji
          simp only [hi, and_self, if_true]
          exact le_refl _
        · simp only [hji, false_and, if_false]
          have := f3 j hj2
          omega

/-! ### The tick-driven loops and round-robin within the `int` range -/

theorem machine_run_for_eq (e : Int) (x : Process) (h : in_int (x.remaining_time - e)) :
    Machine.run_for e x = run_for e x := by
  unfold Machine.run_for run_for
  rw [int_sub_eq _ _ h]

theorem machine_gantt_tick_eq (g : List GanttBlock) (p : Process) (ct : Int)
    (h : in_int (ct + 1)) : Machine.gantt_tick g p ct = gantt_tick g p ct := by
  unfold Machine.gantt_tick gantt_tick
  rw [int_add_eq _ _ h]

theorem work_left_nonneg (ps : List Process)
    (h : ∀ j, j < ps.length → 0 ≤ (proc ps j).remaining_time) : 0 ≤ work_left ps := by
  apply List.sum_nonneg
  intro x hx
  obtain ⟨p, hp, rfl⟩ := List.mem_map.mp hx
  obtain ⟨j, hj, rfl⟩ := (mem_iff_proc _ _).mp hp
  exact h j hj

theorem rem_le_work_left (ps : List Process)
    (h : ∀ j, j < ps.length → 0 ≤ (proc ps j).remaining_time) (i : Nat) (hi : i < ps.length) :
    (proc ps i).remaining_time ≤ work_left ps := by
  have h1 := work_left_updateAt ps i (fun q => { q with remaining_time := 0 }) hi
  have h2 := work_left_nonneg (updateAt ps i (fun q => { q with remaining_time := 0 })) (by
    intro j _
    rw [proc_updateAt]
    split
    · exact le_refl _
    · by_cases hj : j < ps.length
      · exact h j hj
      · rw [proc_default_of_le ps j (Nat.le_of_not_lt hj)]; decide)
  simp only at h1
  omega

theorem machine_tick_body_eq (key : Process → Int) (st : SelState)
    (h1 : in_int (st.sim.current_time + 1))
    (h2 : ∀ i, select_min key st.sim.processes st.is_completed st.sim.current_time = some i →
      in_int ((proc st.sim.processes i).remaining_time - 1)) :
    Machine.tick_body key st = tick_body key st := by
  cases h : select_min key st.sim.processes st.is_completed st.sim.current_time with
  | none =>
    simp only [Machine.tick_body, tick_body, h]
    rw [int_add_eq _ _ h1]
  | some i =>
    have hi := (select_min_some key _ _ _ i h).1
    have e1 : updateAt (updateAt st.sim.processes i (set_start st.sim.current_time)) i
        (Machine.run_for 1) =
        updateAt (updateAt st.sim.processes i (set_start st.sim.current_time)) i (run_for 1) := by
      apply updateAt_congr
      intro x hx
      apply machine_run_for_eq
      have hx2 := proc_eq_of_getElem? _ _ _ hx
      rw [proc_updateAt] at hx2
      simp only [hi, and_self, if_true] at hx2
      rw [← hx2, (set_start_fields _ _).1]
      exact h2 i h
    simp only [Machine.tick_body, tick_body, h, e1, int_add_eq _ _ h1,
      machine_gantt_tick_eq _ _ _ h1]

theorem tick_fit_step (key : Process → Int)
    (hkey : ∀ p : Process, p.remaining_time ≤ p.burst_time → p.burst_time < INT_MAX →
      p.priority < INT_MAX → key p < INT_MAX)
    (M : Int) (st : SelState) (hinv : tick_term_inv M st) (hc : sel_cond st = true)
    (hf : work_fit st.sim) :
    Machine.tick_body key st = tick_body key st ∧ work_fit (tick_body key st).sim := by
  obtain ⟨⟨⟨t1, t2⟩, b2, b3, b4, b5, b6, b7⟩, hs⟩ := hinv
  obtain ⟨f1, f2, f3⟩ := hf
  have hne : st.completed ≠ st.sim.processes.length := by
    simpa [sel_cond] using hc
  have hpos := work_left_nonneg st.sim.processes (fun j hj => (t2 j hj).1)
  cases h : select_min key st.sim.processes st.is_completed st.sim.current_time with
  | none =>
    have hcnt : st.is_completed.count true ≠ st.is_completed.length := by
      rw [← b2, t1]; exact hne
    obtain ⟨j, hj, hfj⟩ := exists_flag_false _ hcnt
    rw [t1] at hj
    have hrem : 0 < (proc st.sim.processes j).remaining_time := by
      have h0 := (t2 j hj).1
      have h1 : (proc st.sim.processes j).remaining_time ≠ 0 := by
        intro e
        have := (t2 j hj).2.mpr e
        rw [hfj] at this
        exact Bool.noConfusion this
      omega
    have harr : st.sim.current_time < (proc st.sim.processes j).arrival_time := by
      by_contra hcon
      have := select_min_none key _ _ _ h j hj ⟨hfj, by omega⟩
      have := hkey _ (b5 j hj).1 (hs j hj).2.1 (hs j hj).2.2
      omega
    have h2 := f2 j hj hrem
    have hin : in_int (st.sim.current_time + 1) := by
      unfold in_int INT_MIN; unfold INT_MAX at h2 ⊢; omega
    refine ⟨machine_tick_body_eq key st hin (fun i hi => by rw [h] at hi; cases hi), ?_⟩
    rw [tick_body_none key st h]
    refine ⟨?_, f2, fun u hu => ?_⟩
    · show st.sim.current_time + 1 + work_left st.sim.processes < INT_MAX
      omega
    · have hu2 : u < st.sim.processes.length := hu
      show (proc st.sim.processes u).completion_time ≤ st.sim.current_time + 1
      have := f3 u hu2
      omega
  | some i =>
    obtain ⟨hi, he, _, _, _⟩ := select_min_some key _ _ _ i h
    have hrem : 0 < (proc st.sim.processes i).remaining_time := by
      have h0 := (t2 i hi).1
      have h1 : (proc st.sim.processes i).remaining_time ≠ 0 := by
        intro e
        have := (t2 i hi).2.mpr e
        rw [he.1] at this
        exact Bool.noConfusion this
      omega
    have hle := rem_le_work_left st.sim.processes (fun j hj => (t2 j hj).1) i hi
    have hin : in_int (st.sim.current_time + 1) := by
      unfold in_int INT_MIN; unfold INT_MAX at f1 ⊢; omega
    have hin2 : in_int ((proc st.sim.processes i).remaining_time - 1) := by
      unfold in_int INT_MIN; unfold INT_MAX at f1 ⊢; omega
    refine ⟨machine_tick_body_eq key st hin (fun i2 hi2 => by
      rw [h] at hi2
      cases hi2
      exact hin2), ?_⟩
    obtain ⟨c1, c2, c3, c4⟩ := tick_cell_fields st.sim.current_time (proc st.sim.processes i)
    have hwl : work_left (updateAt st.sim.processes i (tick_cell st.sim.current_time)) =
        work_left st.sim.processes - 1 := by
      rw [work_left_updateAt _ _ _ hi, c2]
      omega
    rw [tick_body_some key st i h]
    refine ⟨?_, ?_, ?_⟩
    · show st.sim.current_time + 1 + work_left (updateAt st.sim.processes i _) < INT_MAX
      rw [hwl]; omega
    · intro j hj hrj
      have hj2 : j < st.sim.processes.length := by
        have : j < (updateAt st.sim.processes i (tick_cell st.sim.current_time)).length := hj
        rwa [length_updateAt] at this
      have hrj2 : 0 < (proc (updateAt st.sim.processes i (tick_cell st.sim.current_time))
        j).remaining_time := hrj
      show (proc (updateAt st.sim.processes i (tick_cell st.sim.current_time)) j).arrival_time +
        work_left (updateAt st.sim.processes i (tick_cell st.sim.current_time)) < INT_MAX
      rw [hwl]
      rw [proc_updateAt] at hrj2 ⊢
      by_cases hji : j = i
      · subst hji
        simp only [hj2, and_self, if_true] at hrj2 ⊢
        rw [c1.2.1]
        have := f2 j hj2 hrem
        omega
      · simp only [hji, false_and, if_false] at hrj2 ⊢
        have := f2 j hj2 hrj2
        omega
    · intro j hj
      have hj2 : j < st.sim.processes.length := by
        have : j < (updateAt st.sim.processes i (tick_cell st.sim.current_time)).length := hj
        rwa [length_updateAt] at this
      show (proc (updateAt st.sim.processes i (tick_cell st.sim.current_time))
        j).completion_time ≤ st.sim.current_time + 1
      rw [proc_updateAt]
      have := f3 j hj2
      by_cases hji : j = i
      · subst hji
        simp only [hj2, and_self, if_true]
        rw [c4]
        split <;> omega
      · simp only [hji, false_and, if_false]
        omega

theorem machine_rr_body_eq (st : RRState)
    (h : st.front ≠ st.rear →
      in_int (st.sim.current_time +
        rr_exec st.sim.time_quantum (proc st.sim.processes (st.queue.getD st.front 0))) ∧
      in_int ((proc st.sim.processes (st.queue.getD st.front 0)).remaining_time -
        rr_exec st.sim.time_quantum (proc st.sim.processes (st.queue.getD st.front 0))) ∧
      st.queue.getD st.front 0 < st.sim.processes.length) :
    Machine.rr_body st = rr_body st := by
  by_cases hfr : st.front = st.rear
  · simp only [Machine.rr_body, rr_body, hfr, if_true]
  · obtain ⟨h1, h2, h3⟩ := h hfr
    have hp : proc (updateAt st.sim.processes (st.queue.getD st.front 0)
        (set_start st.sim.current_time)) (st.queue.getD st.front 0) =
        set_start st.sim.current_time (proc st.sim.processes (st.queue.getD st.front 0)) := by
      rw [proc_updateAt]
      simp only [h3, and_self, if_true]
    have hE : (if (proc (updateAt st.sim.processes (st.queue.getD st.front 0)
          (set_start st.sim.current_time)) (st.queue.getD st.front 0)).remaining_time <
          st.sim.time_quantum then
        (proc (updateAt st.sim.processes (st.queue.getD st.front 0)
          (set_start st.sim.current_time)) (st.queue.getD st.front 0)).remaining_time
        else st.sim.time_quantum) =
        rr_exec st.sim.time_quantum (proc st.sim.processes (st.queue.getD st.front 0)) := by
      rw [hp, (set_start_fields _ _).1]
      rfl
    have e1 : updateAt (updateAt st.sim.processes (st.queue.getD st.front 0)
          (set_start st.sim.current_time)) (st.queue.getD st.front 0)
        (Machine.run_for (rr_exec st.sim.time_quantum
          (proc st.sim.processes (st.queue.getD st.front 0)))) =
        updateAt (updateAt st.sim.processes (st.queue.getD st.front 0)
          (set_start st.sim.current_time)) (st.queue.getD st.front 0)
        (run_for (rr_exec st.sim.time_quantum
          (proc st.sim.processes (st.queue.getD st.front 0)))) := by
      apply updateAt_congr
      intro x hx
      apply machine_run_for_eq
      have hx2 := proc_eq_of_getElem? _ _ _ hx
      rw [hp] at hx2
      rw [← hx2, (set_start_fields _ _).1]
      exact h2
    simp only [Machine.rr_body, rr_body, hfr, if_false, hE, e1, int_add_eq _ _ h1]

theorem rr_fit_step (st : RRState) (hb : rr_inv st) (hf : work_fit st.sim) :
    Machine.rr_body st = rr_body st ∧ work_fit (rr_body st).sim := by
  obtain ⟨f1, f2, f3⟩ := hf
  have hb2 := hb
  obtain ⟨⟨l1, l2, l3⟩, ⟨q1, q2, q3, q4⟩, r0, c0, ⟨t1, t2⟩, fin0, _⟩ := hb2
  have hpos := work_left_nonneg st.sim.processes (fun j hj => (r0 j hj).1)
  cases hL : st.live with
  | nil =>
    have hfr : st.front = st.rear := (live_eq_nil_iff st l2).mp hL
    refine ⟨machine_rr_body_eq st (fun hne => absurd hfr hne), ?_⟩
    rw [rr_body_jump st hfr]
    by_cases hn : rr_next_arrival st.sim.processes st.sim.current_time ≠ INT_MAX
    · rw [if_pos hn]
      obtain ⟨_, _, h3⟩ := rr_next_arrival_fold st.sim.processes st.sim.current_time
        st.sim.processes.length
      obtain ⟨j, hj, e, hgt, hrj⟩ := h3 hn
      have hna : rr_next_arrival st.sim.processes st.sim.current_time =
          (proc st.sim.processes j).arrival_time := e
      refine ⟨?_, f2, fun u hu => ?_⟩
      · show rr_next_arrival st.sim.processes st.sim.current_time +
          work_left st.sim.processes < INT_MAX
        rw [hna]
        exact f2 j hj hrj
      · have hu2 : u < st.sim.processes.length := hu
        show (proc st.sim.processes u).completion_time ≤
          rr_next_arrival st.sim.processes st.sim.current_time
        rw [hna]
        have := f3 u hu2
        omega
    · rw [if_neg hn]
      exact ⟨f1, f2, f3⟩
  | cons i rest =>
    obtain ⟨hfl, hget, _⟩ := drop_eq_cons st.queue st.front i rest 0 hL
    obtain ⟨hi, hri, hai⟩ := q2 i (by rw [hL]; simp)
    have hmin := rr_exec_eq_min st.sim.time_quantum (proc st.sim.processes i)
    have he1 : 1 ≤ rr_exec st.sim.time_quantum (proc st.sim.processes i) := by
      rw [hmin]; exact le_min (by omega) (by omega)
    have he2 : rr_exec st.sim.time_quantum (proc st.sim.processes i) ≤
        (proc st.sim.processes i).remaining_time := by
      rw [hmin]; exact min_le_left _ _
    have hle := rem_le_work_left st.sim.processes (fun j hj => (r0 j hj).1) i hi
    refine ⟨machine_rr_body_eq st (fun _ => ?_), ?_⟩
    · rw [hget]
      refine ⟨?_, ?_, hi⟩
      · unfold in_int INT_MIN; unfold INT_MAX at f1 ⊢; omega
      · unfold in_int INT_MIN; unfold INT_MAX at f1 ⊢; omega
    · obtain ⟨newly, g1, g2, g3, _⟩ := rr_dispatch_facts st hb i rest hL
      obtain ⟨c1, c2, c3, c4⟩ := rr_cell_fields st.sim.current_time st.sim.time_quantum
        (proc st.sim.processes i)
      have hwl : work_left (updateAt st.sim.processes i
          (rr_cell st.sim.current_time st.sim.time_quantum)) =
          work_left st.sim.processes -
            rr_exec st.sim.time_quantum (proc st.sim.processes i) := by
        rw [work_left_updateAt _ _ _ hi, c2]
        omega
      unfold work_fit
      rw [g1, g3, hwl, length_updateAt]
      refine ⟨by omega, ?_, ?_⟩
      · intro j hj hrj
        rw [proc_updateAt] at hrj ⊢
        by_cases hji : j = i
        · subst hji
          simp only [hj, and_self, if_true] at hrj ⊢
          rw [c1.2.1]
          have := f2 j hj hri
          omega
        · simp only [hji, false_and, if_false] at hrj ⊢
          have := f2 j hj hrj
          omega
      · intro j hj
        rw [proc_updateAt]
        have := f3 j hj
        by_cases hji : j = i
        · subst hji
          simp only [hj, and_self, if_true]
          rw [c4]
          split <;> omega
        · simp only [hji, false_and, if_false]
          omega

/-! ### Runs within the `int` range -/

theorem machine_calculate_process_eq (p : Process) (h : calc_safe p) :
    Machine.calculate_process p = calculate_process p := by
  obtain ⟨h1, h2, h3, h4, h5⟩ := h
  unfold INT_MAX at h5
  have e1 : int_sub p.completion_time p.arrival_time = p.completion_time - p.arrival_time :=
    int_sub_eq _ _ (by unfold in_int INT_MIN INT_MAX; omega)
  have e2 : int_sub (p.completion_time - p.arrival_time) p.burst_time =
      p.completion_time - p.arrival_time - p.burst_time :=
    int_sub_eq _ _ (by unfold in_int INT_MIN INT_MAX; omega)
  have e3 : int_sub p.start_time p.arrival_time = p.start_time - p.arrival_time :=
    int_sub_eq _ _ (by unfold in_int INT_MIN INT_MAX; omega)
  simp only [Machine.calculate_process, calculate_process, e1, e2, e3]

theorem machine_calculate_times_eq (s : Sim) (h : ∀ p ∈ s.processes, calc_safe p) :
    Machine.calculate_times s = calculate_times s := by
  unfold Machine.calculate_times calculate_times
  congr 1
  exact List.map_congr_left (fun p hp => machine_calculate_process_eq p (h p hp))

theorem burst_le_total (ps : List Process) (hv : ∀ p ∈ ps, 0 < p.burst_time) (p : Process)
    (hp : p ∈ ps) : p.burst_time ≤ total_burst ps := by
  unfold total_burst
  apply List.single_le_sum
  · intro x hx
    obtain ⟨y, hy, rfl⟩ := List.mem_map.mp hx
    exact le_of_lt (hv y hy)
  · exact List.mem_map.mpr ⟨p, hp, rfl⟩

theorem total_burst_nonneg (ps : List Process) (hv : ∀ p ∈ ps, 0 < p.burst_time) :
    0 ≤ total_burst ps := by
  unfold total_burst
  apply List.sum_nonneg
  intro x hx
  obtain ⟨y, hy, rfl⟩ := List.mem_map.mp hx
  exact le_of_lt (hv y hy)

theorem int_safe_valid (s : Sim) (hs : int_safe s) :
    ∀ p ∈ s.processes, 0 ≤ p.arrival_time ∧ 0 < p.burst_time :=
  fun p hp => ⟨(hs p hp).1, (hs p hp).2.1⟩

theorem int_safe_below (s : Sim) (hs : int_safe s) : below_sentinel s := by
  intro p hp
  obtain ⟨h1, h2, h3, h4⟩ := hs p hp
  have := burst_le_total s.processes (fun q hq => (hs q hq).2.1) p hp
  exact ⟨by omega, by omega, h3⟩

theorem strategy_input_safe (s : Sim) (hs : int_safe s) : run_safe (strategy_input s) := by
  obtain ⟨hr, _, _, _⟩ := strategy_input_ready s (int_safe_valid s hs)
  refine ⟨hr, ?_⟩
  intro p hp
  rw [total_burst_strategy_input]
  simp only [strategy_input, reset_simulation, List.mem_map] at hp
  obtain ⟨p0, hp0, rfl⟩ := hp
  obtain ⟨h1, h2, h3, h4⟩ := hs p0 hp0
  exact ⟨h3, h4, le_refl _⟩

theorem sel_pending_init (s : Sim) : sel_pending (sel_init s) = total_burst s.processes := by
  unfold sel_pending total_burst
  simp only [sel_init, flag_replicate_false, Bool.false_eq_true, if_false]
  conv_rhs => rw [list_eq_map_proc s.processes, List.map_map]
  rfl

theorem batch_fit_init (s : Sim) (hr : run_safe s) : batch_fit (sel_init s) := by
  obtain ⟨_, hb⟩ := hr
  refine ⟨?_, ?_, ?_⟩
  · rw [sel_pending_init]
    show (0 : Int) + total_burst s.processes < INT_MAX
    cases hps : s.processes with
    | nil => simp [total_burst, INT_MAX]
    | cons x t =>
      have hx : x ∈ s.processes := by rw [hps]; exact List.mem_cons_self _ _
      have h1 := (hb x hx).2.1
      have h0 := (‹run_ready s›).2 x hx
      rw [hps] at h1
      omega
  · intro j hj _
    rw [sel_pending_init]
    exact (hb _ (proc_mem _ _ hj)).2.1
  · intro j hj
    exact (hb _ (proc_mem _ _ hj)).2.2

theorem machine_batch_loop (key : Process → Int)
    (hkey : ∀ (p : Process) (a b : Int),
      key { p with start_time := a, completion_time := b } = key p)
    (s : Sim) (hr : run_safe s) (hk : ∀ p ∈ s.processes, key p < INT_MAX) (fuel : Nat) :
    while_loop sel_cond (Machine.batch_body key) fuel (sel_init s) =
      while_loop sel_cond (batch_body key) fuel (sel_init s) := by
  obtain ⟨M, hM⟩ := exists_arrival_bound s.processes
  have hinv : batch_term_inv key M (sel_init s) :=
    ⟨batch_inv_init s hr.1.1 (fun p hp => (hr.1.2 p hp).2.1),
      fun j hj => ⟨hM _ (proc_mem _ _ hj), hk _ (proc_mem _ _ hj)⟩⟩
  exact while_loop_congr sel_cond (Machine.batch_body key) (batch_body key)
    (fun st => batch_term_inv key M st ∧ batch_fit st)
    (fun st ⟨a, b⟩ hc =>
      ⟨(batch_fit_step key M st a hc b).1, (batch_term_step key M hkey st a hc).1,
        (batch_fit_step key M st a hc b).2⟩)
    fuel (sel_init s) ⟨hinv, batch_fit_init s hr⟩

theorem batch_run_fit (key : Process → Int)
    (hkey : ∀ (p : Process) (a b : Int),
      key { p with start_time := a, completion_time := b } = key p)
    (s : Sim) (hr : run_safe s) (hk : ∀ p ∈ s.processes, key p < INT_MAX) (fuel : Nat)
    (r : SelState) (h : while_loop sel_cond (batch_body key) fuel (sel_init s) = some r) :
    ∀ p ∈ r.sim.processes, p.completion_time < INT_MAX := by
  obtain ⟨M, hM⟩ := exists_arrival_bound s.processes
  have hinv : batch_term_inv key M (sel_init s) :=
    ⟨batch_inv_init s hr.1.1 (fun p hp => (hr.1.2 p hp).2.1),
      fun j hj => ⟨hM _ (proc_mem _ _ hj), hk _ (proc_mem _ _ hj)⟩⟩
  obtain ⟨⟨i1, i2⟩, _⟩ := while_loop_inv sel_cond (batch_body key)
    (fun st => batch_term_inv key M st ∧ batch_fit st)
    (fun st ⟨a, b⟩ hc =>
      ⟨(batch_term_step key M hkey st a hc).1, (batch_fit_step key M st a hc b).2⟩)
    fuel (sel_init s) r ⟨hinv, batch_fit_init s hr⟩ h
  intro p hp
  obtain ⟨j, hj, rfl⟩ := (mem_iff_proc _ _).mp hp
  have h1 := i2.2.2 j hj
  have h2 := i2.1
  have h3 := sel_pending_nonneg r i1.1.2.2.2.2.1
  omega

theorem work_fit_init (s : Sim) (hr : run_safe s) :
    work_fit { s with processes := s.processes.map reset_remaining, current_time := 0 } := by
  obtain ⟨hrr, hb⟩ := hr
  have hcell : ∀ j, j < s.processes.length →
      proc (s.processes.map reset_remaining) j = reset_remaining (proc s.processes j) :=
    fun j hj => proc_map_reset_remaining _ _ hj
  refine ⟨?_, ?_, ?_⟩
  · show (0 : Int) + work_left (s.processes.map reset_remaining) < INT_MAX
    rw [work_left_reset]
    cases hps : s.processes with
    | nil => simp [total_burst, INT_MAX]
    | cons x t =>
      have hx : x ∈ s.processes := by rw [hps]; exact List.mem_cons_self _ _
      have h1 := (hb x hx).2.1
      have h0 := hrr.2 x hx
      rw [hps] at h1
      omega
  · intro j hj _
    have hj2 : j < s.processes.length := by simpa using hj
    show (proc (s.processes.map reset_remaining) j).arrival_time +
      work_left (s.processes.map reset_remaining) < INT_MAX
    rw [work_left_reset, hcell j hj2]
    exact (hb _ (proc_mem _ _ hj2)).2.1
  · intro j hj
    have hj2 : j < s.processes.length := by simpa using hj
    show (proc (s.processes.map reset_remaining) j).completion_time ≤ 0
    rw [hcell j hj2]
    exact (hb _ (proc_mem _ _ hj2)).2.2

theorem run_safe_below (s : Sim) (hr : run_safe s) : below_sentinel s := by
  intro p hp
  obtain ⟨h1, h2, h3⟩ := hr.1.2 p hp
  obtain ⟨h4, h5, _⟩ := hr.2 p hp
  have := burst_le_total s.processes (fun q hq => (hr.1.2 q hq).2.1) p hp
  exact ⟨by omega, by omega, h4⟩

theorem tick_term_init (s : Sim) (hr : run_ready s) (hk : below_sentinel s) (M : Int)
    (hM : ∀ p ∈ s.processes, p.arrival_time ≤ M) : tick_term_inv M (tick_init s) := by
  have hlen0 : (tick_init s).sim.processes.length = s.processes.length := by
    simp [tick_init, sel_init]
  refine ⟨tick_run_inv_init s hr.1 (fun p hp => (hr.2 p hp).2.1), ?_⟩
  intro j hj
  rw [hlen0] at hj
  rw [tick_init_cell s j hj]
  have h1 := hM _ (proc_mem _ _ hj)
  have h2 := hk _ (proc_mem _ _ hj)
  exact ⟨h1, h2.2.1, h2.2.2⟩

theorem machine_tick_loop (key : Process → Int)
    (hkey : ∀ p : Process, p.remaining_time ≤ p.burst_time → p.burst_time < INT_MAX →
      p.priority < INT_MAX → key p < INT_MAX)
    (s : Sim) (hr : run_safe s) (fuel : Nat) :
    while_loop sel_cond (Machine.tick_body key) fuel (tick_init s) =
      while_loop sel_cond (tick_body key) fuel (tick_init s) := by
  obtain ⟨M, hM⟩ := exists_arrival_bound s.processes
  exact while_loop_congr sel_cond (Machine.tick_body key) (tick_body key)
    (fun st => tick_term_inv M st ∧ work_fit st.sim)
    (fun st ⟨a, b⟩ hc =>
      ⟨(tick_fit_step key hkey M st a hc b).1, (tick_term_step key M hkey st a hc).1,
        (tick_fit_step key hkey M st a hc b).2⟩)
    fuel (tick_init s) ⟨tick_term_init s hr.1 (run_safe_below s hr) M hM, work_fit_init s hr⟩

theorem tick_run_fit (key : Process → Int)
    (hkey : ∀ p : Process, p.remaining_time ≤ p.burst_time → p.burst_time < INT_MAX →
      p.priority < INT_MAX → key p < INT_MAX)
    (s : Sim) (hr : run_safe s) (fuel : Nat) (r : SelState)
    (h : while_loop sel_cond (tick_body key) fuel (tick_init s) = some r) :
    ∀ p ∈ r.sim.processes, p.completion_time < INT_MAX := by
  obtain ⟨M, hM⟩ := exists_arrival_bound s.processes
  obtain ⟨⟨i1, i2⟩, _⟩ := while_loop_inv sel_cond (tick_body key)
    (fun st => tick_term_inv M st ∧ work_fit st.sim)
    (fun st ⟨a, b⟩ hc =>
      ⟨(tick_term_step key M hkey st a hc).1, (tick_fit_step key hkey M st a hc b).2⟩)
    fuel (tick_init s) r
    ⟨tick_term_init s hr.1 (run_safe_below s hr) M hM, work_fit_init s hr⟩ h
  intro p hp
  obtain ⟨j, hj, rfl⟩ := (mem_iff_proc _ _).mp hp
  have h1 := i2.2.2 j hj
  have h2 := i2.1
  have h3 := work_left_nonneg r.sim.processes (fun j hj => (i1.1.1.2 j hj).1)
  omega

theorem rr_init_fit (s : Sim) (hr : run_safe s) (hq : 0 < s.time_quantum) :
    rr_inv (rr_init s) ∧ work_fit (rr_init s).sim :=
  ⟨rr_inv_init s hr.1.1 hq (fun p hp => ⟨(hr.1.2 p hp).1, (hr.1.2 p hp).2.1⟩),
    work_fit_init s hr⟩

theorem machine_rr_loop (s : Sim) (hr : run_safe s) (hq : 0 < s.time_quantum) (fuel : Nat) :
    while_loop rr_cond Machine.rr_body fuel (rr_init s) =
      while_loop rr_cond rr_body fuel (rr_init s) :=
  while_loop_congr rr_cond Machine.rr_body rr_body
    (fun st => rr_inv st ∧ work_fit st.sim)
    (fun st ⟨a, b⟩ hc =>
      ⟨(rr_fit_step st a b).1, rr_inv_step st a hc, (rr_fit_step st a b).2⟩)
    fuel (rr_init s) (rr_init_fit s hr hq)

theorem rr_run_fit (s : Sim) (hr : run_safe s) (hq : 0 < s.time_quantum) (fuel : Nat)
    (r : RRState) (h : while_loop rr_cond rr_body fuel (rr_init s) = some r) :
    ∀ p ∈ r.sim.processes, p.completion_time < INT_MAX := by
  obtain ⟨⟨i1, i2⟩, _⟩ := while_loop_inv rr_cond rr_body
    (fun st => rr_inv st ∧ work_fit st.sim)
    (fun st ⟨a, b⟩ hc => ⟨rr_inv_step st a hc, (rr_fit_step st a b).2⟩)
    fuel (rr_init s) r (rr_init_fit s hr hq) h
  intro p hp
  obtain ⟨j, hj, rfl⟩ := (mem_iff_proc _ _).mp hp
  have h1 := i2.2.2 j hj
  have h2 := i2.1
  have h3 := work_left_nonneg r.sim.processes (fun j hj => (i1.2.2.1 j hj).1)
  omega

theorem machine_fcfs_step_eq (s : Sim) (i : Nat)
    (h : in_int ((if s.current_time < (proc s.processes i).arrival_time
      then (proc s.processes i).arrival_time else s.current_time) +
        (proc s.processes i).burst_time)) :
    Machine.fcfs_step s i = fcfs_step s i := by
  unfold Machine.fcfs_step fcfs_step
  simp only [int_add_eq _ _ h]

theorem total_burst_cons (p : Process) (t : List Process) :
    total_burst (p :: t) = p.burst_time + total_burst t := by
  simp [total_burst]

theorem machine_foldl_fcfs (rest : List Process) :
    ∀ (done : List Process) (g : List GanttBlock) (q ct : Int), 0 ≤ ct →
      (∀ p ∈ rest, 0 ≤ p.arrival_time ∧ 0 < p.burst_time) →
      ct + total_burst rest < INT_MAX →
      (∀ p ∈ rest, p.arrival_time + total_burst rest < INT_MAX) →
      (List.range' done.length rest.length).foldl Machine.fcfs_step
          (Sim.mk (done ++ rest) g q ct) =
        (List.range' done.length rest.length).foldl fcfs_step (Sim.mk (done ++ rest) g q ct) ∧
      fcfs_end ct rest < INT_MAX := by
  induction rest with
  | nil =>
    intro done g q ct _ _ h _
    refine ⟨rfl, ?_⟩
    simpa [fcfs_end, total_burst] using h
  | cons p t ih =>
    intro done g q ct h0 hv h1 h2
    have hp := hv p (List.mem_cons_self _ _)
    have hpa := h2 p (List.mem_cons_self _ _)
    have ht := total_burst_nonneg t (fun x hx => (hv x (List.mem_cons_of_mem _ hx)).2)
    rw [total_burst_cons] at h1 hpa
    have hstart : (if ct < p.arrival_time then p.arrival_time else ct) + p.burst_time +
        total_burst t < INT_MAX := by
      split <;> omega
    have hstart0 : 0 ≤ (if ct < p.arrival_time then p.arrival_time else ct) := by
      split <;> omega
    have e : Machine.fcfs_step (Sim.mk (done ++ p :: t) g q ct) done.length =
        fcfs_step (Sim.mk (done ++ p :: t) g q ct) done.length := by
      apply machine_fcfs_step_eq
      simp only [proc_append_length]
      unfold in_int INT_MIN
      unfold INT_MAX at hstart ⊢
      omega
    have := ih (done ++ [fcfs_cell ct p]) (g ++ [blockOf (fcfs_cell ct p)]) q
      ((if ct < p.arrival_time then p.arrival_time else ct) + p.burst_time)
      (by omega) (fun x hx => hv x (List.mem_cons_of_mem _ hx)) hstart
      (fun x hx => by
        have := h2 x (List.mem_cons_of_mem _ hx)
        rw [total_burst_cons] at this
        omega)
    simp only [List.length_append, List.length_singleton] at this
    rw [List.length_cons, List.range'_succ, List.foldl_cons, List.foldl_cons, e,
      fcfs_step_append]
    exact ⟨this.1, this.2⟩

theorem run_safe_clock (s : Sim) (hr : run_safe s) (l : List Process)
    (hl : l.Perm s.processes) :
    (∀ p ∈ l, 0 ≤ p.arrival_time ∧ 0 < p.burst_time) ∧ 0 + total_burst l < INT_MAX ∧
    ∀ p ∈ l, p.arrival_time + total_burst l < INT_MAX := by
  have ht : total_burst l = total_burst s.processes := total_burst_perm _ _ hl
  have hv : ∀ p ∈ l, 0 ≤ p.arrival_time ∧ 0 < p.burst_time := fun p hp =>
    ⟨(hr.1.2 p (hl.mem_iff.mp hp)).1, (hr.1.2 p (hl.mem_iff.mp hp)).2.1⟩
  refine ⟨hv, ?_, fun p hp => by rw [ht]; exact (hr.2 p (hl.mem_iff.mp hp)).2.1⟩
  cases hps : l with
  | nil => simp [total_burst, INT_MAX]
  | cons x t =>
    have hx : x ∈ l := by rw [hps]; exact List.mem_cons_self _ _
    have h1 := (hr.2 x (hl.mem_iff.mp hx)).2.1
    have h0 := hv x hx
    rw [← ht, hps] at h1
    omega

theorem machine_fcfs_scheduling_eq (s : Sim) (hr : run_safe s) :
    Machine.fcfs_scheduling s = fcfs_scheduling s := by
  obtain ⟨hv, h1, h2⟩ := run_safe_clock s hr (fcfs_sort s.processes) (fcfs_sort_perm _)
  unfold Machine.fcfs_scheduling fcfs_scheduling
  simp only [List.range_eq_range']
  have := (machine_foldl_fcfs (fcfs_sort s.processes) [] s.gantt_chart s.time_quantum 0
    (le_refl _) hv h1 h2).1
  simp only [List.length_nil, List.nil_append] at this
  exact this

theorem fcfs_calc_safe (s : Sim) (hr : run_safe s) :
    ∀ p ∈ (fcfs_scheduling s).processes, calc_safe p := by
  obtain ⟨hv, h1, h2⟩ := run_safe_clock s hr (fcfs_sort s.processes) (fcfs_sort_perm _)
  have hend := (machine_foldl_fcfs (fcfs_sort s.processes) [] s.gantt_chart s.time_quantum 0
    (le_refl _) hv h1 h2).2
  have hvs : ∀ p ∈ fcfs_sort s.processes,
      0 ≤ p.arrival_time ∧ 0 < p.burst_time ∧ p.remaining_time = p.burst_time :=
    fun p hp => hr.1.2 p ((fcfs_sort_perm s.processes).mem_iff.mp hp)
  obtain ⟨_, _, i3, _⟩ := fcfs_run_facts (fcfs_sort s.processes) 0 s.gantt_chart (le_refl _)
    (by rw [hr.1.1]; simp [timeline_ok]) hvs
  rw [fcfs_scheduling_eq]
  intro p hp
  obtain ⟨⟨a, b, _, _⟩, c⟩ := i3 p hp
  obtain ⟨d, e⟩ := fcfs_run_start (fcfs_sort s.processes) 0 p hp
  exact ⟨a, d, b, by omega, by omega⟩

theorem batch_calc_safe (key : Process → Int)
    (hkey : ∀ (p : Process) (a b : Int),
      key { p with start_time := a, completion_time := b } = key p)
    (s : Sim) (hr : run_safe s) (hk : ∀ p ∈ s.processes, key p < INT_MAX) (fuel : Nat)
    (r : SelState) (h : while_loop sel_cond (batch_body key) fuel (sel_init s) = some r) :
    ∀ p ∈ r.sim.processes, calc_safe p := by
  intro p hp
  obtain ⟨a, b⟩ := batch_start_facts key s hr.1 fuel r h p hp
  obtain ⟨c, d, _, _⟩ := (batch_run_facts key s hr.1 fuel r h).1.1 p hp
  have e := batch_run_fit key hkey s hr hk fuel r h p hp
  exact ⟨c, a, d, by omega, e⟩

theorem tick_calc_safe (key : Process → Int)
    (hkey : ∀ p : Process, p.remaining_time ≤ p.burst_time → p.burst_time < INT_MAX →
      p.priority < INT_MAX → key p < INT_MAX)
    (s : Sim) (hr : run_safe s) (fuel : Nat) (r : SelState)
    (h : while_loop sel_cond (tick_body key) fuel (tick_init s) = some r) :
    ∀ p ∈ r.sim.processes, calc_safe p := by
  intro p hp
  obtain ⟨a, b⟩ := tick_start_facts key s hr.1 fuel r h p hp
  obtain ⟨c, d, _, _⟩ := (tick_run_facts key s hr.1 fuel r h).1.1 p hp
  have e := tick_run_fit key hkey s hr fuel r h p hp
  exact ⟨c, a, d, b, e⟩

theorem rr_calc_safe (s : Sim) (hr : run_safe s) (hq : 0 < s.time_quantum) (fuel : Nat)
    (r : RRState) (h : while_loop rr_cond rr_body fuel (rr_init s) = some r) :
    ∀ p ∈ r.sim.processes, calc_safe p := by
  intro p hp
  obtain ⟨a, b⟩ := rr_start_facts s hr.1 hq fuel r h p hp
  obtain ⟨c, d, _, _⟩ := (rr_run_facts s hr.1 hq fuel r h).1.1 p hp
  have e := rr_run_fit s hr hq fuel r h p hp
  exact ⟨c, a, d, b, e⟩

theorem machine_simulate_scheduling_eq (fuel : Nat) (algo : SchedulingAlgorithm) (s : Sim) :
    Machine.simulate_scheduling fuel algo s =
      (match algo with
        | .FCFS => some (Machine.fcfs_scheduling (strategy_input s))
        | .SJF => Machine.sjf_scheduling fuel (strategy_input s)
        | .SRTF => Machine.srtf_scheduling fuel (strategy_input s)
        | .PRIORITY => Machine.priority_scheduling fuel (strategy_input s)
        | .ROUND_ROBIN => Machine.round_robin_scheduling fuel (strategy_input s)
        | .PREEMPTIVE_PRIORITY =>
          Machine.preemptive_priority_scheduling fuel (strategy_input s)).map
        Machine.calculate_times := rfl

theorem map_sim_calc {σ : Type} (o : Option σ) (f : σ → Sim)
    (h : ∀ r, o = some r → ∀ p ∈ (f r).processes, calc_safe p) :
    (o.map f).map Machine.calculate_times = (o.map f).map calculate_times := by
  cases o with
  | none => rfl
  | some r =>
    simp only [Option.map_some']
    rw [machine_calculate_times_eq _ (h r rfl)]

theorem tick_key_remaining (p : Process) (h1 : p.remaining_time ≤ p.burst_time)
    (h2 : p.burst_time < INT_MAX) (_h3 : p.priority < INT_MAX) :
    (fun q : Process => q.remaining_time) p < INT_MAX := lt_of_le_of_lt h1 h2

theorem tick_key_priority (p : Process) (_h1 : p.remaining_time ≤ p.burst_time)
    (_h2 : p.burst_time < INT_MAX) (h3 : p.priority < INT_MAX) :
    (fun q : Process => q.priority) p < INT_MAX := h3

theorem machine_simulate_eq (algo : SchedulingAlgorithm) (s : Sim) (hs : int_safe s)
    (hne : algo ≠ .ROUND_ROBIN) (fuel : Nat) :
    Machine.simulate_scheduling fuel algo s = simulate_scheduling fuel algo s := by
  have hr := strategy_input_safe s hs
  have hb := run_safe_below _ hr
  rw [machine_simulate_scheduling_eq, simulate_scheduling_eq]
  cases algo with
  | FCFS =>
    simp only [Option.map_some']
    rw [machine_fcfs_scheduling_eq _ hr, machine_calculate_times_eq _ (fcfs_calc_safe _ hr)]
  | SJF =>
    simp only [Machine.sjf_scheduling, sjf_scheduling]
    rw [machine_batch_loop (fun p => p.burst_time) (fun _ _ _ => rfl) _ hr
      (fun p hp => (hb p hp).2.1)]
    exact map_sim_calc _ _ (fun r h =>
      batch_calc_safe (fun p => p.burst_time) (fun _ _ _ => rfl) _ hr
        (fun p hp => (hb p hp).2.1) fuel r h)
  | SRTF =>
    simp only [Machine.srtf_scheduling, srtf_scheduling]
    rw [machine_tick_loop _ tick_key_remaining _ hr]
    exact map_sim_calc _ _ (fun r h => tick_calc_safe _ tick_key_remaining _ hr fuel r h)
  | PRIORITY =>
    simp only [Machine.priority_scheduling, priority_scheduling]
    rw [machine_batch_loop (fun p => p.priority) (fun _ _ _ => rfl) _ hr
      (fun p hp => (hb p hp).2.2)]
    exact map_sim_calc _ _ (fun r h =>
      batch_calc_safe (fun p => p.priority) (fun _ _ _ => rfl) _ hr
        (fun p hp => (hb p hp).2.2) fuel r h)
  | ROUND_ROBIN => exact absurd rfl hne
  | PREEMPTIVE_PRIORITY =>
    simp only [Machine.preemptive_priority_scheduling, preemptive_priority_scheduling]
    rw [machine_tick_loop _ tick_key_priority _ hr]
    exact map_sim_calc _ _ (fun r h => tick_calc_safe _ tick_key_priority _ hr fuel r h)

theorem machine_rr_simulate (s : Sim) (hs : int_safe s) (hq : 0 < s.time_quantum)
    (fuel : Nat) :
    Machine.simulate_scheduling fuel .ROUND_ROBIN s =
      (while_loop rr_cond rr_body fuel (rr_init (strategy_input s))).bind
        (fun st => if rr_in_bounds st = true then some (calculate_times st.sim) else none) := by
  have hr := strategy_input_safe s hs
  rw [machine_simulate_scheduling_eq]
  simp only [Machine.round_robin_scheduling]
  rw [machine_rr_loop _ hr hq]
  cases h : while_loop rr_cond rr_body fuel (rr_init (strategy_input s)) with
  | none => rfl
  | some r =>
    simp only [Option.some_bind]
    split
    · simp only [Option.map_some']
      rw [machine_calculate_times_eq _ (rr_calc_safe _ hr hq fuel r h)]
    · rfl

theorem machine_simulate_sound (algo : SchedulingAlgorithm) (s : Sim) (hs : int_safe s)
    (hq : algo = .ROUND_ROBIN → 0 < s.time_quantum) (fuel : Nat) (r : Sim)
    (h : Machine.simulate_scheduling fuel algo s = some r) :
    simulate_scheduling fuel algo s = some r := by
  by_cases hne : algo = .ROUND_ROBIN
  · subst hne
    rw [machine_rr_simulate s hs (hq rfl)] at h
    rw [simulate_scheduling_eq]
    simp only [round_robin_scheduling]
    cases hw : while_loop rr_cond rr_body fuel (rr_init (strategy_input s)) with
    | none => rw [hw] at h; exact Option.noConfusion h
    | some st =>
      rw [hw] at h
      simp only [Option.some_bind] at h
      split at h
      · simpa using h
      · exact Option.noConfusion h
  · rw [← machine_simulate_eq algo s hs hne]; exact h

/-! ### Array cells used by round-robin -/

theorem slices_zero (q : Int) (hq : 0 < q) : slices q 0 = 0 := by
  unfold slices
  have : (0 + q - 1) / q = 0 := Int.ediv_eq_zero_of_lt (by omega) (by omega)
  rw [this]; rfl

theorem slices_step (q r : Int) (hq : 0 < q) (hr : 0 < r) :
    slices q (r - (if r < q then r else q)) + 1 = slices q r := by
  unfold slices
  split
  · rename_i h
    have e1 : (r - r + q - 1) / q = 0 := Int.ediv_eq_zero_of_lt (by omega) (by omega)
    have e2 : (r + q - 1) / q = 1 := by
      have : r + q - 1 = (r - 1) + q * 1 := by ring
      rw [this, Int.add_mul_ediv_left _ _ (by omega : q ≠ 0),
        Int.ediv_eq_zero_of_lt (by omega) (by omega)]
      rfl
    rw [e1, e2]; rfl
  · rename_i h
    have e1 : r - q + q - 1 = r - 1 := by ring
    have e2 : (r + q - 1) / q = (r - 1) / q + 1 := by
      have : r + q - 1 = (r - 1) + q * 1 := by ring
      rw [this, Int.add_mul_ediv_left _ _ (by omega : q ≠ 0)]
    have e3 : 0 ≤ (r - 1) / q := Int.ediv_nonneg (by omega) (by omega)
    rw [e1, e2]
    omega

theorem slices_left_updateAt (q : Int) (ps : List Process) (i : Nat) (f : Process → Process)
    (hi : i < ps.length) :
    slices_left q (updateAt ps i f) + slices q (proc ps i).remaining_time =
      slices_left q ps + slices q (f (proc ps i)).remaining_time := by
  induction ps generalizing i with
  | nil => simp at hi
  | cons x xs ih =>
    cases i with
    | zero =>
      simp only [updateAt, slices_left, List.map_cons, List.sum_cons, proc_cons_zero]
      omega
    | succ i =>
      have := ih i (by simpa using hi)
      simp only [slices_left] at this
      simp only [updateAt, slices_left, List.map_cons, List.sum_cons, proc_cons_succ]
      omega

theorem slices_left_zero (q : Int) (hq : 0 < q) (ps : List Process)
    (h : ∀ p ∈ ps, p.remaining_time = 0) : slices_left q ps = 0 := by
  induction ps with
  | nil => rfl
  | cons x xs ih =>
    simp only [slices_left, List.map_cons, List.sum_cons]
    rw [h x (List.mem_cons_self _ _), slices_zero q hq]
    have := ih (fun p hp => h p (List.mem_cons_of_mem _ hp))
    simp only [slices_left] at this
    omega

theorem rr_count_step (N : Nat) (st : RRState) (hinv : rr_inv st) (hc : rr_count_inv N st) :
    rr_count_inv N (rr_body st) := by
  obtain ⟨c1, c2⟩ := hc
  cases hL : st.live with
  | nil =>
    have hfr : st.front = st.rear := (live_eq_nil_iff st hinv.1.2.1).mp hL
    rw [rr_body_jump st hfr]
    split
    · exact ⟨c1, c2⟩
    · exact ⟨c1, c2⟩
  | cons i rest =>
    have hi : i < st.sim.processes.length :=
      (hinv.2.1.2.1 i (by rw [hL]; exact List.mem_cons_self _ _)).1
    have hrem : 0 < (proc st.sim.processes i).remaining_time :=
      (hinv.2.1.2.1 i (by rw [hL]; exact List.mem_cons_self _ _)).2.1
    have hb := rr_body_dispatch st i rest hL hi
    have e1 : (rr_body st).sim.gantt_chart.length = st.sim.gantt_chart.length + 1 := by
      rw [hb]; simp
    have e2 : (rr_body st).front = st.front + 1 := by rw [hb]
    have e3 : (rr_body st).sim.time_quantum = st.sim.time_quantum := by rw [hb]
    have e4 : (rr_body st).sim.processes =
        updateAt st.sim.processes i (rr_cell st.sim.current_time st.sim.time_quantum) := by
      rw [hb]
    have h1 := slices_left_updateAt st.sim.time_quantum st.sim.processes i
      (rr_cell st.sim.current_time st.sim.time_quantum) hi
    rw [(rr_cell_fields _ _ _).2.1] at h1
    have h2 := slices_step st.sim.time_quantum (proc st.sim.processes i).remaining_time
      hinv.1.2.2 hrem
    unfold rr_exec at h1
    refine ⟨by rw [e1, e2, c1], ?_⟩
    rw [e2, e3, e4]
    omega

theorem rr_count_init (s : Sim) (hg : s.gantt_chart = []) :
    rr_count_inv (rr_slices s) (rr_init s) := by
  refine ⟨by simp [rr_init, hg], ?_⟩
  show 0 + slices_left s.time_quantum (s.processes.map reset_remaining) = rr_slices s
  simp only [slices_left, rr_slices, List.map_map, Nat.zero_add]
  rfl

/-- A finished round-robin run has used exactly `rr_slices` queue cells and
`rr_slices` timeline blocks. -/
theorem rr_run_cells (s : Sim) (hr : run_ready s) (hq : 0 < s.time_quantum) (fuel : Nat)
    (r : RRState) (h : while_loop rr_cond rr_body fuel (rr_init s) = some r) :
    r.rear = rr_slices s ∧ r.sim.gantt_chart.length = rr_slices s := by
  obtain ⟨⟨i1, i2⟩, hc⟩ := while_loop_inv rr_cond rr_body
    (fun st => rr_inv st ∧ rr_count_inv (rr_slices s) st)
    (fun st ⟨a, b⟩ hcond => ⟨rr_inv_step st a hcond, rr_count_step _ st a b⟩)
    fuel (rr_init s) r
    ⟨rr_inv_init s hr.1 hq (fun p hp => ⟨(hr.2 p hp).1, (hr.2 p hp).2.1⟩),
      rr_count_init s hr.1⟩ h
  obtain ⟨e1, _, _⟩ := rr_inv_exit r i1 hc
  have hz := slices_left_zero r.sim.time_quantum i1.1.2.2 r.sim.processes
    (fun p hp => (e1 p hp).2)
  have hfront : r.front = rr_slices s := by
    have := i2.2
    omega
  have hlive : r.live = [] := by
    cases hL : r.live with
    | nil => rfl
    | cons i rest =>
      have hm : i ∈ r.live := by rw [hL]; exact List.mem_cons_self _ _
      obtain ⟨hi, hpos, _⟩ := i1.2.1.2.1 i hm
      have := (e1 _ (proc_mem _ _ hi)).2
      omega
  have hfr := (live_eq_nil_iff r i1.1.2.1).mp hlive
  exact ⟨by rw [← hfr, hfront], by rw [i2.1, hfront]⟩

theorem rr_slices_strategy_input (s : Sim) : rr_slices (strategy_input s) = rr_slices s := by
  simp only [rr_slices, strategy_input_processes, List.map_map]
  rfl

theorem rr_run_in_bounds (s : Sim) (hr : run_ready s) (hq : 0 < s.time_quantum)
    (hcap : rr_slices s ≤ MAX_PROCESSES) (fuel : Nat)
    (r : RRState) (h : while_loop rr_cond rr_body fuel (rr_init s) = some r) :
    rr_in_bounds r = true := by
  obtain ⟨a, b⟩ := rr_run_cells s hr hq fuel r h
  unfold rr_in_bounds
  rw [a, b]
  unfold MAX_PROCESSES at hcap ⊢
  simp only [Bool.and_eq_true, decide_eq_true_eq]
  omega

theorem machine_simulate_complete (algo : SchedulingAlgorithm) (s : Sim) (hs : int_safe s)
    (hq : algo = .ROUND_ROBIN → 0 < s.time_quantum)
    (hcap : algo = .ROUND_ROBIN → rr_slices s ≤ MAX_PROCESSES) (fuel : Nat) (r : Sim)
    (h : simulate_scheduling fuel algo s = some r) :
    Machine.simulate_scheduling fuel algo s = some r := by
  by_cases hne : algo = .ROUND_ROBIN
  · subst hne
    rw [machine_rr_simulate s hs (hq rfl)]
    rw [simulate_scheduling_eq] at h
    simp only [round_robin_scheduling, Option.map_map, Option.map_eq_some'] at h
    obtain ⟨st, hst, rfl⟩ := h
    have hr := strategy_input_safe s hs
    have hb := rr_run_in_bounds (strategy_input s) hr.1 (hq rfl)
      (by rw [rr_slices_strategy_input]; exact hcap rfl) fuel st hst
    rw [hst]
    simp [hb]
  · rw [machine_simulate_eq algo s hs hne]; exact h

theorem machine_simulate_terminates (algo : SchedulingAlgorithm) (s : Sim) (hs : int_safe s)
    (hq : algo = .ROUND_ROBIN → 0 < s.time_quantum)
    (hcap : algo = .ROUND_ROBIN → rr_slices s ≤ MAX_PROCESSES) :
    ∃ fuel r, Machine.simulate_scheduling fuel algo s = some r := by
  obtain ⟨fuel, r, h⟩ := simulate_terminates algo s (int_safe_valid s hs) hq
    (int_safe_below s hs)
  exact ⟨fuel, r, machine_simulate_complete algo s hs hq hcap fuel r h⟩

/-! ### Loop states within the `int` range -/

theorem iterate_congr_inv {σ : Type} (cond : σ → Bool) (b1 b2 : σ → σ) (Inv : σ → Prop)
    (h : ∀ x, Inv x → cond x = true → b1 x = b2 x ∧ Inv (b2 x)) (s : σ) (hs : Inv s) (k : Nat)
    (hk : loop_runs cond b1 s k) : b1^[k] s = b2^[k] s ∧ Inv (b2^[k] s) := by
  induction k with
  | zero => exact ⟨rfl, hs⟩
  | succ k ih =>
    obtain ⟨e, hi⟩ := ih (fun j hj => hk j (Nat.lt_succ_of_lt hj))
    have hc := hk k (Nat.lt_succ_self k)
    rw [e] at hc
    obtain ⟨e2, hi2⟩ := h _ hi hc
    rw [Function.iterate_succ_apply', Function.iterate_succ_apply', e, e2]
    exact ⟨rfl, hi2⟩

theorem iterate_congr_inv_right {σ : Type} (cond : σ → Bool) (b1 b2 : σ → σ) (Inv : σ → Prop)
    (h : ∀ x, Inv x → cond x = true → b1 x = b2 x ∧ Inv (b2 x)) (s : σ) (hs : Inv s) (k : Nat)
    (hk : loop_runs cond b2 s k) : b1^[k] s = b2^[k] s ∧ Inv (b2^[k] s) := by
  induction k with
  | zero => exact ⟨rfl, hs⟩
  | succ k ih =>
    obtain ⟨e, hi⟩ := ih (fun j hj => hk j (Nat.lt_succ_of_lt hj))
    have hc := hk k (Nat.lt_succ_self k)
    obtain ⟨e2, hi2⟩ := h _ hi hc
    rw [Function.iterate_succ_apply', Function.iterate_succ_apply', e, e2]
    exact ⟨rfl, hi2⟩

theorem loop_runs_congr {σ : Type} (cond : σ → Bool) (b1 b2 : σ → σ) (Inv : σ → Prop)
    (h : ∀ x, Inv x → cond x = true → b1 x = b2 x ∧ Inv (b2 x)) (s : σ) (hs : Inv s) (k : Nat) :
    loop_runs cond b1 s k ↔ loop_runs cond b2 s k := by
  constructor
  · intro hk j hj
    have hj1 : loop_runs cond b1 s j := fun i hi => hk i (Nat.lt_trans hi hj)
    rw [← (iterate_congr_inv cond b1 b2 Inv h s hs j hj1).1]
    exact hk j hj
  · intro hk j hj
    have hj1 : loop_runs cond b2 s j := fun i hi => hk i (Nat.lt_trans hi hj)
    rw [(iterate_congr_inv_right cond b1 b2 Inv h s hs j hj1).1]
    exact hk j hj

theorem while_loop_runs {σ : Type} (cond : σ → Bool) (body : σ → σ) (fuel : Nat) (s r : σ)
    (h : while_loop cond body fuel s = some r) :
    ∃ k, r = body^[k] s ∧ loop_runs cond body s k ∧ cond r = false := by
  obtain ⟨k, hk, hm⟩ := while_loop_iterate cond body fuel s r h
  exact ⟨k, hk, hm, (while_loop_inv cond body (fun _ => True) (fun _ _ _ => trivial) fuel s r
    trivial h).2⟩

theorem while_loop_skip {σ : Type} (cond : σ → Bool) (body : σ → σ) (fuel m : Nat) (s : σ)
    (h : loop_runs cond body s m) :
    while_loop cond body (fuel + m) s = while_loop cond body fuel (body^[m] s) := by
  induction m generalizing s with
  | zero => rfl
  | succ m ih =>
    have h0 : cond s = true := h 0 (Nat.succ_pos m)
    rw [← Nat.add_assoc, while_loop_step cond body (fuel + m) s h0, Function.iterate_succ_apply]
    apply ih
    intro j hj
    have := h (j + 1) (Nat.succ_lt_succ hj)
    rwa [Function.iterate_succ_apply] at this

theorem machine_tick_state_eq (key : Process → Int)
    (hkey : ∀ p : Process, p.remaining_time ≤ p.burst_time → p.burst_time < INT_MAX →
      p.priority < INT_MAX → key p < INT_MAX)
    (s : Sim) (hr : run_safe s) (k : Nat)
    (hk : loop_runs sel_cond (Machine.tick_body key) (tick_init s) k) :
    Machine.tick_state key s k = tick_state key s k := by
  obtain ⟨M, hM⟩ := exists_arrival_bound s.processes
  exact (iterate_congr_inv sel_cond (Machine.tick_body key) (tick_body key)
    (fun st => tick_term_inv M st ∧ work_fit st.sim)
    (fun st ⟨a, b⟩ hc =>
      ⟨(tick_fit_step key hkey M st a hc b).1, (tick_term_step key M hkey st a hc).1,
        (tick_fit_step key hkey M st a hc b).2⟩)
    (tick_init s) ⟨tick_term_init s hr.1 (run_safe_below s hr) M hM, work_fit_init s hr⟩ k hk).1

theorem machine_batch_state_eq (key : Process → Int)
    (hkey : ∀ (p : Process) (a b : Int),
      key { p with start_time := a, completion_time := b } = key p)
    (s : Sim) (hr : run_safe s) (hkb : ∀ p ∈ s.processes, key p < INT_MAX) (k : Nat)
    (hk : loop_runs sel_cond (Machine.batch_body key) (sel_init s) k) :
    (Machine.batch_body key)^[k] (sel_init s) = (batch_body key)^[k] (sel_init s) := by
  obtain ⟨M, hM⟩ := exists_arrival_bound s.processes
  have hinv : batch_term_inv key M (sel_init s) :=
    ⟨batch_inv_init s hr.1.1 (fun p hp => (hr.1.2 p hp).2.1),
      fun j hj => ⟨hM _ (proc_mem _ _ hj), hkb _ (proc_mem _ _ hj)⟩⟩
  exact (iterate_congr_inv sel_cond (Machine.batch_body key) (batch_body key)
    (fun st => batch_term_inv key M st ∧ batch_fit st)
    (fun st ⟨a, b⟩ hc =>
      ⟨(batch_fit_step key M st a hc b).1, (batch_term_step key M hkey st a hc).1,
        (batch_fit_step key M st a hc b).2⟩)
    (sel_init s) ⟨hinv, batch_fit_init s hr⟩ k hk).1

theorem machine_rr_state_eq (s : Sim) (hr : run_safe s) (hq : 0 < s.time_quantum) (k : Nat)
    (hk : loop_runs rr_cond Machine.rr_body (rr_init s) k) :
    Machine.rr_state s k = rr_state s k :=
  (iterate_congr_inv rr_cond Machine.rr_body rr_body
    (fun st => rr_inv st ∧ work_fit st.sim)
    (fun st ⟨a, b⟩ hc =>
      ⟨(rr_fit_step st a b).1, rr_inv_step st a hc, (rr_fit_step st a b).2⟩)
    (rr_init s) (rr_init_fit s hr hq) k hk).1

/-! ### Idle stretches of the tick-driven loop -/

theorem select_min_eq_none (key : Process → Int) (ps : List Process) (dn : List Bool)
    (ct : Int) (h : ∀ j, j < ps.length → ¬ eligible ps dn ct j) :
    select_min key ps dn ct = none := by
  cases hs : select_min key ps dn ct with
  | none => rfl
  | some i =>
    obtain ⟨a, b, _⟩ := select_min_some key ps dn ct i hs
    exact absurd b (h i a)

theorem machine_tick_body_idle (key : Process → Int) (st : SelState)
    (h1 : INT_MIN ≤ st.sim.current_time) (h2 : st.sim.current_time < INT_MAX)
    (h3 : ∀ j, j < st.sim.processes.length → flag st.is_completed j = false →
      st.sim.current_time < (proc st.sim.processes j).arrival_time) :
    Machine.tick_body key st =
      { st with sim := { st.sim with current_time := st.sim.current_time + 1 } } := by
  have hs : select_min key st.sim.processes st.is_completed st.sim.current_time = none := by
    apply select_min_eq_none
    intro j hj he
    have := h3 j hj he.1
    have := he.2
    omega
  simp only [Machine.tick_body, hs]
  rw [int_add_eq _ _ (by unfold in_int; unfold INT_MIN at h1 ⊢; unfold INT_MAX at h2 ⊢; omega)]

/-- While no unfinished job has arrived the loop only advances the clock:
`m` idle iterations turn a clock `ct` into `ct + m`. -/
theorem machine_tick_idle (key : Process → Int) (m : Nat) :
    ∀ st : SelState, INT_MIN ≤ st.sim.current_time → st.sim.current_time + m ≤ INT_MAX →
      (∀ j, j < st.sim.processes.length → flag st.is_completed j = false →
        st.sim.current_time + m ≤ (proc st.sim.processes j).arrival_time) →
      sel_cond st = true →
      loop_runs sel_cond (Machine.tick_body key) st m ∧
      (Machine.tick_body key)^[m] st =
        { st with sim := { st.sim with current_time := st.sim.current_time + m } } := by
  induction m with
  | zero =>
    intro st _ _ _ _
    refine ⟨fun j hj => absurd hj (Nat.not_lt_zero _), ?_⟩
    simp
  | succ m ih =>
    intro st h1 h2 h3 hc
    push_cast at h2 h3
    have hb := machine_tick_body_idle key st h1 (by omega) (fun j hj hf => by
      have := h3 j hj hf
      omega)
    obtain ⟨r1, r2⟩ := ih
      { st with sim := { st.sim with current_time := st.sim.current_time + 1 } }
      (by show INT_MIN ≤ st.sim.current_time + 1; omega)
      (by show st.sim.current_time + 1 + (m : Int) ≤ INT_MAX; omega)
      (fun j hj hf => by
        have := h3 j hj hf
        show st.sim.current_time + 1 + (m : Int) ≤ (proc st.sim.processes j).arrival_time
        omega)
      hc
    constructor
    · intro j hj
      cases j with
      | zero => exact hc
      | succ j =>
        rw [Function.iterate_succ_apply, hb]
        exact r1 j (Nat.lt_of_succ_lt_succ hj)
    · rw [Function.iterate_succ_apply, hb, r2]
      push_cast
      simp only [add_assoc, add_comm (1 : Int) (m : Int)]

theorem loop_runs_add {σ : Type} (cond : σ → Bool) (body : σ → σ) (s : σ) (a b : Nat)
    (ha : loop_runs cond body s a) (hb : loop_runs cond body (body^[a] s) b) :
    loop_runs cond body s (a + b) := by
  intro j hj
  by_cases h : j < a
  · exact ha j h
  · have e : j = (j - a) + a := by omega
    rw [e, Function.iterate_add_apply]
    exact hb (j - a) (by omega)

theorem wrap_run :
    while_loop sel_cond (Machine.tick_body (fun p => p.priority)) 6442450944
        (tick_init (strategy_input wrap_table)) =
      while_loop sel_cond (Machine.tick_body (fun p => p.priority)) 2 wrap_state3 := by
  have e1 := machine_tick_idle (fun p => p.priority) 2147483646
    (tick_init (strategy_input wrap_table)) (by decide) (by decide) (by decide) (by decide)
  have e2 := machine_tick_idle (fun p => p.priority) 4294967294 wrap_state2
    (by decide) (by decide) (by decide) (by decide)
  have e1b : (Machine.tick_body (fun p => p.priority))^[2147483646]
      (tick_init (strategy_input wrap_table)) = wrap_state1 := e1.2
  have e2b : (Machine.tick_body (fun p => p.priority))^[4294967294] wrap_state2 =
      wrap_state3 := e2.2
  have hmid : loop_runs sel_cond (Machine.tick_body (fun p => p.priority)) wrap_state1 2 := by
    unfold loop_runs
    decide
  have hf : (6442450944 : Nat) = ((2 + 4294967294) + 2) + 2147483646 := by norm_num
  rw [hf, while_loop_skip _ _ _ _ _ e1.1, e1b, while_loop_skip _ _ _ _ _ hmid]
  show while_loop sel_cond (Machine.tick_body (fun p => p.priority)) (2 + 4294967294)
    wrap_state2 = _
  rw [while_loop_skip _ _ _ _ _ e2.1, e2b]

theorem int_safe_sample : int_safe (Sim.mk sample_processes [] 2 0) := by
  unfold int_safe
  decide

/-! ### FCFS on machine integers -/

theorem machine_fcfs_step_append (done : List Process) (p : Process) (t : List Process)
    (g : List GanttBlock) (q ct : Int) :
    Machine.fcfs_step (Sim.mk (done ++ p :: t) g q ct) done.length =
      Sim.mk ((done ++ [Machine.fcfs_cell ct p]) ++ t)
        (g ++ [blockOf (Machine.fcfs_cell ct p)]) q
        (Machine.fcfs_cell ct p).completion_time := by
  simp only [Machine.fcfs_step, proc_append_length, updateAt_append_length]
  simp [Machine.fcfs_cell, blockOf, mkBlock]

theorem machine_foldl_fcfs_step (done rest : List Process) (g : List GanttBlock) (q ct : Int) :
    (List.range' done.length rest.length).foldl Machine.fcfs_step
        (Sim.mk (done ++ rest) g q ct) =
      Sim.mk (done ++ Machine.fcfs_run ct rest)
        (g ++ (Machine.fcfs_run ct rest).map blockOf) q (Machine.fcfs_end ct rest) := by
  induction rest generalizing done g ct with
  | nil => simp [Machine.fcfs_run, Machine.fcfs_end]
  | cons p t ih =>
    rw [List.length_cons, List.range'_succ, List.foldl_cons, machine_fcfs_step_append]
    have := ih (done ++ [Machine.fcfs_cell ct p]) (g ++ [blockOf (Machine.fcfs_cell ct p)])
      (Machine.fcfs_cell ct p).completion_time
    simp only [List.length_append, List.length_singleton] at this
    rw [this]
    simp [Machine.fcfs_run, Machine.fcfs_end]

theorem machine_fcfs_scheduling_run (s : Sim) :
    Machine.fcfs_scheduling s =
      Sim.mk (Machine.fcfs_run 0 (fcfs_sort s.processes))
        (s.gantt_chart ++ (Machine.fcfs_run 0 (fcfs_sort s.processes)).map blockOf)
        s.time_quantum (Machine.fcfs_end 0 (fcfs_sort s.processes)) := by
  unfold Machine.fcfs_scheduling
  simp only [List.range_eq_range']
  have := machine_foldl_fcfs_step [] (fcfs_sort s.processes) s.gantt_chart s.time_quantum 0
  simp only [List.length_nil, List.nil_append] at this
  exact this

theorem machine_fcfs_run_length (ct : Int) (l : List Process) :
    (Machine.fcfs_run ct l).length = l.length := by
  induction l generalizing ct with
  | nil => rfl
  | cons p t ih => simp [Machine.fcfs_run, ih]

theorem machine_fcfs_run_proc (ct : Int) (l : List Process) (i : Nat) (hi : i < l.length) :
    proc (Machine.fcfs_run ct l) i =
      { proc l i with
        start_time :=
          max (if i = 0 then ct else (proc (Machine.fcfs_run ct l) (i - 1)).completion_time)
            (proc l i).arrival_time
        completion_time :=
          int_add
            (max (if i = 0 then ct else (proc (Machine.fcfs_run ct l) (i - 1)).completion_time)
              (proc l i).arrival_time)
            (proc l i).burst_time } := by
  induction l generalizing ct i with
  | nil => simp at hi
  | cons p t ih =>
    cases i with
    | zero =>
      simp only [Machine.fcfs_run, proc_cons_zero, if_true, Machine.fcfs_cell]
      have : (if ct < p.arrival_time then p.arrival_time else ct) = max ct p.arrival_time := by
        rw [max_def]; split <;> split <;> omega
      rw [this]
    | succ i =>
      simp only [Machine.fcfs_run, proc_cons_succ, Nat.add_sub_cancel]
      rw [ih _ i (by simpa using hi)]
      cases i with
      | zero => simp [proc_cons_zero]
      | succ i => simp [proc_cons_succ]

/-! ### Reached states of the loops on machine integers -/

theorem loop_runs_succ {σ : Type} (cond : σ → Bool) (body : σ → σ) (s : σ) (k : Nat)
    (hk : loop_runs cond body s k) (hc : cond (body^[k] s) = true) :
    loop_runs cond body s (k + 1) := by
  intro j hj
  rcases Nat.lt_succ_iff_lt_or_eq.mp hj with h | h
  · exact hk j h
  · rw [h]; exact hc

theorem loop_runs_le {σ : Type} (cond : σ → Bool) (body : σ → σ) (s : σ) (k m : Nat)
    (hk : loop_runs cond body s k) (hm : m ≤ k) : loop_runs cond body s m :=
  fun j hj => hk j (Nat.lt_of_lt_of_le hj hm)

theorem sel_cond_of_flag (st : SelState)
    (h1 : st.is_completed.length = st.sim.processes.length)
    (h2 : st.completed = st.is_completed.count true) (i : Nat)
    (hi : i < st.sim.processes.length) (hf : flag st.is_completed i = false) :
    sel_cond st = true := by
  simp only [sel_cond, bne_iff_ne, ne_eq]
  intro e
  rw [h2, ← h1] at e
  have hall := List.count_eq_length.mp e
  rw [← h1] at hi
  have : flag st.is_completed i = true := by
    simp only [flag, List.getD_eq_getElem?_getD, List.getElem?_eq_getElem hi, Option.getD_some]
    exact (hall _ (List.getElem_mem hi)).symm
  rw [hf] at this
  exact Bool.noConfusion this

theorem machine_tick_state_fit (key : Process → Int)
    (hkey : ∀ p : Process, p.remaining_time ≤ p.burst_time → p.burst_time < INT_MAX →
      p.priority < INT_MAX → key p < INT_MAX)
    (s : Sim) (hr : run_safe s) (k : Nat)
    (hk : loop_runs sel_cond (Machine.tick_body key) (tick_init s) k) :
    Machine.tick_state key s k = tick_state key s k ∧ tick_run_inv (tick_state key s k) ∧
    work_fit (tick_state key s k).sim := by
  obtain ⟨M, hM⟩ := exists_arrival_bound s.processes
  obtain ⟨e, i1, i2⟩ := iterate_congr_inv sel_cond (Machine.tick_body key) (tick_body key)
    (fun st => tick_term_inv M st ∧ work_fit st.sim)
    (fun st ⟨a, b⟩ hc =>
      ⟨(tick_fit_step key hkey M st a hc b).1, (tick_term_step key M hkey st a hc).1,
        (tick_fit_step key hkey M st a hc b).2⟩)
    (tick_init s) ⟨tick_term_init s hr.1 (run_safe_below s hr) M hM, work_fit_init s hr⟩ k hk
  exact ⟨e, i1.1, i2⟩

theorem machine_tick_runs_succ (key : Process → Int)
    (hkey : ∀ p : Process, p.remaining_time ≤ p.burst_time → p.burst_time < INT_MAX →
      p.priority < INT_MAX → key p < INT_MAX)
    (s : Sim) (hr : run_safe s) (k i : Nat)
    (hk : loop_runs sel_cond (Machine.tick_body key) (tick_init s) k)
    (h : select_min key (Machine.tick_state key s k).sim.processes
      (Machine.tick_state key s k).is_completed
      (Machine.tick_state key s k).sim.current_time = some i) :
    loop_runs sel_cond (Machine.tick_body key) (tick_init s) (k + 1) := by
  obtain ⟨e, inv, _⟩ := machine_tick_state_fit key hkey s hr k hk
  apply loop_runs_succ _ _ _ _ hk
  show sel_cond (Machine.tick_state key s k) = true
  rw [e] at h ⊢
  obtain ⟨a, b, _⟩ := select_min_some key _ _ _ i h
  exact sel_cond_of_flag _ inv.1.1 inv.2.1 i a b.1

theorem machine_batch_state_fit (key : Process → Int)
    (hkey : ∀ (p : Process) (a b : Int),
      key { p with start_time := a, completion_time := b } = key p)
    (s : Sim) (hr : run_safe s) (hkb : ∀ p ∈ s.processes, key p < INT_MAX) (k : Nat)
    (hk : loop_runs sel_cond (Machine.batch_body key) (sel_init s) k) :
    (Machine.batch_body key)^[k] (sel_init s) = (batch_body key)^[k] (sel_init s) ∧
    batch_inv ((batch_body key)^[k] (sel_init s)) := by
  obtain ⟨M, hM⟩ := exists_arrival_bound s.processes
  have hinv : batch_term_inv key M (sel_init s) :=
    ⟨batch_inv_init s hr.1.1 (fun p hp => (hr.1.2 p hp).2.1),
      fun j hj => ⟨hM _ (proc_mem _ _ hj), hkb _ (proc_mem _ _ hj)⟩⟩
  obtain ⟨e, i1, _⟩ := iterate_congr_inv sel_cond (Machine.batch_body key) (batch_body key)
    (fun st => batch_term_inv key M st ∧ batch_fit st)
    (fun st ⟨a, b⟩ hc =>
      ⟨(batch_fit_step key M st a hc b).1, (batch_term_step key M hkey st a hc).1,
        (batch_fit_step key M st a hc b).2⟩)
    (sel_init s) ⟨hinv, batch_fit_init s hr⟩ k hk
  exact ⟨e, i1.1⟩

theorem machine_batch_runs_succ (key : Process → Int)
    (hkey : ∀ (p : Process) (a b : Int),
      key { p with start_time := a, completion_time := b } = key p)
    (s : Sim) (hr : run_safe s) (hkb : ∀ p ∈ s.processes, key p < INT_MAX) (k i : Nat)
    (hk : loop_runs sel_cond (Machine.batch_body key) (sel_init s) k)
    (h : select_min key ((Machine.batch_body key)^[k] (sel_init s)).sim.processes
      ((Machine.batch_body key)^[k] (sel_init s)).is_completed
      ((Machine.batch_body key)^[k] (sel_init s)).sim.current_time = some i) :
    loop_runs sel_cond (Machine.batch_body key) (sel_init s) (k + 1) := by
  obtain ⟨e, inv⟩ := machine_batch_state_fit key hkey s hr hkb k hk
  apply loop_runs_succ _ _ _ _ hk
  rw [e] at h ⊢
  obtain ⟨a, b, _⟩ := select_min_some key _ _ _ i h
  exact sel_cond_of_flag _ inv.1 inv.2.1 i a b.1

theorem machine_rr_state_fit (s : Sim) (hr : run_safe s) (hq : 0 < s.time_quantum) (k : Nat)
    (hk : loop_runs rr_cond Machine.rr_body (rr_init s) k) :
    Machine.rr_state s k = rr_state s k ∧ rr_inv (rr_state s k) := by
  obtain ⟨e, i1, _⟩ := iterate_congr_inv rr_cond Machine.rr_body rr_body
    (fun st => rr_inv st ∧ work_fit st.sim)
    (fun st ⟨a, b⟩ hc =>
      ⟨(rr_fit_step st a b).1, rr_inv_step st a hc, (rr_fit_step st a b).2⟩)
    (rr_init s) (rr_init_fit s hr hq) k hk
  exact ⟨e, i1⟩

theorem rr_cond_of_live (st : RRState) (hinv : rr_inv st) (p : Nat) (hp : p ∈ st.live) :
    rr_cond st = true := by
  simp only [rr_cond, bne_iff_ne, ne_eq]
  intro e
  obtain ⟨hi, hpos, _⟩ := hinv.2.1.2.1 p hp
  have hc := hinv.2.2.2.1
  have hall := List.countP_eq_length.mp (hc.symm.trans e) _ (proc_mem _ _ hi)
  simp only [decide_eq_true_eq] at hall
  omega

theorem machine_rr_runs_succ (s : Sim) (hr : run_safe s) (hq : 0 < s.time_quantum)
    (k p : Nat) (rest : List Nat)
    (hk : loop_runs rr_cond Machine.rr_body (rr_init s) k)
    (hL : (Machine.rr_state s k).live = p :: rest) :
    loop_runs rr_cond Machine.rr_body (rr_init s) (k + 1) := by
  obtain ⟨e, inv⟩ := machine_rr_state_fit s hr hq k hk
  apply loop_runs_succ _ _ _ _ hk
  show rr_cond (Machine.rr_state s k) = true
  rw [e] at hL ⊢
  exact rr_cond_of_live _ inv p (by rw [hL]; exact List.mem_cons_self _ _)

theorem machine_rr_scheduling_eq (s : Sim) (hr : run_safe s) (hq : 0 < s.time_quantum)
    (hcap : rr_slices s ≤ MAX_PROCESSES) (fuel : Nat) :
    Machine.round_robin_scheduling fuel s = round_robin_scheduling fuel s := by
  unfold Machine.round_robin_scheduling round_robin_scheduling
  rw [machine_rr_loop s hr hq]
  cases h : while_loop rr_cond rr_body fuel (rr_init s) with
  | none => rfl
  | some st =>
    simp only [Option.some_bind, Option.map_some',
      rr_run_in_bounds s hr.1 hq hcap fuel st h, if_true]

/-! ### The ready queue on machine integers -/

theorem rr_test_table (init : Bool) (a b : List Process) (ct : Int) (iq : List Bool) (i : Nat)
    (h : (proc a i).arrival_time = (proc b i).arrival_time ∧
      (proc a i).remaining_time = (proc b i).remaining_time) :
    rr_test init a ct iq i = rr_test init b ct iq i := by
  unfold rr_test
  rw [h.1, h.2]

theorem rr_enqueue_table (init : Bool) (a b : List Process) (ct : Int)
    (acc : List Nat × List Bool) (hlen : a.length = b.length)
    (h : ∀ i, (proc a i).arrival_time = (proc b i).arrival_time ∧
      (proc a i).remaining_time = (proc b i).remaining_time) :
    rr_enqueue init a ct acc = rr_enqueue init b ct acc := by
  unfold rr_enqueue
  rw [hlen]
  congr 1
  funext x i
  unfold rr_enqueue_step
  rw [rr_test_table init a b ct x.2 i (h i)]

theorem rr_queue_inv_congr (a b : RRState) (h : same_queue a b) (ha : rr_queue_inv a) :
    rr_queue_inv b := by
  obtain ⟨h1, h2, h3, _, h5, h6, h7⟩ := h
  obtain ⟨⟨l1, l2, l3⟩, q1, q2, q3⟩ := ha
  have hl : b.live = a.live := by simp only [RRState.live, h1, h2]
  refine ⟨⟨by rw [← h3, ← h6]; exact l1, by rw [← h1, ← h2]; exact l2, by rw [← h5]; exact l3⟩,
    by rw [hl]; exact q1, ?_, ?_⟩
  · intro i hi
    rw [hl] at hi
    rw [← h6, ← (h7 i).2]
    exact q2 i hi
  · intro j hj
    rw [← h6] at hj
    rw [← h3, hl]
    exact q3 j hj

/-- A dispatch on `int` values leaves the queue, the counters and the
remaining times as the dispatch without overflow does from a clock `c` chosen
so that both reach the same new clock value. -/
theorem machine_rr_dispatch_view (st : RRState) (hfr : st.front ≠ st.rear)
    (h2 : in_int ((proc st.sim.processes (st.queue.getD st.front 0)).remaining_time -
      rr_exec st.sim.time_quantum (proc st.sim.processes (st.queue.getD st.front 0))))
    (h3 : st.queue.getD st.front 0 < st.sim.processes.length) :
    same_queue (Machine.rr_body st)
      (rr_body (reclock
        (int_add st.sim.current_time
          (rr_exec st.sim.time_quantum (proc st.sim.processes (st.queue.getD st.front 0))) -
          rr_exec st.sim.time_quantum (proc st.sim.processes (st.queue.getD st.front 0)))
        st)) := by
  generalize hcp : st.queue.getD st.front 0 = cp at h2 h3 ⊢
  generalize he : rr_exec st.sim.time_quantum (proc st.sim.processes cp) = e at h2 ⊢
  generalize hc1 : int_add st.sim.current_time e = ct1
  have hp : ∀ c, proc (updateAt st.sim.processes cp (set_start c)) cp =
      set_start c (proc st.sim.processes cp) := by
    intro c
    rw [proc_updateAt]
    simp only [h3, and_self, if_true]
  have hE : ∀ c, (if (proc (updateAt st.sim.processes cp (set_start c)) cp).remaining_time <
        st.sim.time_quantum then
        (proc (updateAt st.sim.processes cp (set_start c)) cp).remaining_time
        else st.sim.time_quantum) = e := by
    intro c
    rw [hp, (set_start_fields _ _).1, ← he]
    rfl
  have hfr2 : (reclock (ct1 - e) st).front ≠ (reclock (ct1 - e) st).rear := hfr
  have hsub : int_sub (proc st.sim.processes cp).remaining_time e =
      (proc st.sim.processes cp).remaining_time - e := int_sub_eq _ _ h2
  have hstart : ∀ (c : Int) (x : Process),
      (set_start c x).arrival_time = x.arrival_time := by
    intro c x; unfold set_start; split <;> rfl
  have hps : ∀ j,
      (proc (updateAt (updateAt st.sim.processes cp (set_start st.sim.current_time)) cp
        (Machine.run_for e)) j).arrival_time =
      (proc (updateAt (updateAt st.sim.processes cp (set_start (ct1 - e))) cp
        (run_for e)) j).arrival_time ∧
      (proc (updateAt (updateAt st.sim.processes cp (set_start st.sim.current_time)) cp
        (Machine.run_for e)) j).remaining_time =
      (proc (updateAt (updateAt st.sim.processes cp (set_start (ct1 - e))) cp
        (run_for e)) j).remaining_time := by
    intro j
    rw [proc_updateAt, proc_updateAt, proc_updateAt, proc_updateAt]
    simp only [length_updateAt]
    by_cases hj : j = cp
    · subst hj
      simp only [h3, and_self, if_true, Machine.run_for, run_for, (set_start_fields _ _).1,
        hstart, hsub]
    · simp only [hj, false_and, if_false, and_self]
  have hqa := rr_enqueue_table false
    (updateAt (updateAt st.sim.processes cp (set_start st.sim.current_time)) cp
      (Machine.run_for e))
    (updateAt (updateAt st.sim.processes cp (set_start (ct1 - e))) cp (run_for e))
    ct1 (st.queue, st.in_queue) (by simp only [length_updateAt]) hps
  have hct : ct1 - e + e = ct1 := by omega
  simp only [Machine.rr_body, rr_body, hfr, hfr2, if_false, hcp, hc1]
  simp only [reclock, hcp, hE, hc1, hct, hqa, (hps cp).2]
  have hcompA : ∀ (t : List Process) (c : Int) (j : Nat),
      (proc (updateAt t cp (set_completion c)) j).arrival_time = (proc t j).arrival_time := by
    intro t c j; rw [proc_updateAt]; split <;> rfl
  have hcompR : ∀ (t : List Process) (c : Int) (j : Nat),
      (proc (updateAt t cp (set_completion c)) j).remaining_time =
        (proc t j).remaining_time := by
    intro t c j; rw [proc_updateAt]; split <;> rfl
  split
  · refine ⟨rfl, rfl, rfl, rfl, rfl, by simp only [length_updateAt], ?_⟩
    intro j
    rw [hcompA, hcompA, hcompR, hcompR]
    exact hps j
  · exact ⟨rfl, rfl, rfl, rfl, rfl, by simp only [length_updateAt], hps⟩

theorem same_queue_symm (a b : RRState) (h : same_queue a b) : same_queue b a := by
  obtain ⟨h1, h2, h3, h4, h5, h6, h7⟩ := h
  exact ⟨h1.symm, h2.symm, h3.symm, h4.symm, h5.symm, h6.symm,
    fun j => ⟨(h7 j).1.symm, (h7 j).2.symm⟩⟩

/-- The queue invariant holds after every iteration of the loop on `int`
values, whatever the clock does, as long as the remaining times are `int`
values. -/
theorem machine_rr_queue_step (st : RRState) (hinv : rr_queue_inv st)
    (hmax : ∀ j, j < st.sim.processes.length →
      (proc st.sim.processes j).remaining_time ≤ INT_MAX) :
    rr_queue_inv (Machine.rr_body st) ∧
    ∀ j, j < (Machine.rr_body st).sim.processes.length →
      (proc (Machine.rr_body st).sim.processes j).remaining_time ≤ INT_MAX := by
  cases hL : st.live with
  | nil =>
    have hfr : st.front = st.rear := (live_eq_nil_iff st hinv.1.2.1).mp hL
    rw [machine_rr_body_eq st (fun hne => absurd hfr hne)]
    obtain ⟨a, b⟩ := rr_queue_inv_jump st hinv hL
    refine ⟨a, ?_⟩
    rw [b]
    exact hmax
  | cons i rest =>
    have hne : st.front ≠ st.rear := by
      intro e
      have := (live_eq_nil_iff st hinv.1.2.1).mpr e
      rw [hL] at this
      exact List.noConfusion this
    obtain ⟨_, hget, _⟩ := drop_eq_cons st.queue st.front i rest 0 hL
    obtain ⟨hi, hpos⟩ := hinv.2.2.1 i (by rw [hL]; exact List.mem_cons_self _ _)
    have hq := hinv.1.2.2
    have hmin := rr_exec_eq_min st.sim.time_quantum (proc st.sim.processes i)
    have hle : rr_exec st.sim.time_quantum (proc st.sim.processes i) ≤
        (proc st.sim.processes i).remaining_time := by
      rw [hmin]; exact min_le_left _ _
    have hge : 0 < rr_exec st.sim.time_quantum (proc st.sim.processes i) := by
      rw [hmin]; exact lt_min hpos hq
    have hmi := hmax i hi
    have hview := machine_rr_dispatch_view st hne
      (by
        rw [hget]
        unfold in_int INT_MIN
        unfold INT_MAX at hmi ⊢
        omega)
      (by rw [hget]; exact hi)
    rw [hget] at hview
    have hE := rr_queue_inv_step _ (show rr_queue_inv (reclock
      (int_add st.sim.current_time (rr_exec st.sim.time_quantum (proc st.sim.processes i)) -
        rr_exec st.sim.time_quantum (proc st.sim.processes i)) st) from hinv)
    refine ⟨rr_queue_inv_congr _ _ (same_queue_symm _ _ hview) hE, ?_⟩
    intro j hj
    rw [(hview.2.2.2.2.2.2 j).2]
    obtain ⟨f1, _⟩ := rr_queue_dispatch (reclock
      (int_add st.sim.current_time (rr_exec st.sim.time_quantum (proc st.sim.processes i)) -
        rr_exec st.sim.time_quantum (proc st.sim.processes i)) st) hinv i rest hL
    rw [f1, proc_updateAt]
    have hj2 : j < st.sim.processes.length := by
      rw [hview.2.2.2.2.2.1, f1, length_updateAt] at hj
      exact hj
    split
    · rename_i hc
      rw [(rr_cell_fields _ _ _).2.1, hc.1]
      show (proc st.sim.processes i).remaining_time -
        rr_exec st.sim.time_quantum (proc st.sim.processes i) ≤ INT_MAX
      omega
    · exact hmax j hj2

theorem machine_rr_state_succ (s : Sim) (k : Nat) :
    Machine.rr_state s (k + 1) = Machine.rr_body (Machine.rr_state s k) := by
  unfold Machine.rr_state
  rw [Function.iterate_succ_apply']

theorem machine_rr_queue_state (s : Sim) (hq : 0 < s.time_quantum)
    (hb : ∀ p ∈ s.processes, 0 < p.burst_time ∧ p.burst_time ≤ INT_MAX) (k : Nat) :
    rr_queue_inv (Machine.rr_state s k) ∧
    ∀ j, j < (Machine.rr_state s k).sim.processes.length →
      (proc (Machine.rr_state s k).sim.processes j).remaining_time ≤ INT_MAX := by
  induction k with
  | zero =>
    refine ⟨rr_queue_inv_init s hq (fun p hp => (hb p hp).1), ?_⟩
    intro j hj
    have hj2 : j < s.processes.length := by
      have : (rr_init s).sim.processes.length = s.processes.length := by simp [rr_init]
      rw [← this]; exact hj
    show (proc (s.processes.map reset_remaining) j).remaining_time ≤ INT_MAX
    rw [proc_map_reset_remaining _ _ hj2]
    exact (hb _ (proc_mem _ _ hj2)).2
  | succ k ih =>
    rw [machine_rr_state_succ]
    exact machine_rr_queue_step _ ih.1 ih.2

theorem machine_tick_blocks_key (key : Process → Int)
    (hkey : ∀ p : Process, p.remaining_time ≤ p.burst_time → p.burst_time < INT_MAX →
      p.priority < INT_MAX → key p < INT_MAX)
    (s : Sim) (hs : int_safe s) (hn : names_distinct s.processes) (k : Nat)
    (hk : loop_runs sel_cond (Machine.tick_body key) (tick_init (strategy_input s)) k) :
    (Machine.tick_state key (strategy_input s) k).sim.current_time = k ∧
    (∀ i, select_min key (Machine.tick_state key (strategy_input s) k).sim.processes
        (Machine.tick_state key (strategy_input s) k).is_completed
        (Machine.tick_state key (strategy_input s) k).sim.current_time = some i →
      tick_block_rule (Machine.tick_state key (strategy_input s) k)
        (Machine.tick_state key (strategy_input s) (k + 1)) i) ∧
    (∀ b ∈ (Machine.tick_state key (strategy_input s) k).sim.gantt_chart, ∀ u : Nat,
      b.start_time ≤ u → (u : Int) < b.end_time →
        u < k ∧ Machine.tick_ran key (strategy_input s) u b.process_name) := by
  have hr := strategy_input_safe s hs
  have hn0 := names_distinct_input s hn
  have E : ∀ j, loop_runs sel_cond (Machine.tick_body key) (tick_init (strategy_input s)) j →
      Machine.tick_state key (strategy_input s) j = tick_state key (strategy_input s) j :=
    fun j hj => (machine_tick_state_fit key hkey _ hr j hj).1
  refine ⟨?_, ?_, ?_⟩
  · rw [E k hk]; exact tick_state_clock key _ k
  · intro i hsel
    have hk1 := machine_tick_runs_succ key hkey _ hr k i hk hsel
    rw [E k hk] at hsel ⊢
    rw [E (k + 1) hk1]
    exact tick_block_rule_state key _ rfl hn0 k i hsel
  · intro b hb u h1 h2
    rw [E k hk] at hb
    obtain ⟨hu, i, hi1, hi2⟩ := tick_cover_state key _ rfl hn0 k b hb u h1 h2
    refine ⟨hu, i, ?_, ?_⟩
    · rw [E u (loop_runs_le _ _ _ _ _ hk (Nat.le_of_lt hu))]; exact hi1
    · rw [E u (loop_runs_le _ _ _ _ _ hk (Nat.le_of_lt hu))]; exact hi2

/-! # Claims -/

/-- Claim C1 fails as stated: FCFS on the single job P1(arrival 2147483647,
burst 1) starts the job at 2147483647 and stores
`completion_time = -2147483648`, not `start + burst_time = 2147483648`. -/
theorem fcfs_completion_counterexample :
    (Machine.fcfs_scheduling (Sim.mk [mkProcess "P1" 2147483647 1 5 0] [] 2 0)).processes.map
      (fun p => (p.start_time, p.burst_time, p.start_time + p.burst_time, p.completion_time)) =
      [(2147483647, 1, 2147483648, -2147483648)] := by
  decide

/-- Claim C1, amended: for every job table, `fcfs_scheduling` executes the
jobs in ascending `arrival_time` order with ties kept in their original table
order (the sorted table is ordered and, for every arrival time, lists the jobs
of that arrival time in their original order); the table and the timeline
follow that order; each job starts at the maximum of the previous job's
completion time (the clock start 0 for the first job) and its own
`arrival_time`, and completes at start plus `burst_time` computed as an `int`,
which is start plus `burst_time` whenever that sum lies in the `int` range.
On P1(0, 6), P2(1, 4), P3(2, 3) the run is P1, P2, P3 with completions
6, 10, 13, turnarounds 6, 9, 11 and waiting times 0, 5, 8. -/
theorem machine_fcfs_order (s : Sim) :
    (fcfs_sort s.processes).Pairwise (fun a b => a.arrival_time ≤ b.arrival_time) ∧
    (∀ v : Int, (fcfs_sort s.processes).filter (fun p => decide (p.arrival_time = v)) =
      s.processes.filter (fun p => decide (p.arrival_time = v))) ∧
    (Machine.fcfs_scheduling s).processes.length = s.processes.length ∧
    (Machine.fcfs_scheduling s).gantt_chart = s.gantt_chart ++
      (Machine.fcfs_scheduling s).processes.map
        (fun p => mkBlock p p.start_time p.completion_time) ∧
    (∀ i, i < s.processes.length →
      proc (Machine.fcfs_scheduling s).processes i =
        { proc (fcfs_sort s.processes) i with
          start_time :=
            max (if i = 0 then 0
                else (proc (Machine.fcfs_scheduling s).processes (i - 1)).completion_time)
              (proc (fcfs_sort s.processes) i).arrival_time
          completion_time :=
            int_add
              (max (if i = 0 then 0
                  else (proc (Machine.fcfs_scheduling s).processes (i - 1)).completion_time)
                (proc (fcfs_sort s.processes) i).arrival_time)
              (proc (fcfs_sort s.processes) i).burst_time }) ∧
    (∀ i, i < s.processes.length →
      in_int ((proc (Machine.fcfs_scheduling s).processes i).start_time +
        (proc (Machine.fcfs_scheduling s).processes i).burst_time) →
      (proc (Machine.fcfs_scheduling s).processes i).completion_time =
        (proc (Machine.fcfs_scheduling s).processes i).start_time +
          (proc (Machine.fcfs_scheduling s).processes i).burst_time) ∧
    (Machine.simulate_scheduling 0 .FCFS
        (Sim.mk [mkProcess "P1" 0 6 5 0, mkProcess "P2" 1 4 5 1, mkProcess "P3" 2 3 5 2] [] 2 0)).map
      (fun r => (r.gantt_chart.map (fun b => (b.process_name, b.start_time, b.end_time)),
        r.processes.map (fun p =>
          (p.name, p.completion_time, p.turnaround_time, p.waiting_time)))) =
      some ([("P1", 0, 6), ("P2", 6, 10), ("P3", 10, 13)],
        [("P1", 6, 6, 0), ("P2", 10, 9, 5), ("P3", 13, 11, 8)]) := by
  refine ⟨fcfs_sort_sorted _, fcfs_sort_filter _, ?_, ?_, ?_, ?_, by decide⟩
  · rw [machine_fcfs_scheduling_run]; simp [machine_fcfs_run_length, fcfs_sort_length]
  · rw [machine_fcfs_scheduling_run]; rfl
  · intro i hi
    rw [machine_fcfs_scheduling_run]
    exact machine_fcfs_run_proc 0 _ i (by rw [fcfs_sort_length]; exact hi)
  · intro i hi
    rw [machine_fcfs_scheduling_run]
    have h := machine_fcfs_run_proc 0 (fcfs_sort s.processes) i
      (by rw [fcfs_sort_length]; exact hi)
    intro hin
    rw [h] at hin ⊢
    exact int_add_eq _ _ hin

/-- Claim C3 fails as stated: with quantum 1073741824 on A(arrival 0, burst
1073741824), B(0, 1073741824) one sweep finishes both jobs and every further
sweep adds nothing, so the sweep timeline is A [0, 1073741824),
B [1073741824, 2147483648); `round_robin_scheduling` ends the block of B at
`1073741824 + 1073741824` computed as an `int`, which is -2147483648. -/
theorem rr_sweep_counterexample :
    (∀ F : Nat, ((rr_sweeps 1073741824 (F + 1) (strategy_input
        (Sim.mk [mkProcess "A" 0 1073741824 5 0, mkProcess "B" 0 1073741824 5 1]
          [] 1073741824 0)).processes).timeline.map
        (fun b => (b.process_name, b.start_time, b.end_time))) =
      [("A", 0, 1073741824), ("B", 1073741824, 2147483648)]) ∧
    (Machine.round_robin_scheduling 2 (strategy_input
        (Sim.mk [mkProcess "A" 0 1073741824 5 0, mkProcess "B" 0 1073741824 5 1]
          [] 1073741824 0))).map
      (fun r => r.gantt_chart.map (fun b => (b.process_name, b.start_time, b.end_time))) =
      some [("A", 0, 1073741824), ("B", 1073741824, -2147483648)] := by
  refine ⟨?_, by decide⟩
  intro F
  have hfix : ∀ n : Nat, (rr_sweep 1073741824)^[n] (rr_sweeps 1073741824 1 (strategy_input
      (Sim.mk [mkProcess "A" 0 1073741824 5 0, mkProcess "B" 0 1073741824 5 1]
        [] 1073741824 0)).processes) =
      rr_sweeps 1073741824 1 (strategy_input
        (Sim.mk [mkProcess "A" 0 1073741824 5 0, mkProcess "B" 0 1073741824 5 1]
          [] 1073741824 0)).processes :=
    fun n => Function.iterate_fixed (by decide) n
  have e : rr_sweeps 1073741824 (F + 1) (strategy_input
      (Sim.mk [mkProcess "A" 0 1073741824 5 0, mkProcess "B" 0 1073741824 5 1]
        [] 1073741824 0)).processes =
      rr_sweeps 1073741824 1 (strategy_input
        (Sim.mk [mkProcess "A" 0 1073741824 5 0, mkProcess "B" 0 1073741824 5 1]
          [] 1073741824 0)).processes := by
    have := hfix F
    unfold rr_sweeps at this ⊢
    rw [Function.iterate_succ_apply]
    exact this
  rw [e]
  decide

/-- Claim C3, amended: for every job table whose jobs all arrive at time 0
with `burst_time > 0`, whose burst times sum to less than `INT_MAX` (and whose
priorities are below `INT_MAX`) and whose `rr_slices` dispatches fit the
`MAX_PROCESSES` cells of the queue array, every quantum `q > 0` and every
number of sweeps `F` that is at least every `burst_time`,
`round_robin_scheduling` (entered as `simulate_scheduling` enters it)
returns, its timeline is the one obtained by sweeping the jobs `F` times in
table-index order and giving each still-unfinished job one block of
`min(remaining_time, q)` ticks, and the `completion_time` of every job is the
end of its last block.  With `q = 2`, A(0, 5), B(0, 3) the timeline is
A(0-2), B(2-4), A(4-6), B(6-7), A(7-8) with completions A = 8 and B = 7. -/
theorem machine_rr_equals_sweep (s : Sim) (F : Nat) (hq : 0 < s.time_quantum)
    (hs : int_safe s)
    (hv : ∀ p ∈ s.processes, p.arrival_time = 0 ∧ p.burst_time ≤ F)
    (hcap : rr_slices s ≤ MAX_PROCESSES) :
    (∃ fuel r, Machine.round_robin_scheduling fuel (strategy_input s) = some r ∧
      r.gantt_chart = (rr_sweeps s.time_quantum F (strategy_input s).processes).timeline ∧
      r.processes.length = s.processes.length ∧
      (∀ j, j < s.processes.length →
        (proc r.processes j).completion_time =
          (proc (rr_sweeps s.time_quantum F (strategy_input s).processes).table
            j).completion_time) ∧
      ∀ fuel2 r2, Machine.round_robin_scheduling fuel2 (strategy_input s) = some r2 → r2 = r) ∧
    (Machine.round_robin_scheduling 5
        (Sim.mk [mkProcess "A" 0 5 5 0, mkProcess "B" 0 3 5 1] [] 2 0)).map
      (fun r => (r.gantt_chart.map (fun b => (b.process_name, b.start_time, b.end_time)),
        r.processes.map (fun p => (p.name, p.completion_time)))) =
      some ([("A", 0, 2), ("B", 2, 4), ("A", 4, 6), ("B", 6, 7), ("A", 7, 8)],
        [("A", 8), ("B", 7)]) := by
  refine ⟨?_, by decide⟩
  have hr := strategy_input_safe s hs
  have hlen : (strategy_input s).processes.length = s.processes.length := by
    simp [strategy_input, reset_simulation]
  have hcap2 : rr_slices (strategy_input s) ≤ MAX_PROCESSES := by
    rw [rr_slices_strategy_input]; exact hcap
  have hv2 : ∀ p ∈ (strategy_input s).processes,
      p.arrival_time = 0 ∧ 0 < p.burst_time ∧ p.burst_time ≤ F := by
    intro p hp
    rw [strategy_input_processes] at hp
    obtain ⟨p0, hp0, rfl⟩ := List.mem_map.mp hp
    exact ⟨(hv p0 hp0).1, (hs p0 hp0).2.1, (hv p0 hp0).2⟩
  obtain ⟨⟨fuel, r, h1, h2, h3, h4, h5⟩, _⟩ :=
    round_robin_equals_sweep (strategy_input s) F hq hv2
  refine ⟨fuel, r, ?_, ?_, h3.trans hlen, ?_, ?_⟩
  · rw [machine_rr_scheduling_eq _ hr hq hcap2]; exact h1
  · rw [h2]; exact List.nil_append _
  · intro j hj
    exact h4 j (by rw [hlen]; exact hj)
  · intro fuel2 r2 hm
    rw [machine_rr_scheduling_eq _ hr hq hcap2] at hm
    exact h5 fuel2 r2 hm

/-- Witness for C3, amended: the two-job example with quantum 2 and five
sweeps; its five dispatches fit the queue array. -/
theorem machine_rr_equals_sweep_witness :
    (0 : Int) < 2 ∧
      int_safe (Sim.mk [mkProcess "A" 0 5 5 0, mkProcess "B" 0 3 5 1] [] 2 0) ∧
      (∀ p ∈ [mkProcess "A" 0 5 5 0, mkProcess "B" 0 3 5 1],
        p.arrival_time = 0 ∧ p.burst_time ≤ ((5 : Nat) : Int)) ∧
      rr_slices (Sim.mk [mkProcess "A" 0 5 5 0, mkProcess "B" 0 3 5 1] [] 2 0) = 5 ∧
      ∃ fuel r, Machine.round_robin_scheduling fuel (strategy_input
          (Sim.mk [mkProcess "A" 0 5 5 0, mkProcess "B" 0 3 5 1] [] 2 0)) = some r ∧
        r.gantt_chart =
          (rr_sweeps 2 5 (strategy_input
            (Sim.mk [mkProcess "A" 0 5 5 0, mkProcess "B" 0 3 5 1] [] 2 0)).processes).timeline :=
  ⟨by decide, by unfold int_safe; decide, by decide, by decide,
    let ⟨fuel, r, h1, h2, _⟩ :=
      (machine_rr_equals_sweep (Sim.mk [mkProcess "A" 0 5 5 0, mkProcess "B" 0 3 5 1] [] 2 0) 5
        (by decide) (by unfold int_safe; decide) (by decide) (by decide)).1
    ⟨fuel, r, h1, h2⟩⟩

/-- Claim C6 fails as stated: on A(arrival 0, burst 1073741824, priority 1),
B(0, 1073741824, 2) the second dispatch of `priority_scheduling` selects B at
`current_time = 1073741824` and stores `completion_time = -2147483648`, not
`current_time + burst_time = 2147483648`. -/
theorem priority_completion_counterexample :
    select_min (fun p => p.priority)
      (Machine.priority_state (strategy_input (Sim.mk [mkProcess "A" 0 1073741824 1 0,
        mkProcess "B" 0 1073741824 2 1] [] 2 0)) 1).sim.processes
      (Machine.priority_state (strategy_input (Sim.mk [mkProcess "A" 0 1073741824 1 0,
        mkProcess "B" 0 1073741824 2 1] [] 2 0)) 1).is_completed
      (Machine.priority_state (strategy_input (Sim.mk [mkProcess "A" 0 1073741824 1 0,
        mkProcess "B" 0 1073741824 2 1] [] 2 0)) 1).sim.current_time = some 1 ∧
    (Machine.priority_state (strategy_input (Sim.mk [mkProcess "A" 0 1073741824 1 0,
      mkProcess "B" 0 1073741824 2 1] [] 2 0)) 1).sim.current_time = 1073741824 ∧
    (Machine.priority_state (strategy_input (Sim.mk [mkProcess "A" 0 1073741824 1 0,
      mkProcess "B" 0 1073741824 2 1] [] 2 0)) 2).sim.processes.map
      (fun p => (p.name, p.start_time, p.burst_time, p.completion_time)) =
      [("A", 0, 1073741824, 1073741824), ("B", 1073741824, 1073741824, -2147483648)] := by
  decide

/-- Claim C6, amended: for every job table with `arrival_time >= 0` and
`burst_time > 0` on which no arrival time plus the sum of all burst times
reaches `INT_MAX` (and no priority is `INT_MAX`), at every dispatch of
`priority_scheduling` (any iteration `k` the loop performs, entered as
`simulate_scheduling` enters it, that selects a job `i`), the job chosen has
arrived and is not completed, has the minimum `priority` among the arrived,
uncompleted jobs, with the lowest table index among equal priorities; it gets
`start_time = current_time` and
`completion_time = current_time + burst_time`, and it is never interrupted:
its single block spans that interval, every block appended by a later
iteration starts at or after its completion, and no later iteration selects
it again. -/
theorem machine_priority_dispatch (s : Sim) (hs : int_safe s) (k i : Nat)
    (hk : loop_runs sel_cond (Machine.batch_body (fun p => p.priority))
      (sel_init (strategy_input s)) k)
    (h : select_min (fun p => p.priority)
      (Machine.priority_state (strategy_input s) k).sim.processes
      (Machine.priority_state (strategy_input s) k).is_completed
      (Machine.priority_state (strategy_input s) k).sim.current_time = some i) :
    (i < s.processes.length ∧
      flag (Machine.priority_state (strategy_input s) k).is_completed i = false ∧
      (proc (Machine.priority_state (strategy_input s) k).sim.processes i).arrival_time ≤
        (Machine.priority_state (strategy_input s) k).sim.current_time) ∧
    (∀ j, j < s.processes.length →
      flag (Machine.priority_state (strategy_input s) k).is_completed j = false →
      (proc (Machine.priority_state (strategy_input s) k).sim.processes j).arrival_time ≤
        (Machine.priority_state (strategy_input s) k).sim.current_time →
      (proc (Machine.priority_state (strategy_input s) k).sim.processes i).priority ≤
        (proc (Machine.priority_state (strategy_input s) k).sim.processes j).priority) ∧
    (∀ j, j < i → flag (Machine.priority_state (strategy_input s) k).is_completed j = false →
      (proc (Machine.priority_state (strategy_input s) k).sim.processes j).arrival_time ≤
        (Machine.priority_state (strategy_input s) k).sim.current_time →
      (proc (Machine.priority_state (strategy_input s) k).sim.processes i).priority <
        (proc (Machine.priority_state (strategy_input s) k).sim.processes j).priority) ∧
    (proc (Machine.priority_state (strategy_input s) (k + 1)).sim.processes i =
        { proc (Machine.priority_state (strategy_input s) k).sim.processes i with
          start_time := (Machine.priority_state (strategy_input s) k).sim.current_time
          completion_time := (Machine.priority_state (strategy_input s) k).sim.current_time +
            (proc (Machine.priority_state (strategy_input s) k).sim.processes i).burst_time } ∧
      (Machine.priority_state (strategy_input s) (k + 1)).sim.current_time =
        (Machine.priority_state (strategy_input s) k).sim.current_time +
          (proc (Machine.priority_state (strategy_input s) k).sim.processes i).burst_time) ∧
    (∀ m, loop_runs sel_cond (Machine.batch_body (fun p => p.priority))
        (sel_init (strategy_input s)) (k + 1 + m) →
      (∃ ext, (Machine.priority_state (strategy_input s) (k + 1 + m)).sim.gantt_chart =
        (Machine.priority_state (strategy_input s) k).sim.gantt_chart ++
          [mkBlock (proc (Machine.priority_state (strategy_input s) k).sim.processes i)
            (Machine.priority_state (strategy_input s) k).sim.current_time
            ((Machine.priority_state (strategy_input s) k).sim.current_time +
              (proc (Machine.priority_state (strategy_input s) k).sim.processes i).burst_time)]
            ++ ext ∧
        ∀ b ∈ ext, (Machine.priority_state (strategy_input s) k).sim.current_time +
          (proc (Machine.priority_state (strategy_input s) k).sim.processes i).burst_time ≤
            b.start_time) ∧
      select_min (fun p => p.priority)
        (Machine.priority_state (strategy_input s) (k + 1 + m)).sim.processes
        (Machine.priority_state (strategy_input s) (k + 1 + m)).is_completed
        (Machine.priority_state (strategy_input s) (k + 1 + m)).sim.current_time ≠ some i) := by
  have hr := strategy_input_safe s hs
  have hb := run_safe_below _ hr
  have hkb : ∀ p ∈ (strategy_input s).processes, (fun q : Process => q.priority) p < INT_MAX :=
    fun p hp => (hb p hp).2.2
  have E : ∀ j, loop_runs sel_cond (Machine.batch_body (fun p => p.priority))
      (sel_init (strategy_input s)) j →
      Machine.priority_state (strategy_input s) j = priority_state (strategy_input s) j :=
    fun j hj => (machine_batch_state_fit (fun p => p.priority) (fun _ _ _ => rfl) _ hr hkb j hj).1
  have hk1 := machine_batch_runs_succ (fun p => p.priority) (fun _ _ _ => rfl) _ hr hkb k i hk h
  have hlen : (strategy_input s).processes.length = s.processes.length := by
    simp [strategy_input, reset_simulation]
  rw [E k hk] at h ⊢
  rw [E (k + 1) hk1]
  obtain ⟨o1, o2, o3, o4, o5, o6⟩ := priority_dispatch_choice (strategy_input s) k i
    (fun p hp => (hr.1.2 p hp).2.1) h
  rw [hlen] at o1 o2
  refine ⟨o1, o2, o3, o4, ?_⟩
  intro m hm
  rw [E (k + 1 + m) hm]
  exact ⟨o5 m, o6 m⟩

/-- Witness for C6, amended: on the sample set the second dispatch selects P2
(index 1, priority 1), whose priority is no greater than that of P4 (index
3). -/
theorem machine_priority_dispatch_witness :
    int_safe (Sim.mk sample_processes [] 2 0) ∧
      loop_runs sel_cond (Machine.batch_body (fun p => p.priority))
        (sel_init (strategy_input (Sim.mk sample_processes [] 2 0))) 1 ∧
      select_min (fun p => p.priority)
        (Machine.priority_state (strategy_input (Sim.mk sample_processes [] 2 0)) 1).sim.processes
        (Machine.priority_state (strategy_input (Sim.mk sample_processes [] 2 0)) 1).is_completed
        (Machine.priority_state (strategy_input (Sim.mk sample_processes [] 2 0))
          1).sim.current_time = some 1 ∧
      (proc (Machine.priority_state (strategy_input (Sim.mk sample_processes [] 2 0))
          1).sim.processes 1).priority ≤
        (proc (Machine.priority_state (strategy_input (Sim.mk sample_processes [] 2 0))
          1).sim.processes 3).priority :=
  ⟨int_safe_sample, by unfold loop_runs; decide, by decide,
    (machine_priority_dispatch (Sim.mk sample_processes [] 2 0) int_safe_sample 1 1
      (by unfold loop_runs; decide) (by decide)).2.1 3 (by decide) (by decide) (by decide)⟩

/-- Claim C7 fails as stated: FCFS on the single job P1(arrival -2147483648,
burst 1) leaves `completion_time = 1`, and `calculate_times` then stores
`turnaround_time = -2147483647`, while `completion_time - arrival_time` is
2147483649, which no `int` holds. -/
theorem calculate_times_counterexample :
    (Machine.calculate_times (Machine.fcfs_scheduling (strategy_input
        (Sim.mk [mkProcess "P1" (-2147483648) 1 5 0] [] 2 0)))).processes.map
      (fun p => (p.completion_time, p.arrival_time, p.completion_time - p.arrival_time,
        p.turnaround_time)) =
      [(1, -2147483648, 2147483649, -2147483647)] := by
  decide

/-- Claim C7, amended: for every job table on which the differences
`completion_time - arrival_time`, `turnaround_time - burst_time` and (when
`start_time != -1`) `start_time - arrival_time` lie in the range of an `int`,
`calculate_times` sets for each process
`turnaround_time = completion_time - arrival_time`,
`waiting_time = max(0, turnaround_time - burst_time)` and
`response_time = max(0, start_time - arrival_time)` when `start_time != -1`
and 0 when `start_time = -1`, and changes no other field of any process nor
any other global. -/
theorem machine_calculate_times_spec (s : Sim)
    (h : ∀ p ∈ s.processes, in_int (p.completion_time - p.arrival_time) ∧
      in_int (p.completion_time - p.arrival_time - p.burst_time) ∧
      (p.start_time ≠ -1 → in_int (p.start_time - p.arrival_time))) :
    (Machine.calculate_times s).processes =
        s.processes.map (fun p =>
          { p with
            turnaround_time := p.completion_time - p.arrival_time
            waiting_time := max 0 (p.completion_time - p.arrival_time - p.burst_time)
            response_time :=
              if p.start_time = -1 then 0 else max 0 (p.start_time - p.arrival_time) }) ∧
      (Machine.calculate_times s).processes.length = s.processes.length ∧
      (Machine.calculate_times s).gantt_chart = s.gantt_chart ∧
      (Machine.calculate_times s).time_quantum = s.time_quantum ∧
      (Machine.calculate_times s).current_time = s.current_time := by
  refine ⟨?_, by simp [Machine.calculate_times], rfl, rfl, rfl⟩
  simp only [Machine.calculate_times]
  apply List.map_congr_left
  intro p hp
  obtain ⟨h1, h2, h3⟩ := h p hp
  have e : Machine.calculate_process p = calculate_process p := by
    simp only [Machine.calculate_process, calculate_process, int_sub_eq _ _ h1,
      int_sub_eq _ _ h2]
    by_cases hst : p.start_time = -1
    · simp [hst]
    · simp only [ne_eq, hst, not_false_eq_true, if_true, int_sub_eq _ _ (h3 hst)]
  rw [e]
  exact calculate_process_eq p

/-- Witness for C7, amended: the sample table after FCFS. -/
theorem machine_calculate_times_spec_witness :
    (Machine.calculate_times (Machine.fcfs_scheduling
        (strategy_input (Sim.mk sample_processes [] 2 0)))).processes.map
      (fun p => (p.turnaround_time, p.waiting_time, p.response_time)) =
      [(6, 0, 0), (9, 5, 5), (11, 8, 8), (12, 10, 10), (16, 11, 11)] :=
  (congrArg (fun l => l.map (fun p => (p.turnaround_time, p.waiting_time, p.response_time)))
    (machine_calculate_times_spec
      (Machine.fcfs_scheduling (strategy_input (Sim.mk sample_processes [] 2 0)))
      (by unfold in_int; decide)).1).trans (by decide)

/-- Claim C11 fails as stated: with two jobs both named A, A(0, 1) and
A(5, 1), the tick [5, 6) of `srtf_scheduling` executes the second job while
the last block A [0, 1) ends at 1, not at 5, and belongs to the first job;
yet no block is appended: the block becomes A [0, 6), which covers the idle
time unit 2 (the same happens in `preemptive_priority_scheduling`).  And on
the single job P1(arrival 2147483647, burst 1) the loop idles until the clock
is 2147483647, executes P1 and appends the block [2147483647, -2147483648),
whose end is not `t + 1`. -/
theorem machine_same_name_counterexample :
    ((Machine.tick_state (fun p => p.remaining_time)
        (Sim.mk [mkProcess "A" 0 1 5 0, mkProcess "A" 5 1 5 1] [] 2 0) 5).sim.current_time = 5 ∧
    select_min (fun p => p.remaining_time)
      (Machine.tick_state (fun p => p.remaining_time)
        (Sim.mk [mkProcess "A" 0 1 5 0, mkProcess "A" 5 1 5 1] [] 2 0) 5).sim.processes
      (Machine.tick_state (fun p => p.remaining_time)
        (Sim.mk [mkProcess "A" 0 1 5 0, mkProcess "A" 5 1 5 1] [] 2 0) 5).is_completed
      5 = some 1 ∧
    (Machine.tick_state (fun p => p.remaining_time)
        (Sim.mk [mkProcess "A" 0 1 5 0, mkProcess "A" 5 1 5 1] [] 2 0)
        5).sim.gantt_chart.map (fun b => (b.process_name, b.start_time, b.end_time)) =
      [("A", 0, 1)] ∧
    (Machine.tick_state (fun p => p.remaining_time)
        (Sim.mk [mkProcess "A" 0 1 5 0, mkProcess "A" 5 1 5 1] [] 2 0)
        6).sim.gantt_chart.map (fun b => (b.process_name, b.start_time, b.end_time)) =
      [("A", 0, 6)] ∧
    select_min (fun p => p.remaining_time)
      (Machine.tick_state (fun p => p.remaining_time)
        (Sim.mk [mkProcess "A" 0 1 5 0, mkProcess "A" 5 1 5 1] [] 2 0) 2).sim.processes
      (Machine.tick_state (fun p => p.remaining_time)
        (Sim.mk [mkProcess "A" 0 1 5 0, mkProcess "A" 5 1 5 1] [] 2 0) 2).is_completed
      2 = none ∧
    (Machine.simulate_scheduling 6 .SRTF
        (Sim.mk [mkProcess "A" 0 1 5 0, mkProcess "A" 5 1 5 1] [] 2 0)).map
        (fun r => r.gantt_chart.map (fun b => (b.process_name, b.start_time, b.end_time))) =
      some [("A", 0, 6)] ∧
    (Machine.simulate_scheduling 6 .PREEMPTIVE_PRIORITY
        (Sim.mk [mkProcess "A" 0 1 5 0, mkProcess "A" 5 1 5 1] [] 2 0)).map
        (fun r => r.gantt_chart.map (fun b => (b.process_name, b.start_time, b.end_time))) =
      some [("A", 0, 6)]) ∧
    ((Machine.tick_state (fun p => p.remaining_time)
        (Sim.mk [mkProcess "P1" 2147483647 1 5 0] [] 2 0) 2147483647).sim.current_time =
      2147483647 ∧
    select_min (fun p => p.remaining_time)
      (Machine.tick_state (fun p => p.remaining_time)
        (Sim.mk [mkProcess "P1" 2147483647 1 5 0] [] 2 0) 2147483647).sim.processes
      (Machine.tick_state (fun p => p.remaining_time)
        (Sim.mk [mkProcess "P1" 2147483647 1 5 0] [] 2 0) 2147483647).is_completed
      2147483647 = some 0 ∧
    (Machine.tick_state (fun p => p.remaining_time)
        (Sim.mk [mkProcess "P1" 2147483647 1 5 0] [] 2 0) 2147483647).sim.gantt_chart = [] ∧
    (Machine.tick_state (fun p => p.remaining_time)
        (Sim.mk [mkProcess "P1" 2147483647 1 5 0] [] 2 0)
        2147483648).sim.gantt_chart.map (fun b => (b.process_name, b.start_time, b.end_time)) =
      [("P1", 2147483647, -2147483648)]) := by
  refine ⟨by decide, ?_⟩
  have e := (machine_tick_idle (fun p => p.remaining_time) 2147483647
    (tick_init (Sim.mk [mkProcess "P1" 2147483647 1 5 0] [] 2 0))
    (by decide) (by decide) (by decide) (by decide)).2
  have e1 : Machine.tick_state (fun p => p.remaining_time)
      (Sim.mk [mkProcess "P1" 2147483647 1 5 0] [] 2 0) 2147483647 = _ := e
  have e2 : Machine.tick_state (fun p => p.remaining_time)
      (Sim.mk [mkProcess "P1" 2147483647 1 5 0] [] 2 0) 2147483648 =
      Machine.tick_body (fun p => p.remaining_time)
        (Machine.tick_state (fun p => p.remaining_time)
          (Sim.mk [mkProcess "P1" 2147483647 1 5 0] [] 2 0) 2147483647) :=
    Function.iterate_succ_apply' (Machine.tick_body (fun p => p.remaining_time)) 2147483647
      (tick_init (Sim.mk [mkProcess "P1" 2147483647 1 5 0] [] 2 0))
  rw [e2, e1]
  decide

/-- Claim C11, amended: in `srtf_scheduling` and
`preemptive_priority_scheduling`, entered as `simulate_scheduling` enters them
with a job table whose names are pairwise distinct, with `arrival_time >= 0`
and `burst_time > 0`, on which no arrival time plus the sum of all burst times
reaches `INT_MAX` (and no priority is `INT_MAX`): iteration `k` of the loop is
the tick `[k, k + 1)`; when it executes job `i`, the last timeline block is
extended by one unit exactly when it carries the name of `i`, and then its
`end_time` equals `k`, while in every other case (no block yet, or another
name) the block `[k, k + 1)` of `i` is appended.  Consequently every time unit
covered by a block of the timeline is a tick that executed the process of the
block's name: no block covers an idle unit or a unit of another process. -/
theorem machine_tick_blocks (s : Sim) (hs : int_safe s) (hn : names_distinct s.processes)
    (k : Nat) :
    (loop_runs sel_cond (Machine.tick_body (fun p => p.remaining_time))
        (tick_init (strategy_input s)) k →
      (Machine.tick_state (fun p => p.remaining_time) (strategy_input s) k).sim.current_time =
        k ∧
      (∀ i, select_min (fun p => p.remaining_time)
          (Machine.tick_state (fun p => p.remaining_time) (strategy_input s) k).sim.processes
          (Machine.tick_state (fun p => p.remaining_time) (strategy_input s) k).is_completed
          (Machine.tick_state (fun p => p.remaining_time)
            (strategy_input s) k).sim.current_time = some i →
        tick_block_rule (Machine.tick_state (fun p => p.remaining_time) (strategy_input s) k)
          (Machine.tick_state (fun p => p.remaining_time) (strategy_input s) (k + 1)) i) ∧
      (∀ b ∈ (Machine.tick_state (fun p => p.remaining_time)
          (strategy_input s) k).sim.gantt_chart, ∀ u : Nat,
        b.start_time ≤ u → (u : Int) < b.end_time →
          u < k ∧ Machine.tick_ran (fun p => p.remaining_time) (strategy_input s) u
            b.process_name)) ∧
    (loop_runs sel_cond (Machine.tick_body (fun p => p.priority))
        (tick_init (strategy_input s)) k →
      (Machine.tick_state (fun p => p.priority) (strategy_input s) k).sim.current_time = k ∧
      (∀ i, select_min (fun p => p.priority)
          (Machine.tick_state (fun p => p.priority) (strategy_input s) k).sim.processes
          (Machine.tick_state (fun p => p.priority) (strategy_input s) k).is_completed
          (Machine.tick_state (fun p => p.priority) (strategy_input s) k).sim.current_time =
            some i →
        tick_block_rule (Machine.tick_state (fun p => p.priority) (strategy_input s) k)
          (Machine.tick_state (fun p => p.priority) (strategy_input s) (k + 1)) i) ∧
      (∀ b ∈ (Machine.tick_state (fun p => p.priority) (strategy_input s) k).sim.gantt_chart,
        ∀ u : Nat, b.start_time ≤ u → (u : Int) < b.end_time →
          u < k ∧ Machine.tick_ran (fun p => p.priority) (strategy_input s) u
            b.process_name)) :=
  ⟨machine_tick_blocks_key _ tick_key_remaining s hs hn k,
    machine_tick_blocks_key _ tick_key_priority s hs hn k⟩

/-- Witness for C11, amended: on the sample table the tick [2, 3) of SRTF
executes P2 again and extends its block [1, 2) to [1, 3). -/
theorem machine_tick_blocks_witness :
    int_safe (Sim.mk sample_processes [] 2 0) ∧ names_distinct sample_processes ∧
    loop_runs sel_cond (Machine.tick_body (fun p => p.remaining_time))
      (tick_init (strategy_input (Sim.mk sample_processes [] 2 0))) 2 ∧
    (Machine.tick_state (fun p => p.remaining_time)
        (strategy_input (Sim.mk sample_processes [] 2 0)) 3).sim.gantt_chart =
      (Machine.tick_state (fun p => p.remaining_time)
        (strategy_input (Sim.mk sample_processes [] 2 0)) 2).sim.gantt_chart.dropLast ++
        [{ mkBlock (mkProcess "P2" 1 4 1 1) 1 2 with
            end_time := (Machine.tick_state (fun p => p.remaining_time)
              (strategy_input (Sim.mk sample_processes [] 2 0)) 2).sim.current_time + 1 }] :=
  ⟨int_safe_sample, names_distinct_sample, by unfold loop_runs; decide,
    ((((machine_tick_blocks (Sim.mk sample_processes [] 2 0) int_safe_sample
      names_distinct_sample 2).1 (by unfold loop_runs; decide)).2.1 1 (by decide)).1
        (mkBlock (mkProcess "P2" 1 4 1 1) 1 2) (by decide) (by decide)).2⟩

set_option maxRecDepth 100000 in
/-- Claim C12 fails on the code: with quantum 2 on P1(arrival 0, burst 101),
P2(99, 1) the queue has been written 50 times after 49 iterations
(`rear = 50 = MAX_PROCESSES`); the 50th iteration runs P1 from 98 to 100 with
work left, finds P2 not queued with `arrival_time <= 100`, and writes P2 to
the cell of index 50 and P1 to the cell of index 51, both outside
`queue[MAX_PROCESSES]`. -/
theorem rr_reentry_overrun :
    (Machine.rr_state (Sim.mk [mkProcess "P1" 0 101 5 0, mkProcess "P2" 99 1 5 1] [] 2 0)
      49).rear = MAX_PROCESSES ∧
    (Machine.rr_state (Sim.mk [mkProcess "P1" 0 101 5 0, mkProcess "P2" 99 1 5 1] [] 2 0)
      49).live = [0] ∧
    (Machine.rr_state (Sim.mk [mkProcess "P1" 0 101 5 0, mkProcess "P2" 99 1 5 1] [] 2 0)
      49).sim.current_time = 98 ∧
    (Machine.rr_state (Sim.mk [mkProcess "P1" 0 101 5 0, mkProcess "P2" 99 1 5 1] [] 2 0)
      50).sim.current_time = 100 ∧
    (proc (Machine.rr_state (Sim.mk [mkProcess "P1" 0 101 5 0, mkProcess "P2" 99 1 5 1] [] 2 0)
      50).sim.processes 0).remaining_time = 1 ∧
    (Machine.rr_state (Sim.mk [mkProcess "P1" 0 101 5 0, mkProcess "P2" 99 1 5 1] [] 2 0)
      50).queue =
      (Machine.rr_state (Sim.mk [mkProcess "P1" 0 101 5 0, mkProcess "P2" 99 1 5 1] [] 2 0)
        49).queue ++ [1, 0] ∧
    (Machine.rr_state (Sim.mk [mkProcess "P1" 0 101 5 0, mkProcess "P2" 99 1 5 1] [] 2 0)
      50).rear = 52 := by
  decide

/-- Claim C13 fails as stated: in the first enqueue loop on the sample table,
between the statements `queue[rear++] = i;` and `in_queue[i] = 1;` of the
iteration `i = 0`, the live part of the queue holds job 0 while
`in_queue[0]` is still 0; the second statement then sets it. -/
theorem rr_enqueue_mid_counterexample :
    rr_enqueue_write true (sample_processes.map reset_remaining) 0
        ([], List.replicate 5 false) 0 = ([0], [false, false, false, false, false]) ∧
    flag (rr_enqueue_write true (sample_processes.map reset_remaining) 0
        ([], List.replicate 5 false) 0).2 0 = false ∧
    rr_enqueue_step true (sample_processes.map reset_remaining) 0
        ([], List.replicate 5 false) 0 = ([0], [true, false, false, false, false]) := by
  decide

/-- Claim C13, amended: in `round_robin_scheduling`, for every job table with
`burst_time > 0` (an `int`, so at most `INT_MAX`) and every quantum `q > 0`,
in the state after any number `k` of loop iterations (among them the state the
loop exits with) whose queue cells written lie inside the queue array
(`rear <= MAX_PROCESSES`), the live part of the ready queue (positions
`front .. rear - 1`) contains each job index at most once, contains only
indices of the table whose job is not finished (`remaining_time > 0`), and
`in_queue[i] = 1` holds for every job in it. -/
theorem machine_live_queue_sound (s : Sim) (hq : 0 < s.time_quantum)
    (hb : ∀ p ∈ s.processes, 0 < p.burst_time ∧ p.burst_time ≤ INT_MAX) :
    (∀ k, (Machine.rr_state s k).rear ≤ MAX_PROCESSES →
      (Machine.rr_state s k).live.Nodup ∧
      ∀ i ∈ (Machine.rr_state s k).live, i < (Machine.rr_state s k).sim.processes.length ∧
        0 < (proc (Machine.rr_state s k).sim.processes i).remaining_time ∧
        flag (Machine.rr_state s k).in_queue i = true) ∧
    (∀ fuel st, while_loop rr_cond Machine.rr_body fuel (rr_init s) = some st →
      ∃ k, st = Machine.rr_state s k) := by
  refine ⟨fun k _ => ?_, fun fuel st h => ?_⟩
  · obtain ⟨⟨_, q1, q2, q3⟩, _⟩ := machine_rr_queue_state s hq hb k
    exact ⟨q1, fun i hi => ⟨(q2 i hi).1, (q2 i hi).2, (q3 i (q2 i hi).1).mpr hi⟩⟩
  · obtain ⟨k, hk, _⟩ := while_loop_iterate rr_cond Machine.rr_body fuel _ st h
    exact ⟨k, hk⟩

/-- Witness for C13, amended: the sample table with quantum 2 after two
iterations, where five cells of the queue are written and the live queue is
P3, P1, P4, P5, P2. -/
theorem machine_live_queue_sound_witness :
    (Machine.rr_state (Sim.mk sample_processes [] 2 0) 2).rear ≤ MAX_PROCESSES ∧
    (Machine.rr_state (Sim.mk sample_processes [] 2 0) 2).live = [2, 0, 3, 4, 1] ∧
    (Machine.rr_state (Sim.mk sample_processes [] 2 0) 2).live.Nodup :=
  ⟨by decide, by decide, ((machine_live_queue_sound (Sim.mk sample_processes [] 2 0) (by decide)
    (by decide)).1 2 (by decide)).1⟩

/-- Claim C16: for every job table, `reset_simulation` sets, for every process,
`remaining_time = burst_time`, `start_time = -1`, `completion_time = 0`,
`waiting_time = 0`, `turnaround_time = 0` and `response_time = -1`, empties the
timeline (`gantt_count = 0`) and sets the clock to 0, while leaving
`process_count`, the quantum and each process's name, `arrival_time`,
`burst_time`, `priority`, `process_id` and colour unchanged; applying it twice
equals applying it once. -/
theorem reset_simulation_spec (s : Sim) :
    (reset_simulation s).process_count = s.process_count ∧
    (∀ i, i < s.processes.length →
      (proc (reset_simulation s).processes i).remaining_time = (proc s.processes i).burst_time ∧
      (proc (reset_simulation s).processes i).start_time = -1 ∧
      (proc (reset_simulation s).processes i).completion_time = 0 ∧
      (proc (reset_simulation s).processes i).waiting_time = 0 ∧
      (proc (reset_simulation s).processes i).turnaround_time = 0 ∧
      (proc (reset_simulation s).processes i).response_time = -1 ∧
      (proc (reset_simulation s).processes i).name = (proc s.processes i).name ∧
      (proc (reset_simulation s).processes i).arrival_time = (proc s.processes i).arrival_time ∧
      (proc (reset_simulation s).processes i).burst_time = (proc s.processes i).burst_time ∧
      (proc (reset_simulation s).processes i).priority = (proc s.processes i).priority ∧
      (proc (reset_simulation s).processes i).process_id = (proc s.processes i).process_id ∧
      (proc (reset_simulation s).processes i).color = (proc s.processes i).color) ∧
    (reset_simulation s).gantt_count = 0 ∧
    (reset_simulation s).current_time = 0 ∧
    (reset_simulation s).time_quantum = s.time_quantum ∧
    reset_simulation (reset_simulation s) = reset_simulation s := by
  refine ⟨by simp [Sim.process_count, reset_simulation], ?_, rfl, rfl, rfl, ?_⟩
  · intro i hi
    have : proc (reset_simulation s).processes i = reset_process (proc s.processes i) := by
      simp only [reset_simulation]
      exact proc_congr_map _ _ _ hi
    rw [this]
    exact ⟨rfl, rfl, rfl, rfl, rfl, rfl, rfl, rfl, rfl, rfl, rfl, rfl⟩
  · simp only [reset_simulation, List.map_map]
    congr 1

/-- Claim C17 fails on the code at the sentinel value: a single job whose
`burst_time` is `INT_MAX` (arrival 0) is never selected by the strict
comparison against the initial minimum of `sjf_scheduling` and
`srtf_scheduling`, and a single job whose `arrival_time` is `INT_MAX` (burst 1,
quantum 2) is never found by the next-arrival search of
`round_robin_scheduling`; in each case the main loop never reaches
`completed = process_count`, whatever the number of iterations allowed. -/
theorem sentinel_job_never_completes :
    (∀ fuel, simulate_scheduling fuel .SJF
      (Sim.mk [mkProcess "P1" 0 2147483647 5 0] [] 2 0) = none) ∧
    (∀ fuel, simulate_scheduling fuel .SRTF
      (Sim.mk [mkProcess "P1" 0 2147483647 5 0] [] 2 0) = none) ∧
    (∀ fuel, simulate_scheduling fuel .ROUND_ROBIN
      (Sim.mk [mkProcess "P1" 2147483647 1 5 0] [] 2 0) = none) := by
  refine ⟨fun fuel => ?_, fun fuel => ?_, fun fuel => ?_⟩
  · have h := sel_stuck (fun p => p.burst_time) (batch_body (fun p => p.burst_time))
      (mkProcess "P1" 0 2147483647 5 0) rfl
      (fun st hn => by simp only [batch_body, hn]) fuel [] 2 0
    show Option.map calculate_times (Option.map (fun st => st.sim)
      (while_loop sel_cond (batch_body (fun p => p.burst_time)) fuel
        ⟨⟨[mkProcess "P1" 0 2147483647 5 0], [], 2, 0⟩, 0, [false]⟩)) = none
    rw [h]
    rfl
  · have h := sel_stuck (fun p => p.remaining_time) (tick_body (fun p => p.remaining_time))
      (mkProcess "P1" 0 2147483647 5 0) rfl
      (fun st hn => by simp only [tick_body, hn]) fuel [] 2 0
    show Option.map calculate_times (Option.map (fun st => st.sim)
      (while_loop sel_cond (tick_body (fun p => p.remaining_time)) fuel
        ⟨⟨[mkProcess "P1" 0 2147483647 5 0], [], 2, 0⟩, 0, [false]⟩)) = none
    rw [h]
    rfl
  · have h := while_loop_stuck rr_cond rr_body
      (fun st => st = (⟨⟨[mkProcess "P1" 2147483647 1 5 0], [], 2, 0⟩, 0, [], 0, [false]⟩ :
        RRState))
      (by
        intro st h
        subst h
        exact ⟨by decide, by decide⟩) fuel _ rfl
    show Option.map calculate_times (Option.map (fun st => st.sim)
      (while_loop rr_cond rr_body fuel
        ⟨⟨[mkProcess "P1" 2147483647 1 5 0], [], 2, 0⟩, 0, [], 0, [false]⟩)) = none
    rw [h]
    rfl

/-- Claim C18 fails as stated: confirming the dialog with burst time 0 on the
empty table stores the process, so the table afterwards holds a process whose
`burst_time` is not greater than 0. -/
theorem add_zero_burst_counterexample :
    (on_add_process_clicked (Sim.mk [] [] 2 0) (AddInput.mk true "P1" 0 0 5)).processes =
        [mkProcess "P1" 0 0 5 0] ∧
      ¬ (∀ p ∈ (on_add_process_clicked (Sim.mk [] [] 2 0)
            (AddInput.mk true "P1" 0 0 5)).processes, 0 < p.burst_time) := by
  decide

/-- Claim C18, amended: the add operation does not validate `burst_time`.
Whenever the table holds fewer than 50 processes and the dialog is confirmed,
the process is appended with `burst_time` and `remaining_time` equal to the
entered value, whatever its sign; the table is left as it was only when it is
full or the dialog is cancelled. -/
theorem add_stores_any_burst (s : Sim) (inp : AddInput) :
    (s.process_count < MAX_PROCESSES → inp.ok = true →
      (on_add_process_clicked s inp).processes =
          s.processes ++ [added_process s.process_count inp] ∧
        (added_process s.process_count inp).burst_time = inp.burst ∧
        (added_process s.process_count inp).remaining_time = inp.burst) ∧
    (MAX_PROCESSES ≤ s.process_count ∨ inp.ok = false → on_add_process_clicked s inp = s) := by
  refine ⟨fun h hok => ⟨?_, rfl, rfl⟩, ?_⟩
  · rw [on_add_ok s inp h hok]; rfl
  · rintro (h | h)
    · exact on_add_full s inp h
    · exact on_add_cancel s inp h

/-- Witness for C18, amended: a process with burst time -3 is appended to the
sample table. -/
theorem add_stores_any_burst_witness :
    (on_add_process_clicked (Sim.mk sample_processes [] 2 0)
        (AddInput.mk true "P6" 7 (-3) 5)).processes =
      sample_processes ++ [added_process 5 (AddInput.mk true "P6" 7 (-3) 5)] ∧
    (added_process 5 (AddInput.mk true "P6" 7 (-3) 5)).burst_time = -3 :=
  have h := (add_stores_any_burst (Sim.mk sample_processes [] 2 0)
    (AddInput.mk true "P6" 7 (-3) 5)).1 (by decide) rfl
  ⟨h.1, h.2.1⟩

/-- Claim C19: a run request for any of the six algorithms on an empty job
table (`process_count = 0`) is refused before any state mutation: whatever the
fuel and the quantum dialog would give, the globals (job table, timeline and
its count, clock, stored quantum) are returned exactly as they were, although
`simulate_scheduling` itself would clear the timeline and the clock. -/
theorem run_on_empty_table_refused (fuel : Nat) (algo : SchedulingAlgorithm)
    (quantum : Option Int) (s : Sim) (h : s.process_count = 0) :
    on_run_algorithm_clicked fuel algo quantum s = some s ∧
    (simulate_scheduling fuel algo s).map (fun r => (r.gantt_chart, r.current_time)) =
      some ([], 0) := by
  have hl : s.processes.length = 0 := h
  have hnil : s.processes = [] := List.length_eq_zero.mp hl
  refine ⟨by simp [on_run_algorithm_clicked, hl], ?_⟩
  rw [simulate_scheduling_eq]
  cases algo <;>
    simp [strategy_input, reset_simulation, hnil, fcfs_scheduling, fcfs_sort, sjf_scheduling,
      srtf_scheduling, priority_scheduling, round_robin_scheduling,
      preemptive_priority_scheduling, sel_init, tick_init, rr_init, rr_enqueue,
      while_loop_done, sel_cond, rr_cond, calculate_times]

/-- Witness for C19: an empty table that still carries a timeline and a clock
from an earlier run. -/
theorem run_on_empty_table_refused_witness :
    (Sim.mk [] [mkBlock (mkProcess "P1" 0 6 5 0) 0 6] 2 6).process_count = 0 ∧
      on_run_algorithm_clicked 0 .ROUND_ROBIN (some 4)
          (Sim.mk [] [mkBlock (mkProcess "P1" 0 6 5 0) 0 6] 2 6) =
        some (Sim.mk [] [mkBlock (mkProcess "P1" 0 6 5 0) 0 6] 2 6) :=
  ⟨rfl, (run_on_empty_table_refused 0 .ROUND_ROBIN (some 4)
    (Sim.mk [] [mkBlock (mkProcess "P1" 0 6 5 0) 0 6] 2 6) rfl).1⟩

/-- Claim C20: adding a process when the table already holds 50 processes
fails and leaves the globals (job table, timeline, clock, quantum) as they
were; when the table holds fewer than 50, a confirmed add increases
`process_count` by exactly 1 and puts the new process at the end: the cell
with the first 19 bytes of the entered name (the whole name when it has at
most 19), the entered arrival and burst times, the entered priority clamped to
`[1, 10]`, `remaining_time = burst_time`, `process_id = process_count + 1`,
colour `process_count % 10` and the derived fields reset; all earlier entries,
the timeline, the clock and the quantum stay as they were, and a cancelled
dialog changes nothing; so from a table of at most 50 processes no sequence of
add operations makes `process_count` exceed 50. -/
theorem add_appends_entered_process (s : Sim) (inp : AddInput) :
    (MAX_PROCESSES ≤ s.process_count → on_add_process_clicked s inp = s) ∧
    (s.process_count < MAX_PROCESSES → inp.ok = true →
      (on_add_process_clicked s inp).process_count = s.process_count + 1 ∧
      (on_add_process_clicked s inp).processes = s.processes ++
        [{ name := String.mk (inp.name.data.take 19)
           arrival_time := inp.arrival
           burst_time := inp.burst
           priority := min 10 (max 1 inp.priority)
           remaining_time := inp.burst
           start_time := -1
           completion_time := 0
           waiting_time := 0
           turnaround_time := 0
           response_time := -1
           process_id := s.process_count + 1
           color := s.process_count % 10 }] ∧
      (inp.name.length ≤ 19 →
        (proc (on_add_process_clicked s inp).processes s.process_count).name = inp.name) ∧
      (∀ i, i < s.process_count →
        proc (on_add_process_clicked s inp).processes i = proc s.processes i) ∧
      (on_add_process_clicked s inp).gantt_chart = s.gantt_chart ∧
      (on_add_process_clicked s inp).current_time = s.current_time ∧
      (on_add_process_clicked s inp).time_quantum = s.time_quantum) ∧
    (inp.ok = false → on_add_process_clicked s inp = s) ∧
    (s.process_count ≤ MAX_PROCESSES → ∀ inputs : List AddInput,
      (inputs.foldl on_add_process_clicked s).process_count ≤ MAX_PROCESSES) := by
  refine ⟨fun h => on_add_full s inp h, fun h hok => ?_, fun h => on_add_cancel s inp h,
    fun h inputs => on_add_foldl_length_le inputs s h⟩
  rw [on_add_ok s inp h hok]
  refine ⟨by simp [Sim.process_count], ?_, ?_, ?_, rfl, rfl, rfl⟩
  · show s.processes ++ [added_process s.processes.length inp] = _
    congr 2
    simp only [added_process, MAX_NAME_LEN, clamp_priority_eq, Sim.process_count]
  · intro hl
    have h1 : proc (s.processes ++ [added_process s.processes.length inp]) s.process_count =
        added_process s.processes.length inp := by
      simp [proc, Sim.process_count]
    show (proc (s.processes ++ [added_process s.processes.length inp]) s.process_count).name = _
    rw [h1]
    show String.mk (inp.name.data.take (MAX_NAME_LEN - 1)) = inp.name
    have h2 : inp.name.data.length ≤ MAX_NAME_LEN - 1 := hl
    rw [List.take_of_length_le h2]
  · intro i hi
    have hi2 : i < s.processes.length := hi
    simp [proc, List.getD_eq_getElem?_getD, List.getElem?_append_left hi2]

set_option maxRecDepth 100000 in
/-- Witness for C20: the table that 50 confirmed adds build from the empty
table refuses the next add; the sample table of 5 grows to 6, and its new
last cell carries the entered values with the priority 15 clamped to 10. -/
theorem add_appends_entered_process_witness :
    ((List.range 50).foldl
        (fun s (i : Nat) => on_add_process_clicked s (AddInput.mk true "P" i 5 5))
        (Sim.mk [] [] 2 0)).process_count = 50 ∧
    on_add_process_clicked
        ((List.range 50).foldl
          (fun s (i : Nat) => on_add_process_clicked s (AddInput.mk true "P" i 5 5))
          (Sim.mk [] [] 2 0))
        (AddInput.mk true "Q" 0 1 5) =
      (List.range 50).foldl
        (fun s (i : Nat) => on_add_process_clicked s (AddInput.mk true "P" i 5 5))
        (Sim.mk [] [] 2 0) ∧
    (on_add_process_clicked (Sim.mk sample_processes [] 2 0)
        (AddInput.mk true "P6" 7 3 15)).processes =
      sample_processes ++ [mkProcess "P6" 7 3 10 5] :=
  ⟨by decide,
    (add_appends_entered_process
      ((List.range 50).foldl
        (fun s (i : Nat) => on_add_process_clicked s (AddInput.mk true "P" i 5 5))
        (Sim.mk [] [] 2 0))
      (AddInput.mk true "Q" 0 1 5)).1 (by decide),
   (((add_appends_entered_process (Sim.mk sample_processes [] 2 0)
      (AddInput.mk true "P6" 7 3 15)).2.1 (by decide) rfl).2.1).trans (by decide)⟩

/-- Claim C21: for every job table of `n` processes and every index `i < n`,
deleting the selected row `i` yields the table of `n - 1` processes made of
the cells formerly at `0 .. i - 1` followed by the cells formerly at
`i + 1 .. n - 1`, each cell as it was (the other globals are not touched); a
delete without a selected row, or on the empty table, leaves the globals as
they were. -/
theorem delete_keeps_order (s : Sim) :
    (∀ i, i < s.process_count →
      (on_delete_process_clicked s (some i)).processes =
        s.processes.take i ++ s.processes.drop (i + 1) ∧
      (on_delete_process_clicked s (some i)).process_count = s.process_count - 1 ∧
      (on_delete_process_clicked s (some i)).gantt_chart = s.gantt_chart ∧
      (on_delete_process_clicked s (some i)).current_time = s.current_time ∧
      (on_delete_process_clicked s (some i)).time_quantum = s.time_quantum) ∧
    on_delete_process_clicked s none = s ∧
    (s.process_count = 0 → ∀ selected, on_delete_process_clicked s selected = s) := by
  refine ⟨fun i hi => ?_, ?_, fun h0 selected => ?_⟩
  · have hi2 : i < s.processes.length := hi
    have hne : s.processes.length ≠ 0 := by omega
    refine ⟨on_delete_selected s i hi2, ?_, ?_, ?_, ?_⟩
    · show (on_delete_process_clicked s (some i)).processes.length = s.processes.length - 1
      rw [on_delete_selected s i hi2]
      simp only [List.length_append, List.length_take, List.length_drop]
      omega
    · simp only [on_delete_process_clicked, hne, if_false]
    · simp only [on_delete_process_clicked, hne, if_false]
    · simp only [on_delete_process_clicked, hne, if_false]
  · unfold on_delete_process_clicked
    split <;> rfl
  · have : s.processes.length = 0 := h0
    simp only [on_delete_process_clicked, this, if_true]

/-- Witness for C21: deleting row 1 (P2) of the sample table leaves P1, P3,
P4, P5. -/
theorem delete_keeps_order_witness :
    (on_delete_process_clicked (Sim.mk sample_processes [] 2 0) (some 1)).processes =
      [mkProcess "P1" 0 6 3 0, mkProcess "P3" 2 3 4 2, mkProcess "P4" 3 2 2 3,
        mkProcess "P5" 4 5 5 4] :=
  ((delete_keeps_order (Sim.mk sample_processes [] 2 0)).1 1 (by decide)).1.trans (by decide)

/-- Claim C22: for every integer priority `p` entered, the process the add
operation stores has `priority = min(10, max(1, p))`; the stored priority
lies in `[1, 10]` and equals `p` when `p` is already in that range. -/
theorem add_clamps_priority (s : Sim) (inp : AddInput) :
    (s.process_count < MAX_PROCESSES → inp.ok = true →
      proc (on_add_process_clicked s inp).processes s.process_count =
        added_process s.process_count inp) ∧
    (added_process s.process_count inp).priority = min 10 (max 1 inp.priority) ∧
    1 ≤ (added_process s.process_count inp).priority ∧
    (added_process s.process_count inp).priority ≤ 10 ∧
    (1 ≤ inp.priority → inp.priority ≤ 10 →
      (added_process s.process_count inp).priority = inp.priority) := by
  have hp : (added_process s.process_count inp).priority = min 10 (max 1 inp.priority) :=
    clamp_priority_eq inp.priority
  refine ⟨fun h hok => ?_, hp, ?_, ?_, ?_⟩
  · rw [on_add_ok s inp h hok]
    simp [proc, Sim.process_count]
  · rw [hp]; simp only [min_def, max_def]; split_ifs <;> omega
  · rw [hp]; simp only [min_def, max_def]; split_ifs <;> omega
  · intro h1 h2
    rw [hp]; simp only [min_def, max_def]; split_ifs <;> omega

/-- Witness for C22: priority 15 entered on the sample table is stored as 10,
and priority 7 is stored as it is. -/
theorem add_clamps_priority_witness :
    proc (on_add_process_clicked (Sim.mk sample_processes [] 2 0)
        (AddInput.mk true "P6" 0 1 15)).processes 5 =
      mkProcess "P6" 0 1 10 5 ∧
    (added_process 5 (AddInput.mk true "P6" 0 1 7)).priority = 7 :=
  ⟨((add_clamps_priority (Sim.mk sample_processes [] 2 0)
      (AddInput.mk true "P6" 0 1 15)).1 (by decide) rfl).trans (by decide),
    (add_clamps_priority (Sim.mk sample_processes [] 2 0)
      (AddInput.mk true "P6" 0 1 7)).2.2.2.2 (by decide) (by decide)⟩

set_option maxRecDepth 100000 in
/-- Claim C24 fails on the code: with the default quantum 2 and the single job
P1(arrival 0, burst 101) the ready queue has been written 50 times after 49
loop iterations (`rear = 50 = MAX_PROCESSES`), the job at its head is still
unfinished, and the re-entry of the next iteration writes the cell of index
50, the 51st enqueue of the run. -/
theorem rr_queue_overrun :
    (rr_state (Sim.mk [mkProcess "P1" 0 101 5 0] [] 2 0) 49).rear = MAX_PROCESSES ∧
    (rr_state (Sim.mk [mkProcess "P1" 0 101 5 0] [] 2 0) 49).live = [0] ∧
    rr_cond (rr_state (Sim.mk [mkProcess "P1" 0 101 5 0] [] 2 0) 49) = true ∧
    (rr_state (Sim.mk [mkProcess "P1" 0 101 5 0] [] 2 0) 50).queue =
      (rr_state (Sim.mk [mkProcess "P1" 0 101 5 0] [] 2 0) 49).queue ++ [0] ∧
    (rr_state (Sim.mk [mkProcess "P1" 0 101 5 0] [] 2 0) 50).rear = 51 := by
  decide

/-- Claim C26 fails as stated: on P1(arrival 0, burst 2, priority 2),
P2(0, 3, 1), P3(3, 1, 1), P4(3, 1, 1) the waiting times after SJF are
0, 2, 2, 3 (sum 7), after non-preemptive Priority 5, 0, 0, 1 (sum 6); and on
A(0, 1073741824), B(0, 1073741824), C(0, 1), where the clock overflows, the
waiting times after FCFS are 0, 1073741824, 0 and after SJF
1, 1073741825, 0, a greater sum. -/
theorem machine_sjf_waiting_counterexample :
    ((Machine.simulate_scheduling 4 .SJF
        (Sim.mk [mkProcess "P1" 0 2 2 0, mkProcess "P2" 0 3 1 1, mkProcess "P3" 3 1 1 2,
          mkProcess "P4" 3 1 1 3] [] 2 0)).map
        (fun r => (r.processes.map (fun p => p.waiting_time), total_waiting r.processes)) =
      some ([0, 2, 2, 3], 7) ∧
    (Machine.simulate_scheduling 4 .PRIORITY
        (Sim.mk [mkProcess "P1" 0 2 2 0, mkProcess "P2" 0 3 1 1, mkProcess "P3" 3 1 1 2,
          mkProcess "P4" 3 1 1 3] [] 2 0)).map
        (fun r => (r.processes.map (fun p => p.waiting_time), total_waiting r.processes)) =
      some ([5, 0, 0, 1], 6)) ∧
    ((Machine.simulate_scheduling 0 .FCFS
        (Sim.mk [mkProcess "A" 0 1073741824 5 0, mkProcess "B" 0 1073741824 5 1,
          mkProcess "C" 0 1 5 2] [] 2 0)).map
        (fun r => (r.processes.map (fun p => p.waiting_time), total_waiting r.processes)) =
      some ([0, 1073741824, 0], 1073741824) ∧
    (Machine.simulate_scheduling 3 .SJF
        (Sim.mk [mkProcess "A" 0 1073741824 5 0, mkProcess "B" 0 1073741824 5 1,
          mkProcess "C" 0 1 5 2] [] 2 0)).map
        (fun r => (r.processes.map (fun p => p.waiting_time), total_waiting r.processes)) =
      some ([1, 1073741825, 0], 1073741826)) := by
  decide

/-- Claim C26, amended: for every job table with `arrival_time >= 0` and
`burst_time > 0` on which no arrival time plus the sum of all burst times
reaches `INT_MAX` (and no priority is `INT_MAX`), the sum of `waiting_time`
over all processes after an SJF run is no greater than the sum after an FCFS
run on the same table; when moreover every job has `arrival_time = 0`, it is
also no greater than the sum after a non-preemptive Priority run.  The three
runs return. -/
theorem machine_sjf_least_waiting (s : Sim) (hs : int_safe s) :
    (∀ fuel r, Machine.simulate_scheduling fuel .SJF s = some r →
      (∀ fuel2 r2, Machine.simulate_scheduling fuel2 .FCFS s = some r2 →
        total_waiting r.processes ≤ total_waiting r2.processes) ∧
      ((∀ p ∈ s.processes, p.arrival_time = 0) →
        ∀ fuel2 r2, Machine.simulate_scheduling fuel2 .PRIORITY s = some r2 →
          total_waiting r.processes ≤ total_waiting r2.processes)) ∧
    (∃ r, Machine.simulate_scheduling 0 .FCFS s = some r) ∧
    (∃ fuel r, Machine.simulate_scheduling fuel .SJF s = some r) ∧
    (∃ fuel r, Machine.simulate_scheduling fuel .PRIORITY s = some r) := by
  have hS := fun fuel r => machine_simulate_sound .SJF s hs (fun e => by cases e) fuel r
  have hF := fun fuel r => machine_simulate_sound .FCFS s hs (fun e => by cases e) fuel r
  have hP := fun fuel r => machine_simulate_sound .PRIORITY s hs (fun e => by cases e) fuel r
  have old := sjf_least_waiting s (int_safe_valid s hs)
  refine ⟨fun fuel r h => ⟨fun fuel2 r2 h2 => ?_, fun h0 fuel2 r2 h2 => ?_⟩, ⟨_, rfl⟩,
    machine_simulate_terminates .SJF s hs (fun e => by cases e) (fun e => by cases e),
    machine_simulate_terminates .PRIORITY s hs (fun e => by cases e) (fun e => by cases e)⟩
  · exact (old.1 fuel r (hS fuel r h)).1 fuel2 r2 (hF fuel2 r2 h2)
  · exact (old.1 fuel r (hS fuel r h)).2 h0 fuel2 r2 (hP fuel2 r2 h2)

/-- Witness for C26, amended: on the sample table (arrivals 0 to 4) the SJF
run leaves a waiting sum of 30, the FCFS run one of 34; on three jobs arriving
at 0 with bursts 6, 4, 3 and priorities 3, 1, 4 the SJF sum is no greater than
the Priority sum. -/
theorem machine_sjf_least_waiting_witness :
    int_safe (Sim.mk sample_processes [] 2 0) ∧
    (Machine.simulate_scheduling 5 .SJF (Sim.mk sample_processes [] 2 0)).map
        (fun r => total_waiting r.processes) = some 30 ∧
    (Machine.simulate_scheduling 0 .FCFS (Sim.mk sample_processes [] 2 0)).map
        (fun r => total_waiting r.processes) = some 34 ∧
    (∀ fuel r, Machine.simulate_scheduling fuel .SJF (Sim.mk sample_processes [] 2 0) =
        some r →
      ∀ fuel2 r2, Machine.simulate_scheduling fuel2 .FCFS (Sim.mk sample_processes [] 2 0) =
          some r2 →
        total_waiting r.processes ≤ total_waiting r2.processes) ∧
    (∀ fuel r, Machine.simulate_scheduling fuel .SJF
        (Sim.mk [mkProcess "P1" 0 6 3 0, mkProcess "P2" 0 4 1 1, mkProcess "P3" 0 3 4 2]
          [] 2 0) = some r →
      ∀ fuel2 r2, Machine.simulate_scheduling fuel2 .PRIORITY
        (Sim.mk [mkProcess "P1" 0 6 3 0, mkProcess "P2" 0 4 1 1, mkProcess "P3" 0 3 4 2]
          [] 2 0) = some r2 →
      total_waiting r.processes ≤ total_waiting r2.processes) ∧
    ∃ fuel r, Machine.simulate_scheduling fuel .SJF (Sim.mk sample_processes [] 2 0) = some r :=
  ⟨int_safe_sample, by decide, by decide,
    fun fuel r h => ((machine_sjf_least_waiting (Sim.mk sample_processes [] 2 0)
      int_safe_sample).1 fuel r h).1,
    fun fuel r h => ((machine_sjf_least_waiting
      (Sim.mk [mkProcess "P1" 0 6 3 0, mkProcess "P2" 0 4 1 1, mkProcess "P3" 0 3 4 2] [] 2 0)
      (by unfold int_safe; decide)).1 fuel r h).2 (by decide),
    (machine_sjf_least_waiting (Sim.mk sample_processes [] 2 0) int_safe_sample).2.2.1⟩

/-- Claim C27 fails as stated: with quantum 2 on the single job
P1(arrival 2147483646, burst 2) the one block of `round_robin_scheduling`
starts at 2147483646 and ends at `2147483646 + 2` computed as an `int`, which
is -2147483648: its length `end_time - start_time` is -4294967294, not between
1 and the quantum. -/
theorem rr_block_counterexample :
    (Machine.simulate_scheduling 2 .ROUND_ROBIN
        (Sim.mk [mkProcess "P1" 2147483646 2 5 0] [] 2 0)).map
      (fun r => r.gantt_chart.map (fun b =>
        (b.start_time, b.end_time, b.end_time - b.start_time))) =
      some [(2147483646, -2147483648, -4294967294)] := by
  decide

/-- Claim C27, amended: in `round_robin_scheduling`, entered as
`simulate_scheduling` enters it, for every job table with `arrival_time >= 0`
and `burst_time > 0` on which no arrival time plus the sum of all burst times
reaches `INT_MAX` (and no priority is `INT_MAX`) and every quantum `q > 0`,
as long as the queue cells written lie inside the queue array: each dispatch
(iteration `k` with job `p` at the head of the queue) adds the one block
`[current_time, current_time + min(remaining_time, q))` of `p` and takes that
amount from `remaining_time`; at every iteration every timeline block lasts at
least 1 and at most `q` ticks, and a block shorter than `q` ends at the
`completion_time` of a finished job of its name; the same holds for the
timeline and table a run of `simulate_scheduling` returns, and the run returns
when its `rr_slices` dispatches fit the `MAX_PROCESSES` cells of the queue
array. -/
theorem machine_rr_block_lengths (s : Sim) (hs : int_safe s) (hq : 0 < s.time_quantum) :
    (∀ k p rest, Machine.rr_reached (strategy_input s) (k + 1) →
      (Machine.rr_state (strategy_input s) k).live = p :: rest →
      (Machine.rr_state (strategy_input s) (k + 1)).sim.gantt_chart =
        (Machine.rr_state (strategy_input s) k).sim.gantt_chart ++
          [mkBlock (proc (Machine.rr_state (strategy_input s) k).sim.processes p)
            (Machine.rr_state (strategy_input s) k).sim.current_time
            ((Machine.rr_state (strategy_input s) k).sim.current_time +
              min (proc (Machine.rr_state (strategy_input s) k).sim.processes p).remaining_time
                s.time_quantum)] ∧
      (proc (Machine.rr_state (strategy_input s) (k + 1)).sim.processes p).remaining_time =
        (proc (Machine.rr_state (strategy_input s) k).sim.processes p).remaining_time -
          min (proc (Machine.rr_state (strategy_input s) k).sim.processes p).remaining_time
            s.time_quantum) ∧
    (∀ k, Machine.rr_reached (strategy_input s) k →
      ∀ b ∈ (Machine.rr_state (strategy_input s) k).sim.gantt_chart,
        1 ≤ b.end_time - b.start_time ∧ b.end_time - b.start_time ≤ s.time_quantum ∧
        (b.end_time - b.start_time < s.time_quantum →
          ∃ j, j < (Machine.rr_state (strategy_input s) k).sim.processes.length ∧
            (proc (Machine.rr_state (strategy_input s) k).sim.processes j).name =
              b.process_name ∧
            (proc (Machine.rr_state (strategy_input s) k).sim.processes j).remaining_time = 0 ∧
            (proc (Machine.rr_state (strategy_input s) k).sim.processes j).completion_time =
              b.end_time)) ∧
    (∀ fuel r, Machine.simulate_scheduling fuel .ROUND_ROBIN s = some r → ∀ b ∈ r.gantt_chart,
      1 ≤ b.end_time - b.start_time ∧ b.end_time - b.start_time ≤ s.time_quantum ∧
      (b.end_time - b.start_time < s.time_quantum →
        ∃ p ∈ r.processes, p.name = b.process_name ∧ p.completion_time = b.end_time)) ∧
    (rr_slices s ≤ MAX_PROCESSES →
      ∃ fuel r, Machine.simulate_scheduling fuel .ROUND_ROBIN s = some r) := by
  have hr := strategy_input_safe s hs
  have hb : ∀ p ∈ (strategy_input s).processes, 0 < p.burst_time :=
    fun p hp => (hr.1.2 p hp).2.1
  have E : ∀ j, loop_runs rr_cond Machine.rr_body (rr_init (strategy_input s)) j →
      Machine.rr_state (strategy_input s) j = rr_state (strategy_input s) j :=
    fun j hj => (machine_rr_state_fit _ hr hq j hj).1
  obtain ⟨o1, o2, o3⟩ := rr_block_lengths (strategy_input s) rfl hq hb
  refine ⟨fun k p rest hk hL => ?_, fun k hk => ?_, fun fuel r h => ?_,
    fun hcap => machine_simulate_terminates .ROUND_ROBIN s hs (fun _ => hq) (fun _ => hcap)⟩
  · have ek := E k (loop_runs_le _ _ _ _ _ hk.1 (Nat.le_succ k))
    rw [ek] at hL ⊢
    rw [E (k + 1) hk.1]
    exact o1 k p rest hL
  · rw [E k hk.1]
    exact o2 k
  · have h2 := machine_simulate_sound .ROUND_ROBIN s hs (fun _ => hq) fuel r h
    rw [simulate_congr fuel .ROUND_ROBIN s (strategy_input s)
      (by rw [strategy_input_processes]; exact (map_reset_map _ _ reset_reset_process).symm)
      rfl] at h2
    exact o3 fuel r h2

/-- Witness for C27, amended: on the sample table with quantum 2 the third
dispatch runs P3 for the block [4, 6). -/
theorem machine_rr_block_lengths_witness :
    int_safe (Sim.mk sample_processes [] 2 0) ∧
    Machine.rr_reached (strategy_input (Sim.mk sample_processes [] 2 0)) 3 ∧
    (Machine.rr_state (strategy_input (Sim.mk sample_processes [] 2 0)) 3).sim.gantt_chart =
      (Machine.rr_state (strategy_input (Sim.mk sample_processes [] 2 0)) 2).sim.gantt_chart ++
        [mkBlock (mkProcess "P3" 2 3 4 2) 4 6] :=
  ⟨int_safe_sample, by unfold Machine.rr_reached loop_runs; decide,
    (((machine_rr_block_lengths (Sim.mk sample_processes [] 2 0) int_safe_sample
      (by decide)).1 2 2 [0, 3, 4, 1] (by unfold Machine.rr_reached loop_runs; decide)
      (by decide)).1).trans (by decide)⟩

/-- Claim C28 fails as stated: on the two jobs A(arrival 2147483646, burst 2,
priority 5), B(2147483647, 2, 1) `preemptive_priority_scheduling` runs A for
the tick at 2147483646 and B for the tick at 2147483647, where the clock wraps
around to -2147483648; 4294967294 idle iterations later the clock is at
2147483646 again, A finishes in a new block and B in another: four blocks,
more than `2n - 1 = 3`. -/
theorem tick_block_count_counterexample :
    (Machine.simulate_scheduling 6442450944 .PREEMPTIVE_PRIORITY wrap_table).map
      (fun r => r.gantt_chart.map (fun b => (b.process_name, b.start_time, b.end_time))) =
      some [("A", 2147483646, 2147483647), ("B", 2147483647, -2147483648),
        ("A", 2147483646, 2147483647), ("B", 2147483647, -2147483648)] ∧
    wrap_table.processes.length = 2 ∧ names_distinct wrap_table.processes := by
  refine ⟨?_, rfl, by unfold names_distinct; decide⟩
  rw [machine_simulate_scheduling_eq]
  simp only [Machine.preemptive_priority_scheduling, Option.map_map]
  rw [wrap_run]
  decide

/-- Claim C28, amended: for every job table of `n >= 1` jobs with pairwise
distinct names, `arrival_time >= 0` and `burst_time > 0` on which no arrival
time plus the sum of all burst times reaches `INT_MAX` (and no priority is
`INT_MAX`), after any number of loop iterations that `srtf_scheduling` and
`preemptive_priority_scheduling` (entered as `simulate_scheduling` enters
them) perform the timeline holds at most `2n - 1` blocks, hence at most
`MAX_PROCESSES * 10 = 500` when `n <= 50`; an iteration that executes a job
while the last block carries another name finds the job of that block
completed, or the block ends at that instant and the executed job arrives at
that very instant.  Every run of either strategy returns and has at most
`2n - 1` blocks. -/
theorem machine_tick_block_count (s : Sim) (hne : s.processes ≠ [])
    (hn : names_distinct s.processes) (hs : int_safe s) :
    (∀ k,
      (loop_runs sel_cond (Machine.tick_body (fun p => p.remaining_time))
          (tick_init (strategy_input s)) k →
        (Machine.tick_state (fun p => p.remaining_time)
          (strategy_input s) k).sim.gantt_chart.length ≤ 2 * s.processes.length - 1 ∧
        (s.processes.length ≤ MAX_PROCESSES →
          (Machine.tick_state (fun p => p.remaining_time)
            (strategy_input s) k).sim.gantt_chart.length ≤ MAX_PROCESSES * 10) ∧
        ∀ i, select_min (fun p => p.remaining_time)
            (Machine.tick_state (fun p => p.remaining_time) (strategy_input s) k).sim.processes
            (Machine.tick_state (fun p => p.remaining_time) (strategy_input s) k).is_completed
            (Machine.tick_state (fun p => p.remaining_time)
              (strategy_input s) k).sim.current_time = some i →
          block_end_rule (Machine.tick_state (fun p => p.remaining_time)
            (strategy_input s) k) i) ∧
      (loop_runs sel_cond (Machine.tick_body (fun p => p.priority))
          (tick_init (strategy_input s)) k →
        (Machine.tick_state (fun p => p.priority)
          (strategy_input s) k).sim.gantt_chart.length ≤ 2 * s.processes.length - 1 ∧
        (s.processes.length ≤ MAX_PROCESSES →
          (Machine.tick_state (fun p => p.priority)
            (strategy_input s) k).sim.gantt_chart.length ≤ MAX_PROCESSES * 10) ∧
        ∀ i, select_min (fun p => p.priority)
            (Machine.tick_state (fun p => p.priority) (strategy_input s) k).sim.processes
            (Machine.tick_state (fun p => p.priority) (strategy_input s) k).is_completed
            (Machine.tick_state (fun p => p.priority) (strategy_input s) k).sim.current_time =
              some i →
          block_end_rule (Machine.tick_state (fun p => p.priority) (strategy_input s) k) i)) ∧
    (∀ algo, algo = .SRTF ∨ algo = .PREEMPTIVE_PRIORITY →
      (∀ fuel r, Machine.simulate_scheduling fuel algo s = some r →
        r.gantt_chart.length ≤ 2 * s.processes.length - 1 ∧
        (s.processes.length ≤ MAX_PROCESSES → r.gantt_chart.length ≤ MAX_PROCESSES * 10)) ∧
      ∃ fuel r, Machine.simulate_scheduling fuel algo s = some r) := by
  have hr := strategy_input_safe s hs
  obtain ⟨o1, o2⟩ := tick_block_count s hne hn (int_safe_valid s hs)
  refine ⟨fun k => ⟨fun hk => ?_, fun hk => ?_⟩, fun algo ha => ⟨fun fuel r h => ?_, ?_⟩⟩
  · rw [(machine_tick_state_fit _ tick_key_remaining _ hr k hk).1]
    exact (o1 k).1
  · rw [(machine_tick_state_fit _ tick_key_priority _ hr k hk).1]
    exact (o1 k).2
  · exact (o2 algo ha).1 fuel r (machine_simulate_sound algo s hs
      (fun e => by rcases ha with h | h <;> rw [h] at e <;> cases e) fuel r h)
  · exact machine_simulate_terminates algo s hs
      (fun e => by rcases ha with h | h <;> rw [h] at e <;> cases e)
      (fun e => by rcases ha with h | h <;> rw [h] at e <;> cases e)

/-- Witness for C28, amended: on the sample table of five jobs SRTF has laid
down five blocks after twelve ticks, within the bound of nine, and the run
returns. -/
theorem machine_tick_block_count_witness :
    int_safe (Sim.mk sample_processes [] 2 0) ∧
    loop_runs sel_cond (Machine.tick_body (fun p => p.remaining_time))
      (tick_init (strategy_input (Sim.mk sample_processes [] 2 0))) 12 ∧
    (Machine.tick_state (fun p => p.remaining_time)
      (strategy_input (Sim.mk sample_processes [] 2 0)) 12).sim.gantt_chart.length = 5 ∧
    (Machine.tick_state (fun p => p.remaining_time)
      (strategy_input (Sim.mk sample_processes [] 2 0)) 12).sim.gantt_chart.length ≤
      2 * 5 - 1 ∧
    ∃ fuel r, Machine.simulate_scheduling fuel .SRTF (Sim.mk sample_processes [] 2 0) = some r :=
  ⟨int_safe_sample, by unfold loop_runs; decide, by decide,
    (((machine_tick_block_count (Sim.mk sample_processes [] 2 0) (by decide)
      names_distinct_sample int_safe_sample).1 12).1 (by unfold loop_runs; decide)).1,
    ((machine_tick_block_count (Sim.mk sample_processes [] 2 0) (by decide)
      names_distinct_sample int_safe_sample).2 .SRTF (Or.inl rfl)).2⟩

end CpuScheduler
